import Mathlib

/-!
Bimap: a bidirectional map over two intrusive binary search trees

A shallow embedding of `src/cpp/bimap-marsel_merkulov/src` (`bimap-element.h`,
`bimap-element.cpp`, `bimap-iterator.h`, `bimap.h`).

Pointers are modelled as optional references (`none` is `nullptr`), the free
store as a map from addresses to live `Element`s, and every function that can
dereference a pointer returns in `Except Error`: `Error.undefined` marks
undefined behaviour (a null or dangling dereference, reading a key through a
sentinel), `Error.out_of_fuel` marks a loop that was cut off.
-/

namespace ct

/-- Ways in which a call can fail to return a value. -/
inductive Error where
  | out_of_range
  | undefined
  | out_of_fuel
  deriving DecidableEq, Repr

/-- The two sides of the container (`LeftTag` and `RightTag`). -/
inductive Side where
  | left
  | right
  deriving DecidableEq, Repr

/-- `SideTrait::OppositeTag`. -/
def Side.opposite : Side → Side
  | .left => .right
  | .right => .left

/-- `SideTrait::Key`. -/
abbrev Key (L R : Type) : Side → Type
  | .left => L
  | .right => R

/-- The address of an object that carries one `ElementBase` per side: the `Sentinel` member
of the container at address `owner`, or a heap allocated `Element`. -/
inductive Ref where
  | sentinel (owner : Nat)
  | element (addr : Nat)
  deriving DecidableEq, Repr

/-- An `ElementBase*`; `none` is `nullptr`. -/
abbrev Ptr := Option Ref

/-- `struct ElementBase`: the link triple. -/
structure ElementBase where
  parent_ : Ptr := none
  left_ : Ptr := none
  right_ : Ptr := none
  deriving DecidableEq, Repr

/-- `class Element`: one key and one `ElementBase` per side. -/
structure Element (L R : Type) where
  left_key : L
  right_key : R
  base : Side → ElementBase

/-- `ElementTag::get_key` on the base of side `s`. -/
def Element.get_key {L R : Type} (e : Element L R) : (s : Side) → Key L R s
  | .left => e.left_key
  | .right => e.right_key

/-- `class Bimap`: the data members, the address `self` of the object, and the free store
(`heap` maps the address of every live `Element` to its contents, `brk` is the next address
handed out by `new`). -/
structure Bimap (L R : Type) where
  self : Nat
  size_ : Nat
  sentinel_ : Side → ElementBase
  compare_left_ : L → L → Bool
  compare_right_ : R → R → Bool
  heap : Nat → Option (Element L R)
  brk : Nat

variable {L R : Type}

/-- `ElementBase::reset` applied to the object at `x`: all three links reference `x`. -/
def reset (x : Ref) : ElementBase :=
  { parent_ := some x, left_ := some x, right_ := some x }

/-- The constructor `Bimap(compare_left, compare_right)` for a container placed at `self`. -/
def Bimap.mk_empty (self : Nat) (cl : L → L → Bool) (cr : R → R → Bool) : Bimap L R :=
  { self := self, size_ := 0, sentinel_ := fun _ => reset (.sentinel self),
    compare_left_ := cl, compare_right_ := cr, heap := fun _ => none, brk := 0 }

/-- Reading the `ElementBase` of side `s` behind a pointer. -/
def Bimap.base (b : Bimap L R) (s : Side) : Ref → Except Error ElementBase
  | .sentinel o => if o = b.self then .ok (b.sentinel_ s) else .error .undefined
  | .element a =>
    match b.heap a with
    | some e => .ok (e.base s)
    | none => .error .undefined

/-- Writing the `ElementBase` of side `s` behind a pointer. -/
def Bimap.store (b : Bimap L R) (s : Side) (x : Ref) (v : ElementBase) :
    Except Error (Bimap L R) :=
  match x with
  | .sentinel o =>
    if o = b.self then .ok { b with sentinel_ := Function.update b.sentinel_ s v }
    else .error .undefined
  | .element a =>
    match b.heap a with
    | some e =>
      .ok { b with heap := Function.update b.heap a
                      (some { e with base := Function.update e.base s v }) }
    | none => .error .undefined

/-- The assignment `x->parent_ = p`. -/
def Bimap.set_parent (b : Bimap L R) (s : Side) (x : Ref) (p : Ptr) : Except Error (Bimap L R) :=
  match b.base s x with
  | .ok e => b.store s x { e with parent_ := p }
  | .error err => .error err

/-- The assignment `x->left_ = p`. -/
def Bimap.set_left (b : Bimap L R) (s : Side) (x : Ref) (p : Ptr) : Except Error (Bimap L R) :=
  match b.base s x with
  | .ok e => b.store s x { e with left_ := p }
  | .error err => .error err

/-- The assignment `x->right_ = p`. -/
def Bimap.set_right (b : Bimap L R) (s : Side) (x : Ref) (p : Ptr) : Except Error (Bimap L R) :=
  match b.base s x with
  | .ok e => b.store s x { e with right_ := p }
  | .error err => .error err

/-- `View::get_compare`. -/
def Bimap.get_compare (b : Bimap L R) : (s : Side) → Key L R s → Key L R s → Bool
  | .left => b.compare_left_
  | .right => b.compare_right_

/-- `IteratorImpl::operator*`: the key of side `s` of the element behind the iterator. Reading
through `nullptr`, a sentinel or a dead element is undefined. -/
def operator_deref (b : Bimap L R) (s : Side) : Ptr → Except Error (Key L R s)
  | some (.element a) =>
    match b.heap a with
    | some e => .ok (e.get_key s)
    | none => .error .undefined
  | _ => .error .undefined

/-- `ElementBase::is_sentinel`. -/
def is_sentinel (b : Bimap L R) (s : Side) (this : Ref) : Except Error Bool := do
  let e ← b.base s this
  match e.left_ with
  | none => pure false
  | some l =>
    match e.right_ with
    | none => pure false
    | some r =>
      if e.parent_ = some this then pure true
      else
        match e.parent_ with
        | none => .error .undefined
        | some p => do
          let pe ← b.base s p
          if pe.parent_ = some this then do
            let le ← b.base s l
            if le.parent_ ≠ some this then pure true
            else do
              let re ← b.base s r
              if re.parent_ ≠ some this then pure true
              else if pe.left_ = none ∧ pe.right_ = none then pure true
              else pure false
          else pure false

/-- `ElementBase::has_parent`. -/
def has_parent (b : Bimap L R) (s : Side) (this : Ref) : Except Error Bool := do
  let e ← b.base s this
  match e.parent_ with
  | none => pure false
  | some p => do
    let r ← is_sentinel b s p
    pure (!r)

/-- `ElementBase::has_left`. -/
def has_left (b : Bimap L R) (s : Side) (this : Ref) : Except Error Bool := do
  let e ← b.base s this
  match e.left_ with
  | none => pure false
  | some p => do
    let r ← is_sentinel b s p
    pure (!r)

/-- `ElementBase::has_right`. -/
def has_right (b : Bimap L R) (s : Side) (this : Ref) : Except Error Bool := do
  let e ← b.base s this
  match e.right_ with
  | none => pure false
  | some p => do
    let r ← is_sentinel b s p
    pure (!r)

/-- `ElementBase::to_left`: the flag returned and the new value of `current`. -/
def to_left (b : Bimap L R) (s : Side) (current : Ptr) : Except Error (Bool × Ptr) :=
  match current with
  | none => pure (false, none)
  | some c => do
    let sen ← is_sentinel b s c
    if sen then pure (false, current)
    else do
      let h ← has_left b s c
      if !h then pure (false, current)
      else do
        let e ← b.base s c
        pure (true, e.left_)

/-- `ElementBase::to_right`: the flag returned and the new value of `current`. -/
def to_right (b : Bimap L R) (s : Side) (current : Ptr) : Except Error (Bool × Ptr) :=
  match current with
  | none => pure (false, none)
  | some c => do
    let sen ← is_sentinel b s c
    if sen then pure (false, current)
    else do
      let h ← has_right b s c
      if !h then pure (false, current)
      else do
        let e ← b.base s c
        pure (true, e.right_)

/-- `ElementBase::to_parent`: the flag returned and the new value of `current`. -/
def to_parent (b : Bimap L R) (s : Side) (current : Ptr) : Except Error (Bool × Ptr) :=
  match current with
  | none => pure (false, none)
  | some c => do
    let sen ← is_sentinel b s c
    if sen then pure (false, current)
    else do
      let h ← has_parent b s c
      if !h then pure (false, current)
      else do
        let e ← b.base s c
        pure (true, e.parent_)

/-- `ElementBase::is_right_child`. -/
def is_right_child (b : Bimap L R) (s : Side) (this : Ref) : Except Error Bool := do
  let h ← has_parent b s this
  if !h then pure false
  else do
    let e ← b.base s this
    match e.parent_ with
    | none => .error .undefined
    | some p => do
      let pe ← b.base s p
      pure (decide (pe.right_ = some this))

/-- `ElementBase::is_left_child`. -/
def is_left_child (b : Bimap L R) (s : Side) (this : Ref) : Except Error Bool := do
  let h ← has_parent b s this
  if !h then pure false
  else do
    let e ← b.base s this
    match e.parent_ with
    | none => .error .undefined
    | some p => do
      let pe ← b.base s p
      pure (decide (pe.left_ = some this))

/-- Reading the `ElementBase` behind a pointer that may be null. -/
def Bimap.base_at (b : Bimap L R) (s : Side) : Ptr → Except Error ElementBase
  | none => .error .undefined
  | some x => b.base s x

/-- `ElementBase::link_to_parent`. -/
def link_to_parent (b : Bimap L R) (s : Side) (parent child : Ptr)
    (compare_result overwrite : Bool) : Except Error (Bimap L R) :=
  match parent with
  | none => pure b
  | some p => do
    let sen ← is_sentinel b s p
    if sen then
      match child with
      | none => pure b
      | some c => do
        let b ← b.set_parent s p child
        let b ← b.set_left s p child
        let b ← b.set_right s p child
        b.set_parent s c parent
    else do
      let b ← (if compare_result then do
          let b ← (match child with
            | none => pure b
            | some c =>
              if overwrite then do
                let pe ← b.base s p
                let b ← b.set_right s c pe.right_
                let ce ← b.base s c
                match ce.right_ with
                | none => pure b
                | some cr => b.set_parent s cr child
              else pure b)
          b.set_right s p child
        else do
          let b ← (match child with
            | none => pure b
            | some c =>
              if overwrite then do
                let pe ← b.base s p
                let b ← b.set_left s c pe.left_
                let ce ← b.base s c
                match ce.left_ with
                | none => pure b
                | some cl => b.set_parent s cl child
              else pure b)
          b.set_left s p child)
      match child with
      | none => pure b
      | some c => b.set_parent s c parent

/-- The loop `while (to_right(current)) {}`. -/
def descend_right (b : Bimap L R) (s : Side) : Nat → Ptr → Except Error Ptr
  | 0, _ => .error .out_of_fuel
  | fuel + 1, current => do
    let (moved, next) ← to_right b s current
    if moved then descend_right b s fuel next else pure next

/-- The loop `while (to_left(current)) {}`. -/
def descend_left (b : Bimap L R) (s : Side) : Nat → Ptr → Except Error Ptr
  | 0, _ => .error .out_of_fuel
  | fuel + 1, current => do
    let (moved, next) ← to_left b s current
    if moved then descend_left b s fuel next else pure next

/-- The loop `while (node_->is_right_child()) { to_parent(node_); }`. -/
def climb_right (b : Bimap L R) (s : Side) : Nat → Ptr → Except Error Ptr
  | 0, _ => .error .out_of_fuel
  | fuel + 1, current =>
    match current with
    | none => .error .undefined
    | some c => do
      let r ← is_right_child b s c
      if r then do
        let (_, next) ← to_parent b s current
        climb_right b s fuel next
      else pure current

/-- The loop `while (node_->is_left_child()) { to_parent(node_); }`. -/
def climb_left (b : Bimap L R) (s : Side) : Nat → Ptr → Except Error Ptr
  | 0, _ => .error .out_of_fuel
  | fuel + 1, current =>
    match current with
    | none => .error .undefined
    | some c => do
      let r ← is_left_child b s c
      if r then do
        let (_, next) ← to_parent b s current
        climb_left b s fuel next
      else pure current

/-- The number of iterations granted to every loop over a tree of the container. -/
def Bimap.fuel (b : Bimap L R) : Nat := b.size_ + 1

/-- `ElementBase::unlink`. -/
def unlink (b : Bimap L R) (s : Side) (node : Ptr) : Except Error (Bimap L R) :=
  match node with
  | none => pure b
  | some n => do
    let sen ← is_sentinel b s n
    if sen then pure b
    else do
      let hl ← has_left b s n
      let (b, replace) ← (if hl then do
          let ne ← b.base s n
          let replace ← descend_right b s b.fuel ne.left_
          let b ← link_to_parent b s replace ne.right_ true false
          match replace with
          | none => .error .undefined
          | some rp => do
            let rc ← is_right_child b s rp
            if rc then do
              let re ← b.base s rp
              let b ← link_to_parent b s re.parent_ re.left_ true false
              let ne ← b.base s n
              let b ← link_to_parent b s replace ne.left_ false false
              pure (b, replace)
            else pure (b, replace)
        else do
          let hr ← has_right b s n
          if hr then do
            let ne ← b.base s n
            pure (b, ne.right_)
          else pure (b, none))
      let rc ← is_right_child b s n
      let b ← (if rc then do
          let ne ← b.base s n
          match ne.parent_ with
          | none => .error .undefined
          | some p => b.set_right s p replace
        else do
          let lc ← is_left_child b s n
          let ne ← b.base s n
          match ne.parent_ with
          | none => .error .undefined
          | some p =>
            if lc then b.set_left s p replace
            else b.set_parent s p (if replace.isSome then replace else ne.parent_))
      let b ← (match replace with
        | none => pure b
        | some rp => do
          let ne ← b.base s n
          b.set_parent s rp ne.parent_)
      b.store s n (reset n)

/-- `IteratorImpl::operator++` on the iterator whose `node_` is the argument; the result is
the new `node_`. -/
def operator_inc (b : Bimap L R) (s : Side) (node_ : Ptr) : Except Error Ptr :=
  match node_ with
  | none => .error .undefined
  | some n => do
    let sen ← is_sentinel b s n
    if sen then pure node_
    else do
      let (moved, node_) ← to_right b s node_
      if moved then descend_left b s b.fuel node_
      else do
        let top ← climb_right b s b.fuel node_
        let te ← b.base_at s top
        pure te.parent_

/-- `IteratorImpl::operator--` on the iterator whose `node_` is the argument; the result is
the new `node_`. -/
def operator_dec (b : Bimap L R) (s : Side) (node_ : Ptr) : Except Error Ptr :=
  match node_ with
  | none => .error .undefined
  | some n => do
    let sen ← is_sentinel b s n
    if sen then do
      let e ← b.base s n
      pure e.left_
    else do
      let (moved, node_) ← to_left b s node_
      if moved then descend_right b s b.fuel node_
      else do
        let top ← climb_left b s b.fuel node_
        let te ← b.base_at s top
        match te.parent_ with
        | none => .error .undefined
        | some p => do
          let psen ← is_sentinel b s p
          if psen then pure top else pure te.parent_

/-- `IteratorImpl::flip`: the iterator of the opposite side for the same object. A pointer
that `is_sentinel` classifies wrongly is cast to an object of the wrong class. -/
def flip (b : Bimap L R) (s : Side) (node_ : Ptr) : Except Error Ptr :=
  match node_ with
  | none => .error .undefined
  | some n => do
    let sen ← is_sentinel b s n
    match n, sen with
    | .sentinel o, true => pure (some (.sentinel o))
    | .element a, false => pure (some (.element a))
    | _, _ => .error .undefined

/-- `Bimap::size`. -/
def Bimap.size (b : Bimap L R) : Nat := b.size_

/-- `Bimap::empty`. -/
def Bimap.empty (b : Bimap L R) : Bool := b.size == 0

/-- `View::get_sentinel`, as a pointer. -/
def Bimap.get_sentinel (b : Bimap L R) : Ref := .sentinel b.self

/-- `View::get_root`. -/
def Bimap.get_root (b : Bimap L R) (s : Side) : Ptr := (b.sentinel_ s).parent_

/-- `View::get_end`. -/
def Bimap.get_end (b : Bimap L R) (s : Side) : Except Error Ptr := do
  let re ← b.base_at s (b.get_root s)
  pure re.parent_

/-- `View::get_begin`. -/
def Bimap.get_begin (b : Bimap L R) (s : Side) : Except Error Ptr := do
  let re ← b.base_at s (b.get_root s)
  let se ← b.base_at s re.parent_
  pure se.right_

/-- `Bimap::begin_left`. -/
def Bimap.begin_left (b : Bimap L R) : Ptr := (b.sentinel_ .left).right_

/-- `Bimap::end_left`. -/
def Bimap.end_left (b : Bimap L R) : Ptr := some b.get_sentinel

/-- `Bimap::begin_right`. -/
def Bimap.begin_right (b : Bimap L R) : Ptr := (b.sentinel_ .right).right_

/-- `Bimap::end_right`. -/
def Bimap.end_right (b : Bimap L R) : Ptr := some b.get_sentinel

/-- `View::compare`. -/
def Bimap.compare (b : Bimap L R) (s : Side) (lhs rhs : Key L R s) : Int :=
  if b.get_compare s lhs rhs then 1
  else if b.get_compare s rhs lhs then -1
  else 0

/-- `View::is_equal`. -/
def Bimap.is_equal (b : Bimap L R) (s : Side) (lhs rhs : Key L R s) : Bool :=
  b.compare s lhs rhs == 0

/-- `View::is_greater`. -/
def Bimap.is_greater (b : Bimap L R) (s : Side) (lhs rhs : Key L R s) : Bool :=
  b.compare s lhs rhs < 0

/-- `View::is_less`. -/
def Bimap.is_less (b : Bimap L R) (s : Side) (lhs rhs : Key L R s) : Bool :=
  b.compare s lhs rhs > 0

/-- The loop of `View::find_insert_position`. -/
def find_insert_loop (b : Bimap L R) (s : Side) (value : Key L R s) :
    Nat → Ptr → Except Error Ptr
  | 0, _ => .error .out_of_fuel
  | fuel + 1, current => do
    let k ← operator_deref b s current
    let ce ← b.base_at s current
    match current with
    | none => .error .undefined
    | some c =>
      if b.is_less s k value then do
        let hr ← has_right b s c
        if !hr then pure current else find_insert_loop b s value fuel ce.right_
      else if b.is_greater s k value then do
        let hl ← has_left b s c
        if !hl then pure current else find_insert_loop b s value fuel ce.left_
      else pure current

/-- `View::find_insert_position`. -/
def find_insert_position (b : Bimap L R) (s : Side) (value : Key L R s) : Except Error Ptr :=
  if b.empty then b.get_end s
  else find_insert_loop b s value b.fuel (b.get_root s)

/-- `View::update_sentinel`. -/
def update_sentinel (b : Bimap L R) (s : Side) (old : Ptr) : Except Error (Bimap L R) :=
  let sen := b.get_sentinel
  match old with
  | some o =>
    let bounds : Except Error (Bimap L R) :=
      if old = (b.sentinel_ s).left_ then do
        let it ← operator_dec b s old
        b.set_left s sen it
      else if old = (b.sentinel_ s).right_ then do
        let it ← operator_inc b s old
        b.set_right s sen it
      else pure b
    if (b.sentinel_ s).parent_ = old then do
      let oe ← b.base s o
      if oe.left_ = none ∧ oe.right_ = none then do
        let b ← b.set_right s sen (some sen)
        b.set_left s sen (some sen)
      else bounds
    else bounds
  | none =>
    if b.empty then do
      let b ← b.set_left s sen (b.sentinel_ s).parent_
      b.set_right s sen (b.sentinel_ s).parent_
    else do
      let me ← b.base_at s (b.sentinel_ s).left_
      let hr ← (match (b.sentinel_ s).left_ with
        | none => .error .undefined
        | some m => has_right b s m)
      if hr then b.set_left s sen me.right_
      else do
        let ne ← b.base_at s (b.sentinel_ s).right_
        let hl ← (match (b.sentinel_ s).right_ with
          | none => .error .undefined
          | some m => has_left b s m)
        if hl then b.set_right s sen ne.left_ else pure b

/-- The expression `new Element(left_value, right_value)`: the next free address holds an
element whose links are all null. -/
def Bimap.new_element (b : Bimap L R) (l : L) (r : R) : Bimap L R × Ref :=
  ({ b with
      heap := Function.update b.heap b.brk (some { left_key := l, right_key := r, base := fun _ => {} })
      brk := b.brk + 1 },
   .element b.brk)

/-- `Bimap::insert_at`. -/
def insert_at (b : Bimap L R) (left_value : L) (right_value : R) (pos_left pos_right : Ptr) :
    Except Error (Bimap L R × Ptr) := do
  let (compare_left, compare_right) ← (if !b.empty then do
      let kl ← operator_deref b .left pos_left
      let kr ← operator_deref b .right pos_right
      pure (b.compare_left_ kl left_value, b.compare_right_ kr right_value)
    else pure (false, false))
  let (b, element) := b.new_element left_value right_value
  let b ← link_to_parent b .left pos_left (some element) compare_left true
  let b ← link_to_parent b .right pos_right (some element) compare_right true
  let b ← update_sentinel b .left none
  let b ← update_sentinel b .right none
  pure ({ b with size_ := b.size_ + 1 }, some element)

/-- `Bimap::insert_impl`. -/
def insert_impl (b : Bimap L R) (left_value : L) (right_value : R) (tolerant : Bool) :
    Except Error (Bimap L R × Ptr) := do
  let left_pos ← find_insert_position b .left left_value
  let right_pos ← find_insert_position b .right right_value
  let reject ← (if !tolerant ∧ !b.empty then do
      let kl ← operator_deref b .left left_pos
      if b.is_equal .left kl left_value then pure true
      else do
        let kr ← operator_deref b .right right_pos
        pure (b.is_equal .right kr right_value)
    else pure false)
  if reject then pure (b, b.end_left)
  else insert_at b left_value right_value left_pos right_pos

/-- `Bimap::insert`. -/
def Bimap.insert (b : Bimap L R) (left : L) (right : R) : Except Error (Bimap L R × Ptr) :=
  insert_impl b left right false

/-- The casts `static_cast<Element*>(to_element_tag(it.to_node()))` followed by the use of the
result as an `Element`: only a pointer to an element denotes one. -/
def to_element : Ptr → Except Error Nat
  | some (.element a) => pure a
  | _ => .error .undefined

/-- The expression `delete current`. -/
def Bimap.delete_element (b : Bimap L R) (a : Nat) : Except Error (Bimap L R) :=
  match b.heap a with
  | some _ => pure { b with heap := Function.update b.heap a none }
  | none => .error .undefined

/-- The loop of `View::erase_it_impl(Iterator, Iterator)` of side `s`: the container after
the loop. -/
def erase_loop (s : Side) (it_end : Ptr) : Nat → Bimap L R → Ptr → Except Error (Bimap L R)
  | 0, _, _ => .error .out_of_fuel
  | fuel + 1, b, it_start =>
    if it_start ≠ it_end ∧ !b.empty then do
      let current ← to_element it_start
      let it_start ← operator_inc b s it_start
      let b ← update_sentinel b .left (some (.element current))
      let b ← update_sentinel b .right (some (.element current))
      let b ← unlink b s (some (.element current))
      let b ← unlink b s.opposite (some (.element current))
      let b ← b.delete_element current
      erase_loop s it_end fuel { b with size_ := b.size_ - 1 } it_start
    else pure b

/-- `View::erase_it_impl(Iterator, Iterator)`. -/
def erase_range_impl (b : Bimap L R) (s : Side) (it_start it_end : Ptr) :
    Except Error (Bimap L R × Ptr) := do
  let b ← erase_loop s it_end b.fuel b it_start
  pure (b, it_end)

/-- `View::erase_it_impl(Iterator)`. -/
def erase_it_impl (b : Bimap L R) (s : Side) (it_pos : Ptr) : Except Error (Bimap L R × Ptr) := do
  let next ← operator_inc b s it_pos
  erase_range_impl b s it_pos next

/-- `View::erase_val_impl`. -/
def erase_val_impl (b : Bimap L R) (s : Side) (key : Key L R s) :
    Except Error (Bimap L R × Bool) := do
  let erasable ← find_insert_position b s key
  let k ← operator_deref b s erasable
  if !b.is_equal s k key then pure (b, false)
  else do
    let (b, _) ← erase_it_impl b s erasable
    pure (b, true)

/-- `View::find_impl`. -/
def find_impl (b : Bimap L R) (s : Side) (key : Key L R s) : Except Error Ptr := do
  let position ← find_insert_position b s key
  let found ← (if !b.empty then do
      let k ← operator_deref b s position
      pure (b.is_equal s k key)
    else pure false)
  if found then pure position else b.get_end s

/-- `View::at_impl`; throwing `std::out_of_range` is the error `out_of_range`. -/
def at_impl (b : Bimap L R) (s : Side) (key : Key L R s) :
    Except Error (Key L R s.opposite) := do
  let position ← find_impl b s key
  let e ← b.get_end s
  if position = e then .error .out_of_range
  else do
    let other ← flip b s position
    operator_deref b s.opposite other

/-- `View::bound_impl`, the template argument `is_lower_bound` first. -/
def bound_impl (is_lower_bound : Bool) (b : Bimap L R) (s : Side) (key : Key L R s) :
    Except Error Ptr := do
  let position ← find_insert_position b s key
  let e ← b.get_end s
  if position = e then pure position
  else do
    let k ← operator_deref b s position
    if is_lower_bound then
      if b.compare s k key ≤ 0 then pure position else operator_inc b s position
    else
      if b.is_greater s k key then pure position else operator_inc b s position

/-- `Bimap::erase_left(LeftIterator)`. -/
def Bimap.erase_left (b : Bimap L R) (it : Ptr) : Except Error (Bimap L R × Ptr) :=
  erase_it_impl b .left it

/-- `Bimap::erase_right(RightIterator)`. -/
def Bimap.erase_right (b : Bimap L R) (it : Ptr) : Except Error (Bimap L R × Ptr) :=
  erase_it_impl b .right it

/-- `Bimap::erase_left(const Left&)`. -/
def Bimap.erase_left_key (b : Bimap L R) (left_value : L) : Except Error (Bimap L R × Bool) :=
  erase_val_impl b .left left_value

/-- `Bimap::erase_right(const Right&)`. -/
def Bimap.erase_right_key (b : Bimap L R) (right_value : R) : Except Error (Bimap L R × Bool) :=
  erase_val_impl b .right right_value

/-- `Bimap::erase_left(LeftIterator, LeftIterator)`. -/
def Bimap.erase_left_range (b : Bimap L R) (first last : Ptr) : Except Error (Bimap L R × Ptr) :=
  erase_range_impl b .left first last

/-- `Bimap::erase_right(RightIterator, RightIterator)`. -/
def Bimap.erase_right_range (b : Bimap L R) (first last : Ptr) : Except Error (Bimap L R × Ptr) :=
  erase_range_impl b .right first last

/-- `Bimap::find_left`. -/
def Bimap.find_left (b : Bimap L R) (left_value : L) : Except Error Ptr :=
  find_impl b .left left_value

/-- `Bimap::find_right`. -/
def Bimap.find_right (b : Bimap L R) (right_value : R) : Except Error Ptr :=
  find_impl b .right right_value

/-- `Bimap::at_left`. -/
def Bimap.at_left (b : Bimap L R) (key : L) : Except Error R :=
  at_impl b .left key

/-- `Bimap::at_right`. -/
def Bimap.at_right (b : Bimap L R) (key : R) : Except Error L :=
  at_impl b .right key

/-- `Bimap::lower_bound_left`. -/
def Bimap.lower_bound_left (b : Bimap L R) (left_value : L) : Except Error Ptr :=
  bound_impl true b .left left_value

/-- `Bimap::upper_bound_left`. -/
def Bimap.upper_bound_left (b : Bimap L R) (left_value : L) : Except Error Ptr :=
  bound_impl false b .left left_value

/-- `Bimap::lower_bound_right`. -/
def Bimap.lower_bound_right (b : Bimap L R) (right_value : R) : Except Error Ptr :=
  bound_impl true b .right right_value

/-- `Bimap::upper_bound_right`. -/
def Bimap.upper_bound_right (b : Bimap L R) (right_value : R) : Except Error Ptr :=
  bound_impl false b .right right_value

/-- The loop of `operator==`: the iterators `l_it` of `lhs` and `r_it` of `rhs` advance in
lock-step; the keys of `rhs` are read in `rhs`, all comparisons are those of `lhs`. -/
def operator_eq_loop (lhs rhs : Bimap L R) : Nat → Ptr → Ptr → Except Error Bool
  | 0, _, _ => .error .out_of_fuel
  | fuel + 1, l_it, r_it =>
    if l_it ≠ lhs.end_left then do
      let kl ← operator_deref lhs .left l_it
      let kr ← operator_deref rhs .left r_it
      if !lhs.is_equal .left kl kr then pure false
      else do
        let lf ← flip lhs .left l_it
        let vl ← operator_deref lhs .right lf
        let rf ← flip rhs .left r_it
        let vr ← operator_deref rhs .right rf
        if !lhs.is_equal .right vl vr then pure false
        else do
          let l_next ← operator_inc lhs .left l_it
          let r_next ← operator_inc rhs .left r_it
          operator_eq_loop lhs rhs fuel l_next r_next
    else pure true

/-- The friend `operator==(const Bimap&, const Bimap&)`. -/
def operator_eq (lhs rhs : Bimap L R) : Except Error Bool :=
  if lhs.size ≠ rhs.size then pure false
  else operator_eq_loop lhs rhs lhs.fuel lhs.begin_left rhs.begin_left

/-- The friend `operator!=(const Bimap&, const Bimap&)`. -/
def operator_ne (lhs rhs : Bimap L R) : Except Error Bool := do
  let eq ← operator_eq lhs rhs
  pure (!eq)

/-- The loop of the copy constructor: `this` is the container under construction, `it` the
iterator of `other`. -/
def copy_loop (other : Bimap L R) : Nat → Bimap L R → Ptr → Except Error (Bimap L R)
  | 0, _, _ => .error .out_of_fuel
  | fuel + 1, this, it =>
    if it ≠ other.end_left then do
      let l ← operator_deref other .left it
      let itf ← flip other .left it
      let r ← operator_deref other .right itf
      let (this, _) ← this.insert l r
      let it ← operator_inc other .left it
      copy_loop other fuel this it
    else pure this

/-- The copy constructor `Bimap(const Bimap& other)` for a container placed at `self`. -/
def copy_construct (self : Nat) (other : Bimap L R) : Except Error (Bimap L R) :=
  copy_loop other other.fuel (Bimap.mk_empty self other.compare_left_ other.compare_right_)
    other.begin_left

/-- The statement `sentinel_.to_base<Side>()->parent_->parent_ = sentinel_.to_base<Side>()`
of `Bimap::update_parents`, for side `s`. -/
def Bimap.anchor_root (b : Bimap L R) (s : Side) : Except Error (Bimap L R) :=
  match (b.sentinel_ s).parent_ with
  | none => .error .undefined
  | some p => b.set_parent s p (some b.get_sentinel)

/-- `Bimap::update_parents`. -/
def Bimap.update_parents (b : Bimap L R) : Except Error (Bimap L R) :=
  if b.empty then pure b
  else do
    let b ← b.anchor_root .left
    b.anchor_root .right

/-- The friend `swap_without_compare(Bimap& lhs, Bimap& rhs)`; the result is the pair of the
two containers after the call. The elements live in the part of the free store that a
container carries in `heap`: the exchange of the sentinels hands each tree, hence each
`heap` with its allocation mark, to the other container. -/
def swap_without_compare (lhs rhs : Bimap L R) : Except Error (Bimap L R × Bimap L R) := do
  let lhs1 : Bimap L R :=
    { lhs with size_ := rhs.size_, sentinel_ := rhs.sentinel_, heap := rhs.heap, brk := rhs.brk }
  let rhs1 : Bimap L R :=
    { rhs with size_ := lhs.size_, sentinel_ := lhs.sentinel_, heap := lhs.heap, brk := lhs.brk }
  let lhs2 ← lhs1.update_parents
  let rhs2 ← rhs1.update_parents
  pure (lhs2, rhs2)

/-- The friend `swap(Bimap& lhs, Bimap& rhs)`. -/
def swap (lhs rhs : Bimap L R) : Except Error (Bimap L R × Bimap L R) :=
  swap_without_compare
    { lhs with compare_left_ := rhs.compare_left_, compare_right_ := rhs.compare_right_ }
    { rhs with compare_left_ := lhs.compare_left_, compare_right_ := lhs.compare_right_ }

/-- The move constructor `Bimap(Bimap&& other)` for a container placed at `self`; the result
is the new container and `other` after the call. -/
def move_construct (self : Nat) (other : Bimap L R) : Except Error (Bimap L R × Bimap L R) :=
  swap_without_compare (Bimap.mk_empty self other.compare_left_ other.compare_right_) other

/-- `Bimap::clear`. -/
def Bimap.clear (b : Bimap L R) : Except Error (Bimap L R) := do
  let (b, _) ← b.erase_left_range b.begin_left b.end_left
  pure b

/-- The copy assignment `Bimap::operator=(const Bimap& other)` on the container `this`; the
temporary `tmp` is placed at `tmp_self` and destroyed at the end of the block. The result
is `this` after the call. The test `this != &other` compares addresses. -/
def copy_assign (this other : Bimap L R) (tmp_self : Nat) : Except Error (Bimap L R) :=
  if this.self ≠ other.self then do
    let tmp ← copy_construct tmp_self other
    let this ← this.clear
    let (this, tmp) ← swap this tmp
    let _ ← tmp.clear
    pure this
  else pure this

/-- `View::at_or_default` for a value type without default constructor. -/
def at_or_default_throw (b : Bimap L R) (s : Side) (key : Key L R s) :
    Except Error (Key L R s.opposite) := do
  let position ← find_insert_position b s key
  let k ← operator_deref b s position
  if b.is_equal s k key then do
    let other ← flip b s position
    operator_deref b s.opposite other
  else .error .out_of_range

/-- The arguments `(left_value, right_value)` that `View::at_or_default` of side `s` passes
on, chosen by `if constexpr (Side::is_left)`. -/
def side_pair : (s : Side) → Key L R s → Key L R s.opposite → L × R
  | .left, key, value => (key, value)
  | .right, key, value => (value, key)

/-- The arguments `(pos_left, pos_right)` that `View::at_or_default` of side `s` passes to
`insert_at`, chosen by `if constexpr (Side::is_left)`. -/
def side_pos : Side → Ptr → Ptr → Ptr × Ptr
  | .left, position, position_value => (position, position_value)
  | .right, position, position_value => (position_value, position)

/-- The value `View::at_or_default` of side `s` returns for the left iterator of the new
element: `*it.flip()` in the left view, `*it` in the right view. -/
def deref_value : (s : Side) → Bimap L R → Ptr → Except Error (Key L R s.opposite)
  | .left, b, it => do
    let f ← flip b .left it
    operator_deref b .right f
  | .right, b, it => operator_deref b .left it

/-- `View::at_or_default` for a default constructible value type, whose value `Value{}` is
`dflt`; the result is the container after the call and the value returned. -/
def at_or_default (b : Bimap L R) (s : Side) (key : Key L R s) (dflt : Key L R s.opposite) :
    Except Error (Bimap L R × Key L R s.opposite) := do
  let position ← find_insert_position b s key
  let k ← operator_deref b s position
  if b.is_equal s k key then do
    let other ← flip b s position
    let v ← operator_deref b s.opposite other
    pure (b, v)
  else do
    let position_value ← find_insert_position b s.opposite dflt
    let kv ← operator_deref b s.opposite position_value
    let lr := side_pair s key dflt
    if !b.is_equal s.opposite kv dflt then do
      let pp := side_pos s position position_value
      let (b, it) ← insert_at b lr.1 lr.2 pp.1 pp.2
      let v ← deref_value s b it
      pure (b, v)
    else do
      let (b, new_element) ← insert_impl b lr.1 lr.2 true
      let (b, _) ← erase_it_impl b s.opposite position_value
      let v ← deref_value s b new_element
      pure (b, v)

/-- `Bimap::at_left_or_default` for a default constructible `Right`. -/
def Bimap.at_left_or_default (b : Bimap L R) (key : L) (dflt : R) :
    Except Error (Bimap L R × R) :=
  at_or_default b .left key dflt

/-- `Bimap::at_right_or_default` for a default constructible `Left`. -/
def Bimap.at_right_or_default (b : Bimap L R) (key : R) (dflt : L) :
    Except Error (Bimap L R × L) :=
  at_or_default b .right key dflt


/-! ## Vocabulary of the specification -/

/-- The requirement the standard places on a comparator: a strict weak ordering. -/
structure StrictWeakOrder {K : Type} (cmp : K → K → Bool) : Prop where
  irrefl : ∀ a, cmp a a = false
  trans : ∀ a b c, cmp a b = true → cmp b c = true → cmp a c = true
  incomp_trans : ∀ a b c, cmp a b = false → cmp b a = false → cmp b c = false → cmp c b = false →
    cmp a c = false ∧ cmp c a = false

/-- Two keys are equivalent under a comparator when neither precedes the other. -/
def Equiv {K : Type} (cmp : K → K → Bool) (a b : K) : Prop :=
  cmp a b = false ∧ cmp b a = false

/-- The object behind a pointer is alive: the container's own sentinel, or an element that
was allocated and not deleted. -/
def Bimap.live (b : Bimap L R) : Ref → Prop
  | .sentinel o => o = b.self
  | .element a => (b.heap a).isSome = true

/-- The key of side `s` stored at address `a`, if an element lives there. -/
def Bimap.key (b : Bimap L R) (s : Side) (a : Nat) : Option (Key L R s) :=
  (b.heap a).map (fun e => e.get_key s)

/-- The write performed by `Bimap.store` when the target is alive. -/
def Bimap.put (b : Bimap L R) (s : Side) (x : Ref) (v : ElementBase) : Bimap L R :=
  match x with
  | .sentinel _ => { b with sentinel_ := Function.update b.sentinel_ s v }
  | .element a =>
    match b.heap a with
    | some e =>
      { b with heap := Function.update b.heap a
                  (some { e with base := Function.update e.base s v }) }
    | none => b

/-- Trees of addresses: the shape of one side's search tree. -/
inductive Tree where
  | nil
  | node (l : Tree) (a : Nat) (r : Tree)
  deriving DecidableEq, Repr

/-- The addresses of a tree in symmetric order. -/
def Tree.toList : Tree → List Nat
  | .nil => []
  | .node l a r => l.toList ++ a :: r.toList

/-- The pointer stored in the slot that holds a tree. -/
def Tree.root : Tree → Ptr
  | .nil => none
  | .node _ a _ => some (.element a)

/-- The number of nodes on the longest path from the root. -/
def Tree.height : Tree → Nat
  | .nil => 0
  | .node l _ r => max l.height r.height + 1

/-- One step of a path from a subtree towards the root. -/
inductive Frame where
  | left (a : Nat) (r : Tree)
  | right (l : Tree) (a : Nat)
  deriving DecidableEq, Repr

/-- A path from a subtree to the root, innermost step first. -/
abbrev Ctx := List Frame

/-- The tree obtained by placing `t` in the hole of a path. -/
def plug : Ctx → Tree → Tree
  | [], t => t
  | .left a r :: c, t => plug c (.node t a r)
  | .right l a :: c, t => plug c (.node l a t)

/-- The addresses that precede the hole of a path in symmetric order. -/
def before : Ctx → List Nat
  | [] => []
  | .left _ _ :: c => before c
  | .right l a :: c => before c ++ (l.toList ++ [a])

/-- The addresses that follow the hole of a path in symmetric order. -/
def after : Ctx → List Nat
  | [] => []
  | .left a r :: c => (a :: r.toList) ++ after c
  | .right _ _ :: c => after c

/-- The addresses stored in the nodes and sibling trees of a path. -/
def ctxList (c : Ctx) : List Nat := before c ++ after c

/-- The object whose child slot is the hole of a path below the object `top`. -/
def holeParent (top : Ref) : Ctx → Ref
  | [] => top
  | .left a _ :: _ => .element a
  | .right _ a :: _ => .element a

/-- The links of side `s` of the heap realise the tree `t` hanging below `parent`. -/
def Shape (b : Bimap L R) (s : Side) : Tree → Ref → Prop
  | .nil, _ => True
  | .node l a r, parent =>
    b.base s (.element a) = .ok { parent_ := some parent, left_ := l.root, right_ := r.root } ∧
    Shape b s l (.element a) ∧ Shape b s r (.element a)

/-- The links of side `s` of the heap realise the path `c` below `top`, the hole holding the
pointer `hole`. -/
def ShapeCtx (b : Bimap L R) (s : Side) (top : Ref) : Ctx → Ptr → Prop
  | [], _ => True
  | .left a r :: c, hole =>
    b.base s (.element a) =
      .ok { parent_ := some (holeParent top c), left_ := hole, right_ := r.root } ∧
    Shape b s r (.element a) ∧ ShapeCtx b s top c (some (.element a))
  | .right l a :: c, hole =>
    b.base s (.element a) =
      .ok { parent_ := some (holeParent top c), left_ := l.root, right_ := hole } ∧
    Shape b s l (.element a) ∧ ShapeCtx b s top c (some (.element a))

/-- The address `x` precedes the address `y` in the order of side `s`. -/
def Bimap.keyLt (b : Bimap L R) (s : Side) (x y : Nat) : Prop :=
  ∃ kx ky, b.key s x = some kx ∧ b.key s y = some ky ∧ b.get_compare s kx ky = true

/-- The pointer to the element at the head of a list of addresses, or `dflt`. -/
def firstD (dflt : Ref) : List Nat → Ref
  | [] => dflt
  | a :: _ => .element a

/-- The pointer to the element at the end of a list of addresses, or `dflt`. -/
def lastD (dflt : Ref) (xs : List Nat) : Ref := firstD dflt xs.reverse

/-- The sentinel of side `s` anchors the tree `t` and caches the ends `hi` and `lo`. -/
def SentinelFor (b : Bimap L R) (s : Side) (t : Tree) (hi lo : Ref) : Prop :=
  b.sentinel_ s =
    { parent_ := some (t.root.getD b.get_sentinel), left_ := some hi, right_ := some lo }

/-- Side `s` of the container is the search tree `t`. -/
structure SideInv (b : Bimap L R) (s : Side) (t : Tree) : Prop where
  shape : Shape b s t b.get_sentinel
  sentinel : SentinelFor b s t (lastD b.get_sentinel t.toList) (firstD b.get_sentinel t.toList)
  sorted : t.toList.Pairwise (b.keyLt s)

/-- The representation invariant of the container. -/
structure Inv (b : Bimap L R) (tl tr : Tree) : Prop where
  left : SideInv b .left tl
  right : SideInv b .right tr
  perm : tl.toList.Perm tr.toList
  size : b.size_ = tl.toList.length
  dom : ∀ a, (b.heap a).isSome = true ↔ a ∈ tl.toList
  fresh : ∀ a, b.brk ≤ a → b.heap a = none
  order_left : StrictWeakOrder b.compare_left_
  order_right : StrictWeakOrder b.compare_right_

/-- The containers that a program can build: an empty container with strict weak orderings
as comparators, changed by calls of `insert`, of the six `erase` functions and of
`at_left_or_default` and `at_right_or_default` that return. -/
inductive Reachable : Bimap L R → Prop where
  | mk_empty (self : Nat) (cl : L → L → Bool) (cr : R → R → Bool)
      (hl : StrictWeakOrder cl) (hr : StrictWeakOrder cr) : Reachable (Bimap.mk_empty self cl cr)
  | insert {b b1 : Bimap L R} (l : L) (r : R) (it : Ptr) :
      Reachable b → b.insert l r = .ok (b1, it) → Reachable b1
  | erase_left {b b1 : Bimap L R} (it next : Ptr) :
      Reachable b → b.erase_left it = .ok (b1, next) → Reachable b1
  | erase_right {b b1 : Bimap L R} (it next : Ptr) :
      Reachable b → b.erase_right it = .ok (b1, next) → Reachable b1
  | erase_left_key {b b1 : Bimap L R} (k : L) (found : Bool) :
      Reachable b → b.erase_left_key k = .ok (b1, found) → Reachable b1
  | erase_right_key {b b1 : Bimap L R} (k : R) (found : Bool) :
      Reachable b → b.erase_right_key k = .ok (b1, found) → Reachable b1
  | erase_left_range {b b1 : Bimap L R} (first last it : Ptr) :
      Reachable b → b.erase_left_range first last = .ok (b1, it) → Reachable b1
  | erase_right_range {b b1 : Bimap L R} (first last it : Ptr) :
      Reachable b → b.erase_right_range first last = .ok (b1, it) → Reachable b1
  | at_left_or_default {b b1 : Bimap L R} (k : L) (d v : R) :
      Reachable b → b.at_left_or_default k d = .ok (b1, v) → Reachable b1
  | at_right_or_default {b b1 : Bimap L R} (k : R) (d v : L) :
      Reachable b → b.at_right_or_default k d = .ok (b1, v) → Reachable b1

/-- The links of side `s` realise the tree `t` below the sentinel, whose cache is set. -/
structure Links (b : Bimap L R) (s : Side) (t : Tree) : Prop where
  shape : Shape b s t b.get_sentinel
  nodup : t.toList.Nodup
  anchor : (b.sentinel_ s).parent_ = some (t.root.getD b.get_sentinel)
  cache : (b.sentinel_ s).left_ ≠ none

/-- What the navigation functions need of side `s`: the links realise the tree `t` below
the sentinel, and the sentinel is recognised. -/
structure Nav (b : Bimap L R) (s : Side) (t : Tree) extends Links b s t : Prop where
  is_sent : is_sentinel b s b.get_sentinel = .ok true

/-- Whether the hole of a path is the right child slot of an element. -/
def holeIsRight : Ctx → Bool
  | .right _ _ :: _ => true
  | _ => false

/-- Whether the hole of a path is the left child slot of an element. -/
def holeIsLeft : Ctx → Bool
  | .left _ _ :: _ => true
  | _ => false

/-- The object above the first step of a path that is not a step to the right. -/
def aboveRight (top : Ref) : Ctx → Ref
  | [] => top
  | .left a _ :: _ => .element a
  | .right _ _ :: c => aboveRight top c

/-- The object above the first step to the right of a path that starts at the element `a`;
the root of the tree if the path has only steps to the left. -/
def aboveLeft (a : Nat) : Ctx → Ref
  | [] => .element a
  | .right _ pa :: _ => .element pa
  | .left pa _ :: c => aboveLeft pa c

/-- The key at address `x` precedes the value `v` in the order of side `s`. -/
def Bimap.keyBelow (b : Bimap L R) (s : Side) (v : Key L R s) (x : Nat) : Prop :=
  ∃ k, b.key s x = some k ∧ b.get_compare s k v = true

/-- The value `v` precedes the key at address `x` in the order of side `s`. -/
def Bimap.keyAbove (b : Bimap L R) (s : Side) (v : Key L R s) (x : Nat) : Prop :=
  ∃ k, b.key s x = some k ∧ b.get_compare s v k = true

/-- The key at address `x` is equivalent to the value `v` in the order of side `s`. -/
def Bimap.keyEquiv (b : Bimap L R) (s : Side) (v : Key L R s) (x : Nat) : Prop :=
  ∃ k, b.key s x = some k ∧ Equiv (b.get_compare s) k v

/-- The path `c` is the one a search for `v` follows: it turns right below smaller keys and
left below greater keys. -/
def PathOK (b : Bimap L R) (s : Side) (v : Key L R s) : Ctx → Prop
  | [] => True
  | .left pa _ :: c => b.keyAbove s v pa ∧ PathOK b s v c
  | .right _ pa :: c => b.keyBelow s v pa ∧ PathOK b s v c

/-- The node `a`, located by the path `c` in the tree `t`, is where the search for `v` ends:
at an equivalent key, at a smaller key without right child, or at a greater key without left
child. -/
def IsPosition (b : Bimap L R) (s : Side) (v : Key L R s) (t : Tree) (c : Ctx)
    (l : Tree) (a : Nat) (r : Tree) : Prop :=
  t = plug c (.node l a r) ∧ PathOK b s v c ∧
    (b.keyEquiv s v a ∨ (b.keyBelow s v a ∧ r = .nil) ∨ (b.keyAbove s v a ∧ l = .nil))

/-- The container `b1` has the data members, the keys and the set of live elements of `b`:
at most links differ. -/
structure Same (b b1 : Bimap L R) : Prop where
  self : b1.self = b.self
  size_ : b1.size_ = b.size_
  compare_left_ : b1.compare_left_ = b.compare_left_
  compare_right_ : b1.compare_right_ = b.compare_right_
  brk : b1.brk = b.brk
  key : ∀ s a, b1.key s a = b.key s a

/-- The container `b1` differs from `b` at most in links of side `s`. -/
structure Touch (s : Side) (b b1 : Bimap L R) extends Same b b1 : Prop where
  other : ∀ y, b1.base s.opposite y = b.base s.opposite y

/-- Side `s` is linked as the tree `t` below a sentinel whose cache holds `hi` and `lo`. -/
structure Linked (b : Bimap L R) (s : Side) (t : Tree) (hi lo : Ref) : Prop where
  shape : Shape b s t b.get_sentinel
  sentinel : SentinelFor b s t hi lo

/-- The tree after the element `n` became a leaf at the position `pos`, on the side told by
`cr`. -/
inductive AttachAt (top : Ref) (n : Nat) : Tree → Ptr → Bool → Tree → Prop where
  | root : AttachAt top n .nil (some top) false (.node .nil n .nil)
  | right (c : Ctx) (l : Tree) (a : Nat) :
      AttachAt top n (plug c (.node l a .nil)) (some (.element a)) true
        (plug c (.node l a (.node .nil n .nil)))
  | left (c : Ctx) (a : Nat) (r : Tree) :
      AttachAt top n (plug c (.node .nil a r)) (some (.element a)) false
        (plug c (.node (.node .nil n .nil) a r))

/-- The effect of one assignment to a link of the object `x`. -/
structure Assigned (s : Side) (x : Ref) (v : ElementBase) (b b1 : Bimap L R)
    extends Touch s b b1 : Prop where
  here : b1.base s x = .ok v
  frame : ∀ y, y ≠ x → b1.base s y = b.base s y

/-- The container `b1` has one element more than `b`: the pair `(l, r)` at the address that
was free next. -/
structure Grown (b b1 : Bimap L R) (l : L) (r : R) : Prop where
  self : b1.self = b.self
  size_ : b1.size_ = b.size_ + 1
  compare_left_ : b1.compare_left_ = b.compare_left_
  compare_right_ : b1.compare_right_ = b.compare_right_
  brk : b1.brk = b.brk + 1
  key_left_new : b1.key .left b.brk = some l
  key_right_new : b1.key .right b.brk = some r
  key_old : ∀ s a, a ≠ b.brk → b1.key s a = b.key s a

/-- The list `ys` is the list `xs` with the address `n` placed where the value `v` belongs:
after the keys below `v` and before the keys above `v`. -/
def InsertedInto (b : Bimap L R) (s : Side) (v : Key L R s) (n : Nat) (xs ys : List Nat) : Prop :=
  ∃ P Q, xs = P ++ Q ∧ ys = P ++ n :: Q ∧ (∀ x ∈ P, b.keyBelow s v x) ∧
    (∀ x ∈ Q, b.keyAbove s v x)

/-- The path that descends along right children through the given nodes, the deepest
first. -/
def rightCtx (sp : List (Tree × Nat)) : Ctx := sp.map (fun p => Frame.right p.1 p.2)

/-- The links of side `s` realise the tree `t`, except that the parent link of its root
references some element that need not be its parent. -/
def ShapeLoose (b : Bimap L R) (s : Side) : Tree → Prop
  | .nil => True
  | .node l a r => ∃ p, b.base s (.element a) =
      .ok { parent_ := some (.element p), left_ := l.root, right_ := r.root } ∧
      Shape b s l (.element a) ∧ Shape b s r (.element a)

/-- The state of side `s` after `unlink` has prepared the replacement of a node whose
subtrees were `l` and `r`: the tree `t1` that takes the place of the node is linked up to
the parent link of its root, and nothing outside `l` and `r` has changed. -/
structure Spliced (s : Side) (l r t1 : Tree) (b b1 : Bimap L R) extends Touch s b b1 : Prop where
  keep : ∀ y, (∀ a, y = .element a → a ∉ l.toList ∧ a ∉ r.toList) → b1.base s y = b.base s y
  loose : ShapeLoose b1 s t1
  toList : t1.toList = l.toList ++ r.toList

/-- The first block of `unlink`: the choice of `replace` for a node known to have a left child
(`hl`) or not, and the links that prepare it. -/
def unlink_head (b : Bimap L R) (s : Side) (n : Ref) (hl : Bool) :
    Except Error (Bimap L R × Ptr) :=
  if hl then do
    let ne ← b.base s n
    let replace ← descend_right b s b.fuel ne.left_
    let b ← link_to_parent b s replace ne.right_ true false
    match replace with
    | none => .error .undefined
    | some rp => do
      let rc ← is_right_child b s rp
      if rc then do
        let re ← b.base s rp
        let b ← link_to_parent b s re.parent_ re.left_ true false
        let ne ← b.base s n
        let b ← link_to_parent b s replace ne.left_ false false
        pure (b, replace)
      else pure (b, replace)
  else do
    let hr ← has_right b s n
    if hr then do
      let ne ← b.base s n
      pure (b, ne.right_)
    else pure (b, none)

/-- The last block of `unlink`: `replace` gets the parent of the node, and the node is
reset. -/
def unlink_reparent (b : Bimap L R) (s : Side) (n : Ref) (replace : Ptr) :
    Except Error (Bimap L R) := do
  let b ← (match replace with
    | none => pure b
    | some rp => do
      let ne ← b.base s n
      b.set_parent s rp ne.parent_)
  b.store s n (reset n)

/-- The second block of `unlink`: the slot that held the node receives `replace`; then the
last block runs. -/
def unlink_tail (b : Bimap L R) (s : Side) (n : Ref) (replace : Ptr) :
    Except Error (Bimap L R) := do
  let rc ← is_right_child b s n
  let b ← (if rc then do
      let ne ← b.base s n
      match ne.parent_ with
      | none => .error .undefined
      | some p => b.set_right s p replace
    else do
      let lc ← is_left_child b s n
      let ne ← b.base s n
      match ne.parent_ with
      | none => .error .undefined
      | some p =>
        if lc then b.set_left s p replace
        else b.set_parent s p (if replace.isSome then replace else ne.parent_))
  unlink_reparent b s n replace

/-- The body of the loop of `erase_it_impl` after the iterator has moved on: the caches are
refreshed, the element is unlinked from both trees and deleted, the count is decremented. -/
def erase_node (b : Bimap L R) (s : Side) (current : Nat) : Except Error (Bimap L R) := do
  let b ← update_sentinel b .left (some (.element current))
  let b ← update_sentinel b .right (some (.element current))
  let b ← unlink b s (some (.element current))
  let b ← unlink b s.opposite (some (.element current))
  let b ← b.delete_element current
  pure { b with size_ := b.size_ - 1 }

/-- The container `b1` is `b` without the element at address `n`. -/
structure Shrunk (b b1 : Bimap L R) (n : Nat) : Prop where
  self : b1.self = b.self
  size_ : b1.size_ = b.size_ - 1
  compare_left_ : b1.compare_left_ = b.compare_left_
  compare_right_ : b1.compare_right_ = b.compare_right_
  brk : b1.brk = b.brk
  gone : b1.heap n = none
  key_old : ∀ s a, a ≠ n → b1.key s a = b.key s a

/-- What the lookups of side `s` need of the container: side `s` is the search tree `t`, whose
nodes are the live elements. -/
structure SideView (b : Bimap L R) (s : Side) (t : Tree) : Prop where
  inv : SideInv b s t
  order : StrictWeakOrder (b.get_compare s)
  size : b.size_ = t.toList.length
  dom : ∀ a, (b.heap a).isSome = true ↔ a ∈ t.toList

/-- A strict total order given as a Boolean comparator. -/
structure StrictTotalOrder {K : Type} (cmp : K → K → Bool) : Prop where
  irrefl : ∀ a, cmp a a = false
  trans : ∀ a b c, cmp a b = true → cmp b c = true → cmp a c = true
  total : ∀ a b, cmp a b = false → cmp b a = false → a = b

/-- The loop `for (it = first; it != last; ++it)` of a client of the container: the iterators
of side `s` that the loop visits, in the order of the visits. -/
def traverse (b : Bimap L R) (s : Side) (last : Ptr) : Nat → Ptr → Except Error (List Ptr)
  | 0, _ => .error .out_of_fuel
  | fuel + 1, it =>
    if it = last then pure []
    else do
      let next ← operator_inc b s it
      let rest ← traverse b s last fuel next
      pure (it :: rest)

/-- The iterator `it` of side `s` references the first entry, in the order of the side, whose
key satisfies `p`; it is the iterator `last` if no key satisfies `p`. -/
def Bimap.IsFirst (b : Bimap L R) (s : Side) (p : Key L R s → Prop) (last it : Ptr) : Prop :=
  (it = last ∧ ∀ a k, b.key s a = some k → ¬ p k) ∨
  (∃ a k, it = some (.element a) ∧ b.key s a = some k ∧ p k ∧
    ∀ a1 k1, b.key s a1 = some k1 → p k1 → a1 = a ∨ b.get_compare s k k1 = true)

/-- The iterator `it` of side `s` references the only entry whose key satisfies `p`; it is
the iterator `last` if no key satisfies `p`. -/
def Bimap.IsOnly (b : Bimap L R) (s : Side) (p : Key L R s → Prop) (last it : Ptr) : Prop :=
  (it = last ∧ ∀ a k, b.key s a = some k → ¬ p k) ∨
  (∃ a k, it = some (.element a) ∧ b.key s a = some k ∧ p k ∧
    ∀ a1 k1, b.key s a1 = some k1 → p k1 → a1 = a)

/-- The container after the call `b.insert(l, r)`. -/
def after_insert (b : Bimap L R) (l : L) (r : R) : Bimap L R :=
  match b.insert l r with
  | .ok (b1, _) => b1
  | .error _ => b

/-- The comparator `std::less<int>` on natural numbers. -/
def nat_less (a b : Nat) : Bool := decide (a < b)

/-- The comparator `std::less<std::string>`: the lexicographic order of the code units. -/
def string_less (a b : String) : Bool :=
  decide (List.Lex (fun x y : Nat => x < y) (a.toList.map Char.toNat) (b.toList.map Char.toNat))

/-- The container `bimap<int, std::string>` after its construction. -/
def demo_empty : Bimap Nat String := Bimap.mk_empty 0 nat_less string_less

/-- The container after `insert(5, "x")`. -/
def demo_one : Bimap Nat String := after_insert demo_empty 5 "x"

/-- The container after `insert(2, "b")`, `insert(1, "a")` and `insert(3, "c")`. -/
def demo_three : Bimap Nat String :=
  after_insert (after_insert (after_insert demo_empty 2 "b") 1 "a") 3 "c"

/-- The tree of side `s` among the trees of the two sides. -/
def sideTree (s : Side) (tl tr : Tree) : Tree :=
  match s with
  | .left => tl
  | .right => tr

/-- The container `b1` is `b` without the elements at the addresses in `M`. -/
structure Erased (b b1 : Bimap L R) (M : List Nat) : Prop where
  self : b1.self = b.self
  size_ : b1.size_ + M.length = b.size_
  compare_left_ : b1.compare_left_ = b.compare_left_
  compare_right_ : b1.compare_right_ = b.compare_right_
  brk : b1.brk = b.brk
  gone : ∀ a ∈ M, b1.heap a = none
  key_old : ∀ s a, a ∉ M → b1.key s a = b.key s a

/-- The element at address `a` is linked in the tree of side `s`: it is the root that the
sentinel references, or a child of an element linked in the tree. -/
inductive InTree (b : Bimap L R) (s : Side) : Nat → Prop where
  | root {a : Nat} : (b.sentinel_ s).parent_ = some (.element a) → InTree b s a
  | left {a c : Nat} {e : ElementBase} : InTree b s a → b.base s (.element a) = .ok e →
      e.left_ = some (.element c) → InTree b s c
  | right {a c : Nat} {e : ElementBase} : InTree b s a → b.base s (.element a) = .ok e →
      e.right_ = some (.element c) → InTree b s c

/-- The pair of keys stored at address `a`. -/
def Bimap.pair (b : Bimap L R) (a : Nat) : Option (L × R) :=
  (b.heap a).map (fun e => (e.left_key, e.right_key))

/-- The element at address `a` holds the greatest key of side `s`. -/
def Bimap.IsMax (b : Bimap L R) (s : Side) (a : Nat) : Prop :=
  ∃ k, b.key s a = some k ∧
    ∀ a1 k1, b.key s a1 = some k1 → a1 = a ∨ b.get_compare s k1 k = true

/-- The element at address `a` holds the least key of side `s`. -/
def Bimap.IsMin (b : Bimap L R) (s : Side) (a : Nat) : Prop :=
  ∃ k, b.key s a = some k ∧
    ∀ a1 k1, b.key s a1 = some k1 → a1 = a ∨ b.get_compare s k k1 = true

/-- The element at `x` of `lhs` and the element at `y` of `rhs` hold equivalent left keys and
equivalent right keys, under the comparators of `lhs`. -/
def SamePair (lhs rhs : Bimap L R) (x y : Nat) : Prop :=
  ∃ lx rx ly ry, lhs.key .left x = some lx ∧ lhs.key .right x = some rx ∧
    rhs.key .left y = some ly ∧ rhs.key .right y = some ry ∧
    Equiv lhs.compare_left_ lx ly ∧ Equiv lhs.compare_right_ rx ry

/-- The container `b1` is `b` after the elements at the addresses in `M` were erased: the
size is smaller by the length of `M`, the elements of `M` are deallocated, every other
element keeps its pair of keys, and on each side the traversal from begin to end visits
what it visited in `b`, without the elements of `M`. -/
def RangeErased (b b1 : Bimap L R) (M : List Nat) : Prop :=
  b1.size + M.length = b.size ∧ (∀ a ∈ M, b1.heap a = none) ∧
  (∀ s a, a ∉ M → b1.key s a = b.key s a) ∧
  ∀ s, ∃ xs : List Nat,
    traverse b s (some b.get_sentinel) b.fuel (b.sentinel_ s).right_ =
      .ok (xs.map (fun a => some (Ref.element a))) ∧
    traverse b1 s (some b1.get_sentinel) b1.fuel (b1.sentinel_ s).right_ =
      .ok ((xs.filter (fun a => decide (a ∉ M))).map (fun a => some (Ref.element a)))

/-- The container `dst` holds what `src` held: the size, the comparators, the pair of keys
at every address and, on each side, the sequence of elements that a traversal visits; on
each side the parent link of the sentinel of `dst` references the root, and the parent link
of that root references the sentinel of `dst`. -/
def Moved (src dst : Bimap L R) : Prop :=
  dst.size = src.size ∧ dst.compare_left_ = src.compare_left_ ∧
  dst.compare_right_ = src.compare_right_ ∧ (∀ s x, dst.key s x = src.key s x) ∧
  (∀ s, ∃ xs : List Nat,
    traverse src s (some src.get_sentinel) src.fuel (src.sentinel_ s).right_ =
      .ok (xs.map (fun a => some (Ref.element a))) ∧
    traverse dst s (some dst.get_sentinel) dst.fuel (dst.sentinel_ s).right_ =
      .ok (xs.map (fun a => some (Ref.element a)))) ∧
  ∀ s, ∃ root e, (dst.sentinel_ s).parent_ = some (.element root) ∧
    dst.base s (.element root) = .ok e ∧ e.parent_ = some dst.get_sentinel

/-- The container after the call `b.erase_left(it)`. -/
def after_erase_left (b : Bimap L R) (it : Ptr) : Bimap L R :=
  match b.erase_left it with
  | .ok (b1, _) => b1
  | .error _ => b

/-- A second container, at another address, after `insert(7, "p")` and `insert(5, "q")`. -/
def demo_pair : Bimap Nat String :=
  after_insert (after_insert (Bimap.mk_empty 1 nat_less string_less) 7 "p") 5 "q"

/-- The container after `insert(1, "a")` and `insert(2, "b")`. -/
def demo_two : Bimap Nat String := after_insert (after_insert demo_empty 1 "a") 2 "b"

/-- The container `demo_two` after `erase_left(begin_left())`. -/
def demo_two_less : Bimap Nat String := after_erase_left demo_two demo_two.begin_left

/-- The container `demo_two` after two calls of `erase_left(begin_left())`. -/
def demo_erased : Bimap Nat String := after_erase_left demo_two_less demo_two_less.begin_left

/-- The two sides of the container are linked as the trees `tl` and `tr` over the live
elements; nothing is said about the order of the keys. -/
structure Wired (b : Bimap L R) (tl tr : Tree) : Prop where
  left : Linked b .left tl (lastD b.get_sentinel tl.toList) (firstD b.get_sentinel tl.toList)
  right : Linked b .right tr (lastD b.get_sentinel tr.toList) (firstD b.get_sentinel tr.toList)
  nodup : tl.toList.Nodup
  perm : tl.toList.Perm tr.toList
  size : b.size_ = tl.toList.length
  dom : ∀ a, (b.heap a).isSome = true ↔ a ∈ tl.toList
  fresh : ∀ a, b.brk ≤ a → b.heap a = none

/-- The tree after `link_to_parent` with `overwrite` placed the element `n` below the
position `pos`: as a leaf, or in the left child slot of an element, where it takes over, as
its own left child, what the slot held. -/
inductive PlaceAt (top : Ref) (n : Nat) : Tree → Ptr → Bool → Tree → Prop where
  | leaf {t : Tree} {pos : Ptr} {cr : Bool} {t1 : Tree} :
      AttachAt top n t pos cr t1 → PlaceAt top n t pos cr t1
  | inherit (c : Ctx) (l : Tree) (a : Nat) (r : Tree) :
      PlaceAt top n (plug c (.node l a r)) (some (.element a)) false
        (plug c (.node (.node l n .nil) a r))

/-- The container `b1` is `b` after the pair `(l, r)` was stored at the address that was
free next and the element at address `e` was erased. -/
structure Stolen (b b1 : Bimap L R) (l : L) (r : R) (e : Nat) : Prop where
  self : b1.self = b.self
  size_ : b1.size_ = b.size_
  compare_left_ : b1.compare_left_ = b.compare_left_
  compare_right_ : b1.compare_right_ = b.compare_right_
  brk : b1.brk = b.brk + 1
  key_left_new : b1.key .left b.brk = some l
  key_right_new : b1.key .right b.brk = some r
  gone : b1.heap e = none
  key_old : ∀ s a, a ≠ b.brk → a ≠ e → b1.key s a = b.key s a

/-- A second empty container `bimap<int, std::string>`, at another address. -/
def demo_other_empty : Bimap Nat String := Bimap.mk_empty 1 nat_less string_less

/-- The element at address `d` is in the subtree of side `s` whose root is the target of the
pointer `p`: it is that root, or it is in the subtree behind the left or the right link of
that root. -/
inductive Below (b : Bimap L R) (s : Side) : Ptr → Nat → Prop where
  | here (a : Nat) : Below b s (some (.element a)) a
  | left {a d : Nat} {e : ElementBase} : b.base s (.element a) = .ok e →
      Below b s e.left_ d → Below b s (some (.element a)) d
  | right {a d : Nat} {e : ElementBase} : b.base s (.element a) = .ok e →
      Below b s e.right_ d → Below b s (some (.element a)) d

/-- The search tree property of side `s`: the key of every element is greater than every key
in its left subtree and less than every key in its right subtree, under the comparator of the
side. -/
def Bimap.IsSearchTree (b : Bimap L R) (s : Side) : Prop :=
  ∀ a e, b.base s (.element a) = .ok e →
    (∀ d, Below b s e.left_ d → b.keyLt s d a) ∧ (∀ d, Below b s e.right_ d → b.keyLt s a d)

/-- The links of side `s` are reciprocal: the parent link of a child of an element references
that element; the parent link of the root that the sentinel references references the
sentinel; an element whose parent link references the sentinel is that root; and the sentinel
of a container that is not empty references a root. -/
def Bimap.Reciprocal (b : Bimap L R) (s : Side) : Prop :=
  (∀ a e c, b.base s (.element a) = .ok e → (e.left_ = some c ∨ e.right_ = some c) →
    ∃ ce, b.base s c = .ok ce ∧ ce.parent_ = some (.element a)) ∧
  (∀ root, (b.sentinel_ s).parent_ = some (.element root) →
    ∃ e, b.base s (.element root) = .ok e ∧ e.parent_ = some b.get_sentinel) ∧
  (∀ a e, b.base s (.element a) = .ok e → e.parent_ = some b.get_sentinel →
    (b.sentinel_ s).parent_ = some (.element a)) ∧
  (b.empty = false → ∃ root, (b.sentinel_ s).parent_ = some (.element root))

/-- The left iterator of the element at address `a`, which held the pair `(l, r)`, is valid
in the container `b1`: the element is linked in both trees, `*it` is `l`, `*it.flip()` is
`r`, and `find_left(l)` is the iterator. -/
def Bimap.StableAt (b1 : Bimap L R) (a : Nat) (l : L) (r : R) : Prop :=
  InTree b1 .left a ∧ InTree b1 .right a ∧
  operator_deref b1 .left (some (.element a)) = .ok l ∧
  (∃ f, flip b1 .left (some (.element a)) = .ok f ∧ operator_deref b1 .right f = .ok r) ∧
  b1.find_left l = .ok (some (.element a))

/-! ## Vocabulary of the refinement and of the structural claims -/

/-- The pairs `(*it, *it.flip())` behind a list of left iterators. -/
def read_pairs (b : Bimap L R) : List Ptr → Except Error (List (L × R))
  | [] => pure []
  | it :: rest => do
    let l ← operator_deref b .left it
    let f ← flip b .left it
    let r ← operator_deref b .right f
    let ps ← read_pairs b rest
    pure ((l, r) :: ps)

/-- The abstract value of the container: the pairs that the loop
`for (it = begin_left(); it != end_left(); ++it)` reads, in the order of the visits. -/
def Bimap.entries (b : Bimap L R) : Except Error (List (L × R)) := do
  let its ← traverse b .left b.end_left b.fuel b.begin_left
  read_pairs b its

/-- Two keys are equivalent under a comparator: neither precedes the other. -/
def equivalent {K : Type} (cmp : K → K → Bool) (a b : K) : Bool := !cmp a b && !cmp b a

/-- Insertion into a sorted association list, as the specification words it: the list is
unchanged when a pair with an equivalent left key or an equivalent right key is present;
otherwise the pair is placed after the pairs whose left key precedes `l`. -/
def assoc_insert (cl : L → L → Bool) (cr : R → R → Bool) (xs : List (L × R)) (l : L) (r : R) :
    List (L × R) :=
  if xs.any (fun p => equivalent cl p.1 l || equivalent cr p.2 r) then xs
  else xs.takeWhile (fun p => cl p.1 l) ++ (l, r) :: xs.dropWhile (fun p => cl p.1 l)

/-- Erasure from an association list by left key, as the specification words it: the pairs
whose left key is equivalent to `k` are removed. -/
def assoc_erase_left (cl : L → L → Bool) (xs : List (L × R)) (k : L) : List (L × R) :=
  xs.filter (fun p => !equivalent cl p.1 k)

/-- Erasure from an association list by right key, as the specification words it: the pairs
whose right key is equivalent to `k` are removed. -/
def assoc_erase_right (cr : R → R → Bool) (xs : List (L × R)) (k : R) : List (L × R) :=
  xs.filter (fun p => !equivalent cr p.2 k)

/-- The container after the calls `insert(l, r)` for the pairs of a list, in the order of the
list. -/
def insert_all (b : Bimap L R) : List (L × R) → Except Error (Bimap L R)
  | [] => pure b
  | p :: ps => do
    let (b1, _) ← b.insert p.1 p.2
    insert_all b1 ps

/-- The pairs stored at a list of addresses. -/
def Bimap.pairs (b : Bimap L R) (xs : List Nat) : List (L × R) := xs.filterMap b.pair

/-- The search tree property of the nodes linked below the sentinel of side `s`. -/
def Bimap.LinkedSearchTree (b : Bimap L R) (s : Side) : Prop :=
  ∀ a e, InTree b s a → b.base s (.element a) = .ok e →
    (∀ d, Below b s e.left_ d → b.keyLt s d a) ∧ (∀ d, Below b s e.right_ d → b.keyLt s a d)

/-- The links of the nodes linked below the sentinel of side `s` are reciprocal: the parent
link of a child of a linked node references that node; the parent link of the root that the
sentinel references references the sentinel; and a linked node whose parent link references
the sentinel is that root. -/
def Bimap.LinkedReciprocal (b : Bimap L R) (s : Side) : Prop :=
  (∀ a e c, InTree b s a → b.base s (.element a) = .ok e →
    (e.left_ = some c ∨ e.right_ = some c) →
    ∃ ce, b.base s c = .ok ce ∧ ce.parent_ = some (.element a)) ∧
  (∀ root, (b.sentinel_ s).parent_ = some (.element root) →
    ∃ e, b.base s (.element root) = .ok e ∧ e.parent_ = some b.get_sentinel) ∧
  (∀ a e, InTree b s a → b.base s (.element a) = .ok e → e.parent_ = some b.get_sentinel →
    (b.sentinel_ s).parent_ = some (.element a))

/-- In the container `b3`, the object `replace` (a node, or nothing) is linked where the node
`n` was linked in `b`: the slot of the former parent of `n` that referenced `n` references
`replace`, the sentinel being its own `parent_` when it was the parent and nothing replaces
`n`; and the parent link of `replace` references the former parent of `n`. -/
def TakesPlace (b b3 : Bimap L R) (s : Side) (n : Nat) (replace : Ptr) : Prop :=
  ∃ e p pe pe3, b.base s (.element n) = .ok e ∧ e.parent_ = some p ∧
    b.base s p = .ok pe ∧ b3.base s p = .ok pe3 ∧
    (∀ a, p = .element a → (pe.left_ = some (.element n) → pe3.left_ = replace) ∧
      (pe.right_ = some (.element n) → pe3.right_ = replace)) ∧
    (∀ o, p = .sentinel o → pe3.parent_ = some (replace.getD p)) ∧
    (∀ m, replace = some m → ∃ me, b3.base s m = .ok me ∧ me.parent_ = some p)

/-- What `unlink(n)` on side `s` made of the container `b`, whose caches were refreshed for
the erasure before, `b3` being the result: the keys are those of `b`; the traversal of
the side visits what it visited in `b`, without `n`; the linked nodes form a search tree with
reciprocal links; the in-order predecessor of `n` is linked where `n` was when `n` had a left
child, otherwise what the right link of `n` referenced; and the links of `n` reference
`n`. -/
def UnlinkedFrom (b b3 : Bimap L R) (s : Side) (n : Nat) : Prop :=
  (∀ σ a, b3.key σ a = b.key σ a) ∧ b3.get_compare s = b.get_compare s ∧
  (∃ xs : List Nat,
    traverse b s (some b.get_sentinel) b.fuel (b.sentinel_ s).right_ =
      .ok (xs.map (fun a => some (Ref.element a))) ∧
    traverse b3 s (some b3.get_sentinel) b3.fuel (b3.sentinel_ s).right_ =
      .ok ((xs.filter (fun a => decide (a ≠ n))).map (fun a => some (Ref.element a))) ∧
    n ∈ xs ∧ ∀ a, InTree b3 s a ↔ a ∈ xs ∧ a ≠ n) ∧
  b3.LinkedSearchTree s ∧ b3.LinkedReciprocal s ∧
  (∃ e, b.base s (.element n) = .ok e ∧
    ((e.left_ ≠ none ∧ ∃ m, operator_dec b s (some (.element n)) = .ok (some (.element m)) ∧
        TakesPlace b b3 s n (some (.element m))) ∨
      (e.left_ = none ∧ TakesPlace b b3 s n e.right_))) ∧
  b3.base s (.element n) = .ok (reset (.element n))

/-- The node at address `n`, new in `b1`, is linked as a leaf in both trees of `b1`: it has
no children, the slot of its parent that references it was empty in `b`, and every element of
`b` has the parent link it had. -/
def LinkedAsLeaf (b b1 : Bimap L R) (n : Nat) : Prop :=
  ∀ s, (∃ p, b1.base s (.element n) = .ok { parent_ := some p, left_ := none, right_ := none } ∧
      ∀ a pe pe1, p = .element a → b.base s p = .ok pe → b1.base s p = .ok pe1 →
        (pe1.left_ = some (.element n) → pe.left_ = none) ∧
        (pe1.right_ = some (.element n) → pe.right_ = none)) ∧
    ∀ a e, b.base s (.element a) = .ok e →
      ∃ e1, b1.base s (.element a) = .ok e1 ∧ e1.parent_ = e.parent_

/-- The number of nodes on the longest path that descends from the object `x` along child
links of side `s`; the sentinel is not a node. -/
def subtree_height (b : Bimap L R) (s : Side) : Nat → Ptr → Nat
  | 0, _ => 0
  | _ + 1, none => 0
  | _ + 1, some (.sentinel _) => 0
  | fuel + 1, some (.element a) =>
    match b.base s (.element a) with
    | .ok e => 1 + max (subtree_height b s fuel e.left_) (subtree_height b s fuel e.right_)
    | .error _ => 0

/-- The height of the tree of side `s`: the number of nodes on the longest path from the
root. -/
def Bimap.height (b : Bimap L R) (s : Side) : Nat :=
  subtree_height b s b.size_ (b.get_root s)

/-- The key of side `s` of a pair. -/
def pair_key : (s : Side) → L × R → Key L R s
  | .left, p => p.1
  | .right, p => p.2

/-! ## The monad -/

@[simp] theorem ok_bind {ε α β : Type} (a : α) (f : α → Except ε β) :
    (Except.ok a >>= f) = f a := rfl

@[simp] theorem error_bind {ε α β : Type} (e : ε) (f : α → Except ε β) :
    (Except.error e >>= f) = Except.error e := rfl

@[simp] theorem pure_eq_ok {ε α : Type} (a : α) : (pure a : Except ε α) = Except.ok a := rfl

theorem bind_eq_ok {ε α β : Type} {x : Except ε α} {f : α → Except ε β} {v : β} :
    (x >>= f) = Except.ok v ↔ ∃ a, x = Except.ok a ∧ f a = Except.ok v := by
  cases x <;> simp

/-! ## Reading and writing the heap -/

@[simp] theorem base_sentinel_self (b : Bimap L R) (s : Side) :
    b.base s b.get_sentinel = .ok (b.sentinel_ s) := by
  simp [Bimap.base, Bimap.get_sentinel]

theorem live_iff_base (b : Bimap L R) (s : Side) (x : Ref) :
    b.live x ↔ ∃ e, b.base s x = .ok e := by
  cases x with
  | sentinel o =>
    by_cases h : o = b.self <;> simp [Bimap.live, Bimap.base, h]
  | element a =>
    cases h : b.heap a <;> simp [Bimap.live, Bimap.base, h]

theorem live_of_base {b : Bimap L R} {s : Side} {x : Ref} {e : ElementBase}
    (h : b.base s x = .ok e) : b.live x := (live_iff_base b s x).2 ⟨e, h⟩

theorem store_eq_put {b : Bimap L R} {x : Ref} (s : Side) (v : ElementBase) (h : b.live x) :
    b.store s x v = .ok (b.put s x v) := by
  cases x with
  | sentinel o => simp [Bimap.live] at h; simp [Bimap.store, Bimap.put, h]
  | element a =>
    simp only [Bimap.live] at h
    cases h2 : b.heap a with
    | none => simp [h2] at h
    | some e => simp [Bimap.store, Bimap.put, h2]

theorem base_put {b : Bimap L R} {x : Ref} (s : Side) (v : ElementBase) (h : b.live x)
    (s1 : Side) (y : Ref) :
    (b.put s x v).base s1 y = if s1 = s ∧ y = x then .ok v else b.base s1 y := by
  cases x with
  | sentinel o =>
    simp only [Bimap.live] at h
    subst h
    cases y with
    | sentinel o1 =>
      by_cases h1 : o1 = b.self
      · by_cases h2 : s1 = s <;> simp [Bimap.base, Bimap.put, h1, h2, Function.update]
      · simp [Bimap.base, Bimap.put, h1]
    | element a => simp [Bimap.base, Bimap.put]
  | element a =>
    simp only [Bimap.live] at h
    cases h2 : b.heap a with
    | none => simp [h2] at h
    | some e =>
      cases y with
      | sentinel o1 => simp [Bimap.base, Bimap.put, h2]
      | element a1 =>
        by_cases h1 : a1 = a
        · subst h1
          by_cases h3 : s1 = s <;> simp [Bimap.base, Bimap.put, h2, h3, Function.update]
        · simp [Bimap.base, Bimap.put, h2, h1, Function.update]

@[simp] theorem self_put (b : Bimap L R) (s : Side) (x : Ref) (v : ElementBase) :
    (b.put s x v).self = b.self := by
  cases x with
  | sentinel o => rfl
  | element a => simp only [Bimap.put]; cases b.heap a <;> rfl

@[simp] theorem size_put (b : Bimap L R) (s : Side) (x : Ref) (v : ElementBase) :
    (b.put s x v).size_ = b.size_ := by
  cases x with
  | sentinel o => rfl
  | element a => simp only [Bimap.put]; cases b.heap a <;> rfl

@[simp] theorem brk_put (b : Bimap L R) (s : Side) (x : Ref) (v : ElementBase) :
    (b.put s x v).brk = b.brk := by
  cases x with
  | sentinel o => rfl
  | element a => simp only [Bimap.put]; cases b.heap a <;> rfl

@[simp] theorem compare_left_put (b : Bimap L R) (s : Side) (x : Ref) (v : ElementBase) :
    (b.put s x v).compare_left_ = b.compare_left_ := by
  cases x with
  | sentinel o => rfl
  | element a => simp only [Bimap.put]; cases b.heap a <;> rfl

@[simp] theorem compare_right_put (b : Bimap L R) (s : Side) (x : Ref) (v : ElementBase) :
    (b.put s x v).compare_right_ = b.compare_right_ := by
  cases x with
  | sentinel o => rfl
  | element a => simp only [Bimap.put]; cases b.heap a <;> rfl

@[simp] theorem key_put (b : Bimap L R) (s : Side) (x : Ref) (v : ElementBase) (s1 : Side)
    (a : Nat) : (b.put s x v).key s1 a = b.key s1 a := by
  cases x with
  | sentinel o => rfl
  | element a1 =>
    simp only [Bimap.put, Bimap.key]
    cases h : b.heap a1 with
    | none => rfl
    | some e =>
      by_cases h1 : a = a1
      · subst h1; cases s1 <;> simp [Function.update, h, Element.get_key]
      · simp [Function.update, h1]

@[simp] theorem live_put (b : Bimap L R) (s : Side) (x : Ref) (v : ElementBase) (y : Ref) :
    (b.put s x v).live y ↔ b.live y := by
  cases y with
  | sentinel o => simp [Bimap.live]
  | element a =>
    have h := key_put b s x v .left a
    simp only [Bimap.key] at h
    simp only [Bimap.live]
    cases h1 : (b.put s x v).heap a <;> cases h2 : b.heap a <;> simp [h1, h2] at h ⊢


/-! ## Ends of lists of addresses -/

@[simp] theorem firstD_nil (d : Ref) : firstD d [] = d := rfl

@[simp] theorem firstD_cons (d : Ref) (a : Nat) (xs : List Nat) :
    firstD d (a :: xs) = .element a := rfl

theorem firstD_append (d : Ref) (xs ys : List Nat) :
    firstD d (xs ++ ys) = firstD (firstD d ys) xs := by
  cases xs <;> simp

@[simp] theorem lastD_nil (d : Ref) : lastD d [] = d := rfl

@[simp] theorem lastD_append_singleton (d : Ref) (xs : List Nat) (a : Nat) :
    lastD d (xs ++ [a]) = .element a := by
  simp [lastD]

theorem lastD_append (d : Ref) (xs ys : List Nat) :
    lastD d (xs ++ ys) = lastD (lastD d xs) ys := by
  simp only [lastD, List.reverse_append, firstD_append]

@[simp] theorem lastD_cons (d : Ref) (a : Nat) (xs : List Nat) :
    lastD d (a :: xs) = lastD (.element a) xs := by
  have := lastD_append d [a] xs
  simpa [lastD] using this

theorem firstD_of_ne_nil {xs : List Nat} (h : xs ≠ []) (d d1 : Ref) :
    firstD d xs = firstD d1 xs := by
  cases xs with
  | nil => exact absurd rfl h
  | cons a xs => rfl

theorem lastD_of_ne_nil {xs : List Nat} (h : xs ≠ []) (d d1 : Ref) :
    lastD d xs = lastD d1 xs := by
  apply firstD_of_ne_nil
  simpa using h

theorem firstD_mem {xs : List Nat} {d : Ref} {a : Nat} (h : firstD d xs = .element a)
    (hd : d ≠ .element a) : ∃ ys, xs = a :: ys := by
  cases xs with
  | nil => exact absurd h hd
  | cons x xs => simp at h; exact ⟨xs, by rw [h]⟩

theorem lastD_mem {xs : List Nat} {d : Ref} {a : Nat} (h : lastD d xs = .element a)
    (hd : d ≠ .element a) : ∃ ys, xs = ys ++ [a] := by
  obtain ⟨ys, hys⟩ := @firstD_mem xs.reverse d a h hd
  refine ⟨ys.reverse, ?_⟩
  have := congrArg List.reverse hys
  simpa using this

theorem firstD_cases (d : Ref) (xs : List Nat) :
    (xs = [] ∧ firstD d xs = d) ∨ ∃ m, m ∈ xs ∧ firstD d xs = .element m := by
  cases xs with
  | nil => left; simp
  | cons a xs => right; exact ⟨a, by simp, rfl⟩

theorem lastD_cases (d : Ref) (xs : List Nat) :
    (xs = [] ∧ lastD d xs = d) ∨ ∃ m, m ∈ xs ∧ lastD d xs = .element m := by
  rcases firstD_cases d xs.reverse with ⟨h1, h2⟩ | ⟨m, h1, h2⟩
  · left; exact ⟨by simpa using h1, h2⟩
  · right; exact ⟨m, by simpa using h1, h2⟩

/-! ## Trees and paths -/

@[simp] theorem toList_nil : Tree.nil.toList = [] := rfl

@[simp] theorem toList_node (l : Tree) (a : Nat) (r : Tree) :
    (Tree.node l a r).toList = l.toList ++ a :: r.toList := rfl

@[simp] theorem root_nil : Tree.nil.root = none := rfl

@[simp] theorem root_node (l : Tree) (a : Nat) (r : Tree) :
    (Tree.node l a r).root = some (.element a) := rfl

theorem root_eq_none {t : Tree} : t.root = none ↔ t = .nil := by
  cases t <;> simp

theorem toList_eq_nil {t : Tree} : t.toList = [] ↔ t = .nil := by
  cases t <;> simp

theorem root_mem {t : Tree} {a : Nat} (h : t.root = some (.element a)) : a ∈ t.toList := by
  cases t with
  | nil => simp at h
  | node l x r => simp at h; simp [h]

theorem root_ne_sentinel (t : Tree) (o : Nat) : t.root ≠ some (.sentinel o) := by
  cases t <;> simp

theorem toList_length_le_height_bound (t : Tree) : t.height ≤ t.toList.length := by
  induction t with
  | nil => simp [Tree.height]
  | node l a r ihl ihr => simp [Tree.height]; omega

@[simp] theorem plug_nil (t : Tree) : plug [] t = t := rfl

theorem plug_append (c1 c2 : Ctx) (t : Tree) : plug (c1 ++ c2) t = plug c2 (plug c1 t) := by
  induction c1 generalizing t with
  | nil => rfl
  | cons f c ih => cases f <;> simp [plug, ih]

theorem toList_plug (c : Ctx) (t : Tree) :
    (plug c t).toList = before c ++ t.toList ++ after c := by
  induction c generalizing t with
  | nil => simp [before, after]
  | cons f c ih => cases f <;> simp [plug, ih, before, after]

theorem root_plug_cons (f : Frame) (c : Ctx) (t : Tree) :
    ∃ l a r, plug (f :: c) t = .node l a r := by
  induction c generalizing f t with
  | nil => cases f <;> simp [plug]
  | cons g c ih =>
    cases f with
    | left a r => exact ih g (.node t a r)
    | right l a => exact ih g (.node l a t)

/-- The root pointer of a plugged path does not depend on what fills a hole below the
root. -/
theorem root_plug_cons_eq (f : Frame) (c : Ctx) (t1 t2 : Tree) :
    (plug (f :: c) t1).root = (plug (f :: c) t2).root := by
  induction c generalizing f t1 t2 with
  | nil => cases f <;> simp [plug]
  | cons g c ih =>
    cases f with
    | left a r => exact ih g (.node t1 a r) (.node t2 a r)
    | right l a => exact ih g (.node l a t1) (.node l a t2)

theorem exists_plug_of_mem {t : Tree} {x : Nat} (h : x ∈ t.toList) :
    ∃ c l r, t = plug c (.node l x r) := by
  induction t with
  | nil => simp at h
  | node l a r ihl ihr =>
    simp only [toList_node, List.mem_append, List.mem_cons] at h
    rcases h with h | h | h
    · obtain ⟨c, l1, r1, hc⟩ := ihl h
      refine ⟨c ++ [.left a r], l1, r1, ?_⟩
      rw [plug_append, ← hc]; rfl
    · subst h; exact ⟨[], l, r, rfl⟩
    · obtain ⟨c, l1, r1, hc⟩ := ihr h
      refine ⟨c ++ [.right l a], l1, r1, ?_⟩
      rw [plug_append, ← hc]; rfl

theorem holeParent_cases (top : Ref) (c : Ctx) :
    holeParent top c = top ∧ c = [] ∨ ∃ a, holeParent top c = .element a ∧ a ∈ ctxList c := by
  cases c with
  | nil => left; simp [holeParent]
  | cons f c =>
    right
    cases f with
    | left a r => exact ⟨a, rfl, by simp [ctxList, before, after]⟩
    | right l a => exact ⟨a, rfl, by simp [ctxList, before, after]⟩

/-! ## Shapes -/

theorem Shape.congr {b b1 : Bimap L R} {s : Side} {t : Tree} {p : Ref}
    (h : Shape b s t p)
    (hb : ∀ a ∈ t.toList, b1.base s (.element a) = b.base s (.element a)) :
    Shape b1 s t p := by
  induction t generalizing p with
  | nil => trivial
  | node l a r ihl ihr =>
    obtain ⟨h1, h2, h3⟩ := h
    refine ⟨?_, ihl h2 ?_, ihr h3 ?_⟩
    · rw [hb a (by simp)]; exact h1
    · intro x hx; exact hb x (by simp [hx])
    · intro x hx; exact hb x (by simp [hx])

theorem Shape.live {b : Bimap L R} {s : Side} {t : Tree} {p : Ref}
    (h : Shape b s t p) : ∀ a ∈ t.toList, b.live (.element a) := by
  induction t generalizing p with
  | nil => simp
  | node l a r ihl ihr =>
    obtain ⟨h1, h2, h3⟩ := h
    intro x hx
    simp only [toList_node, List.mem_append, List.mem_cons] at hx
    rcases hx with hx | hx | hx
    · exact ihl h2 x hx
    · subst hx; exact live_of_base h1
    · exact ihr h3 x hx

/-- Every node of a shaped tree has an element or the given parent as its parent. -/
theorem Shape.parent_cases {b : Bimap L R} {s : Side} {t : Tree} {p : Ref}
    (h : Shape b s t p) : ∀ a ∈ t.toList, ∃ e, b.base s (.element a) = .ok e ∧
      (e.parent_ = some p ∨ ∃ q, q ∈ t.toList ∧ e.parent_ = some (.element q)) := by
  induction t generalizing p with
  | nil => simp
  | node l a r ihl ihr =>
    obtain ⟨h1, h2, h3⟩ := h
    intro x hx
    simp only [toList_node, List.mem_append, List.mem_cons] at hx
    rcases hx with hx | hx | hx
    · obtain ⟨e, he, hp⟩ := ihl h2 x hx
      refine ⟨e, he, Or.inr ?_⟩
      rcases hp with hp | ⟨q, hq, hp⟩
      · exact ⟨a, by simp, hp⟩
      · exact ⟨q, by simp [hq], hp⟩
    · subst hx; exact ⟨_, h1, Or.inl rfl⟩
    · obtain ⟨e, he, hp⟩ := ihr h3 x hx
      refine ⟨e, he, Or.inr ?_⟩
      rcases hp with hp | ⟨q, hq, hp⟩
      · exact ⟨a, by simp, hp⟩
      · exact ⟨q, by simp [hq], hp⟩

theorem Shape.reparent {b b1 : Bimap L R} {s : Side} {l r : Tree} {a : Nat} {p p1 : Ref}
    (h : Shape b s (.node l a r) p)
    (ha : b1.base s (.element a) = .ok { parent_ := some p1, left_ := l.root, right_ := r.root })
    (hb : ∀ x ∈ l.toList ++ r.toList, b1.base s (.element x) = b.base s (.element x)) :
    Shape b1 s (.node l a r) p1 := by
  obtain ⟨_, h2, h3⟩ := h
  refine ⟨ha, h2.congr ?_, h3.congr ?_⟩
  · intro x hx; exact hb x (by simp [hx])
  · intro x hx; exact hb x (by simp [hx])

theorem ShapeCtx.congr_ctx {b b1 : Bimap L R} {s : Side} {top : Ref} {c : Ctx} {hole : Ptr}
    (h : ShapeCtx b s top c hole)
    (hb : ∀ a ∈ ctxList c, b1.base s (.element a) = b.base s (.element a)) :
    ShapeCtx b1 s top c hole := by
  induction c generalizing hole with
  | nil => trivial
  | cons f c ih =>
    cases f with
    | left a r =>
      obtain ⟨h1, h2, h3⟩ := h
      refine ⟨?_, h2.congr ?_, ih h3 ?_⟩
      · rw [hb a (by simp [ctxList, before, after])]; exact h1
      · intro x hx; exact hb x (by simp [ctxList, before, after, hx])
      · intro x hx
        simp only [ctxList, List.mem_append] at hx
        apply hb
        rcases hx with hx | hx <;> simp [ctxList, before, after, hx]
    | right l a =>
      obtain ⟨h1, h2, h3⟩ := h
      refine ⟨?_, h2.congr ?_, ih h3 ?_⟩
      · rw [hb a (by simp [ctxList, before, after])]; exact h1
      · intro x hx; exact hb x (by simp [ctxList, before, after, hx])
      · intro x hx
        simp only [ctxList, List.mem_append] at hx
        apply hb
        rcases hx with hx | hx <;> simp [ctxList, before, after, hx]

theorem shape_plug {b : Bimap L R} {s : Side} {top : Ref} (c : Ctx) (t : Tree) :
    Shape b s (plug c t) top ↔ ShapeCtx b s top c t.root ∧ Shape b s t (holeParent top c) := by
  induction c generalizing t with
  | nil => simp [ShapeCtx, holeParent]
  | cons f c ih =>
    cases f with
    | left a r =>
      simp only [plug, ih, ShapeCtx, holeParent, Shape, root_node]
      tauto
    | right l a =>
      simp only [plug, ih, ShapeCtx, holeParent, Shape, root_node]
      tauto

/-- Changing the pointer in the hole: only the child slot of the hole's parent differs. -/
theorem ShapeCtx.set_hole {b b1 : Bimap L R} {s : Side} {top : Ref} {c : Ctx} {hole hole1 : Ptr}
    (h : ShapeCtx b s top c hole)
    (hf : ∀ f c1, c = f :: c1 → ∃ e, b.base s (holeParent top c) = .ok e ∧
      match f with
      | .left _ _ => b1.base s (holeParent top c) = .ok { e with left_ := hole1 }
      | .right _ _ => b1.base s (holeParent top c) = .ok { e with right_ := hole1 })
    (hb : ∀ a ∈ ctxList c, .element a ≠ holeParent top c →
      b1.base s (.element a) = b.base s (.element a))
    (hn : (ctxList c).Nodup) :
    ShapeCtx b1 s top c hole1 := by
  cases c with
  | nil => trivial
  | cons f c =>
    obtain ⟨e, he, hf⟩ := hf f c rfl
    cases f with
    | left a r =>
      obtain ⟨h1, h2, h3⟩ := h
      simp only [holeParent] at he hf hb
      rw [h1] at he
      have hn1 : a ∉ before c ∧ a ∉ r.toList ∧ a ∉ after c := by
        simp [ctxList, before, after, List.nodup_append, List.nodup_cons] at hn
        tauto
      refine ⟨?_, h2.congr ?_, h3.congr_ctx ?_⟩
      · rw [hf]; cases he; rfl
      · intro x hx
        apply hb x (by simp [ctxList, before, after, hx])
        intro hxa; cases hxa; exact hn1.2.1 hx
      · intro x hx
        simp only [ctxList, List.mem_append] at hx
        apply hb x (by rcases hx with hx | hx <;> simp [ctxList, before, after, hx])
        intro hxa; cases hxa
        rcases hx with hx | hx
        · exact hn1.1 hx
        · exact hn1.2.2 hx
    | right l a =>
      obtain ⟨h1, h2, h3⟩ := h
      simp only [holeParent] at he hf hb
      rw [h1] at he
      have hn1 : a ∉ before c ∧ a ∉ l.toList ∧ a ∉ after c := by
        simp [ctxList, before, after, List.nodup_append, List.nodup_cons] at hn
        tauto
      refine ⟨?_, h2.congr ?_, h3.congr_ctx ?_⟩
      · rw [hf]; cases he; rfl
      · intro x hx
        apply hb x (by simp [ctxList, before, after, hx])
        intro hxa; cases hxa; exact hn1.2.1 hx
      · intro x hx
        simp only [ctxList, List.mem_append] at hx
        apply hb x (by rcases hx with hx | hx <;> simp [ctxList, before, after, hx])
        intro hxa; cases hxa
        rcases hx with hx | hx
        · exact hn1.1 hx
        · exact hn1.2.2 hx


/-! ## Sentinel detection -/

theorem is_sentinel_of_null_child {b : Bimap L R} {s : Side} {x : Ref} {e : ElementBase}
    (hx : b.base s x = .ok e) (h : e.left_ = none ∨ e.right_ = none) :
    is_sentinel b s x = .ok false := by
  simp only [is_sentinel, hx, ok_bind]
  rcases h with h | h
  · simp [h]
  · cases e.left_ <;> simp [h]

theorem is_sentinel_of_parent {b : Bimap L R} {s : Side} {x p : Ref} {e pe : ElementBase}
    (hx : b.base s x = .ok e) (hp : e.parent_ = some p) (hne : p ≠ x)
    (hpe : b.base s p = .ok pe) (hpp : pe.parent_ ≠ some x) :
    is_sentinel b s x = .ok false := by
  simp only [is_sentinel, hx, ok_bind]
  cases hl : e.left_ with
  | none => rfl
  | some l =>
    cases hr : e.right_ with
    | none => rfl
    | some r => simp [hp, hne, hpe, hpp]

theorem is_sentinel_root {b : Bimap L R} {s : Side} {x p l r : Ref} {pe le re : ElementBase}
    (hx : b.base s x = .ok { parent_ := some p, left_ := some l, right_ := some r })
    (hne : p ≠ x) (hpe : b.base s p = .ok pe)
    (hle : b.base s l = .ok le) (hlp : le.parent_ = some x)
    (hre : b.base s r = .ok re) (hrp : re.parent_ = some x)
    (hc : pe.left_ ≠ none ∨ pe.right_ ≠ none) :
    is_sentinel b s x = .ok false := by
  simp only [is_sentinel, hx, ok_bind]
  by_cases hpp : pe.parent_ = some x
  · simp [hne, hpe, hpp, hle, hlp, hre, hrp]
    intro h1 h2; rcases hc with hc | hc
    · exact hc h1
    · exact hc h2
  · simp [hne, hpe, hpp]

theorem is_sentinel_self {b : Bimap L R} {s : Side} {x l r : Ref}
    (hx : b.base s x = .ok { parent_ := some x, left_ := some l, right_ := some r }) :
    is_sentinel b s x = .ok true := by
  simp [is_sentinel, hx]

theorem is_sentinel_anchor {b : Bimap L R} {s : Side} {x p l r : Ref} {pe le : ElementBase}
    (hx : b.base s x = .ok { parent_ := some p, left_ := some l, right_ := some r })
    (hne : p ≠ x) (hpe : b.base s p = .ok pe) (hpp : pe.parent_ = some x)
    (hle : b.base s l = .ok le)
    (h : le.parent_ ≠ some x ∨ ∃ re, b.base s r = .ok re ∧
      (re.parent_ ≠ some x ∨ (pe.left_ = none ∧ pe.right_ = none))) :
    is_sentinel b s x = .ok true := by
  simp only [is_sentinel, hx, ok_bind]
  simp only [Option.some.injEq, hne, if_false, hpe, ok_bind, hpp, if_true, hle]
  by_cases h1 : le.parent_ = some x
  · rcases h with h | ⟨re, hre, h⟩
    · exact absurd h1 h
    · simp only [h1, ne_eq, not_true_eq_false, if_false, hre, ok_bind]
      rcases h with h | h
      · simp [h]
      · simp [h]
  · simp [h1]

/-- `is_sentinel` returns for every object whose parent and children are alive. -/
theorem is_sentinel_total {b : Bimap L R} {s : Side} {x p : Ref} {e : ElementBase}
    (hx : b.base s x = .ok e) (hp : e.parent_ = some p) (hpl : b.live p)
    (hl : ∀ y, e.left_ = some y → b.live y) (hr : ∀ y, e.right_ = some y → b.live y) :
    ∃ v, is_sentinel b s x = .ok v := by
  obtain ⟨pe, hpe⟩ := (live_iff_base b s p).1 hpl
  simp only [is_sentinel, hx, ok_bind]
  cases hl1 : e.left_ with
  | none => exact ⟨false, rfl⟩
  | some l =>
    cases hr1 : e.right_ with
    | none => exact ⟨false, rfl⟩
    | some r =>
      obtain ⟨le, hle⟩ := (live_iff_base b s l).1 (hl l hl1)
      obtain ⟨re, hre⟩ := (live_iff_base b s r).1 (hr r hr1)
      simp only [hp, hpe, hle, hre, ok_bind]
      split_ifs <;> simp

/-- `is_sentinel` reads the object, its parent, and the parent links of its children. -/
theorem is_sentinel_congr {b b1 : Bimap L R} {s : Side} {x : Ref} {e : ElementBase}
    (hx : b.base s x = .ok e) (hx1 : b1.base s x = .ok e)
    (hp : ∀ p, e.parent_ = some p → b1.base s p = b.base s p)
    (hl : ∀ l, e.left_ = some l →
      (b1.base s l).map ElementBase.parent_ = (b.base s l).map ElementBase.parent_)
    (hr : ∀ r, e.right_ = some r →
      (b1.base s r).map ElementBase.parent_ = (b.base s r).map ElementBase.parent_) :
    is_sentinel b1 s x = is_sentinel b s x := by
  simp only [is_sentinel, hx, hx1, ok_bind]
  cases hl1 : e.left_ with
  | none => rfl
  | some l =>
    cases hr1 : e.right_ with
    | none => rfl
    | some r =>
      cases hp1 : e.parent_ with
      | none => rfl
      | some p =>
        have h1 := hp p hp1
        have h2 := hl l hl1
        have h3 := hr r hr1
        simp only [h1]
        cases hpe : b.base s p with
        | error err => simp
        | ok pe =>
          simp only [ok_bind]
          cases hle : b.base s l with
          | error err =>
            cases hle1 : b1.base s l with
            | error err1 => simp [hle, hle1, Except.map] at h2; subst h2; rfl
            | ok le1 => simp [hle, hle1, Except.map] at h2
          | ok le =>
            cases hle1 : b1.base s l with
            | error err1 => simp [hle, hle1, Except.map] at h2
            | ok le1 =>
              simp [hle, hle1, Except.map] at h2
              simp only [h2, ok_bind]
              cases hre : b.base s r with
              | error err =>
                cases hre1 : b1.base s r with
                | error err1 => simp [hre, hre1, Except.map] at h3; subst h3; rfl
                | ok re1 => simp [hre, hre1, Except.map] at h3
              | ok re =>
                cases hre1 : b1.base s r with
                | error err1 => simp [hre, hre1, Except.map] at h3
                | ok re1 =>
                  simp [hre, hre1, Except.map] at h3
                  simp only [h3, ok_bind]


/-! ## Navigation in a well linked tree -/

theorem nodup_plug {c : Ctx} {l r : Tree} {a : Nat}
    (h : (plug c (.node l a r)).toList.Nodup) :
    (ctxList c).Nodup ∧ l.toList.Nodup ∧ r.toList.Nodup ∧ a ∉ ctxList c ∧ a ∉ l.toList ∧
      a ∉ r.toList ∧ (∀ x ∈ l.toList, x ∉ ctxList c) ∧ (∀ x ∈ r.toList, x ∉ ctxList c) ∧
      (∀ x ∈ l.toList, x ∉ r.toList) := by
  rw [toList_plug] at h
  simp only [toList_node, List.nodup_append, List.nodup_cons, List.mem_append, List.mem_cons,
    ctxList, List.Disjoint] at h ⊢
  obtain ⟨⟨h1, ⟨h2, ⟨h3, h4⟩, h5⟩, h6⟩, h7, h8⟩ := h
  refine ⟨⟨h1, h7, fun x hx hx2 => h8 (Or.inl hx) hx2⟩, h2, h4, ?_, ?_, h3, ?_, ?_, ?_⟩
  · rintro (hx | hx)
    · exact h6 hx (Or.inr (Or.inl rfl))
    · exact h8 (Or.inr (Or.inr (Or.inl rfl))) hx
  · intro hx; exact h5 hx (Or.inl rfl)
  · rintro x hx (hx2 | hx2)
    · exact h6 hx2 (Or.inl hx)
    · exact h8 (Or.inr (Or.inl hx)) hx2
  · rintro x hx (hx2 | hx2)
    · exact h6 hx2 (Or.inr (Or.inr hx))
    · exact h8 (Or.inr (Or.inr (Or.inr hx))) hx2
  · intro x hx hx2; exact h5 hx (Or.inr hx2)

theorem holeParent_ne {top : Ref} {c : Ctx} {a : Nat} (ha : a ∉ ctxList c)
    (ht : top ≠ .element a) : holeParent top c ≠ .element a := by
  rcases holeParent_cases top c with ⟨h, _⟩ | ⟨q, h, hq⟩
  · rw [h]; exact ht
  · rw [h]; intro h2; cases h2; exact ha hq

/-- The links of a node located by a path. -/
theorem Links.base_at {b : Bimap L R} {s : Side} {t : Tree} (hn : Links b s t)
    {c : Ctx} {l r : Tree} {a : Nat} (ht : t = plug c (.node l a r)) :
    b.base s (.element a) =
      .ok { parent_ := some (holeParent b.get_sentinel c), left_ := l.root, right_ := r.root } := by
  have h := hn.shape
  rw [ht, shape_plug] at h
  exact h.2.1

theorem Links.is_sentinel_element {b : Bimap L R} {s : Side} {t : Tree} (hn : Links b s t)
    {a : Nat} (ha : a ∈ t.toList) : is_sentinel b s (.element a) = .ok false := by
  obtain ⟨c, l, r, ht⟩ := exists_plug_of_mem ha
  have hb := hn.base_at ht
  have hnd := hn.nodup
  rw [ht] at hnd
  obtain ⟨hn1, hn2, hn3, hn4, hn5, hn6, hn7, hn8, hn9⟩ := nodup_plug hnd
  have hsh := hn.shape
  rw [ht, shape_plug] at hsh
  obtain ⟨hctx, -, hl, hr⟩ := hsh
  cases l with
  | nil => exact is_sentinel_of_null_child hb (Or.inl rfl)
  | node ll la lr =>
    cases r with
    | nil => exact is_sentinel_of_null_child hb (Or.inr rfl)
    | node rl ra rr =>
      cases c with
      | nil =>
        have hanchor := hn.anchor
        rw [ht] at hanchor
        simp only [plug_nil, root_node, Option.getD_some] at hanchor
        cases hle : (b.sentinel_ s).left_ with
        | none => exact absurd hle hn.cache
        | some hi =>
          refine @is_sentinel_root _ _ _ _ _ b.get_sentinel _ _ (b.sentinel_ s) _ _ hb ?_ ?_ hl.1 rfl
            hr.1 rfl (Or.inl ?_)
          · simp [Bimap.get_sentinel]
          · simp
          · simp [hle]
      | cons f c =>
        cases f with
        | left pa sr =>
          obtain ⟨h1, h2, h3⟩ := hctx
          refine is_sentinel_of_parent hb rfl ?_ h1 ?_
          · simp only [holeParent]
            intro h; cases h; exact hn4 (by simp [ctxList, before, after])
          · refine fun h => holeParent_ne ?_ ?_ (Option.some.inj h)
            · intro hx; apply hn4
              simp only [ctxList, List.mem_append] at hx
              rcases hx with hx | hx <;> simp [ctxList, before, after, hx]
            · simp [Bimap.get_sentinel]
        | right sl pa =>
          obtain ⟨h1, h2, h3⟩ := hctx
          refine is_sentinel_of_parent hb rfl ?_ h1 ?_
          · simp only [holeParent]
            intro h; cases h; exact hn4 (by simp [ctxList, before, after])
          · refine fun h => holeParent_ne ?_ ?_ (Option.some.inj h)
            · intro hx; apply hn4
              simp only [ctxList, List.mem_append] at hx
              rcases hx with hx | hx <;> simp [ctxList, before, after, hx]
            · simp [Bimap.get_sentinel]

theorem Links.has_left {b : Bimap L R} {s : Side} {t : Tree} (hn : Links b s t)
    {c : Ctx} {l r : Tree} {a : Nat} (ht : t = plug c (.node l a r)) :
    has_left b s (.element a) = .ok l.root.isSome := by
  simp only [ct.has_left, hn.base_at ht, ok_bind]
  cases l with
  | nil => rfl
  | node ll la lr =>
    have h : la ∈ t.toList := by rw [ht, toList_plug]; simp
    simp [hn.is_sentinel_element h]

theorem Links.has_right {b : Bimap L R} {s : Side} {t : Tree} (hn : Links b s t)
    {c : Ctx} {l r : Tree} {a : Nat} (ht : t = plug c (.node l a r)) :
    has_right b s (.element a) = .ok r.root.isSome := by
  simp only [ct.has_right, hn.base_at ht, ok_bind]
  cases r with
  | nil => rfl
  | node rl ra rr =>
    have h : ra ∈ t.toList := by rw [ht, toList_plug]; simp
    simp [hn.is_sentinel_element h]

theorem mem_plug_self (c : Ctx) (l r : Tree) (a : Nat) : a ∈ (plug c (.node l a r)).toList := by
  rw [toList_plug]; simp

theorem Nav.has_parent {b : Bimap L R} {s : Side} {t : Tree} (hn : Nav b s t)
    {c : Ctx} {l r : Tree} {a : Nat} (ht : t = plug c (.node l a r)) :
    has_parent b s (.element a) = .ok (!c.isEmpty) := by
  simp only [ct.has_parent, hn.base_at ht, ok_bind]
  cases c with
  | nil => simp [holeParent, hn.is_sent]
  | cons f c =>
    have h : ∀ pa l1 r1, t = plug c (.node l1 pa r1) →
        is_sentinel b s (.element pa) = .ok false := by
      intro pa l1 r1 h1
      apply hn.is_sentinel_element
      rw [h1]; exact mem_plug_self _ _ _ _
    cases f with
    | left pa sr => simp [holeParent, h pa _ _ ht]
    | right sl pa => simp [holeParent, h pa _ _ ht]

theorem Links.to_left {b : Bimap L R} {s : Side} {t : Tree} (hn : Links b s t)
    {c : Ctx} {l r : Tree} {a : Nat} (ht : t = plug c (.node l a r)) :
    to_left b s (some (.element a)) =
      .ok (l.root.isSome, if l.root.isSome then l.root else some (.element a)) := by
  have h : a ∈ t.toList := by rw [ht]; exact mem_plug_self _ _ _ _
  simp only [ct.to_left, hn.is_sentinel_element h, hn.has_left ht, hn.base_at ht, ok_bind,
    pure_eq_ok]
  cases l <;> simp

theorem Links.to_right {b : Bimap L R} {s : Side} {t : Tree} (hn : Links b s t)
    {c : Ctx} {l r : Tree} {a : Nat} (ht : t = plug c (.node l a r)) :
    to_right b s (some (.element a)) =
      .ok (r.root.isSome, if r.root.isSome then r.root else some (.element a)) := by
  have h : a ∈ t.toList := by rw [ht]; exact mem_plug_self _ _ _ _
  simp only [ct.to_right, hn.is_sentinel_element h, hn.has_right ht, hn.base_at ht, ok_bind,
    pure_eq_ok]
  cases r <;> simp

theorem Nav.to_parent {b : Bimap L R} {s : Side} {t : Tree} (hn : Nav b s t)
    {c : Ctx} {l r : Tree} {a : Nat} (ht : t = plug c (.node l a r)) :
    to_parent b s (some (.element a)) =
      .ok (!c.isEmpty, if c.isEmpty then some (.element a)
        else some (holeParent b.get_sentinel c)) := by
  have h : a ∈ t.toList := by rw [ht]; exact mem_plug_self _ _ _ _
  simp only [ct.to_parent, hn.is_sentinel_element h, hn.has_parent ht, hn.base_at ht, ok_bind,
    pure_eq_ok]
  cases c <;> simp

theorem Nav.is_right_child {b : Bimap L R} {s : Side} {t : Tree} (hn : Nav b s t)
    {c : Ctx} {l r : Tree} {a : Nat} (ht : t = plug c (.node l a r)) :
    is_right_child b s (.element a) = .ok (holeIsRight c) := by
  simp only [ct.is_right_child, hn.has_parent ht, hn.base_at ht, ok_bind]
  have hsh := hn.shape
  rw [ht, shape_plug] at hsh
  have hnd := hn.nodup
  rw [ht] at hnd
  obtain ⟨hn1, hn2, hn3, hn4, hn5, hn6, hn7, hn8, hn9⟩ := nodup_plug hnd
  cases c with
  | nil => simp [holeIsRight]
  | cons f c =>
    cases f with
    | left pa sr =>
      simp only [List.isEmpty_cons, Bool.not_false, Bool.not_true, Bool.false_eq_true, if_false,
        holeParent, hsh.1.1, ok_bind, holeIsRight, pure_eq_ok]
      congr 1
      simp only [decide_eq_false_iff_not]
      intro h
      have := root_mem h
      exact hn4 (by simp [ctxList, before, after, this])
    | right sl pa =>
      simp [holeParent, hsh.1.1, holeIsRight]

theorem Nav.is_left_child {b : Bimap L R} {s : Side} {t : Tree} (hn : Nav b s t)
    {c : Ctx} {l r : Tree} {a : Nat} (ht : t = plug c (.node l a r)) :
    is_left_child b s (.element a) = .ok (holeIsLeft c) := by
  simp only [ct.is_left_child, hn.has_parent ht, hn.base_at ht, ok_bind]
  have hsh := hn.shape
  rw [ht, shape_plug] at hsh
  have hnd := hn.nodup
  rw [ht] at hnd
  obtain ⟨hn1, hn2, hn3, hn4, hn5, hn6, hn7, hn8, hn9⟩ := nodup_plug hnd
  cases c with
  | nil => simp [holeIsLeft]
  | cons f c =>
    cases f with
    | right sl pa =>
      simp only [List.isEmpty_cons, Bool.not_false, Bool.not_true, Bool.false_eq_true, if_false,
        holeParent, hsh.1.1, ok_bind, holeIsLeft, pure_eq_ok]
      congr 1
      simp only [decide_eq_false_iff_not]
      intro h
      have := root_mem h
      exact hn4 (by simp [ctxList, before, after, this])
    | left pa sr =>
      simp [holeParent, hsh.1.1, holeIsLeft]

/-! ## The loops of the iterators -/

theorem Links.descend_left {b : Bimap L R} {s : Side} {t : Tree} (hn : Links b s t)
    (l : Tree) (a : Nat) (r : Tree) (c : Ctx) (ht : t = plug c (.node l a r))
    (fuel : Nat) (hf : l.toList.length < fuel) :
    descend_left b s fuel (some (.element a)) =
      .ok (some (firstD (.element a) l.toList)) := by
  induction l generalizing a r c fuel with
  | nil =>
    cases fuel with
    | zero => omega
    | succ fuel => simp [ct.descend_left, hn.to_left ht]
  | node ll la lr ihl _ =>
    cases fuel with
    | zero => omega
    | succ fuel =>
      simp only [ct.descend_left, hn.to_left ht, ok_bind, root_node, Option.isSome_some,
        if_true]
      have ht2 : t = plug (.left a r :: c) (.node ll la lr) := by rw [ht]; rfl
      rw [ihl la lr (.left a r :: c) ht2 fuel (by simp at hf; omega)]
      simp [firstD_append]

theorem Links.descend_right {b : Bimap L R} {s : Side} {t : Tree} (hn : Links b s t)
    (l : Tree) (a : Nat) (r : Tree) (c : Ctx) (ht : t = plug c (.node l a r))
    (fuel : Nat) (hf : r.toList.length < fuel) :
    descend_right b s fuel (some (.element a)) =
      .ok (some (lastD (.element a) r.toList)) := by
  induction r generalizing a l c fuel with
  | nil =>
    cases fuel with
    | zero => omega
    | succ fuel => simp [ct.descend_right, hn.to_right ht]
  | node rl ra rr _ ihr =>
    cases fuel with
    | zero => omega
    | succ fuel =>
      simp only [ct.descend_right, hn.to_right ht, ok_bind, root_node, Option.isSome_some,
        if_true]
      have ht2 : t = plug (.right l a :: c) (.node rl ra rr) := by rw [ht]; rfl
      rw [ihr rl ra (.right l a :: c) ht2 fuel (by simp at hf; omega)]
      simp [lastD_append]

theorem aboveRight_eq (top : Ref) (c : Ctx) : aboveRight top c = firstD top (after c) := by
  induction c with
  | nil => rfl
  | cons f c ih => cases f <;> simp [aboveRight, after, firstD, ih]

theorem Nav.climb_right {b : Bimap L R} {s : Side} {t : Tree} (hn : Nav b s t)
    (c : Ctx) (l : Tree) (a : Nat) (r : Tree) (ht : t = plug c (.node l a r))
    (fuel : Nat) (hf : c.length < fuel) :
    ∃ top te, climb_right b s fuel (some (.element a)) = .ok (some top) ∧
      b.base s top = .ok te ∧ te.parent_ = some (aboveRight b.get_sentinel c) := by
  induction c generalizing l a r fuel with
  | nil =>
    cases fuel with
    | zero => omega
    | succ fuel =>
      refine ⟨.element a, _, ?_, hn.base_at ht, rfl⟩
      simp [ct.climb_right, hn.is_right_child ht, holeIsRight]
  | cons f c ih =>
    cases fuel with
    | zero => omega
    | succ fuel =>
      cases f with
      | left pa sr =>
        refine ⟨.element a, _, ?_, hn.base_at ht, rfl⟩
        simp [ct.climb_right, hn.is_right_child ht, holeIsRight]
      | right sl pa =>
        have ht2 : t = plug c (.node sl pa (.node l a r)) := by rw [ht]; rfl
        obtain ⟨top, te, h1, h2, h3⟩ := ih sl pa (.node l a r) ht2 fuel (by simp at hf; omega)
        refine ⟨top, te, ?_, h2, h3⟩
        simp [ct.climb_right, hn.is_right_child ht, holeIsRight, hn.to_parent ht, holeParent, h1]

theorem aboveLeft_eq (a : Nat) (c : Ctx) (d : Ref) (h : before c ≠ []) :
    aboveLeft a c = lastD d (before c) := by
  induction c generalizing a with
  | nil => simp [before] at h
  | cons f c ih =>
    cases f with
    | left pa sr => simp only [aboveLeft, before] at h ⊢; exact ih pa h
    | right sl pa =>
      simp only [aboveLeft, before]
      rw [← List.append_assoc, lastD_append_singleton]

theorem Nav.climb_left {b : Bimap L R} {s : Side} {t : Tree} (hn : Nav b s t)
    (c : Ctx) (l : Tree) (a : Nat) (r : Tree) (ht : t = plug c (.node l a r))
    (fuel : Nat) (hf : c.length < fuel) :
    ∃ top te, climb_left b s fuel (some (.element a)) = .ok (some (.element top)) ∧
      b.base s (.element top) = .ok te ∧
      (te.parent_ = some b.get_sentinel ∧ aboveLeft a c = .element top ∨
        ∃ pa, te.parent_ = some (.element pa) ∧ pa ∈ t.toList ∧ aboveLeft a c = .element pa) := by
  induction c generalizing l a r fuel with
  | nil =>
    cases fuel with
    | zero => omega
    | succ fuel =>
      refine ⟨a, _, ?_, hn.base_at ht, Or.inl ⟨rfl, rfl⟩⟩
      simp [ct.climb_left, hn.is_left_child ht, holeIsLeft]
  | cons f c ih =>
    cases fuel with
    | zero => omega
    | succ fuel =>
      cases f with
      | right sl pa =>
        refine ⟨a, _, ?_, hn.base_at ht, Or.inr ⟨pa, rfl, ?_, rfl⟩⟩
        · simp [ct.climb_left, hn.is_left_child ht, holeIsLeft]
        · have ht2 : t = plug c (.node sl pa (.node l a r)) := by rw [ht]; rfl
          rw [ht2]; exact mem_plug_self _ _ _ _
      | left pa sr =>
        have ht2 : t = plug c (.node (.node l a r) pa sr) := by rw [ht]; rfl
        obtain ⟨top, te, h1, h2, h3⟩ := ih (.node l a r) pa sr ht2 fuel (by simp at hf; omega)
        refine ⟨top, te, ?_, h2, h3⟩
        simp [ct.climb_left, hn.is_left_child ht, holeIsLeft, hn.to_parent ht, holeParent, h1]

theorem ctx_length_le (c : Ctx) : c.length ≤ (ctxList c).length := by
  induction c with
  | nil => simp
  | cons f c ih =>
    cases f <;> simp [ctxList, before, after] at ih ⊢ <;> omega

theorem length_plug (c : Ctx) (t : Tree) :
    (plug c t).toList.length = (ctxList c).length + t.toList.length := by
  rw [toList_plug]; simp [ctxList]; omega

/-! ## Increment and decrement -/

theorem Nav.operator_inc {b : Bimap L R} {s : Side} {t : Tree} (hn : Nav b s t)
    {c : Ctx} {l r : Tree} {a : Nat} (ht : t = plug c (.node l a r))
    (hsz : t.toList.length ≤ b.size_) :
    operator_inc b s (some (.element a)) =
      .ok (some (firstD b.get_sentinel (r.toList ++ after c))) := by
  have ha : a ∈ t.toList := by rw [ht]; exact mem_plug_self _ _ _ _
  have hlen := length_plug c (.node l a r)
  rw [← ht] at hlen
  simp only [toList_node, List.length_append, List.length_cons] at hlen
  simp only [ct.operator_inc, hn.is_sentinel_element ha, ok_bind, hn.to_right ht]
  cases r with
  | nil =>
    obtain ⟨top, te, h1, h2, h3⟩ := hn.climb_right c l a .nil ht b.fuel (by
      have := ctx_length_le c
      simp only [Bimap.fuel]; omega)
    simp [h1, Bimap.base_at, h2, h3, aboveRight_eq]
  | node rl ra rr =>
    have ht2 : t = plug (.right l a :: c) (.node rl ra rr) := by rw [ht]; rfl
    have := hn.descend_left rl ra rr (.right l a :: c) ht2 b.fuel (by
      simp only [toList_node, List.length_append, List.length_cons, Bimap.fuel] at hlen ⊢
      omega)
    simp [this, firstD_append]

theorem Nav.operator_inc_sentinel {b : Bimap L R} {s : Side} {t : Tree} (hn : Nav b s t) :
    ct.operator_inc b s (some b.get_sentinel) = .ok (some b.get_sentinel) := by
  simp [ct.operator_inc, hn.is_sent]

theorem Nav.operator_dec {b : Bimap L R} {s : Side} {t : Tree} (hn : Nav b s t)
    {c : Ctx} {l r : Tree} {a : Nat} (ht : t = plug c (.node l a r))
    (hsz : t.toList.length ≤ b.size_) :
    operator_dec b s (some (.element a)) = .ok (some (lastD (aboveLeft a c) l.toList)) := by
  have ha : a ∈ t.toList := by rw [ht]; exact mem_plug_self _ _ _ _
  have hlen := length_plug c (.node l a r)
  rw [← ht] at hlen
  simp only [toList_node, List.length_append, List.length_cons] at hlen
  simp only [ct.operator_dec, hn.is_sentinel_element ha, ok_bind, hn.to_left ht]
  cases l with
  | nil =>
    obtain ⟨top, te, h1, h2, h3⟩ := hn.climb_left c .nil a r ht b.fuel (by
      have := ctx_length_le c
      simp only [Bimap.fuel]; omega)
    rcases h3 with ⟨h3, h4⟩ | ⟨pa, h3, h4, h5⟩
    · simp [h1, Bimap.base_at, h2, h3, hn.is_sent, h4]
    · simp [h1, Bimap.base_at, h2, h3, hn.is_sentinel_element h4, h5]
  | node ll la lr =>
    have ht2 : t = plug (.left a r :: c) (.node ll la lr) := by rw [ht]; rfl
    have := hn.descend_right ll la lr (.left a r :: c) ht2 b.fuel (by
      simp only [toList_node, List.length_append, List.length_cons, Bimap.fuel] at hlen ⊢
      omega)
    simp [this, lastD_append]

theorem Nav.operator_dec_sentinel {b : Bimap L R} {s : Side} {t : Tree} (hn : Nav b s t) :
    ct.operator_dec b s (some b.get_sentinel) = .ok (b.sentinel_ s).left_ := by
  simp [ct.operator_dec, hn.is_sent]


/-! ## The invariant of one side -/

theorem keyLt_irrefl {b : Bimap L R} {s : Side} (ho : StrictWeakOrder (b.get_compare s))
    (x : Nat) : ¬ b.keyLt s x x := by
  rintro ⟨kx, ky, h1, h2, h3⟩
  rw [h1] at h2; cases h2
  rw [ho.irrefl] at h3; cases h3

theorem keyLt_trans {b : Bimap L R} {s : Side} (ho : StrictWeakOrder (b.get_compare s))
    {x y z : Nat} (h1 : b.keyLt s x y) (h2 : b.keyLt s y z) : b.keyLt s x z := by
  obtain ⟨kx, ky, hx, hy, hxy⟩ := h1
  obtain ⟨ky1, kz, hy1, hz, hyz⟩ := h2
  rw [hy] at hy1; cases hy1
  exact ⟨kx, kz, hx, hz, ho.trans _ _ _ hxy hyz⟩

theorem nodup_of_sorted {b : Bimap L R} {s : Side} (ho : StrictWeakOrder (b.get_compare s))
    {xs : List Nat} (h : xs.Pairwise (b.keyLt s)) : xs.Nodup := by
  refine List.Pairwise.imp ?_ h
  intro x y hxy hEq
  subst hEq
  exact keyLt_irrefl ho x hxy

theorem Shape.parent_ne_sentinel {b : Bimap L R} {s : Side} {t : Tree} {a : Nat}
    (h : Shape b s t (.element a)) {x : Nat} (hx : x ∈ t.toList) (o : Nat) :
    ∃ e, b.base s (.element x) = .ok e ∧ e.parent_ ≠ some (.sentinel o) := by
  obtain ⟨e, he, hp⟩ := h.parent_cases x hx
  refine ⟨e, he, ?_⟩
  rcases hp with hp | ⟨q, _, hp⟩ <;> simp [hp]

theorem Linked.sentinel_recognised {b : Bimap L R} {s : Side} {t : Tree}
    (h : Linked b s t (lastD b.get_sentinel t.toList) (firstD b.get_sentinel t.toList)) :
    is_sentinel b s b.get_sentinel = .ok true := by
  have hs := h.sentinel
  unfold SentinelFor at hs
  cases t with
  | nil =>
    apply is_sentinel_self (l := b.get_sentinel) (r := b.get_sentinel)
    simp [hs]
  | node l a r =>
    obtain ⟨ha, hl, hr⟩ := h.shape
    simp only [root_node, Option.getD_some, toList_node] at hs
    have hb : b.base s b.get_sentinel = .ok
        { parent_ := some (.element a),
          left_ := some (lastD b.get_sentinel (l.toList ++ a :: r.toList)),
          right_ := some (firstD b.get_sentinel (l.toList ++ a :: r.toList)) } := by
      simp [hs]
    have hhi : lastD b.get_sentinel (l.toList ++ a :: r.toList) = lastD (.element a) r.toList := by
      rw [lastD_append, lastD_cons]
    have hlo : firstD b.get_sentinel (l.toList ++ a :: r.toList)
        = firstD (.element a) l.toList := by
      rw [firstD_append, firstD_cons]
    rw [hhi, hlo] at hb
    rcases lastD_cases (.element a) r.toList with ⟨h1, h2⟩ | ⟨m, h1, h2⟩
    · rcases firstD_cases (.element a) l.toList with ⟨h3, h4⟩ | ⟨m, h3, h4⟩
      · rw [h2, h4] at hb
        refine is_sentinel_anchor hb (by simp [Bimap.get_sentinel]) ha rfl ha
          (Or.inr ⟨_, ha, Or.inr ?_⟩)
        simp [root_eq_none, toList_eq_nil.1 h1, toList_eq_nil.1 h3]
      · rw [h2, h4] at hb
        obtain ⟨e, he, hp⟩ := hl.parent_ne_sentinel h3 b.self
        exact is_sentinel_anchor hb (by simp [Bimap.get_sentinel]) ha rfl ha
          (Or.inr ⟨e, he, Or.inl hp⟩)
    · rw [h2] at hb
      obtain ⟨e, he, hp⟩ := hr.parent_ne_sentinel h1 b.self
      exact is_sentinel_anchor hb (by simp [Bimap.get_sentinel]) ha rfl he (Or.inl hp)

theorem SideInv.is_sentinel_sentinel {b : Bimap L R} {s : Side} {t : Tree}
    (h : SideInv b s t) : is_sentinel b s b.get_sentinel = .ok true :=
  Linked.sentinel_recognised ⟨h.shape, h.sentinel⟩

/-- The navigation functions work on a side that is linked as a tree without repeated
addresses, whatever the keys are. -/
theorem Linked.nav_of {b : Bimap L R} {s : Side} {t : Tree}
    (h : Linked b s t (lastD b.get_sentinel t.toList) (firstD b.get_sentinel t.toList))
    (hnd : t.toList.Nodup) : Nav b s t where
  shape := h.shape
  nodup := hnd
  anchor := by rw [h.sentinel]
  cache := by rw [h.sentinel]; simp
  is_sent := h.sentinel_recognised

theorem SideInv.nav {b : Bimap L R} {s : Side} {t : Tree} (h : SideInv b s t)
    (ho : StrictWeakOrder (b.get_compare s)) : Nav b s t where
  shape := h.shape
  nodup := nodup_of_sorted ho h.sorted
  anchor := by rw [h.sentinel]
  cache := by rw [h.sentinel]; simp
  is_sent := h.is_sentinel_sentinel


/-! ## Searching -/

theorem is_less_eq (b : Bimap L R) (s : Side) (k v : Key L R s) :
    b.is_less s k v = b.get_compare s k v := by
  simp only [Bimap.is_less, Bimap.compare]
  split_ifs <;> simp_all

theorem is_greater_eq (b : Bimap L R) (s : Side) (k v : Key L R s) :
    b.is_greater s k v = (!b.get_compare s k v && b.get_compare s v k) := by
  simp only [Bimap.is_greater, Bimap.compare]
  split_ifs <;> simp_all

theorem is_equal_eq (b : Bimap L R) (s : Side) (k v : Key L R s) :
    b.is_equal s k v = (!b.get_compare s k v && !b.get_compare s v k) := by
  simp only [Bimap.is_equal, Bimap.compare]
  split_ifs <;> simp_all

theorem operator_deref_eq {b : Bimap L R} {s : Side} {a : Nat} {k : Key L R s}
    (h : b.key s a = some k) : operator_deref b s (some (.element a)) = .ok k := by
  simp only [Bimap.key] at h
  simp only [operator_deref]
  cases h1 : b.heap a with
  | none => simp [h1] at h
  | some e => simp [h1] at h; simp [h]

theorem key_of_live {b : Bimap L R} {a : Nat} (h : b.live (.element a)) (s : Side) :
    ∃ k, b.key s a = some k := by
  simp only [Bimap.live] at h
  simp only [Bimap.key]
  cases h1 : b.heap a with
  | none => simp [h1] at h
  | some e => exact ⟨_, rfl⟩

theorem live_of_key {b : Bimap L R} {s : Side} {a : Nat} {k : Key L R s}
    (h : b.key s a = some k) : b.live (.element a) := by
  simp only [Bimap.key] at h
  simp only [Bimap.live]
  cases h1 : b.heap a with
  | none => simp [h1] at h
  | some e => rfl

theorem Nav.find_insert_loop {b : Bimap L R} {s : Side} {t : Tree} (hn : Nav b s t)
    (v : Key L R s) (l : Tree) (a : Nat) (r : Tree) (c : Ctx)
    (ht : t = plug c (.node l a r)) (hp : PathOK b s v c)
    (fuel : Nat) (hf : (Tree.node l a r).toList.length ≤ fuel) :
    ∃ c1 l1 a1 r1, find_insert_loop b s v fuel (some (.element a)) = .ok (some (.element a1)) ∧
      IsPosition b s v t c1 l1 a1 r1 := by
  induction fuel generalizing l a r c with
  | zero => simp at hf
  | succ fuel ih =>
    have ha : a ∈ t.toList := by rw [ht]; exact mem_plug_self _ _ _ _
    obtain ⟨k, hk⟩ := key_of_live (hn.shape.live a ha) s
    simp only [ct.find_insert_loop, operator_deref_eq hk, ok_bind, Bimap.base_at,
      hn.base_at ht, is_less_eq, is_greater_eq, hn.has_right ht, hn.has_left ht]
    cases h1 : b.get_compare s k v with
    | true =>
      simp only [if_true]
      cases r with
      | nil =>
        refine ⟨c, l, a, .nil, by simp, ht, hp, Or.inr (Or.inl ⟨⟨k, hk, h1⟩, rfl⟩)⟩
      | node rl ra rr =>
        have ht2 : t = plug (.right l a :: c) (.node rl ra rr) := by rw [ht]; rfl
        obtain ⟨c1, l1, a1, r1, h2, h3⟩ := ih rl ra rr (.right l a :: c) ht2 ⟨⟨k, hk, h1⟩, hp⟩
          (by simp at hf ⊢; omega)
        exact ⟨c1, l1, a1, r1, by simpa using h2, h3⟩
    | false =>
      cases h2 : b.get_compare s v k with
      | true =>
        simp only [Bool.false_eq_true, if_false, Bool.not_false, Bool.and_self, if_true]
        cases l with
        | nil =>
          refine ⟨c, .nil, a, r, by simp, ht, hp, Or.inr (Or.inr ⟨⟨k, hk, h2⟩, rfl⟩)⟩
        | node ll la lr =>
          have ht2 : t = plug (.left a r :: c) (.node ll la lr) := by rw [ht]; rfl
          obtain ⟨c1, l1, a1, r1, h3, h4⟩ := ih ll la lr (.left a r :: c) ht2 ⟨⟨k, hk, h2⟩, hp⟩
            (by simp at hf ⊢; omega)
          exact ⟨c1, l1, a1, r1, by simpa using h3, h4⟩
      | false =>
        refine ⟨c, l, a, r, by simp, ht, hp, Or.inl ⟨k, hk, h1, h2⟩⟩

theorem Nav.get_end {b : Bimap L R} {s : Side} {t : Tree} (hn : Nav b s t) :
    b.get_end s = .ok (some b.get_sentinel) := by
  simp only [Bimap.get_end, Bimap.get_root, hn.anchor, Bimap.base_at]
  cases t with
  | nil => simp [hn.anchor]
  | node l a r =>
    have := hn.shape.1
    simp [this]

theorem Nav.find_insert_position_empty {b : Bimap L R} {s : Side} (hn : Nav b s .nil)
    (hsz : b.size_ = 0) (v : Key L R s) :
    find_insert_position b s v = .ok (some b.get_sentinel) := by
  simp [find_insert_position, Bimap.empty, Bimap.size, hsz, hn.get_end]

theorem Nav.find_insert_position {b : Bimap L R} {s : Side} {t : Tree} (hn : Nav b s t)
    (hsz : b.size_ = t.toList.length) (hne : t ≠ .nil) (v : Key L R s) :
    ∃ c l a r, find_insert_position b s v = .ok (some (.element a)) ∧
      IsPosition b s v t c l a r := by
  cases t with
  | nil => exact absurd rfl hne
  | node l a r =>
    have h0 : b.empty = false := by
      simp [Bimap.empty, Bimap.size, hsz]
    have hroot : b.get_root s = some (.element a) := by
      simp [Bimap.get_root, hn.anchor]
    simp only [ct.find_insert_position, h0, Bool.false_eq_true, if_false, hroot]
    exact hn.find_insert_loop v l a r [] rfl trivial b.fuel (by simp [Bimap.fuel, hsz])

/-! ## What a position says about the symmetric order -/

theorem path_bounds {b : Bimap L R} {s : Side} (ho : StrictWeakOrder (b.get_compare s))
    (v : Key L R s) (c : Ctx) (t : Tree) (hs : (plug c t).toList.Pairwise (b.keyLt s))
    (hp : PathOK b s v c) :
    (∀ x ∈ before c, b.keyBelow s v x) ∧ (∀ x ∈ after c, b.keyAbove s v x) := by
  induction c generalizing t with
  | nil => simp [before, after]
  | cons f c ih =>
    cases f with
    | left pa sr =>
      obtain ⟨h1, h2⟩ := hp
      have ih1 := ih (.node t pa sr) hs h2
      refine ⟨ih1.1, ?_⟩
      intro x hx
      simp only [after, List.cons_append, List.mem_cons, List.mem_append] at hx
      rcases hx with hx | hx | hx
      · subst hx; exact h1
      · simp only [plug, toList_plug, toList_node, List.pairwise_append, List.pairwise_cons] at hs
        obtain ⟨kx, ky, hkx, hky, hlt⟩ := hs.1.2.1.2.1.1 x hx
        obtain ⟨k, hk, hv⟩ := h1
        rw [hkx] at hk; cases hk
        exact ⟨ky, hky, ho.trans _ _ _ hv hlt⟩
      · exact ih1.2 x hx
    | right sl pa =>
      obtain ⟨h1, h2⟩ := hp
      have ih1 := ih (.node sl pa t) hs h2
      refine ⟨?_, ih1.2⟩
      intro x hx
      simp only [before, List.mem_append, List.mem_singleton] at hx
      rcases hx with hx | hx | hx
      · exact ih1.1 x hx
      · simp only [plug, toList_plug, toList_node, List.pairwise_append, List.pairwise_cons] at hs
        obtain ⟨kx, ky, hkx, hky, hlt⟩ := hs.1.2.1.2.2 x hx pa (by simp)
        obtain ⟨k, hk, hv⟩ := h1
        rw [hky] at hk; cases hk
        exact ⟨kx, hkx, ho.trans _ _ _ hlt hv⟩
      · subst hx; exact h1


/-! ## Steps that change links only -/

theorem Side.opposite_ne (s : Side) : s.opposite ≠ s := by cases s <;> simp [Side.opposite]

@[simp] theorem Side.opposite_opposite (s : Side) : s.opposite.opposite = s := by
  cases s <;> rfl

theorem Same.refl (b : Bimap L R) : Same b b := ⟨rfl, rfl, rfl, rfl, rfl, fun _ _ => rfl⟩

theorem Same.trans {b b1 b2 : Bimap L R} (h1 : Same b b1) (h2 : Same b1 b2) : Same b b2 :=
  ⟨h2.self.trans h1.self, h2.size_.trans h1.size_, h2.compare_left_.trans h1.compare_left_,
    h2.compare_right_.trans h1.compare_right_, h2.brk.trans h1.brk,
    fun s a => (h2.key s a).trans (h1.key s a)⟩

theorem Same.get_sentinel {b b1 : Bimap L R} (h : Same b b1) : b1.get_sentinel = b.get_sentinel := by
  simp [Bimap.get_sentinel, h.self]

theorem Same.get_compare {b b1 : Bimap L R} (h : Same b b1) (s : Side) :
    b1.get_compare s = b.get_compare s := by
  cases s
  · exact h.compare_left_
  · exact h.compare_right_

theorem Same.keyLt {b b1 : Bimap L R} (h : Same b b1) (s : Side) : b1.keyLt s = b.keyLt s := by
  funext x y
  simp only [Bimap.keyLt, h.key, h.get_compare]

theorem Same.fuel {b b1 : Bimap L R} (h : Same b b1) : b1.fuel = b.fuel := by
  simp [Bimap.fuel, h.size_]

theorem Same.empty {b b1 : Bimap L R} (h : Same b b1) : b1.empty = b.empty := by
  simp [Bimap.empty, Bimap.size, h.size_]

theorem Same.live_iff {b b1 : Bimap L R} (h : Same b b1) (x : Ref) : b1.live x ↔ b.live x := by
  cases x with
  | sentinel o => simp [Bimap.live, h.self]
  | element a =>
    have := h.key .left a
    simp only [Bimap.key] at this
    simp only [Bimap.live]
    cases h1 : b1.heap a <;> cases h2 : b.heap a <;> simp [h1, h2] at this ⊢

theorem same_put (b : Bimap L R) (s : Side) (x : Ref) (v : ElementBase) :
    Same b (b.put s x v) :=
  ⟨by simp, by simp, by simp, by simp, by simp, fun s1 a => by simp⟩

theorem Touch.refl_touch (s : Side) (b : Bimap L R) : Touch s b b := ⟨Same.refl b, fun _ => rfl⟩

theorem Touch.trans_touch {s : Side} {b b1 b2 : Bimap L R} (h1 : Touch s b b1) (h2 : Touch s b1 b2) :
    Touch s b b2 :=
  ⟨h1.toSame.trans h2.toSame, fun y => (h2.other y).trans (h1.other y)⟩

theorem touch_put {b : Bimap L R} {x : Ref} (s : Side) (v : ElementBase) (h : b.live x) :
    Touch s b (b.put s x v) :=
  ⟨same_put b s x v, fun y => by rw [base_put s v h]; simp [Side.opposite_ne]⟩

theorem sentinel_eq_of_base {b : Bimap L R} {s : Side} {e : ElementBase}
    (h : b.base s b.get_sentinel = .ok e) : b.sentinel_ s = e := by
  simpa using h

theorem assigned_put {b : Bimap L R} {x : Ref} (s : Side) (v : ElementBase) (h : b.live x) :
    Assigned s x v b (b.put s x v) :=
  { toTouch := touch_put s v h
    here := by rw [base_put s v h]; simp
    frame := fun y hy => by rw [base_put s v h]; simp [hy] }

theorem set_parent_ok {b : Bimap L R} {s : Side} {x : Ref} {e : ElementBase}
    (hx : b.base s x = .ok e) (p : Ptr) :
    ∃ b1, b.set_parent s x p = .ok b1 ∧ Assigned s x { e with parent_ := p } b b1 :=
  ⟨_, by simp [Bimap.set_parent, hx, store_eq_put s _ (live_of_base hx)],
    assigned_put s _ (live_of_base hx)⟩

theorem set_left_ok {b : Bimap L R} {s : Side} {x : Ref} {e : ElementBase}
    (hx : b.base s x = .ok e) (p : Ptr) :
    ∃ b1, b.set_left s x p = .ok b1 ∧ Assigned s x { e with left_ := p } b b1 :=
  ⟨_, by simp [Bimap.set_left, hx, store_eq_put s _ (live_of_base hx)],
    assigned_put s _ (live_of_base hx)⟩

theorem set_right_ok {b : Bimap L R} {s : Side} {x : Ref} {e : ElementBase}
    (hx : b.base s x = .ok e) (p : Ptr) :
    ∃ b1, b.set_right s x p = .ok b1 ∧ Assigned s x { e with right_ := p } b b1 :=
  ⟨_, by simp [Bimap.set_right, hx, store_eq_put s _ (live_of_base hx)],
    assigned_put s _ (live_of_base hx)⟩

/-! ## `link_to_parent` -/

/-- Linking below the sentinel of an empty tree. -/
theorem link_to_parent_sentinel {b : Bimap L R} {s : Side} {p c : Ref} {pe ce : ElementBase}
    (hsen : is_sentinel b s p = .ok true) (hp : b.base s p = .ok pe) (hc : b.base s c = .ok ce)
    (hne : c ≠ p) (cr ow : Bool) :
    ∃ b1, link_to_parent b s (some p) (some c) cr ow = .ok b1 ∧ Touch s b b1 ∧
      b1.base s p = .ok { parent_ := some c, left_ := some c, right_ := some c } ∧
      b1.base s c = .ok { ce with parent_ := some p } ∧
      ∀ y, y ≠ p → y ≠ c → b1.base s y = b.base s y := by
  obtain ⟨b1, h1, a1⟩ := set_parent_ok hp (some c)
  obtain ⟨b2, h2, a2⟩ := set_left_ok a1.here (some c)
  obtain ⟨b3, h3, a3⟩ := set_right_ok a2.here (some c)
  have hc3 : b3.base s c = .ok ce := by
    rw [a3.frame c hne, a2.frame c hne, a1.frame c hne, hc]
  obtain ⟨b4, h4, a4⟩ := set_parent_ok hc3 (some p)
  refine ⟨b4, ?_, ?_, ?_, a4.here, ?_⟩
  · simp [link_to_parent, hsen, h1, h2, h3, h4]
  · exact a1.toTouch.trans_touch (a2.toTouch.trans_touch (a3.toTouch.trans_touch a4.toTouch))
  · rw [a4.frame p (Ne.symm hne), a3.here]
  · intro y hy1 hy2
    rw [a4.frame y hy2, a3.frame y hy1, a2.frame y hy1, a1.frame y hy1]

/-- Linking a child into a slot without taking over what the slot held. -/
theorem link_to_parent_plain {b : Bimap L R} {s : Side} {p : Ref} {pe : ElementBase}
    (hsen : is_sentinel b s p = .ok false) (hp : b.base s p = .ok pe) (child : Ptr)
    (hc : ∀ c, child = some c → c ≠ p ∧ b.live c) (cr : Bool) :
    ∃ b1, link_to_parent b s (some p) child cr false = .ok b1 ∧ Touch s b b1 ∧
      b1.base s p = .ok (if cr then { pe with right_ := child } else { pe with left_ := child }) ∧
      (∀ c, child = some c → ∀ ce, b.base s c = .ok ce →
        b1.base s c = .ok { ce with parent_ := some p }) ∧
      ∀ y, y ≠ p → child ≠ some y → b1.base s y = b.base s y := by
  cases cr with
  | true =>
    obtain ⟨b1, h1, a1⟩ := set_right_ok hp child
    cases child with
    | none =>
      refine ⟨b1, ?_, a1.toTouch, by simpa using a1.here, by simp, ?_⟩
      · simp [link_to_parent, hsen, h1]
      · intro y hy _; exact a1.frame y hy
    | some c =>
      obtain ⟨hne, hl⟩ := hc c rfl
      obtain ⟨ce, hce⟩ := (live_iff_base b s c).1 hl
      have hc1 : b1.base s c = .ok ce := by rw [a1.frame c hne, hce]
      obtain ⟨b2, h2, a2⟩ := set_parent_ok hc1 (some p)
      refine ⟨b2, ?_, a1.toTouch.trans_touch a2.toTouch, ?_, ?_, ?_⟩
      · simp [link_to_parent, hsen, h1, h2]
      · rw [a2.frame p (Ne.symm hne)]; simpa using a1.here
      · intro c1 hc1 ce1 hce1
        cases hc1
        rw [hce] at hce1; cases hce1
        exact a2.here
      · intro y hy1 hy2
        rw [a2.frame y (fun h => hy2 (by rw [h])), a1.frame y hy1]
  | false =>
    obtain ⟨b1, h1, a1⟩ := set_left_ok hp child
    cases child with
    | none =>
      refine ⟨b1, ?_, a1.toTouch, by simpa using a1.here, by simp, ?_⟩
      · simp [link_to_parent, hsen, h1]
      · intro y hy _; exact a1.frame y hy
    | some c =>
      obtain ⟨hne, hl⟩ := hc c rfl
      obtain ⟨ce, hce⟩ := (live_iff_base b s c).1 hl
      have hc1 : b1.base s c = .ok ce := by rw [a1.frame c hne, hce]
      obtain ⟨b2, h2, a2⟩ := set_parent_ok hc1 (some p)
      refine ⟨b2, ?_, a1.toTouch.trans_touch a2.toTouch, ?_, ?_, ?_⟩
      · simp [link_to_parent, hsen, h1, h2]
      · rw [a2.frame p (Ne.symm hne)]; simpa using a1.here
      · intro c1 hc1 ce1 hce1
        cases hc1
        rw [hce] at hce1; cases hce1
        exact a2.here
      · intro y hy1 hy2
        rw [a2.frame y (fun h => hy2 (by rw [h])), a1.frame y hy1]

/-- Linking a child whose links are null into an empty slot, the way `insert_at` does. -/
theorem link_to_parent_leaf {b : Bimap L R} {s : Side} {p c : Ref} {pe : ElementBase}
    (hsen : is_sentinel b s p = .ok false) (hp : b.base s p = .ok pe)
    (hc : b.base s c = .ok {}) (hne : c ≠ p) (cr : Bool)
    (hslot : if cr then pe.right_ = none else pe.left_ = none) :
    ∃ b1, link_to_parent b s (some p) (some c) cr true = .ok b1 ∧ Touch s b b1 ∧
      b1.base s p = .ok (if cr then { pe with right_ := some c }
        else { pe with left_ := some c }) ∧
      b1.base s c = .ok { parent_ := some p, left_ := none, right_ := none } ∧
      ∀ y, y ≠ p → y ≠ c → b1.base s y = b.base s y := by
  cases cr with
  | true =>
    simp only [if_true] at hslot
    obtain ⟨b1, h1, a1⟩ := set_right_ok hc pe.right_
    have hp1 : b1.base s p = .ok pe := by rw [a1.frame p (Ne.symm hne), hp]
    obtain ⟨b2, h2, a2⟩ := set_right_ok hp1 (some c)
    have hc2 : b2.base s c = .ok { right_ := none } := by
      rw [a2.frame c hne, a1.here, hslot]
    obtain ⟨b3, h3, a3⟩ := set_parent_ok hc2 (some p)
    refine ⟨b3, ?_, a1.toTouch.trans_touch (a2.toTouch.trans_touch a3.toTouch), ?_, a3.here, ?_⟩
    · simp [link_to_parent, hsen, hp, h1, a1.here, hslot, h2, h3]
      simp [hslot] at h1 a1
      simp [h1, a1.here, h2, h3]
    · rw [a3.frame p (Ne.symm hne)]; simpa using a2.here
    · intro y hy1 hy2
      rw [a3.frame y hy2, a2.frame y hy1, a1.frame y hy2]
  | false =>
    simp only [Bool.false_eq_true, if_false] at hslot
    obtain ⟨b1, h1, a1⟩ := set_left_ok hc pe.left_
    have hp1 : b1.base s p = .ok pe := by rw [a1.frame p (Ne.symm hne), hp]
    obtain ⟨b2, h2, a2⟩ := set_left_ok hp1 (some c)
    have hc2 : b2.base s c = .ok { left_ := none } := by
      rw [a2.frame c hne, a1.here, hslot]
    obtain ⟨b3, h3, a3⟩ := set_parent_ok hc2 (some p)
    refine ⟨b3, ?_, a1.toTouch.trans_touch (a2.toTouch.trans_touch a3.toTouch), ?_, a3.here, ?_⟩
    · simp [link_to_parent, hsen, hp, h1, a1.here, hslot, h2, h3]
      simp [hslot] at h1 a1
      simp [h1, a1.here, h2, h3]
    · rw [a3.frame p (Ne.symm hne)]; simpa using a2.here
    · intro y hy1 hy2
      rw [a3.frame y hy2, a2.frame y hy1, a1.frame y hy2]


/-! ## Ends of the symmetric order -/

theorem nodup_last_unique {A B X : List Nat} {m : Nat} (hn : (A ++ m :: B).Nodup)
    (h : A ++ m :: B = X ++ [m]) : B = [] := by
  by_contra hB
  obtain ⟨B1, z, hz⟩ : ∃ B1 z, B = B1 ++ [z] := by
    rcases List.eq_nil_or_concat B with h1 | ⟨B1, z, h1⟩
    · exact absurd h1 hB
    · exact ⟨B1, z, by simpa using h1⟩
  subst hz
  have h2 : A ++ m :: (B1 ++ [z]) = (A ++ m :: B1) ++ [z] := by simp
  rw [h2] at h
  have h3 := List.append_inj' h rfl
  have hz : z = m := by simpa using h3.2
  subst hz
  simp [List.nodup_append, List.nodup_cons] at hn

theorem nodup_first_unique {A B X : List Nat} {m : Nat} (hn : (A ++ m :: B).Nodup)
    (h : A ++ m :: B = m :: X) : A = [] := by
  cases A with
  | nil => rfl
  | cons z A =>
    simp only [List.cons_append, List.cons.injEq] at h
    obtain ⟨hz, -⟩ := h
    subst hz
    simp [List.nodup_append, List.nodup_cons] at hn

theorem Links.right_none_of_last {b : Bimap L R} {s : Side} {t : Tree} (hl : Links b s t)
    {X : List Nat} {m : Nat} (h : t.toList = X ++ [m]) :
    ∃ e, b.base s (.element m) = .ok e ∧ e.right_ = none := by
  have hm : m ∈ t.toList := by rw [h]; simp
  obtain ⟨c, l, r, ht⟩ := exists_plug_of_mem hm
  refine ⟨_, hl.base_at ht, ?_⟩
  have hn := hl.nodup
  rw [ht, toList_plug] at h hn
  simp only [toList_node, List.append_assoc, List.cons_append] at h hn
  rw [← List.append_assoc] at h hn
  have := nodup_last_unique hn h
  simp only [List.append_eq_nil] at this
  simp [toList_eq_nil.1 this.1]

theorem Links.left_none_of_first {b : Bimap L R} {s : Side} {t : Tree} (hl : Links b s t)
    {X : List Nat} {m : Nat} (h : t.toList = m :: X) :
    ∃ e, b.base s (.element m) = .ok e ∧ e.left_ = none := by
  have hm : m ∈ t.toList := by rw [h]; simp
  obtain ⟨c, l, r, ht⟩ := exists_plug_of_mem hm
  refine ⟨_, hl.base_at ht, ?_⟩
  have hn := hl.nodup
  rw [ht, toList_plug] at h hn
  simp only [toList_node, List.append_assoc, List.cons_append] at h hn
  rw [← List.append_assoc] at h hn
  have := nodup_first_unique hn h
  simp only [List.append_eq_nil] at this
  simp [toList_eq_nil.1 this.2]

theorem Linked.links {b : Bimap L R} {s : Side} {t : Tree} {hi lo : Ref}
    (h : Linked b s t hi lo) (hn : t.toList.Nodup) : Links b s t where
  shape := h.shape
  nodup := hn
  anchor := by rw [h.sentinel]
  cache := by rw [h.sentinel]; simp

theorem Linked.congr_all {b b1 : Bimap L R} {s : Side} {t : Tree} {hi lo : Ref}
    (h : Linked b s t hi lo) (hs : b1.self = b.self) (hb : ∀ y, b1.base s y = b.base s y) :
    Linked b1 s t hi lo := by
  have hg : b1.get_sentinel = b.get_sentinel := by simp [Bimap.get_sentinel, hs]
  constructor
  · rw [hg]; exact h.shape.congr (fun a _ => hb _)
  · have h1 := hb b1.get_sentinel
    rw [base_sentinel_self, hg, base_sentinel_self] at h1
    simp only [Except.ok.injEq] at h1
    unfold SentinelFor
    rw [h1, hg]; exact h.sentinel

theorem Linked.of_touch_other {b b1 : Bimap L R} {s : Side} {t : Tree} {hi lo : Ref}
    (h : Linked b s t hi lo) (ht : Touch s.opposite b b1) : Linked b1 s t hi lo :=
  h.congr_all ht.self (fun y => by simpa using ht.other y)


/-! ## Linking a new leaf -/

theorem root_plug_node (c : Ctx) (l r l1 r1 : Tree) (a : Nat) :
    (plug c (.node l a r)).root = (plug c (.node l1 a r1)).root := by
  cases c with
  | nil => rfl
  | cons f c => exact root_plug_cons_eq f c _ _

theorem sentinel_ne_element (b : Bimap L R) (a : Nat) : b.get_sentinel ≠ .element a := by
  simp [Bimap.get_sentinel]

theorem Touch.sentinel_of_frame {s : Side} {b b1 : Bimap L R} (ht : Touch s b b1)
    (h : b1.base s b.get_sentinel = b.base s b.get_sentinel) : b1.sentinel_ s = b.sentinel_ s := by
  have hg := ht.get_sentinel
  have h1 : b1.base s b1.get_sentinel = .ok (b.sentinel_ s) := by
    rw [hg, h, base_sentinel_self]
  exact sentinel_eq_of_base h1

theorem attach_link {b : Bimap L R} {s : Side} {t t1 : Tree} {hi lo : Ref} {n : Nat}
    {pos : Ptr} {cr : Bool}
    (hl : Linked b s t hi lo) (hnd : t.toList.Nodup) (hn : b.base s (.element n) = .ok {})
    (hnt : n ∉ t.toList) (hempty : t = .nil → hi = b.get_sentinel ∧ lo = b.get_sentinel)
    (ha : AttachAt b.get_sentinel n t pos cr t1) :
    ∃ b1, link_to_parent b s pos (some (.element n)) cr true = .ok b1 ∧ Touch s b b1 ∧
      Linked b1 s t1 (if t = .nil then .element n else hi) (if t = .nil then .element n else lo) := by
  have hlinks := hl.links hnd
  cases ha with
  | root =>
    obtain ⟨h1, h2⟩ := hempty rfl
    subst h1 h2
    have hs := hl.sentinel
    simp only [SentinelFor, root_nil, Option.getD_none] at hs
    have hbs : b.base s b.get_sentinel = .ok
        { parent_ := some b.get_sentinel, left_ := some b.get_sentinel,
          right_ := some b.get_sentinel } := by simp [hs]
    obtain ⟨b1, h1, h2, h3, h4, h5⟩ := link_to_parent_sentinel (is_sentinel_self hbs) hbs hn
      (Ne.symm (sentinel_ne_element b n)) false true
    refine ⟨b1, h1, h2, ?_, ?_⟩
    · rw [h2.get_sentinel]
      exact ⟨by simpa using h4, trivial, trivial⟩
    · have h6 : b1.base s b1.get_sentinel =
          .ok ⟨some (.element n), some (.element n), some (.element n)⟩ := by
        rw [h2.get_sentinel]; exact h3
      have := sentinel_eq_of_base h6
      simp [SentinelFor, this]
  | right c l a =>
    have hat : a ∈ (plug c (.node l a .nil)).toList := mem_plug_self _ _ _ _
    have hna : n ≠ a := fun h => hnt (h ▸ hat)
    have hba := hlinks.base_at rfl
    obtain ⟨b1, h1, h2, h3, h4, h5⟩ := link_to_parent_leaf (hlinks.is_sentinel_element hat) hba hn
      (by simpa using hna) true rfl
    have hsh := hl.shape
    rw [shape_plug] at hsh
    obtain ⟨hc, -, hsl, -⟩ := hsh
    obtain ⟨hn1, hn2, hn3, hn4, hn5, hn6, hn7, hn8, hn9⟩ := nodup_plug hnd
    have hframe : ∀ x, x ∈ (plug c (.node l a .nil)).toList → x ≠ a →
        b1.base s (.element x) = b.base s (.element x) := by
      intro x hx hxa
      apply h5
      · simpa using hxa
      · intro h; cases h; exact hnt hx
    have hne : plug c (.node l a .nil) ≠ .nil := by
      intro h; rw [h] at hat; simp at hat
    simp only [hne, if_false]
    refine ⟨b1, h1, h2, ?_, ?_⟩
    · rw [h2.get_sentinel, shape_plug]
      refine ⟨hc.congr_ctx ?_, ?_, hsl.congr ?_, ?_, trivial, trivial⟩
      · intro x hx
        apply hframe x
        · rw [toList_plug]
          simp only [ctxList, List.mem_append] at hx
          rcases hx with hx | hx <;> simp [hx]
        · intro h; subst h; exact hn4 hx
      · simpa using h3
      · intro x hx
        apply hframe x
        · rw [toList_plug]; simp [hx]
        · intro h; subst h; exact hn5 hx
      · simpa using h4
    · have := h2.sentinel_of_frame (h5 _ (sentinel_ne_element b a) (sentinel_ne_element b n))
      unfold SentinelFor
      rw [this, h2.get_sentinel, hl.sentinel, root_plug_node c l (.node .nil n .nil) l .nil a]
  | left c a r =>
    have hat : a ∈ (plug c (.node .nil a r)).toList := mem_plug_self _ _ _ _
    have hna : n ≠ a := fun h => hnt (h ▸ hat)
    have hba := hlinks.base_at rfl
    obtain ⟨b1, h1, h2, h3, h4, h5⟩ := link_to_parent_leaf (hlinks.is_sentinel_element hat) hba hn
      (by simpa using hna) false rfl
    have hsh := hl.shape
    rw [shape_plug] at hsh
    obtain ⟨hc, -, -, hsr⟩ := hsh
    obtain ⟨hn1, hn2, hn3, hn4, hn5, hn6, hn7, hn8, hn9⟩ := nodup_plug hnd
    have hframe : ∀ x, x ∈ (plug c (.node .nil a r)).toList → x ≠ a →
        b1.base s (.element x) = b.base s (.element x) := by
      intro x hx hxa
      apply h5
      · simpa using hxa
      · intro h; cases h; exact hnt hx
    have hne : plug c (.node .nil a r) ≠ .nil := by
      intro h; rw [h] at hat; simp at hat
    simp only [hne, if_false]
    refine ⟨b1, h1, h2, ?_, ?_⟩
    · rw [h2.get_sentinel, shape_plug]
      refine ⟨hc.congr_ctx ?_, ?_, ?_, hsr.congr ?_⟩
      · intro x hx
        apply hframe x
        · rw [toList_plug]
          simp only [ctxList, List.mem_append] at hx
          rcases hx with hx | hx <;> simp [hx]
        · intro h; subst h; exact hn4 hx
      · simpa using h3
      · exact ⟨by simpa using h4, trivial, trivial⟩
      · intro x hx
        apply hframe x
        · rw [toList_plug]; simp [hx]
        · intro h; subst h; exact hn6 hx
    · have := h2.sentinel_of_frame (h5 _ (sentinel_ne_element b a) (sentinel_ne_element b n))
      unfold SentinelFor
      rw [this, h2.get_sentinel, hl.sentinel, root_plug_node c (.node .nil n .nil) r .nil r a]

/-! ## Refreshing the cache after an insertion -/

theorem has_right_of_none {b : Bimap L R} {s : Side} {x : Ref} {e : ElementBase}
    (hx : b.base s x = .ok e) (h : e.right_ = none) : has_right b s x = .ok false := by
  simp [has_right, hx, h]

theorem has_left_of_none {b : Bimap L R} {s : Side} {x : Ref} {e : ElementBase}
    (hx : b.base s x = .ok e) (h : e.left_ = none) : has_left b s x = .ok false := by
  simp [has_left, hx, h]

theorem Linked.set_cache {b b1 : Bimap L R} {s : Side} {t : Tree} {hi lo hi1 lo1 : Ref}
    (hl : Linked b s t hi lo)
    (ha : Assigned s b.get_sentinel
      { parent_ := (b.sentinel_ s).parent_, left_ := some hi1, right_ := some lo1 } b b1) :
    Linked b1 s t hi1 lo1 := by
  have hg := ha.get_sentinel
  constructor
  · rw [hg]
    exact hl.shape.congr (fun a _ => ha.frame _ (Ne.symm (sentinel_ne_element b a)))
  · have h1 := ha.here
    rw [← hg] at h1
    have := sentinel_eq_of_base h1
    unfold SentinelFor
    rw [this, hl.sentinel, hg]

theorem set_hi {b : Bimap L R} {s : Side} {t : Tree} {hi lo : Ref} (hl : Linked b s t hi lo)
    (hi1 : Ref) :
    ∃ b1, b.set_left s b.get_sentinel (some hi1) = .ok b1 ∧ Touch s b b1 ∧
      Linked b1 s t hi1 lo := by
  obtain ⟨b1, h1, a1⟩ := set_left_ok (base_sentinel_self b s) (some hi1)
  refine ⟨b1, h1, a1.toTouch, hl.set_cache ?_⟩
  have := hl.sentinel
  unfold SentinelFor at this
  rw [this] at a1 ⊢
  exact a1

theorem set_lo {b : Bimap L R} {s : Side} {t : Tree} {hi lo : Ref} (hl : Linked b s t hi lo)
    (lo1 : Ref) :
    ∃ b1, b.set_right s b.get_sentinel (some lo1) = .ok b1 ∧ Touch s b b1 ∧
      Linked b1 s t hi lo1 := by
  obtain ⟨b1, h1, a1⟩ := set_right_ok (base_sentinel_self b s) (some lo1)
  refine ⟨b1, h1, a1.toTouch, hl.set_cache ?_⟩
  have := hl.sentinel
  unfold SentinelFor at this
  rw [this] at a1 ⊢
  exact a1

theorem lastD_append_cons (d : Ref) (xs : List Nat) (a : Nat) (ys : List Nat) :
    lastD d (xs ++ a :: ys) = lastD (.element a) ys := by
  rw [lastD_append, lastD_cons]

theorem firstD_append_cons (d : Ref) (xs : List Nat) (a : Nat) (ys : List Nat) :
    firstD d ((xs ++ [a]) ++ ys) = firstD (.element a) xs := by
  rw [firstD_append, firstD_append]; rfl

theorem plug_ne_nil (c : Ctx) (l : Tree) (a : Nat) (r : Tree) : plug c (.node l a r) ≠ .nil := by
  intro h
  have := mem_plug_self c l r a
  rw [h] at this
  simp at this

theorem attach_update {b : Bimap L R} {s : Side} {t t1 : Tree} {hi lo : Ref} {n : Nat}
    {pos : Ptr} {cr : Bool}
    (hl : Linked b s t1 hi lo) (hnd : t1.toList.Nodup)
    (ha : AttachAt b.get_sentinel n t pos cr t1)
    (hhi : hi = if t = .nil then .element n else lastD b.get_sentinel t.toList)
    (hlo : lo = if t = .nil then .element n else firstD b.get_sentinel t.toList)
    (hsz : b.size_ = t.toList.length) :
    ∃ b2, update_sentinel b s none = .ok b2 ∧ Touch s b b2 ∧
      Linked b2 s t1 (lastD b.get_sentinel t1.toList) (firstD b.get_sentinel t1.toList) := by
  have hlinks := hl.links hnd
  have hs := hl.sentinel
  unfold SentinelFor at hs
  cases ha with
  | root =>
    simp only [if_true] at hhi hlo
    subst hhi hlo
    obtain ⟨b1, h1, t1, l1⟩ := set_hi hl (.element n)
    obtain ⟨b2, h2, t2, l2⟩ := set_lo l1 (.element n)
    refine ⟨b2, ?_, t1.trans_touch t2, ?_⟩
    · have he : b.empty = true := by simp [Bimap.empty, Bimap.size, hsz]
      simp only [update_sentinel, he, if_true, hs, root_node, Option.getD_some, h1, ok_bind]
      have hp1 : (b1.sentinel_ s).parent_ = some (.element n) := by
        have := l1.sentinel
        unfold SentinelFor at this
        rw [this]; rfl
      rw [← t1.get_sentinel, hp1]
      exact h2
    · simpa using l2
  | right c l a =>
    have hne := plug_ne_nil c l a .nil
    simp only [hne, if_false] at hhi hlo
    have he : b.empty = false := by
      have h0 : b.size_ ≠ 0 := by
        rw [hsz, toList_plug]; simp
      simp [Bimap.empty, Bimap.size, h0]
    have hlo1 : firstD b.get_sentinel (plug c (.node l a (.node .nil n .nil))).toList = lo := by
      rw [hlo, toList_plug, toList_plug]
      simp only [toList_node, toList_nil, List.append_assoc, List.nil_append, List.cons_append]
      rw [← List.append_assoc, ← List.append_assoc (before c), firstD_append, firstD_append _ _ (a :: after c)]
      rfl
    simp only [update_sentinel, he, Bool.false_eq_true, if_false, hs, Bimap.base_at]
    by_cases hac : after c = []
    · have hhi1 : hi = .element a := by
        rw [hhi, toList_plug, hac]
        simp only [toList_node, toList_nil, List.append_nil]
        rw [← List.append_assoc]
        exact lastD_append_singleton _ _ _
      have hhi2 : lastD b.get_sentinel (plug c (.node l a (.node .nil n .nil))).toList
          = .element n := by
        rw [toList_plug, hac]
        simp only [toList_node, toList_nil, List.nil_append, List.append_nil]
        rw [show before c ++ (l.toList ++ [a, n]) = (before c ++ (l.toList ++ [a])) ++ [n] by simp]
        exact lastD_append_singleton _ _ _
      obtain ⟨b1, h1, t1, l1⟩ := set_hi hl (.element n)
      refine ⟨b1, ?_, t1, ?_⟩
      · simp only [hhi1, hlinks.base_at rfl, hlinks.has_right rfl, ok_bind, root_node,
          Option.isSome_some, if_true]
        exact h1
      · rw [hhi2, hlo1]; exact l1
    · have hhi2 : lastD b.get_sentinel (plug c (.node l a (.node .nil n .nil))).toList = hi := by
        rw [hhi, toList_plug, toList_plug, lastD_append, lastD_append _ _ (after c)]
        exact lastD_of_ne_nil hac _ _
      obtain ⟨m, Y, hm⟩ : ∃ m Y, (plug c (.node l a (.node .nil n .nil))).toList = Y ++ [m] ∧
          hi = .element m := by
        rcases List.eq_nil_or_concat (after c) with h | ⟨Y, m, h⟩
        · exact absurd h hac
        · refine ⟨m, before c ++ (l.toList ++ a :: [n]) ++ Y, ?_, ?_⟩
          · rw [toList_plug, h]; simp
          · rw [hhi, toList_plug, h]
            rw [show before c ++ (Tree.node l a .nil).toList ++ Y.concat m
              = (before c ++ (Tree.node l a .nil).toList ++ Y) ++ [m] by simp]
            exact lastD_append_singleton _ _ _
      obtain ⟨f, Z, hf⟩ : ∃ f Z, (plug c (.node l a (.node .nil n .nil))).toList = f :: Z ∧
          lo = .element f := by
        rw [← hlo1]
        cases h : (plug c (.node l a (.node .nil n .nil))).toList with
        | nil => exact absurd (toList_eq_nil.1 h) (plug_ne_nil _ _ _ _)
        | cons f Z => exact ⟨f, Z, rfl, rfl⟩
      obtain ⟨me, hme, hmr⟩ := hlinks.right_none_of_last hm.1
      obtain ⟨fe, hfe, hfl⟩ := hlinks.left_none_of_first hf.1
      refine ⟨b, ?_, Touch.refl_touch s b, ?_⟩
      · simp [hm.2, hf.2, hme, hfe, has_right_of_none hme hmr, has_left_of_none hfe hfl]
      · rw [hhi2, hlo1]; exact hl
  | left c a r =>
    have hne := plug_ne_nil c .nil a r
    simp only [hne, if_false] at hhi hlo
    have he : b.empty = false := by
      have h0 : b.size_ ≠ 0 := by
        rw [hsz, toList_plug]; simp
      simp [Bimap.empty, Bimap.size, h0]
    have hhi1 : lastD b.get_sentinel (plug c (.node (.node .nil n .nil) a r)).toList = hi := by
      have e1 : (plug c (.node (.node .nil n .nil) a r)).toList
          = (before c ++ [n]) ++ a :: (r.toList ++ after c) := by rw [toList_plug]; simp
      have e2 : (plug c (.node .nil a r)).toList = before c ++ a :: (r.toList ++ after c) := by
        rw [toList_plug]; simp
      rw [hhi, e1, e2, lastD_append_cons, lastD_append_cons]
    obtain ⟨m, Y, hm⟩ : ∃ m Y, (plug c (.node (.node .nil n .nil) a r)).toList = Y ++ [m] ∧
        hi = .element m := by
      rw [← hhi1]
      rcases List.eq_nil_or_concat (plug c (.node (.node .nil n .nil) a r)).toList
        with h | ⟨Y, m, h⟩
      · exact absurd (toList_eq_nil.1 h) (plug_ne_nil _ _ _ _)
      · refine ⟨m, Y, by simpa using h, ?_⟩
        rw [h]; simp
    obtain ⟨me, hme, hmr⟩ := hlinks.right_none_of_last hm.1
    simp only [update_sentinel, he, Bool.false_eq_true, if_false, hs, Bimap.base_at]
    by_cases hbc : before c = []
    · have hlo1 : lo = .element a := by
        rw [hlo, toList_plug, hbc]; simp
      have hlo2 : firstD b.get_sentinel (plug c (.node (.node .nil n .nil) a r)).toList
          = .element n := by
        rw [toList_plug, hbc]; simp
      obtain ⟨b1, h1, t1, l1⟩ := set_lo hl (.element n)
      refine ⟨b1, ?_, t1, ?_⟩
      · simp only [hm.2, hme, has_right_of_none hme hmr, ok_bind, Bool.false_eq_true, if_false,
          hlo1, hlinks.base_at rfl, hlinks.has_left rfl, root_node, Option.isSome_some, if_true]
        exact h1
      · rw [hhi1, hlo2]; exact l1
    · have hlo2 : firstD b.get_sentinel (plug c (.node (.node .nil n .nil) a r)).toList = lo := by
        rw [hlo, toList_plug, toList_plug, List.append_assoc, List.append_assoc, firstD_append,
          firstD_append _ (before c)]
        exact firstD_of_ne_nil hbc _ _
      obtain ⟨f, Z, hf⟩ : ∃ f Z, (plug c (.node (.node .nil n .nil) a r)).toList = f :: Z ∧
          lo = .element f := by
        rw [← hlo2]
        cases h : (plug c (.node (.node .nil n .nil) a r)).toList with
        | nil => exact absurd (toList_eq_nil.1 h) (plug_ne_nil _ _ _ _)
        | cons f Z => exact ⟨f, Z, rfl, rfl⟩
      obtain ⟨fe, hfe, hfl⟩ := hlinks.left_none_of_first hf.1
      refine ⟨b, ?_, Touch.refl_touch s b, ?_⟩
      · simp [hm.2, hf.2, hme, hfe, has_right_of_none hme hmr, has_left_of_none hfe hfl]
      · rw [hhi1, hlo2]; exact hl


/-! ## Strict weak orderings -/

theorem StrictWeakOrder.asymm {K : Type} {cmp : K → K → Bool} (ho : StrictWeakOrder cmp)
    {a b : K} (h : cmp a b = true) : cmp b a = false := by
  cases h1 : cmp b a with
  | false => rfl
  | true =>
    have := ho.trans _ _ _ h h1
    rw [ho.irrefl] at this
    cases this

theorem StrictWeakOrder.lt_of_lt_of_equiv {K : Type} {cmp : K → K → Bool}
    (ho : StrictWeakOrder cmp) {x a v : K} (h : cmp x a = true) (he : Equiv cmp a v) :
    cmp x v = true := by
  cases h1 : cmp x v with
  | true => rfl
  | false =>
    cases h2 : cmp v x with
    | true =>
      have := ho.trans _ _ _ h2 h
      rw [he.2] at this
      cases this
    | false =>
      have := (ho.incomp_trans x v a h1 h2 he.2 he.1).1
      rw [h] at this
      cases this

theorem StrictWeakOrder.lt_of_equiv_of_lt {K : Type} {cmp : K → K → Bool}
    (ho : StrictWeakOrder cmp) {y a v : K} (he : Equiv cmp a v) (h : cmp a y = true) :
    cmp v y = true := by
  cases h1 : cmp v y with
  | true => rfl
  | false =>
    cases h2 : cmp y v with
    | true =>
      have := ho.trans _ _ _ h h2
      rw [he.1] at this
      cases this
    | false =>
      have := (ho.incomp_trans a v y he.1 he.2 h1 h2).1
      rw [h] at this
      cases this

theorem Equiv.symm {K : Type} {cmp : K → K → Bool} {a b : K} (h : Equiv cmp a b) :
    Equiv cmp b a := ⟨h.2, h.1⟩

theorem StrictWeakOrder.equiv_trans {K : Type} {cmp : K → K → Bool}
    (ho : StrictWeakOrder cmp) {a b c : K} (h1 : Equiv cmp a b) (h2 : Equiv cmp b c) :
    Equiv cmp a c :=
  ho.incomp_trans a b c h1.1 h1.2 h2.1 h2.2

/-! ## The symmetric order around a position -/

theorem keyBelow_of_keyLt {b : Bimap L R} {s : Side} (ho : StrictWeakOrder (b.get_compare s))
    {v : Key L R s} {x a : Nat} (h : b.keyLt s x a)
    (ha : b.keyBelow s v a ∨ b.keyEquiv s v a) : b.keyBelow s v x := by
  obtain ⟨kx, ka, hx, hka, hlt⟩ := h
  rcases ha with ⟨k, hk, hv⟩ | ⟨k, hk, hv⟩
  · rw [hka] at hk; cases hk
    exact ⟨kx, hx, ho.trans _ _ _ hlt hv⟩
  · rw [hka] at hk; cases hk
    exact ⟨kx, hx, ho.lt_of_lt_of_equiv hlt hv⟩

theorem keyAbove_of_keyLt {b : Bimap L R} {s : Side} (ho : StrictWeakOrder (b.get_compare s))
    {v : Key L R s} {a y : Nat} (h : b.keyLt s a y)
    (ha : b.keyAbove s v a ∨ b.keyEquiv s v a) : b.keyAbove s v y := by
  obtain ⟨ka, ky, hka, hy, hlt⟩ := h
  rcases ha with ⟨k, hk, hv⟩ | ⟨k, hk, hv⟩
  · rw [hka] at hk; cases hk
    exact ⟨ky, hy, ho.trans _ _ _ hv hlt⟩
  · rw [hka] at hk; cases hk
    exact ⟨ky, hy, ho.lt_of_equiv_of_lt hv hlt⟩

/-- Around the position where a search for `v` ends, everything before the position is below
`v` and everything after it is above `v`. -/
theorem position_split {b : Bimap L R} {s : Side} (ho : StrictWeakOrder (b.get_compare s))
    {v : Key L R s} {t : Tree} {c : Ctx} {l r : Tree} {a : Nat}
    (hp : IsPosition b s v t c l a r) (hs : t.toList.Pairwise (b.keyLt s)) :
    (∀ x ∈ before c, b.keyBelow s v x) ∧ (∀ x ∈ after c, b.keyAbove s v x) ∧
    (b.keyEquiv s v a ∨ b.keyBelow s v a → ∀ x ∈ l.toList, b.keyBelow s v x) ∧
    (b.keyEquiv s v a ∨ b.keyAbove s v a → ∀ x ∈ r.toList, b.keyAbove s v x) := by
  obtain ⟨ht, hpath, hk⟩ := hp
  subst ht
  obtain ⟨h1, h2⟩ := path_bounds ho v c _ hs hpath
  rw [toList_plug] at hs
  simp only [toList_node, List.pairwise_append, List.pairwise_cons] at hs
  refine ⟨h1, h2, ?_, ?_⟩
  · intro ha x hx
    exact keyBelow_of_keyLt ho (hs.1.2.1.2.2 x hx a (by simp)) ha.symm
  · intro ha x hx
    exact keyAbove_of_keyLt ho (hs.1.2.1.2.1.1 x hx) ha.symm

theorem not_equiv_of_below {b : Bimap L R} {s : Side} {v : Key L R s} {x : Nat}
    (h : b.keyBelow s v x) : ¬ b.keyEquiv s v x := by
  rintro ⟨k, hk, he⟩
  obtain ⟨k1, hk1, hlt⟩ := h
  rw [hk] at hk1; cases hk1
  rw [he.1] at hlt; cases hlt

theorem not_equiv_of_above {b : Bimap L R} {s : Side} {v : Key L R s} {x : Nat}
    (h : b.keyAbove s v x) : ¬ b.keyEquiv s v x := by
  rintro ⟨k, hk, he⟩
  obtain ⟨k1, hk1, hlt⟩ := h
  rw [hk] at hk1; cases hk1
  rw [he.2] at hlt; cases hlt

theorem not_above_of_below {b : Bimap L R} {s : Side} (ho : StrictWeakOrder (b.get_compare s))
    {v : Key L R s} {x : Nat} (h : b.keyBelow s v x) : ¬ b.keyAbove s v x := by
  rintro ⟨k, hk, he⟩
  obtain ⟨k1, hk1, hlt⟩ := h
  rw [hk] at hk1; cases hk1
  rw [ho.asymm he] at hlt; cases hlt

/-- A position whose key is not equivalent to `v` shows that no key of the tree is. -/
theorem position_no_equiv {b : Bimap L R} {s : Side} (ho : StrictWeakOrder (b.get_compare s))
    {v : Key L R s} {t : Tree} {c : Ctx} {l r : Tree} {a : Nat}
    (hp : IsPosition b s v t c l a r) (hs : t.toList.Pairwise (b.keyLt s))
    (hne : ¬ b.keyEquiv s v a) : ∀ x ∈ t.toList, ¬ b.keyEquiv s v x := by
  obtain ⟨h1, h2, h3, h4⟩ := position_split ho hp hs
  obtain ⟨ht, -, hk⟩ := hp
  intro x hx
  rw [ht, toList_plug] at hx
  simp only [toList_node, List.mem_append, List.mem_cons] at hx
  rcases hk with hk | ⟨hk, hr⟩ | ⟨hk, hl⟩
  · exact absurd hk hne
  · subst hr
    rcases hx with (hx | hx | hx | hx) | hx
    · exact not_equiv_of_below (h1 x hx)
    · exact not_equiv_of_below (h3 (Or.inr hk) x hx)
    · subst hx; exact hne
    · simp at hx
    · exact not_equiv_of_above (h2 x hx)
  · subst hl
    rcases hx with (hx | hx | hx | hx) | hx
    · exact not_equiv_of_below (h1 x hx)
    · simp at hx
    · subst hx; exact hne
    · exact not_equiv_of_above (h4 (Or.inr hk) x hx)
    · exact not_equiv_of_above (h2 x hx)

/-! ## `insert_at` -/

theorem new_element_snd (b : Bimap L R) (l : L) (r : R) :
    (b.new_element l r).2 = .element b.brk := rfl

theorem new_element_base (b : Bimap L R) (l : L) (r : R) (s : Side) (y : Ref) :
    (b.new_element l r).1.base s y = if y = .element b.brk then .ok {} else b.base s y := by
  cases y with
  | sentinel o => simp [Bimap.new_element, Bimap.base]
  | element a =>
    by_cases h : a = b.brk
    · subst h; simp [Bimap.new_element, Bimap.base]
    · simp [Bimap.new_element, Bimap.base, Function.update, h]

theorem new_element_key (b : Bimap L R) (l : L) (r : R) (s : Side) (a : Nat) (h : a ≠ b.brk) :
    (b.new_element l r).1.key s a = b.key s a := by
  simp [Bimap.new_element, Bimap.key, Function.update, h]

theorem Linked.size_succ {b : Bimap L R} {s : Side} {t : Tree} {hi lo : Ref}
    (h : Linked b s t hi lo) : Linked { b with size_ := b.size_ + 1 } s t hi lo :=
  h.congr_all rfl (fun y => by cases y <;> rfl)

theorem Inv.order {b : Bimap L R} {tl tr : Tree} (h : Inv b tl tr) (s : Side) :
    StrictWeakOrder (b.get_compare s) := by
  cases s
  · exact h.order_left
  · exact h.order_right

theorem Inv.nodup_left {b : Bimap L R} {tl tr : Tree} (h : Inv b tl tr) : tl.toList.Nodup :=
  nodup_of_sorted (h.order .left) h.left.sorted

theorem Inv.nodup_right {b : Bimap L R} {tl tr : Tree} (h : Inv b tl tr) : tr.toList.Nodup :=
  nodup_of_sorted (h.order .right) h.right.sorted

theorem Inv.nav_left {b : Bimap L R} {tl tr : Tree} (h : Inv b tl tr) : Nav b .left tl :=
  h.left.nav (h.order .left)

theorem Inv.nav_right {b : Bimap L R} {tl tr : Tree} (h : Inv b tl tr) : Nav b .right tr :=
  h.right.nav (h.order .right)

theorem Inv.nil_iff {b : Bimap L R} {tl tr : Tree} (h : Inv b tl tr) : tl = .nil ↔ tr = .nil := by
  rw [← toList_eq_nil, ← toList_eq_nil]
  constructor
  · intro h1; exact List.Perm.eq_nil (h1 ▸ h.perm.symm)
  · intro h1; exact List.Perm.eq_nil (h1 ▸ h.perm)

theorem Inv.size_right {b : Bimap L R} {tl tr : Tree} (h : Inv b tl tr) :
    b.size_ = tr.toList.length := by
  rw [h.size, h.perm.length_eq]

theorem Linked.congr_on {b b1 : Bimap L R} {s : Side} {t : Tree} {hi lo : Ref}
    (h : Linked b s t hi lo) (hs : b1.self = b.self) (hsen : b1.sentinel_ s = b.sentinel_ s)
    (hb : ∀ a ∈ t.toList, b1.base s (.element a) = b.base s (.element a)) :
    Linked b1 s t hi lo := by
  have hg : b1.get_sentinel = b.get_sentinel := by simp [Bimap.get_sentinel, hs]
  constructor
  · rw [hg]; exact h.shape.congr hb
  · unfold SentinelFor
    rw [hsen, hg]; exact h.sentinel

theorem SideInv.linked {b : Bimap L R} {s : Side} {t : Tree} (h : SideInv b s t) :
    Linked b s t (lastD b.get_sentinel t.toList) (firstD b.get_sentinel t.toList) :=
  ⟨h.shape, h.sentinel⟩

theorem new_element_linked {b : Bimap L R} {s : Side} {t : Tree} {hi lo : Ref}
    (h : Linked b s t hi lo) (l : L) (r : R) (hn : b.brk ∉ t.toList) :
    Linked (b.new_element l r).1 s t hi lo :=
  h.congr_on rfl rfl (fun a ha => by
    rw [new_element_base]
    have : a ≠ b.brk := fun h1 => hn (h1 ▸ ha)
    simp [this])

theorem AttachAt.toList {top : Ref} {n : Nat} {t t1 : Tree} {pos : Ptr} {cr : Bool}
    (h : AttachAt top n t pos cr t1) :
    ∃ P Q, t.toList = P ++ Q ∧ t1.toList = P ++ n :: Q := by
  cases h with
  | root => exact ⟨[], [], rfl, rfl⟩
  | right c l a =>
    refine ⟨before c ++ (l.toList ++ [a]), after c, ?_, ?_⟩ <;> rw [toList_plug] <;> simp
  | left c a r =>
    refine ⟨before c, a :: r.toList ++ after c, ?_, ?_⟩ <;> rw [toList_plug] <;> simp

theorem nodup_insert_mid {P Q : List Nat} {n : Nat} (h : (P ++ Q).Nodup) (hn : n ∉ P ++ Q) :
    (P ++ n :: Q).Nodup := by
  have : (P ++ n :: Q).Perm (n :: (P ++ Q)) := List.perm_middle
  rw [this.nodup_iff]
  exact List.nodup_cons.2 ⟨hn, h⟩

theorem AttachAt.nodup_attach {top : Ref} {n : Nat} {t t1 : Tree} {pos : Ptr} {cr : Bool}
    (h : AttachAt top n t pos cr t1) (hnd : t.toList.Nodup) (hn : n ∉ t.toList) :
    t1.toList.Nodup := by
  obtain ⟨P, Q, h1, h2⟩ := h.toList
  rw [h2]
  rw [h1] at hnd hn
  exact nodup_insert_mid hnd hn

theorem insert_at_spec {b : Bimap L R} {tl tr : Tree} (hinv : Inv b tl tr) (l : L) (r : R)
    {posL posR : Ptr} {crL crR : Bool} {tl1 tr1 : Tree}
    (hcmp : (tl = .nil ∧ crL = false ∧ crR = false) ∨
      (tl ≠ .nil ∧ ∃ kl kr, operator_deref b .left posL = .ok kl ∧
        operator_deref b .right posR = .ok kr ∧ crL = b.compare_left_ kl l ∧
        crR = b.compare_right_ kr r))
    (haL : AttachAt b.get_sentinel b.brk tl posL crL tl1)
    (haR : AttachAt b.get_sentinel b.brk tr posR crR tr1) :
    ∃ b1, insert_at b l r posL posR = .ok (b1, some (.element b.brk)) ∧ Grown b b1 l r ∧
      Linked b1 .left tl1 (lastD b.get_sentinel tl1.toList) (firstD b.get_sentinel tl1.toList) ∧
      Linked b1 .right tr1 (lastD b.get_sentinel tr1.toList) (firstD b.get_sentinel tr1.toList) := by
  have hfresh : b.heap b.brk = none := hinv.fresh _ (le_refl _)
  have hnl : b.brk ∉ tl.toList := by
    intro h
    have := (hinv.dom _).2 h
    simp [hfresh] at this
  have hnr : b.brk ∉ tr.toList := fun h => hnl (hinv.perm.symm.subset h)
  have hndl := hinv.nodup_left
  have hndr := hinv.nodup_right
  -- the state after `new`
  have hL0 := new_element_linked hinv.left.linked l r hnl
  have hR0 := new_element_linked hinv.right.linked l r hnr
  have hbn : ∀ s, (b.new_element l r).1.base s (.element b.brk) = .ok {} := by
    intro s; rw [new_element_base]; simp
  -- linking into the left tree
  obtain ⟨b1, h1, t1, hL1⟩ := attach_link hL0 hndl (hbn .left) hnl
    (by intro h; subst h; exact ⟨rfl, rfl⟩) haL
  have hR1 : Linked b1 .right tr _ _ := hR0.of_touch_other t1
  have hbn1 : b1.base .right (.element b.brk) = .ok {} := by
    rw [← hbn .right]; exact t1.other _
  -- linking into the right tree
  have hg1 : b1.get_sentinel = b.get_sentinel := t1.get_sentinel
  obtain ⟨b2, h2, t2, hR2⟩ := attach_link hR1 hndr hbn1 hnr
    (by intro h; subst h; rw [hg1]; exact ⟨rfl, rfl⟩) (hg1 ▸ haR)
  have hL2 : Linked b2 .left tl1 _ _ := Linked.of_touch_other (s := .left) hL1 t2
  have hg2 : b2.get_sentinel = b.get_sentinel := t2.get_sentinel.trans hg1
  have hs2 : b2.size_ = b.size_ := t2.size_.trans t1.size_
  -- refreshing the caches
  obtain ⟨b3, h3, t3, hL3⟩ := attach_update hL2 (haL.nodup_attach hndl hnl) (hg2 ▸ haL)
    (by rw [hg2]) (by rw [hg2]) (hs2.trans hinv.size)
  have hR3 : Linked b3 .right tr1 _ _ := hR2.of_touch_other t3
  have hg3 : b3.get_sentinel = b.get_sentinel := t3.get_sentinel.trans hg2
  have hs3 : b3.size_ = b.size_ := t3.size_.trans hs2
  obtain ⟨b4, h4, t4, hR4⟩ := attach_update hR3 (haR.nodup_attach hndr hnr) (hg3 ▸ haR)
    (by rw [hg3]) (by rw [hg3]) (hs3.trans hinv.size_right)
  have hL4 : Linked b4 .left tl1 _ _ := Linked.of_touch_other (s := .left) hL3 t4
  have hsame : Same (b.new_element l r).1 b4 :=
    t1.toSame.trans (t2.toSame.trans (t3.toSame.trans t4.toSame))
  refine ⟨{ b4 with size_ := b4.size_ + 1 }, ?_, ?_, ?_, ?_⟩
  · have hcmp2 : (if (!b.empty) = true then do
          let kl ← operator_deref b .left posL
          let kr ← operator_deref b .right posR
          Except.ok (b.compare_left_ kl l, b.compare_right_ kr r)
        else (Except.ok (false, false) : Except Error (Bool × Bool))) = .ok (crL, crR) := by
      rcases hcmp with ⟨h0, hl0, hr0⟩ | ⟨h0, kl, kr, hkl, hkr, hl0, hr0⟩
      · have : b.empty = true := by
          simp [Bimap.empty, Bimap.size, hinv.size, h0]
        simp [this, hl0, hr0]
      · have : b.empty = false := by
          have h5 : b.size_ ≠ 0 := by
            rw [hinv.size]
            intro h6
            exact h0 (toList_eq_nil.1 (List.length_eq_zero.1 h6))
          simp [Bimap.empty, Bimap.size, h5]
        simp [this, hkl, hkr, hl0, hr0]
    simp only [insert_at, hcmp2, ok_bind, new_element_snd, h1, h2, h3, h4, pure_eq_ok]
  · exact
      { self := hsame.self
        size_ := by show b4.size_ + 1 = b.size_ + 1; rw [hsame.size_]; rfl
        compare_left_ := hsame.compare_left_
        compare_right_ := hsame.compare_right_
        brk := hsame.brk
        key_left_new := by
          show b4.key .left b.brk = some l
          rw [hsame.key]; simp [Bimap.new_element, Bimap.key, Element.get_key]
        key_right_new := by
          show b4.key .right b.brk = some r
          rw [hsame.key]; simp [Bimap.new_element, Bimap.key, Element.get_key]
        key_old := fun s a ha => by
          show b4.key s a = b.key s a
          rw [hsame.key, new_element_key b l r s a ha] }
  · have := hL4.size_succ
    rw [hg2] at this
    exact this
  · have := hR4.size_succ
    rw [hg3] at this
    exact this


/-! ## `insert` -/

theorem key_isSome (b : Bimap L R) (s : Side) (a : Nat) :
    (b.key s a).isSome = (b.heap a).isSome := by
  simp [Bimap.key]

theorem sorted_insert {b b1 : Bimap L R} {s : Side} {v : Key L R s} {n : Nat} {P Q : List Nat}
    (hs : (P ++ Q).Pairwise (b.keyLt s)) (hP : ∀ x ∈ P, b.keyBelow s v x)
    (hQ : ∀ x ∈ Q, b.keyAbove s v x) (hkn : b1.key s n = some v)
    (hko : ∀ x ∈ P ++ Q, b1.key s x = b.key s x) (hc : b1.get_compare s = b.get_compare s) :
    (P ++ n :: Q).Pairwise (b1.keyLt s) := by
  have hlt : ∀ x ∈ P ++ Q, ∀ y ∈ P ++ Q, b.keyLt s x y → b1.keyLt s x y := by
    intro x hx y hy ⟨kx, ky, h1, h2, h3⟩
    exact ⟨kx, ky, by rw [hko x hx, h1], by rw [hko y hy, h2], by rw [hc]; exact h3⟩
  rw [List.pairwise_append] at hs ⊢
  obtain ⟨h1, h2, h3⟩ := hs
  refine ⟨?_, ?_, ?_⟩
  · exact h1.imp_of_mem (fun hx hy h => hlt _ (by simp [hx]) _ (by simp [hy]) h)
  · rw [List.pairwise_cons]
    refine ⟨?_, h2.imp_of_mem (fun hx hy h => hlt _ (by simp [hx]) _ (by simp [hy]) h)⟩
    intro y hy
    obtain ⟨k, hk, hv⟩ := hQ y hy
    exact ⟨v, k, hkn, by rw [hko y (by simp [hy]), hk], by rw [hc]; exact hv⟩
  · intro x hx y hy
    simp only [List.mem_cons] at hy
    rcases hy with hy | hy
    · subst hy
      obtain ⟨k, hk, hv⟩ := hP x hx
      exact ⟨k, v, by rw [hko x (by simp [hx]), hk], hkn, by rw [hc]; exact hv⟩
    · exact hlt _ (by simp [hx]) _ (by simp [hy]) (h3 x hx y hy)

theorem InsertedInto.perm {b : Bimap L R} {s : Side} {v : Key L R s} {n : Nat}
    {xs ys : List Nat} (h : InsertedInto b s v n xs ys) : ys.Perm (n :: xs) := by
  obtain ⟨P, Q, h1, h2, -, -⟩ := h
  rw [h1, h2]
  exact List.perm_middle

theorem InsertedInto.mem {b : Bimap L R} {s : Side} {v : Key L R s} {n : Nat}
    {xs ys : List Nat} (h : InsertedInto b s v n xs ys) (a : Nat) :
    a ∈ ys ↔ a = n ∨ a ∈ xs := by
  rw [h.perm.mem_iff]; simp

theorem inv_of_grown {b b1 : Bimap L R} {tl tr tl1 tr1 : Tree} {l : L} {r : R}
    (hinv : Inv b tl tr) (hg : Grown b b1 l r)
    (hL : Linked b1 .left tl1 (lastD b.get_sentinel tl1.toList) (firstD b.get_sentinel tl1.toList))
    (hR : Linked b1 .right tr1 (lastD b.get_sentinel tr1.toList)
      (firstD b.get_sentinel tr1.toList))
    (hiL : InsertedInto b .left l b.brk tl.toList tl1.toList)
    (hiR : InsertedInto b .right r b.brk tr.toList tr1.toList) : Inv b1 tl1 tr1 := by
  have hfresh : b.heap b.brk = none := hinv.fresh _ (le_refl _)
  have hnl : b.brk ∉ tl.toList := by
    intro h
    have := (hinv.dom _).2 h
    simp [hfresh] at this
  have hnr : b.brk ∉ tr.toList := fun h => hnl (hinv.perm.symm.subset h)
  have hgs : b1.get_sentinel = b.get_sentinel := by simp [Bimap.get_sentinel, hg.self]
  have hcl : b1.get_compare .left = b.get_compare .left := hg.compare_left_
  have hcr : b1.get_compare .right = b.get_compare .right := hg.compare_right_
  refine
    { left := ⟨hL.shape, by rw [hgs]; exact hL.sentinel, ?_⟩
      right := ⟨hR.shape, by rw [hgs]; exact hR.sentinel, ?_⟩
      perm := (hiL.perm.trans ((List.Perm.cons _ hinv.perm).trans hiR.perm.symm))
      size := by rw [hg.size_, hinv.size, hiL.perm.length_eq]; simp
      dom := ?_
      fresh := ?_
      order_left := by rw [hg.compare_left_]; exact hinv.order_left
      order_right := by rw [hg.compare_right_]; exact hinv.order_right }
  · obtain ⟨P, Q, h1, h2, h3, h4⟩ := hiL
    rw [h2]
    refine sorted_insert (h1 ▸ hinv.left.sorted) h3 h4 hg.key_left_new ?_ hcl
    intro x hx
    exact hg.key_old _ _ (fun h => hnl (by rw [h1, ← h]; exact hx))
  · obtain ⟨P, Q, h1, h2, h3, h4⟩ := hiR
    rw [h2]
    refine sorted_insert (h1 ▸ hinv.right.sorted) h3 h4 hg.key_right_new ?_ hcr
    intro x hx
    exact hg.key_old _ _ (fun h => hnr (by rw [h1, ← h]; exact hx))
  · intro a
    rw [hiL.mem, ← key_isSome b1 .left]
    by_cases ha : a = b.brk
    · subst ha; simp [hg.key_left_new]
    · rw [hg.key_old _ _ ha, key_isSome, hinv.dom]; simp [ha]
  · intro a ha
    rw [hg.brk] at ha
    have h1 : a ≠ b.brk := by omega
    have h2 := hg.key_old .left a h1
    have h3 := hinv.fresh a (by omega)
    simp only [Bimap.key, h3, Option.map_none', Option.map_eq_none'] at h2
    exact h2

theorem is_equal_iff_equiv {b : Bimap L R} {s : Side} {a : Nat} {k : Key L R s}
    (hk : b.key s a = some k) (v : Key L R s) :
    b.is_equal s k v = true ↔ b.keyEquiv s v a := by
  rw [is_equal_eq]
  constructor
  · intro h
    simp only [Bool.and_eq_true, Bool.not_eq_true'] at h
    exact ⟨k, hk, h.1, h.2⟩
  · rintro ⟨k1, hk1, h1, h2⟩
    rw [hk] at hk1; cases hk1
    simp [h1, h2]

theorem position_attach {b : Bimap L R} {s : Side} (ho : StrictWeakOrder (b.get_compare s))
    {v : Key L R s} {t : Tree} {c : Ctx} {l r : Tree} {a : Nat} {k : Key L R s}
    (hp : IsPosition b s v t c l a r) (hs : t.toList.Pairwise (b.keyLt s))
    (hne : ¬ b.keyEquiv s v a) (hk : b.key s a = some k) (top : Ref) (n : Nat) :
    ∃ t1, AttachAt top n t (some (.element a)) (b.get_compare s k v) t1 ∧
      InsertedInto b s v n t.toList t1.toList := by
  obtain ⟨h1, h2, h3, h4⟩ := position_split ho hp hs
  obtain ⟨ht, -, hkind⟩ := hp
  subst ht
  rcases hkind with hkind | ⟨hkind, hr⟩ | ⟨hkind, hl⟩
  · exact absurd hkind hne
  · subst hr
    obtain ⟨k1, hk1, hv⟩ := hkind
    rw [hk] at hk1; cases hk1
    rw [hv]
    refine ⟨_, AttachAt.right c l a, before c ++ (l.toList ++ [a]), after c, ?_, ?_, ?_, h2⟩
    · rw [toList_plug]; simp
    · rw [toList_plug]; simp
    · intro x hx
      simp only [List.mem_append, List.mem_singleton] at hx
      rcases hx with hx | hx | hx
      · exact h1 x hx
      · exact h3 (Or.inr ⟨k, hk, hv⟩) x hx
      · subst hx; exact ⟨k, hk, hv⟩
  · subst hl
    obtain ⟨k1, hk1, hv⟩ := hkind
    rw [hk] at hk1; cases hk1
    rw [ho.asymm hv]
    refine ⟨_, AttachAt.left c a r, before c, a :: r.toList ++ after c, ?_, ?_, h1, ?_⟩
    · rw [toList_plug]; simp
    · rw [toList_plug]; simp
    · intro x hx
      simp only [List.cons_append, List.mem_cons, List.mem_append] at hx
      rcases hx with hx | hx | hx
      · subst hx; exact ⟨k, hk, hv⟩
      · exact h4 (Or.inr ⟨k, hk, hv⟩) x hx
      · exact h2 x hx

theorem Inv.empty_eq {b : Bimap L R} {tl tr : Tree} (hinv : Inv b tl tr) :
    b.empty = decide (tl = .nil) := by
  simp only [Bimap.empty, Bimap.size, hinv.size]
  cases tl with
  | nil => simp
  | node l a r => simp

theorem insert_spec {b : Bimap L R} {tl tr : Tree} (hinv : Inv b tl tr) (l : L) (r : R) :
    (((∃ a ∈ tl.toList, b.keyEquiv .left l a) ∨ (∃ a ∈ tr.toList, b.keyEquiv .right r a)) ∧
      b.insert l r = .ok (b, b.end_left)) ∨
    ((∀ a ∈ tl.toList, ¬ b.keyEquiv .left l a) ∧ (∀ a ∈ tr.toList, ¬ b.keyEquiv .right r a) ∧
      ∃ b1 tl1 tr1, b.insert l r = .ok (b1, some (.element b.brk)) ∧ Grown b b1 l r ∧
        Inv b1 tl1 tr1 ∧ InsertedInto b .left l b.brk tl.toList tl1.toList ∧
        InsertedInto b .right r b.brk tr.toList tr1.toList) := by
  have hnl := hinv.nav_left
  have hnr := hinv.nav_right
  by_cases h0 : tl = .nil
  · -- the empty container
    have h0r : tr = .nil := hinv.nil_iff.1 h0
    subst h0 h0r
    right
    refine ⟨by simp, by simp, ?_⟩
    have hsz : b.size_ = 0 := by simpa using hinv.size
    obtain ⟨b1, h1, hg, hL, hR⟩ := insert_at_spec hinv l r (Or.inl ⟨rfl, rfl, rfl⟩)
      AttachAt.root AttachAt.root
    refine ⟨b1, _, _, ?_, hg, inv_of_grown hinv hg hL hR ?_ ?_, ?_, ?_⟩
    · have he : b.empty = true := by simp [hinv.empty_eq]
      simp [Bimap.insert, insert_impl, hnl.find_insert_position_empty hsz,
        hnr.find_insert_position_empty hsz, he, h1]
    all_goals exact ⟨[], [], rfl, rfl, by simp, by simp⟩
  · have h0r : tr ≠ .nil := fun h => h0 (hinv.nil_iff.2 h)
    have he : b.empty = false := by simp [hinv.empty_eq, h0]
    obtain ⟨cL, lL, aL, rL, hfL, hpL⟩ := hnl.find_insert_position hinv.size h0 l
    obtain ⟨cR, lR, aR, rR, hfR, hpR⟩ := hnr.find_insert_position hinv.size_right h0r r
    have haL : aL ∈ tl.toList := by rw [hpL.1]; exact mem_plug_self _ _ _ _
    have haR : aR ∈ tr.toList := by rw [hpR.1]; exact mem_plug_self _ _ _ _
    obtain ⟨kl, hkl⟩ := key_of_live (hnl.shape.live aL haL) .left
    obtain ⟨kr, hkr⟩ := key_of_live (hnr.shape.live aR haR) .right
    by_cases heL : b.keyEquiv .left l aL
    · left
      refine ⟨Or.inl ⟨aL, haL, heL⟩, ?_⟩
      simp [Bimap.insert, insert_impl, hfL, hfR, he, operator_deref_eq hkl,
        (is_equal_iff_equiv hkl l).2 heL]
    · have hL1 : b.is_equal .left kl l = false := by
        rw [← Bool.not_eq_true, is_equal_iff_equiv hkl l]; exact heL
      by_cases heR : b.keyEquiv .right r aR
      · left
        refine ⟨Or.inr ⟨aR, haR, heR⟩, ?_⟩
        simp [Bimap.insert, insert_impl, hfL, hfR, he, operator_deref_eq hkl, hL1,
          operator_deref_eq hkr, (is_equal_iff_equiv hkr r).2 heR]
      · have hR1 : b.is_equal .right kr r = false := by
          rw [← Bool.not_eq_true, is_equal_iff_equiv hkr r]; exact heR
        right
        refine ⟨position_no_equiv (hinv.order .left) hpL hinv.left.sorted heL,
          position_no_equiv (hinv.order .right) hpR hinv.right.sorted heR, ?_⟩
        obtain ⟨tl1, hatL, hiL⟩ := position_attach (hinv.order .left) hpL hinv.left.sorted heL hkl
          b.get_sentinel b.brk
        obtain ⟨tr1, hatR, hiR⟩ := position_attach (hinv.order .right) hpR hinv.right.sorted heR
          hkr b.get_sentinel b.brk
        obtain ⟨b1, h1, hg, hL, hR⟩ := insert_at_spec hinv l r
          (Or.inr ⟨h0, kl, kr, operator_deref_eq hkl, operator_deref_eq hkr, rfl, rfl⟩) hatL hatR
        refine ⟨b1, tl1, tr1, ?_, hg, inv_of_grown hinv hg hL hR hiL hiR, hiL, hiR⟩
        simp [Bimap.insert, insert_impl, hfL, hfR, he, operator_deref_eq hkl, hL1,
          operator_deref_eq hkr, hR1, h1]


/-! ## Refreshing the cache before an erasure -/

theorem ctx_ends_ne_nil {c : Ctx} (h : c ≠ []) : before c ≠ [] ∨ after c ≠ [] := by
  cases c with
  | nil => exact absurd rfl h
  | cons f c =>
    cases f with
    | left a r => right; simp [after]
    | right l a => left; simp [before]

theorem root_plug_mem (f : Frame) (c : Ctx) (t : Tree) :
    ∃ a, (plug (f :: c) t).root = some (.element a) ∧ a ∈ ctxList (f :: c) := by
  induction c generalizing f t with
  | nil => cases f <;> simp [plug, ctxList, before, after]
  | cons g c ih =>
    cases f with
    | left a r =>
      obtain ⟨x, h1, h2⟩ := ih g (.node t a r)
      refine ⟨x, h1, ?_⟩
      simp only [ctxList, List.mem_append] at h2 ⊢
      cases g <;> simp [before, after] at h2 ⊢ <;> tauto
    | right l a =>
      obtain ⟨x, h1, h2⟩ := ih g (.node l a t)
      refine ⟨x, h1, ?_⟩
      simp only [ctxList, List.mem_append] at h2 ⊢
      cases g <;> simp [before, after] at h2 ⊢ <;> tauto

theorem lastD_ne_of_not_mem {d : Ref} {xs : List Nat} {n : Nat} (hd : d ≠ .element n)
    (hn : n ∉ xs) : lastD d xs ≠ .element n := by
  rcases lastD_cases d xs with ⟨-, h⟩ | ⟨m, hm, h⟩
  · rw [h]; exact hd
  · rw [h]; intro h1; cases h1; exact hn hm

theorem firstD_ne_of_not_mem {d : Ref} {xs : List Nat} {n : Nat} (hd : d ≠ .element n)
    (hn : n ∉ xs) : firstD d xs ≠ .element n := by
  rcases firstD_cases d xs with ⟨-, h⟩ | ⟨m, hm, h⟩
  · rw [h]; exact hd
  · rw [h]; intro h1; cases h1; exact hn hm

/-- The refresh of the cache before the erasure of `n` needs the links only: the keys are
not read. -/
theorem update_sentinel_linked {b : Bimap L R} {s : Side} {t : Tree}
    (hsi : Linked b s t (lastD b.get_sentinel t.toList) (firstD b.get_sentinel t.toList))
    (hn : Nav b s t) {c : Ctx} {l r : Tree} {n : Nat}
    (ht : t = plug c (.node l n r)) (hsz : t.toList.length ≤ b.size_) :
    ∃ b1, update_sentinel b s (some (.element n)) = .ok b1 ∧ Touch s b b1 ∧
      Linked b1 s t (lastD b.get_sentinel (before c ++ l.toList ++ (r.toList ++ after c)))
        (firstD b.get_sentinel (before c ++ l.toList ++ (r.toList ++ after c))) := by
  have hlk := hsi
  have hbn := hn.base_at ht
  have hnd := hn.nodup
  rw [ht] at hnd
  obtain ⟨hn1, hn2, hn3, hn4, hn5, hn6, hn7, hn8, hn9⟩ := nodup_plug hnd
  have hlist : t.toList = (before c ++ l.toList) ++ n :: (r.toList ++ after c) := by
    rw [ht, toList_plug]; simp
  have hnA : n ∉ before c ++ l.toList := by
    simp only [List.mem_append, not_or]
    exact ⟨fun h => hn4 (by simp [ctxList, h]), hn5⟩
  have hnB : n ∉ r.toList ++ after c := by
    simp only [List.mem_append, not_or]
    exact ⟨hn6, fun h => hn4 (by simp [ctxList, h])⟩
  have hs := hsi.sentinel
  unfold SentinelFor at hs
  rw [hlist] at hs hlk
  generalize hA : before c ++ l.toList = A at hs hnA hlk ⊢
  generalize hB : r.toList ++ after c = B at hs hnB hlk ⊢
  have hsn : b.get_sentinel ≠ .element n := sentinel_ne_element b n
  by_cases hsingle : A = [] ∧ B = []
  · -- the only element
    obtain ⟨hA0, hB0⟩ := hsingle
    subst hA0 hB0
    simp only [List.append_eq_nil] at hA hB
    have hc : c = [] := by
      by_contra hc
      rcases ctx_ends_ne_nil hc with h | h
      · exact h hA.1
      · exact h hB.2
    subst hc
    have hl0 := toList_eq_nil.1 hA.2
    have hr0 := toList_eq_nil.1 hB.1
    subst hl0 hr0
    subst ht
    obtain ⟨b1, h1, t1, l1⟩ := set_lo hlk b.get_sentinel
    obtain ⟨b2, h2, t2, l2⟩ := set_hi l1 b.get_sentinel
    refine ⟨b2, ?_, t1.trans_touch t2, by simpa using l2⟩
    simp only [plug_nil, root_node, Option.getD_some] at hs
    simp only [update_sentinel, hs, hbn, ok_bind, root_nil, and_self, if_true, h1]
    rw [t1.get_sentinel] at h2; exact h2
  · -- the cache keeps an element
    have hAB : A ≠ [] ∨ B ≠ [] := by
      by_contra h
      simp only [not_or, not_not] at h
      exact hsingle h
    have hb : ∃ b1, (if some (.element n) = (b.sentinel_ s).left_ then do
          let it ← operator_dec b s (some (.element n))
          b.set_left s b.get_sentinel it
        else if some (.element n) = (b.sentinel_ s).right_ then do
          let it ← operator_inc b s (some (.element n))
          b.set_right s b.get_sentinel it
        else pure b) = .ok b1 ∧ Touch s b b1 ∧
        Linked b1 s t (lastD b.get_sentinel (A ++ B)) (firstD b.get_sentinel (A ++ B)) := by
      by_cases hB0 : B = []
      · subst hB0
        have hA0 : A ≠ [] := by
          rcases hAB with h | h
          · exact h
          · exact absurd rfl h
        have h1 : some (Ref.element n) = (b.sentinel_ s).left_ := by
          rw [hs]; simp
        have hdec : lastD (aboveLeft n c) l.toList = lastD b.get_sentinel A := by
          rw [← hA, lastD_append]
          by_cases hl0 : l.toList = []
          · rw [hl0] at hA ⊢
            simp only [List.append_nil] at hA
            simp only [lastD_nil]
            exact aboveLeft_eq n c _ (by rw [hA]; exact hA0)
          · exact lastD_of_ne_nil hl0 _ _
        obtain ⟨b1, h2, t1, l1⟩ := set_hi hlk (lastD b.get_sentinel A)
        refine ⟨b1, ?_, t1, ?_⟩
        · rw [if_pos h1, hn.operator_dec ht hsz, hdec]
          exact h2
        · simp only [List.append_nil]
          have : firstD b.get_sentinel (A ++ [n]) = firstD b.get_sentinel A := by
            rw [firstD_append]; exact firstD_of_ne_nil hA0 _ _
          rw [this] at l1
          exact l1
      · have h1 : ¬ some (Ref.element n) = (b.sentinel_ s).left_ := by
          rw [hs]
          simp only [Option.some.injEq]
          rw [lastD_append_cons]
          intro h
          rcases lastD_cases (.element n) B with ⟨h0, -⟩ | ⟨m, hm, hlast⟩
          · exact hB0 h0
          · rw [hlast] at h; cases h; exact hnB hm
        have hhi : lastD b.get_sentinel (A ++ n :: B) = lastD b.get_sentinel (A ++ B) := by
          rw [lastD_append_cons, lastD_append]
          exact lastD_of_ne_nil hB0 _ _
        rw [hhi] at hlk
        by_cases hA0 : A = []
        · subst hA0
          have h2 : some (Ref.element n) = (b.sentinel_ s).right_ := by
            rw [hs]; simp
          obtain ⟨b1, h3, t1, l1⟩ := set_lo hlk (firstD b.get_sentinel B)
          refine ⟨b1, ?_, t1, by simpa using l1⟩
          rw [if_neg h1, if_pos h2, hn.operator_inc ht hsz, hB]
          exact h3
        · have h2 : ¬ some (Ref.element n) = (b.sentinel_ s).right_ := by
            rw [hs]
            simp only [Option.some.injEq]
            rw [firstD_append]
            intro h
            rcases firstD_cases (firstD b.get_sentinel (n :: B)) A with ⟨h0, -⟩ | ⟨m, hm, hfirst⟩
            · exact hA0 h0
            · rw [hfirst] at h; cases h; exact hnA hm
          have hlo : firstD b.get_sentinel (A ++ n :: B) = firstD b.get_sentinel (A ++ B) := by
            rw [firstD_append, firstD_append _ A]
            exact firstD_of_ne_nil hA0 _ _
          rw [hlo] at hlk
          exact ⟨b, by rw [if_neg h1, if_neg h2]; rfl, Touch.refl_touch s b, hlk⟩
    obtain ⟨b1, h1, t1, l1⟩ := hb
    refine ⟨b1, ?_, t1, l1⟩
    simp only [update_sentinel]
    by_cases hpar : (b.sentinel_ s).parent_ = some (.element n)
    · have hnot : ¬ (l.root = none ∧ r.root = none) := by
        rintro ⟨h2, h3⟩
        rw [root_eq_none] at h2 h3
        subst h2 h3
        have hc : c = [] := by
          by_contra hc
          obtain ⟨f, c1, hc1⟩ := List.exists_cons_of_ne_nil hc
          subst hc1
          obtain ⟨x, hx1, hx2⟩ := root_plug_mem f c1 (.node .nil n .nil)
          rw [hs, ht, hx1] at hpar
          simp only [Option.getD_some, Option.some.injEq, Ref.element.injEq] at hpar
          subst hpar
          exact hn4 hx2
        subst hc
        simp [before, after] at hA hB
        exact hsingle ⟨hA, hB⟩
      rw [if_pos hpar]
      simp only [hbn, ok_bind]
      rw [if_neg hnot]
      exact h1
    · rw [if_neg hpar]
      exact h1

theorem update_sentinel_old {b : Bimap L R} {s : Side} {t : Tree} (hsi : SideInv b s t)
    (ho : StrictWeakOrder (b.get_compare s)) {c : Ctx} {l r : Tree} {n : Nat}
    (ht : t = plug c (.node l n r)) (hsz : t.toList.length ≤ b.size_) :
    ∃ b1, update_sentinel b s (some (.element n)) = .ok b1 ∧ Touch s b b1 ∧
      Linked b1 s t (lastD b.get_sentinel (before c ++ l.toList ++ (r.toList ++ after c)))
        (firstD b.get_sentinel (before c ++ l.toList ++ (r.toList ++ after c))) :=
  update_sentinel_linked hsi.linked (hsi.nav ho) ht hsz


/-! ## The right spine of a subtree -/

theorem after_rightCtx (sp : List (Tree × Nat)) : after (rightCtx sp) = [] := by
  induction sp with
  | nil => rfl
  | cons p sp ih => simpa [rightCtx, after] using ih

theorem rightCtx_append (sp1 sp2 : List (Tree × Nat)) :
    rightCtx (sp1 ++ sp2) = rightCtx sp1 ++ rightCtx sp2 := by
  simp [rightCtx]

theorem exists_spine (l : Tree) (a : Nat) (r : Tree) :
    ∃ sp ml m, Tree.node l a r = plug (rightCtx sp) (.node ml m .nil) := by
  induction r generalizing l a with
  | nil => exact ⟨[], l, a, rfl⟩
  | node rl ra rr _ ihr =>
    obtain ⟨sp, ml, m, h⟩ := ihr rl ra
    refine ⟨sp ++ [(l, a)], ml, m, ?_⟩
    rw [rightCtx_append, plug_append, ← h]
    rfl

theorem holeParent_append_cons (top : Ref) (f : Frame) (c1 c2 : Ctx) :
    holeParent top ((f :: c1) ++ c2) = holeParent top (f :: c1) := by
  cases f <;> rfl

theorem holeParent_rightCtx (top : Ref) (p : Tree × Nat) (sp : List (Tree × Nat)) :
    holeParent top (rightCtx (p :: sp)) = .element p.2 := rfl

theorem toList_spine (sp : List (Tree × Nat)) (t : Tree) :
    (plug (rightCtx sp) t).toList = before (rightCtx sp) ++ t.toList := by
  rw [toList_plug, after_rightCtx]; simp

theorem Links.descend_right_tree {b : Bimap L R} {s : Side} {t : Tree} (hn : Links b s t)
    (c : Ctx) (t1 : Tree) (ht : t = plug c t1) (hne : t1 ≠ .nil) (fuel : Nat)
    (hf : t1.toList.length ≤ fuel) (d : Ref) :
    ct.descend_right b s fuel t1.root = .ok (some (lastD d t1.toList)) := by
  cases t1 with
  | nil => exact absurd rfl hne
  | node l a r =>
    rw [root_node, hn.descend_right l a r c ht fuel (by simp at hf; omega)]
    simp [lastD_append_cons]

theorem ShapeLoose.of_shape {b : Bimap L R} {s : Side} {t : Tree} {p : Nat}
    (h : Shape b s t (.element p)) : ShapeLoose b s t := by
  cases t with
  | nil => trivial
  | node l a r => exact ⟨p, h.1, h.2.1, h.2.2⟩

theorem ShapeLoose.parent_ne {b : Bimap L R} {s : Side} {t : Tree}
    (h : ShapeLoose b s t) {x : Nat} (hx : x ∈ t.toList) (o : Nat) :
    ∃ e, b.base s (.element x) = .ok e ∧ e.parent_ ≠ some (.sentinel o) := by
  cases t with
  | nil => simp at hx
  | node l a r =>
    obtain ⟨p, h1, h2, h3⟩ := h
    simp only [toList_node, List.mem_append, List.mem_cons] at hx
    rcases hx with hx | hx | hx
    · exact h2.parent_ne_sentinel hx o
    · subst hx; exact ⟨_, h1, by simp⟩
    · exact h3.parent_ne_sentinel hx o


/-! ## `unlink`: preparing the replacement -/

theorem root_eq_some_mem {t : Tree} {y : Ref} (h : t.root = some y) :
    ∃ a, y = .element a ∧ a ∈ t.toList := by
  cases t with
  | nil => simp at h
  | node l a r => simp at h; exact ⟨a, h.symm, by simp⟩

/-- Re-parenting the root of a subtree by `link_to_parent`. -/
theorem Shape.relink {b b1 : Bimap L R} {s : Side} {t : Tree} {p p1 : Ref}
    (h : Shape b s t p) (hnd : t.toList.Nodup)
    (hchild : ∀ c0, t.root = some c0 → ∀ ce, b.base s c0 = .ok ce →
      b1.base s c0 = .ok { ce with parent_ := some p1 })
    (hframe : ∀ a ∈ t.toList, t.root ≠ some (.element a) →
      b1.base s (.element a) = b.base s (.element a)) :
    Shape b1 s t p1 := by
  cases t with
  | nil => trivial
  | node l a r =>
    have h1 := hchild _ rfl _ h.1
    simp only [toList_node, List.nodup_append, List.nodup_cons] at hnd
    refine h.reparent h1 ?_
    intro x hx
    apply hframe x (by simp only [toList_node, List.mem_append, List.mem_cons] at hx ⊢; tauto)
    simp only [root_node, ne_eq, Option.some.injEq, Ref.element.injEq]
    intro hxa
    subst hxa
    simp only [List.mem_append] at hx
    rcases hx with hx | hx
    · exact hnd.2.2 hx (by simp)
    · exact hnd.2.1.1 hx

theorem splice_direct {b : Bimap L R} {s : Side} {t : Tree} (hlk : Links b s t)
    {c : Ctx} {ml r : Tree} {m n : Nat}
    (ht : t = plug c (.node (.node ml m .nil) n r)) :
    ∃ b1, link_to_parent b s (some (.element m)) r.root true false = .ok b1 ∧
      is_right_child b1 s (.element m) = .ok false ∧
      Spliced s (.node ml m .nil) r (.node ml m r) b b1 := by
  have ht2 : t = plug (.left n r :: c) (.node ml m .nil) := by rw [ht]; rfl
  have hbm := hlk.base_at ht2
  have hbn := hlk.base_at ht
  have hnd := hlk.nodup
  rw [ht] at hnd
  obtain ⟨hn1, hn2, hn3, hn4, hn5, hn6, hn7, hn8, hn9⟩ := nodup_plug hnd
  have hsh := hlk.shape
  rw [ht, shape_plug] at hsh
  obtain ⟨hctx, -, ⟨-, hsml, -⟩, hsr⟩ := hsh
  have hmt : m ∈ t.toList := by rw [ht2]; exact mem_plug_self _ _ _ _
  have hml : m ∈ (Tree.node ml m .nil).toList := by simp
  have hmr : m ∉ r.toList := hn9 m hml
  have hrlive : ∀ a ∈ r.toList, b.live (.element a) := hsr.live
  obtain ⟨b1, h1, t1, hm1, hchild, hframe⟩ := link_to_parent_plain (hlk.is_sentinel_element hmt)
    hbm r.root (by
      intro c0 hc0
      obtain ⟨a, ha1, ha2⟩ := root_eq_some_mem hc0
      subst ha1
      exact ⟨by intro h; cases h; exact hmr ha2, hrlive a ha2⟩) true
  simp only [if_true, holeParent] at hm1
  have hbn1 : b1.base s (.element n) = b.base s (.element n) := by
    apply hframe
    · intro h; cases h; exact hn5 hml
    · intro h
      obtain ⟨a, ha1, ha2⟩ := root_eq_some_mem h
      cases ha1; exact hn6 ha2
  refine ⟨b1, h1, ?_, ?_⟩
  · -- `m` is the left child of the node
    have hlive1 : ∀ y, b.live y → b1.live y := fun y hy => (t1.live_iff y).2 hy
    have hPlive : b.live (holeParent b.get_sentinel c) := by
      rcases holeParent_cases b.get_sentinel c with ⟨h, -⟩ | ⟨a, h, ha⟩
      · rw [h]; simp [Bimap.live, Bimap.get_sentinel]
      · rw [h]
        apply hlk.shape.live
        rw [ht, toList_plug]
        simp only [ctxList, List.mem_append] at ha
        simp only [List.mem_append]; tauto
    obtain ⟨v, hv⟩ := is_sentinel_total (hbn1.trans hbn) rfl (hlive1 _ hPlive)
      (by
        intro y hy
        simp only [root_node, Option.some.injEq] at hy
        subst hy
        exact hlive1 _ (hlk.shape.live m hmt))
      (by
        intro y hy
        obtain ⟨a, ha1, ha2⟩ := root_eq_some_mem hy
        subst ha1
        exact hlive1 _ (hrlive a ha2))
    have hdec : decide (r.root = some (Ref.element m)) = false := by
      simp only [decide_eq_false_iff_not]
      intro h
      obtain ⟨a, ha1, ha2⟩ := root_eq_some_mem h
      cases ha1; exact hmr ha2
    cases v with
    | true => simp [is_right_child, has_parent, hm1, hv]
    | false => simp [is_right_child, has_parent, hm1, hv, hbn1, hbn, hdec]
  · refine { toTouch := t1, keep := ?_, loose := ⟨n, hm1, ?_, ?_⟩, toList := by simp }
    · intro y hy
      apply hframe
      · intro h; subst h; exact (hy m rfl).1 hml
      · intro h
        obtain ⟨a, ha1, ha2⟩ := root_eq_some_mem h
        subst ha1
        exact (hy a rfl).2 ha2
    · apply hsml.congr
      intro a ha
      have hal : a ∈ (Tree.node ml m .nil).toList := by simp [ha]
      apply hframe
      · intro h; cases h
        simp only [toList_node, toList_nil, List.nodup_append] at hn2
        exact hn2.2.2 ha (by simp)
      · intro h
        obtain ⟨a1, ha1, ha2⟩ := root_eq_some_mem h
        cases ha1
        exact hn9 a hal ha2
    · apply hsr.relink hn3
      · intro c0 hc0 ce hce
        exact hchild c0 hc0 ce hce
      · intro a ha hroot
        apply hframe
        · intro h; cases h; exact hmr ha
        · exact hroot

theorem spine_parent (top : Ref) (n : Nat) (sp : List (Tree × Nat)) (rest : Ctx) :
    holeParent top (rightCtx sp ++ Frame.left n .nil :: rest) = .element n ∧ sp = [] ∨
    ∃ x, holeParent top (rightCtx sp ++ Frame.left n .nil :: rest) = .element x ∧
      x ∈ before (rightCtx sp) := by
  cases sp with
  | nil => left; exact ⟨rfl, rfl⟩
  | cons p sp =>
    right
    exact ⟨p.2, rfl, by simp [rightCtx, before]⟩

theorem holeParent_spine (top : Ref) (n : Nat) (r : Tree) (sp : List (Tree × Nat)) (rest : Ctx) :
    ∃ x, holeParent top (rightCtx sp ++ Frame.left n r :: rest) = .element x ∧
      holeParent (.element n) (rightCtx sp) = .element x ∧
      (x = n ∨ x ∈ before (rightCtx sp)) := by
  cases sp with
  | nil => exact ⟨n, rfl, rfl, Or.inl rfl⟩
  | cons p sp => exact ⟨p.2, rfl, rfl, Or.inr (by simp [rightCtx, before])⟩

theorem splice_spine {b : Bimap L R} {s : Side} {t : Tree} (hlk : Links b s t)
    {c : Ctx} {sp : List (Tree × Nat)} {ql ml r : Tree} {q m n : Nat}
    (ht : t = plug c (.node (plug (rightCtx ((ql, q) :: sp)) (.node ml m .nil)) n r)) :
    ∃ b1 b2 b3, link_to_parent b s (some (.element m)) r.root true false = .ok b1 ∧
      is_right_child b1 s (.element m) = .ok true ∧
      b1.base s (.element m) =
        .ok { parent_ := some (.element q), left_ := ml.root, right_ := r.root } ∧
      link_to_parent b1 s (some (.element q)) ml.root true false = .ok b2 ∧
      b2.base s (.element n) = b.base s (.element n) ∧
      link_to_parent b2 s (some (.element m))
        (plug (rightCtx ((ql, q) :: sp)) (.node ml m .nil)).root false false = .ok b3 ∧
      Spliced s (plug (rightCtx ((ql, q) :: sp)) (.node ml m .nil)) r
        (.node (plug (rightCtx ((ql, q) :: sp)) ml) m r) b b3 := by
  -- the three views of the tree: at the node, at the replacement, at its parent
  generalize hl : plug (rightCtx ((ql, q) :: sp)) (.node ml m .nil) = l at ht ⊢
  have htm : t = plug (rightCtx ((ql, q) :: sp) ++ .left n r :: c) (.node ml m .nil) := by
    rw [ht, ← hl, plug_append]; rfl
  have htq : t = plug (rightCtx sp ++ .left n r :: c) (.node ql q (.node ml m .nil)) := by
    rw [ht, ← hl, plug_append]; rfl
  have hbn := hlk.base_at ht
  have hbm := hlk.base_at htm
  have hbq := hlk.base_at htq
  have hpm : holeParent b.get_sentinel (rightCtx ((ql, q) :: sp) ++ .left n r :: c)
      = .element q := rfl
  rw [hpm] at hbm
  obtain ⟨pq, hpq1, hpq2, hpq3⟩ := holeParent_spine b.get_sentinel n r sp c
  rw [hpq1] at hbq
  -- the addresses are distinct
  have hnd := hlk.nodup
  rw [ht] at hnd
  obtain ⟨hn1, hn2, hn3, hn4, hn5, hn6, hn7, hn8, hn9⟩ := nodup_plug hnd
  have hll : l.toList = before (rightCtx ((ql, q) :: sp)) ++ (ml.toList ++ [m]) := by
    rw [← hl, toList_spine]; simp
  have hndl := hn2
  rw [← hl] at hndl
  obtain ⟨hl1, hl2, -, hl4, hl5, -, hl7, -, -⟩ := nodup_plug hndl
  simp only [ctxList, after_rightCtx, List.append_nil] at hl1 hl4 hl7
  have hbsp : before (rightCtx ((ql, q) :: sp)) = before (rightCtx sp) ++ (ql.toList ++ [q]) := rfl
  have hm_l : m ∈ l.toList := by rw [hll]; simp
  have hq_l : q ∈ l.toList := by rw [hll, hbsp]; simp
  have hsp_l : ∀ x ∈ before (rightCtx ((ql, q) :: sp)), x ∈ l.toList := by
    intro x hx; rw [hll]; simp [hx]
  have hml_l : ∀ x ∈ ml.toList, x ∈ l.toList := by
    intro x hx; rw [hll]; simp [hx]
  have hpq_ne_m : pq ≠ m := by
    rcases hpq3 with h | h
    · rw [h]; intro h1; exact hn5 (h1 ▸ hm_l)
    · intro h1; subst h1; exact hl4 (by rw [hbsp]; simp [h])
  have hpq_nr : pq ∉ r.toList := by
    rcases hpq3 with h | h
    · rw [h]; exact hn6
    · exact hn9 pq (hsp_l pq (by rw [hbsp]; simp [h]))
  have hq_ne_m : q ≠ m := by
    intro h; subst h; exact hl4 (by rw [hbsp]; simp)
  have hroot_r : ∀ y, r.root = some y → ∃ a, y = .element a ∧ a ∈ r.toList :=
    fun y hy => root_eq_some_mem hy
  have hroot_ml : ∀ y, ml.root = some y → ∃ a, y = .element a ∧ a ∈ ml.toList :=
    fun y hy => root_eq_some_mem hy
  have hroot_l : ∀ y, l.root = some y → ∃ a, y = .element a ∧
      a ∈ before (rightCtx ((ql, q) :: sp)) := by
    intro y hy
    obtain ⟨a, ha1, ha2⟩ := root_plug_mem (.right ql q) (rightCtx sp) (.node ml m .nil)
    have : l.root = some (.element a) := by rw [← hl]; exact ha1
    rw [this] at hy
    cases hy
    refine ⟨a, rfl, ?_⟩
    have h5 : after (Frame.right ql q :: rightCtx sp) = [] := after_rightCtx ((ql, q) :: sp)
    simp only [ctxList, h5, List.append_nil] at ha2
    exact ha2
  -- the shapes of the parts
  have hsh := hlk.shape
  rw [ht, shape_plug] at hsh
  obtain ⟨-, -, hsl, hsr⟩ := hsh
  have hsl2 := hsl
  rw [← hl, shape_plug] at hsl2
  obtain ⟨hsctx, -, hsml, -⟩ := hsl2
  have hlive : ∀ a ∈ t.toList, b.live (.element a) := hlk.shape.live
  have hl_t : ∀ a ∈ l.toList, a ∈ t.toList := by
    intro a ha; rw [ht, toList_plug]; simp [ha]
  have hr_t : ∀ a ∈ r.toList, a ∈ t.toList := by
    intro a ha; rw [ht, toList_plug]; simp [ha]
  -- first link: the right subtree of the node goes below the replacement
  obtain ⟨b1, h1, t1, hm1, hchild1, hframe1⟩ := link_to_parent_plain
    (hlk.is_sentinel_element (hl_t m hm_l)) hbm r.root (by
      intro c0 hc0
      obtain ⟨a, ha1, ha2⟩ := hroot_r c0 hc0
      subst ha1
      exact ⟨by intro h; cases h; exact hn9 m hm_l ha2, hlive a (hr_t a ha2)⟩) true
  simp only [if_true] at hm1
  have hf1 : ∀ a, a ≠ m → a ∉ r.toList → b1.base s (.element a) = b.base s (.element a) := by
    intro a h2 h3
    apply hframe1
    · simpa using h2
    · intro h
      obtain ⟨a1, ha1, ha2⟩ := hroot_r _ h
      cases ha1; exact h3 ha2
  have hbq1 : b1.base s (.element q) = b.base s (.element q) := hf1 q hq_ne_m (hn9 q hq_l)
  have hsen_q1 : is_sentinel b1 s (.element q) = .ok false := by
    rw [is_sentinel_congr hbq (hbq1.trans hbq), hlk.is_sentinel_element (hl_t q hq_l)]
    · intro p hp
      simp only [Option.some.injEq] at hp
      subst hp
      exact hf1 pq hpq_ne_m hpq_nr
    · intro y hy
      obtain ⟨a, ha1, ha2⟩ := root_eq_some_mem hy
      subst ha1
      rw [hf1 a]
      · intro h; subst h; exact hl4 (by rw [hbsp]; simp [ha2])
      · exact hn9 a (hsp_l a (by rw [hbsp]; simp [ha2]))
    · intro y hy
      simp only [root_node, Option.some.injEq] at hy
      subst hy
      rw [hm1, hbm]; rfl
  have hrc : is_right_child b1 s (.element m) = .ok true := by
    simp [is_right_child, has_parent, hm1, hsen_q1, hbq1, hbq]
  -- second link: the left subtree of the replacement closes the gap
  obtain ⟨b2, h2, t2, hq2, hchild2, hframe2⟩ := link_to_parent_plain hsen_q1 (hbq1.trans hbq)
    ml.root (by
      intro c0 hc0
      obtain ⟨a, ha1, ha2⟩ := hroot_ml c0 hc0
      subst ha1
      refine ⟨?_, (t1.live_iff _).2 (hlive a (hl_t a (hml_l a ha2)))⟩
      intro h; cases h
      exact hl7 q ha2 (by rw [hbsp]; simp)) true
  simp only [if_true] at hq2
  have hf2 : ∀ a, a ≠ q → a ∉ ml.toList → b2.base s (.element a) = b1.base s (.element a) := by
    intro a h3 h4
    apply hframe2
    · simpa using h3
    · intro h
      obtain ⟨a1, ha1, ha2⟩ := hroot_ml _ h
      cases ha1; exact h4 ha2
  have hm2 : b2.base s (.element m) = _ := (hf2 m (Ne.symm hq_ne_m) hl5).trans hm1
  have hsen_m2 : is_sentinel b2 s (.element m) = .ok false :=
    is_sentinel_of_parent hm2 rfl (by simpa using hq_ne_m) hq2
      (by simpa using hpq_ne_m)
  -- third link: the left subtree of the node goes below the replacement
  obtain ⟨b3, h3, t3, hm3, hchild3, hframe3⟩ := link_to_parent_plain hsen_m2 hm2 l.root (by
      intro c0 hc0
      obtain ⟨a, ha1, ha2⟩ := hroot_l c0 hc0
      subst ha1
      refine ⟨?_, (t2.live_iff _).2 ((t1.live_iff _).2 (hlive a (hl_t a (hsp_l a ha2))))⟩
      intro h; cases h
      exact hl4 ha2) false
  simp only [Bool.false_eq_true, if_false] at hm3
  have hf3 : ∀ a, a ≠ m → a ∉ before (rightCtx ((ql, q) :: sp)) →
      b3.base s (.element a) = b2.base s (.element a) := by
    intro a h4 h5
    apply hframe3
    · simpa using h4
    · intro h
      obtain ⟨a1, ha1, ha2⟩ := hroot_l _ h
      cases ha1; exact h5 ha2
  have hroot_l1 : (plug (rightCtx ((ql, q) :: sp)) ml).root = l.root := by
    rw [← hl]; exact root_plug_cons_eq _ _ _ _
  refine ⟨b1, b2, b3, h1, hrc, hm1, h2, ?_, h3, ?_⟩
  · rw [hf2 n, hf1 n]
    · intro h; exact hn5 (h ▸ hm_l)
    · exact hn6
    · intro h; exact hn5 (h ▸ hq_l)
    · intro h; exact hn5 (hml_l n h)
  · refine
      { toTouch := t1.trans_touch (t2.trans_touch t3)
        keep := ?_
        loose := ⟨q, by rw [hm3, hroot_l1], ?_, ?_⟩
        toList := by rw [toList_node, toList_spine, hll]; simp }
    · intro y hy
      cases y with
      | sentinel o =>
        rw [hframe3 _ (by simp) (fun h => by obtain ⟨a, ha, -⟩ := hroot_l _ h; cases ha),
          hframe2 _ (by simp) (fun h => by obtain ⟨a, ha, -⟩ := hroot_ml _ h; cases ha),
          hframe1 _ (by simp) (fun h => by obtain ⟨a, ha, -⟩ := hroot_r _ h; cases ha)]
      | element a =>
        obtain ⟨hal, har⟩ := hy a rfl
        rw [hf3 a (fun h => hal (h ▸ hm_l)) (fun h => hal (hsp_l a h)),
          hf2 a (fun h => hal (h ▸ hq_l)) (fun h => hal (hml_l a h)),
          hf1 a (fun h => hal (h ▸ hm_l)) har]
    · -- the left subtree without the replacement, below the replacement
      have hA : Shape b2 s (plug (rightCtx ((ql, q) :: sp)) ml) (.element n) := by
        rw [shape_plug]
        constructor
        · refine hsctx.set_hole ?_ ?_ (by simpa [ctxList, after_rightCtx] using hl1)
          · intro f c1 hfc
            simp only [rightCtx, List.map_cons, List.cons.injEq] at hfc
            obtain ⟨hf, -⟩ := hfc
            subst hf
            exact ⟨_, hbq, hq2⟩
          · intro a ha hne
            simp only [ctxList, after_rightCtx, List.append_nil] at ha
            have haq : a ≠ q := by
              intro h; subst h; exact hne rfl
            rw [hf2 a haq (fun h => hl7 a h ha),
              hf1 a (fun h => hl4 (h ▸ ha)) (hn9 a (hsp_l a ha))]
        · have : holeParent (Ref.element n) (rightCtx ((ql, q) :: sp)) = .element q := rfl
          rw [this]
          apply hsml.relink hl2
          · intro c0 hc0 ce hce
            obtain ⟨a, ha1, ha2⟩ := hroot_ml c0 hc0
            subst ha1
            apply hchild2 _ hc0
            rw [hf1 a (fun h => hl5 (h ▸ ha2)) (hn9 a (hml_l a ha2)), hce]
          · intro a ha hroot
            rw [hframe2 _ (by
                intro h; cases h; exact hl7 q ha (by rw [hbsp]; simp)) hroot,
              hf1 a (fun h => hl5 (h ▸ ha)) (hn9 a (hml_l a ha))]
      have hnd1 : (plug (rightCtx ((ql, q) :: sp)) ml).toList.Nodup := by
        rw [toList_spine]
        rw [hll, ← List.append_assoc] at hn2
        exact (List.nodup_append.1 hn2).1
      apply hA.relink hnd1
      · intro c0 hc0 ce hce
        rw [hroot_l1] at hc0
        exact hchild3 c0 hc0 ce hce
      · intro a ha hroot
        rw [hroot_l1] at hroot
        apply hframe3 _ _ hroot
        intro h; cases h
        rw [toList_spine, List.mem_append] at ha
        rcases ha with ha | ha
        · exact hl4 ha
        · exact hl5 ha
    · -- the right subtree, below the replacement
      apply hsr.relink hn3
      · intro c0 hc0 ce hce
        obtain ⟨a, ha1, ha2⟩ := hroot_r c0 hc0
        subst ha1
        have hal : a ∉ l.toList := fun h => hn9 a h ha2
        rw [hf3 a (fun h => hal (h ▸ hm_l)) (fun h => hal (hsp_l a h)),
          hf2 a (fun h => hal (h ▸ hq_l)) (fun h => hal (hml_l a h))]
        exact hchild1 _ hc0 ce hce
      · intro a ha hroot
        have hal : a ∉ l.toList := fun h => hn9 a h ha
        rw [hf3 a (fun h => hal (h ▸ hm_l)) (fun h => hal (hsp_l a h)),
          hf2 a (fun h => hal (h ▸ hq_l)) (fun h => hal (hml_l a h))]
        exact hframe1 _ (by intro h; cases h; exact hal hm_l) hroot


/-! ## `unlink`: the blocks -/

theorem unlink_eq (b : Bimap L R) (s : Side) (n : Ref) :
    unlink b s (some n) = (do
      let sen ← is_sentinel b s n
      if sen then pure b
      else do
        let hl ← has_left b s n
        let (b1, replace) ← unlink_head b s n hl
        unlink_tail b1 s n replace) := by
  rfl

theorem ShapeLoose.congr_loose {b b1 : Bimap L R} {s : Side} {t : Tree} (h : ShapeLoose b s t)
    (hb : ∀ a ∈ t.toList, b1.base s (.element a) = b.base s (.element a)) :
    ShapeLoose b1 s t := by
  cases t with
  | nil => trivial
  | node l a r =>
    obtain ⟨p, h1, h2, h3⟩ := h
    refine ⟨p, by rw [hb a (by simp)]; exact h1, h2.congr ?_, h3.congr ?_⟩
    · intro x hx; exact hb x (by simp [hx])
    · intro x hx; exact hb x (by simp [hx])

theorem unlink_reparent_spec {b : Bimap L R} {s : Side} {t1 : Tree} {n : Nat} {P : Ref}
    {ne : ElementBase} (hl : ShapeLoose b s t1) (hnd : t1.toList.Nodup)
    (hbn : b.base s (.element n) = .ok ne) (hP : ne.parent_ = some P)
    (hn : n ∉ t1.toList) :
    ∃ b3, unlink_reparent b s (.element n) t1.root = .ok b3 ∧ Touch s b b3 ∧
      Shape b3 s t1 P ∧ b3.base s (.element n) = .ok (reset (.element n)) ∧
      ∀ y, y ≠ .element n → t1.root ≠ some y → b3.base s y = b.base s y := by
  cases t1 with
  | nil =>
    have hlive := live_of_base hbn
    refine ⟨b.put s (.element n) (reset (.element n)), ?_, touch_put s _ hlive, trivial, ?_, ?_⟩
    · simp [unlink_reparent, store_eq_put s _ hlive]
    · exact (assigned_put s _ hlive).here
    · intro y hy _; exact (assigned_put s _ hlive).frame y hy
  | node x y z =>
    obtain ⟨p, h1, h2, h3⟩ := hl
    have hyn : y ≠ n := fun h => hn (by simp [h])
    obtain ⟨b1, h4, a1⟩ := set_parent_ok h1 (some P)
    have hbn1 : b1.base s (.element n) = .ok ne := by
      rw [a1.frame _ (by simpa using Ne.symm hyn), hbn]
    have hlive := live_of_base hbn1
    have a2 := assigned_put s (reset (.element n)) hlive
    simp only [toList_node, List.nodup_append, List.nodup_cons, List.mem_append, List.mem_cons,
      not_or] at hnd hn
    refine ⟨b1.put s (.element n) (reset (.element n)), ?_, a1.toTouch.trans_touch a2.toTouch,
      ⟨?_, ?_, ?_⟩, a2.here, ?_⟩
    · simp [unlink_reparent, hbn, hP, h4, store_eq_put s _ hlive]
    · rw [a2.frame _ (by simpa using hyn)]; exact a1.here
    · apply h2.congr
      intro a ha
      rw [a2.frame _ (by simp; intro h; subst h; exact hn.1 ha),
        a1.frame _ (by simp; intro h; subst h; exact hnd.2.2 ha (by simp))]
    · apply h3.congr
      intro a ha
      rw [a2.frame _ (by simp; intro h; subst h; exact hn.2.2 ha),
        a1.frame _ (by simp; intro h; subst h; exact hnd.2.1.1 ha)]
    · intro y1 hy1 hy2
      rw [a2.frame _ hy1, a1.frame _ (fun h => hy2 (by rw [h]; rfl))]

theorem unlink_head_spec {b : Bimap L R} {s : Side} {t : Tree} (hlk : Links b s t)
    {c : Ctx} {l r : Tree} {n : Nat} (ht : t = plug c (.node l n r))
    (hsz : t.toList.length ≤ b.size_) :
    ∃ bf t1, unlink_head b s (.element n) l.root.isSome = .ok (bf, t1.root) ∧
      Spliced s l r t1 b bf := by
  have hbn := hlk.base_at ht
  cases l with
  | nil =>
    have hsh := hlk.shape
    rw [ht, shape_plug] at hsh
    refine ⟨b, r, ?_, Touch.refl_touch s b, fun _ _ => rfl, ShapeLoose.of_shape hsh.2.2.2, by simp⟩
    simp only [unlink_head, root_nil, Option.isSome_none, Bool.false_eq_true, if_false,
      hlk.has_right ht, ok_bind, hbn]
    cases r <;> rfl
  | node ll la lr =>
    have hfuel : (Tree.node ll la lr).toList.length ≤ b.fuel := by
      have := length_plug c (.node (.node ll la lr) n r)
      rw [← ht] at this
      simp only [toList_node, List.length_append, List.length_cons, Bimap.fuel] at this ⊢
      omega
    have ht2 : t = plug (.left n r :: c) (.node ll la lr) := by rw [ht]; rfl
    have hdesc := hlk.descend_right_tree _ _ ht2 (by simp) b.fuel hfuel b.get_sentinel
    obtain ⟨sp, ml, m, hsp⟩ := exists_spine ll la lr
    have hlast : lastD b.get_sentinel (Tree.node ll la lr).toList = .element m := by
      rw [hsp, toList_spine]
      simp only [toList_node, toList_nil, List.append_nil]
      rw [← List.append_assoc]
      exact lastD_append_singleton _ _ _
    rw [hlast] at hdesc
    rw [hsp] at ht hbn hdesc ⊢
    cases sp with
    | nil =>
      simp only [rightCtx, List.map_nil, plug_nil] at ht hbn hdesc ⊢
      obtain ⟨b1, h1, h2, h3⟩ := splice_direct hlk ht
      refine ⟨b1, _, ?_, h3⟩
      simp only [unlink_head, root_node, Option.isSome_some, if_true, hbn, ok_bind]
      simp only [root_node] at hdesc
      simp [hdesc, h1, h2]
    | cons p sp =>
      obtain ⟨ql, q⟩ := p
      obtain ⟨b1, b2, b3, h1, h2, h3, h4, h5, h6, h7⟩ := splice_spine hlk ht
      refine ⟨b3, _, ?_, h7⟩
      obtain ⟨x1, x2, x3, hx⟩ := root_plug_cons (.right ql q) (rightCtx sp) (.node ml m .nil)
      have hsome : (plug (rightCtx ((ql, q) :: sp)) (.node ml m .nil)).root.isSome = true := by
        show (plug (.right ql q :: rightCtx sp) (.node ml m .nil)).root.isSome = true
        rw [hx]; rfl
      simp only [unlink_head, hsome, if_true, hbn, ok_bind, hdesc, h1, h2, h3, h4, h5, h6,
        pure_eq_ok, root_node]


/-! ## `unlink`: the slot of the node -/

theorem unlink_tail_spec {b bf : Bimap L R} {s : Side} {t : Tree} {hi lo : Ref}
    (hlk : Linked b s t hi lo) (hnd : t.toList.Nodup) {c : Ctx} {l r t1 : Tree} {n : Nat}
    (ht : t = plug c (.node l n r)) (hsp : Spliced s l r t1 b bf)
    (hhi : hi = b.get_sentinel ∨ ∃ a ∈ t.toList, a ≠ n ∧ hi = .element a) :
    ∃ b3, unlink_tail bf s (.element n) t1.root = .ok b3 ∧ Touch s b b3 ∧
      Linked b3 s (plug c t1) hi lo ∧ b3.base s (.element n) = .ok (reset (.element n)) := by
  have hlinks := hlk.links hnd
  have hbn := hlinks.base_at ht
  have hnd0 := hnd
  rw [ht] at hnd0
  obtain ⟨hn1, hn2, hn3, hn4, hn5, hn6, hn7, hn8, hn9⟩ := nodup_plug hnd0
  have hgs : bf.get_sentinel = b.get_sentinel := hsp.get_sentinel
  have hkeep_n : bf.base s (.element n) = b.base s (.element n) :=
    hsp.keep _ (fun a h => by cases h; exact ⟨hn5, hn6⟩)
  have hkeep_S : bf.base s b.get_sentinel = b.base s b.get_sentinel :=
    hsp.keep _ (fun a h => absurd h (sentinel_ne_element b a))
  have hkeep_ctx : ∀ a ∈ ctxList c, bf.base s (.element a) = b.base s (.element a) := by
    intro a ha
    apply hsp.keep
    intro a1 h1
    cases h1
    exact ⟨fun h => hn7 a h ha, fun h => hn8 a h ha⟩
  have hnd1 : t1.toList.Nodup := by
    rw [hsp.toList, List.nodup_append]
    exact ⟨hn2, hn3, fun a h1 h2 => hn9 a h1 h2⟩
  have hn_t1 : n ∉ t1.toList := by
    rw [hsp.toList, List.mem_append]; tauto
  have ht1_ctx : ∀ a ∈ t1.toList, a ∉ ctxList c := by
    intro a ha
    rw [hsp.toList, List.mem_append] at ha
    rcases ha with ha | ha
    · exact hn7 a ha
    · exact hn8 a ha
  have hbnf := hkeep_n.trans hbn
  have hsh := hlk.shape
  rw [ht, shape_plug] at hsh
  obtain ⟨hctx, -, -, -⟩ := hsh
  cases c with
  | nil =>
    -- the node is the root
    simp only [holeParent] at hbn hbnf
    have hS : b.sentinel_ s = ⟨some (.element n), some hi, some lo⟩ := by
      have := hlk.sentinel
      unfold SentinelFor at this
      rw [this, ht]; rfl
    have hSf : bf.base s b.get_sentinel = .ok ⟨some (.element n), some hi, some lo⟩ := by
      rw [hkeep_S, base_sentinel_self, hS]
    have hsen : is_sentinel bf s b.get_sentinel = .ok true := by
      rcases hhi with h | ⟨a, ha, han, h⟩
      · refine is_sentinel_anchor hSf (Ne.symm (sentinel_ne_element b n)) hbnf rfl
          (by rw [h]; exact hSf) (Or.inl ?_)
        simp [Bimap.get_sentinel]
      · have hat1 : a ∈ t1.toList := by
          rw [hsp.toList]
          rw [ht] at ha
          simp only [plug_nil, toList_node, List.mem_append, List.mem_cons] at ha ⊢
          tauto
        obtain ⟨e, he, hep⟩ := hsp.loose.parent_ne hat1 b.self
        exact is_sentinel_anchor hSf (Ne.symm (sentinel_ne_element b n)) hbnf rfl
          (by rw [h]; exact he) (Or.inl hep)
    have hrc : is_right_child bf s (.element n) = .ok false := by
      simp [is_right_child, has_parent, hbnf, hsen]
    have hlc : is_left_child bf s (.element n) = .ok false := by
      simp [is_left_child, has_parent, hbnf, hsen]
    obtain ⟨b1, h1, a1⟩ := set_parent_ok hSf
      (if t1.root.isSome then t1.root else some b.get_sentinel)
    have hbn1 : b1.base s (.element n) = _ :=
      (a1.frame _ (Ne.symm (sentinel_ne_element b n))).trans hbnf
    have hl1 : ShapeLoose b1 s t1 := hsp.loose.congr_loose (fun a _ =>
      a1.frame _ (Ne.symm (sentinel_ne_element b a)))
    obtain ⟨b3, h3, t3, hs3, hn3b, hf3⟩ := unlink_reparent_spec hl1 hnd1 hbn1 rfl hn_t1
    have htouch : Touch s b b3 := hsp.toTouch.trans_touch (a1.toTouch.trans_touch t3)
    refine ⟨b3, ?_, htouch, ⟨?_, ?_⟩, hn3b⟩
    · simp only [unlink_tail, hrc, ok_bind, Bool.false_eq_true, if_false, hlc, hbnf, h1, h3]
    · rw [htouch.get_sentinel]; exact hs3
    · have hS3 : b3.base s b.get_sentinel = _ :=
        (hf3 _ (sentinel_ne_element b n) (root_ne_sentinel t1 b.self)).trans a1.here
      rw [← htouch.get_sentinel] at hS3
      have := sentinel_eq_of_base hS3
      unfold SentinelFor
      rw [this, htouch.get_sentinel]
      cases t1 <;> rfl
  | cons f c =>
    obtain ⟨pa, hpa⟩ : ∃ pa, holeParent b.get_sentinel (f :: c) = .element pa := by
      cases f with
      | left a sr => exact ⟨a, rfl⟩
      | right sl a => exact ⟨a, rfl⟩
    rw [hpa] at hbn hbnf
    have hpa_ctx : pa ∈ ctxList (f :: c) := by
      cases f with
      | left a sr => cases hpa; simp [ctxList, before, after]
      | right sl a => cases hpa; simp [ctxList, before, after]
    have hpan : pa ≠ n := fun h => hn4 (h ▸ hpa_ctx)
    have hpa_t : pa ∈ t.toList := by
      rw [ht, toList_plug]
      simp only [ctxList, List.mem_append] at hpa_ctx
      simp only [List.mem_append]; tauto
    have hbpa_f := hkeep_ctx pa hpa_ctx
    -- the parent is recognised as an element
    have hsen : is_sentinel bf s (.element pa) = .ok false := by
      obtain ⟨e, he⟩ : ∃ e, b.base s (.element pa) = .ok e :=
        (live_iff_base b s _).1 (hlk.shape.live pa hpa_t)
      rw [is_sentinel_congr he (hbpa_f.trans he), hlinks.is_sentinel_element hpa_t]
      · intro p hp
        have hP : p = holeParent b.get_sentinel c := by
          cases f with
          | left a sr =>
            cases hpa
            rw [hctx.1] at he; cases he
            simpa using hp.symm
          | right sl a =>
            cases hpa
            rw [hctx.1] at he; cases he
            simpa using hp.symm
        rw [hP]
        rcases holeParent_cases b.get_sentinel c with ⟨h, -⟩ | ⟨a, h, ha⟩
        · rw [h]; exact hkeep_S
        · rw [h]
          apply hkeep_ctx
          simp only [ctxList, List.mem_append] at ha ⊢
          cases f <;> simp [before, after] <;> tauto
      all_goals
        intro y hy
        have hy1 : y = .element n ∨ ∃ a ∈ ctxList (f :: c), y = .element a := by
          cases f with
          | left a sr =>
            cases hpa
            rw [hctx.1] at he; cases he
            simp only at hy
            first
            | (left; simpa using hy.symm)
            | (right
               obtain ⟨a1, ha1, ha2⟩ := root_eq_some_mem hy
               exact ⟨a1, by simp [ctxList, before, after, ha2], ha1⟩)
          | right sl a =>
            cases hpa
            rw [hctx.1] at he; cases he
            simp only at hy
            first
            | (left; simpa using hy.symm)
            | (right
               obtain ⟨a1, ha1, ha2⟩ := root_eq_some_mem hy
               exact ⟨a1, by simp [ctxList, before, after, ha2], ha1⟩)
        rcases hy1 with h | ⟨a, ha, h⟩
        · rw [h, hkeep_n]
        · rw [h, hkeep_ctx a ha]
    have hhp : has_parent bf s (.element n) = .ok true := by
      simp [has_parent, hbnf, hsen]
    -- the slot of the parent receives the replacement
    obtain ⟨b1, heq, htb1, hb1, hfr1⟩ : ∃ b1,
        unlink_tail bf s (.element n) t1.root = unlink_reparent b1 s (.element n) t1.root ∧
        Touch s bf b1 ∧
        (∀ f1 c1, f :: c = f1 :: c1 →
          ∃ e, b.base s (holeParent b.get_sentinel (f :: c)) = .ok e ∧
          match f1 with
          | .left _ _ => b1.base s (holeParent b.get_sentinel (f :: c)) =
              .ok { e with left_ := t1.root }
          | .right _ _ => b1.base s (holeParent b.get_sentinel (f :: c)) =
              .ok { e with right_ := t1.root }) ∧
        ∀ y, y ≠ .element pa → b1.base s y = bf.base s y := by
      cases f with
      | left a sr =>
        cases hpa
        have hbpa := hctx.1
        have hbpaf := hbpa_f.trans hbpa
        have hdec : decide (sr.root = some (Ref.element n)) = false := by
          simp only [decide_eq_false_iff_not]
          intro h
          have := root_mem h
          exact hn4 (by simp [ctxList, before, after, this])
        have hrc : is_right_child bf s (.element n) = .ok false := by
          simp [is_right_child, hhp, hbnf, hbpaf, hdec]
        have hlc : is_left_child bf s (.element n) = .ok true := by
          simp [is_left_child, hhp, hbnf, hbpaf]
        obtain ⟨b1, h1, a1⟩ := set_left_ok hbpaf t1.root
        refine ⟨b1, ?_, a1.toTouch, ?_, a1.frame⟩
        · simp only [unlink_tail, hrc, ok_bind, Bool.false_eq_true, if_false, hlc, hbnf, if_true,
            h1]
        · intro f1 c1 hfc
          cases hfc
          exact ⟨_, hbpa, a1.here⟩
      | right sl a =>
        cases hpa
        have hbpa := hctx.1
        have hbpaf := hbpa_f.trans hbpa
        have hrc : is_right_child bf s (.element n) = .ok true := by
          simp [is_right_child, hhp, hbnf, hbpaf]
        obtain ⟨b1, h1, a1⟩ := set_right_ok hbpaf t1.root
        refine ⟨b1, ?_, a1.toTouch, ?_, a1.frame⟩
        · simp only [unlink_tail, hrc, ok_bind, if_true, hbnf, h1]
        · intro f1 c1 hfc
          cases hfc
          exact ⟨_, hbpa, a1.here⟩
    have hpa_t1 : pa ∉ t1.toList := fun h => ht1_ctx pa h hpa_ctx
    have hbn1 : b1.base s (.element n) = _ :=
      (hfr1 _ (by simpa using Ne.symm hpan)).trans hbnf
    have hl1 : ShapeLoose b1 s t1 := hsp.loose.congr_loose (fun a ha =>
      hfr1 _ (by simp; intro h; subst h; exact hpa_t1 ha))
    obtain ⟨b3, h3, t3, hs3, hn3b, hf3⟩ := unlink_reparent_spec hl1 hnd1 hbn1 rfl hn_t1
    have htouch : Touch s b b3 := hsp.toTouch.trans_touch (htb1.trans_touch t3)
    have hroot_t1 : ∀ a, a ∈ ctxList (f :: c) → t1.root ≠ some (.element a) := by
      intro a ha h
      exact ht1_ctx a (root_mem h) ha
    refine ⟨b3, by rw [heq]; exact h3, htouch, ⟨?_, ?_⟩, hn3b⟩
    · rw [htouch.get_sentinel, shape_plug, hpa]
      refine ⟨?_, hs3⟩
      refine hctx.set_hole ?_ ?_ hn1
      · intro f1 c1 hfc
        obtain ⟨e, he, hm⟩ := hb1 f1 c1 hfc
        refine ⟨e, he, ?_⟩
        have hfr : b3.base s (holeParent b.get_sentinel (f :: c))
            = b1.base s (holeParent b.get_sentinel (f :: c)) := by
          rw [hpa]
          exact hf3 _ (by simpa using hpan) (hroot_t1 pa hpa_ctx)
        cases f1 with
        | left a sr => simp only at hm ⊢; rw [hfr]; exact hm
        | right sl a => simp only at hm ⊢; rw [hfr]; exact hm
      · intro a ha hne
        rw [hpa] at hne
        rw [hf3 _ (by simp; intro h; subst h; exact hn4 ha) (hroot_t1 a ha),
          hfr1 _ hne, hkeep_ctx a ha]
    · have hSb : b3.base s b.get_sentinel = b.base s b.get_sentinel := by
        rw [hf3 _ (sentinel_ne_element b n) (root_ne_sentinel t1 b.self),
          hfr1 _ (sentinel_ne_element b pa), hkeep_S]
      have := htouch.sentinel_of_frame hSb
      unfold SentinelFor
      rw [this, htouch.get_sentinel, hlk.sentinel, ht]
      rw [root_plug_cons_eq f c t1 (.node l n r)]


/-! ## `unlink` -/

theorem unlink_spec {b : Bimap L R} {s : Side} {t : Tree} {hi lo : Ref}
    (hlk : Linked b s t hi lo) (hnd : t.toList.Nodup) {c : Ctx} {l r : Tree} {n : Nat}
    (ht : t = plug c (.node l n r)) (hsz : t.toList.length ≤ b.size_)
    (hhi : hi = b.get_sentinel ∨ ∃ a ∈ t.toList, a ≠ n ∧ hi = .element a) :
    ∃ b3 t1, unlink b s (some (.element n)) = .ok b3 ∧ Touch s b b3 ∧
      Linked b3 s (plug c t1) hi lo ∧ t1.toList = l.toList ++ r.toList ∧
      b3.base s (.element n) = .ok (reset (.element n)) := by
  have hlinks := hlk.links hnd
  have hnt : n ∈ t.toList := by rw [ht]; exact mem_plug_self _ _ _ _
  obtain ⟨bf, t1, h1, hsp⟩ := unlink_head_spec hlinks ht hsz
  obtain ⟨b3, h2, h3, h4, h5⟩ := unlink_tail_spec hlk hnd ht hsp hhi
  refine ⟨b3, t1, ?_, h3, h4, hsp.toList, h5⟩
  rw [unlink_eq]
  simp only [hlinks.is_sentinel_element hnt, ok_bind, Bool.false_eq_true, if_false,
    hlinks.has_left ht, h1, h2]

/-! ## Erasing one element -/

theorem erase_loop_succ (s : Side) (it_end : Ptr) (fuel : Nat) (b : Bimap L R) (it_start : Ptr) :
    erase_loop s it_end (fuel + 1) b it_start =
      if it_start ≠ it_end ∧ (!b.empty) = true then do
        let current ← to_element it_start
        let next ← operator_inc b s it_start
        let b1 ← erase_node b s current
        erase_loop s it_end fuel b1 next
      else pure b := by
  simp only [erase_loop, erase_node]
  split_ifs
  · cases to_element it_start with
    | error e => rfl
    | ok current =>
      simp only [ok_bind]
      cases operator_inc b s it_start with
      | error e => rfl
      | ok next =>
        simp only [ok_bind]
        cases update_sentinel b .left (some (.element current)) with
        | error e => rfl
        | ok b1 =>
          simp only [ok_bind]
          cases update_sentinel b1 .right (some (.element current)) with
          | error e => rfl
          | ok b2 =>
            simp only [ok_bind]
            cases unlink b2 s (some (.element current)) with
            | error e => rfl
            | ok b3 =>
              simp only [ok_bind]
              cases unlink b3 s.opposite (some (.element current)) with
              | error e => rfl
              | ok b4 =>
                simp only [ok_bind]
                cases b4.delete_element current with
                | error e => rfl
                | ok b5 => rfl
  · rfl

theorem SideInv.of_touch {b b1 : Bimap L R} {s : Side} {t : Tree}
    (h : SideInv b s t) (ht : Touch s.opposite b b1) : SideInv b1 s t := by
  have hl := h.linked.of_touch_other ht
  exact ⟨hl.shape, by rw [ht.get_sentinel]; exact hl.sentinel, by rw [ht.keyLt]; exact h.sorted⟩

theorem Same.order_of {b b1 : Bimap L R} (h : Same b b1) {s : Side}
    (ho : StrictWeakOrder (b.get_compare s)) : StrictWeakOrder (b1.get_compare s) := by
  rw [h.get_compare]; exact ho

theorem cache_cases (d : Ref) (xs A B : List Nat) (n : Nat) (h : xs = A ++ n :: B)
    (hn : n ∉ A ++ B) :
    lastD d (A ++ B) = d ∨ ∃ a ∈ xs, a ≠ n ∧ lastD d (A ++ B) = .element a := by
  rcases lastD_cases d (A ++ B) with ⟨-, h1⟩ | ⟨m, hm, h1⟩
  · exact Or.inl h1
  · right
    refine ⟨m, ?_, fun h2 => hn (h2 ▸ hm), h1⟩
    rw [h]
    simp only [List.mem_append, List.mem_cons] at hm ⊢
    tauto


theorem unlink_both {b : Bimap L R} {tl tr : Tree} {hiL loL hiR loR : Ref}
    (hL : Linked b .left tl hiL loL) (hR : Linked b .right tr hiR loR)
    (hndL : tl.toList.Nodup) (hndR : tr.toList.Nodup)
    {cL cR : Ctx} {lL rL lR rR : Tree} {n : Nat}
    (htl : tl = plug cL (.node lL n rL)) (htr : tr = plug cR (.node lR n rR))
    (hszL : tl.toList.length ≤ b.size_) (hszR : tr.toList.length ≤ b.size_)
    (hhiL : hiL = b.get_sentinel ∨ ∃ a ∈ tl.toList, a ≠ n ∧ hiL = .element a)
    (hhiR : hiR = b.get_sentinel ∨ ∃ a ∈ tr.toList, a ≠ n ∧ hiR = .element a) (s : Side) :
    ∃ b4 t1L t1R, (unlink b s (some (.element n)) >>= fun b3 =>
        unlink b3 s.opposite (some (.element n))) = .ok b4 ∧ Same b b4 ∧
      Linked b4 .left (plug cL t1L) hiL loL ∧ Linked b4 .right (plug cR t1R) hiR loR ∧
      t1L.toList = lL.toList ++ rL.toList ∧ t1R.toList = lR.toList ++ rR.toList := by
  cases s with
  | left =>
    obtain ⟨b3, t1L, h1, h2, h3, h4, -⟩ := unlink_spec hL hndL htl hszL hhiL
    have hR3 : Linked b3 .right tr hiR loR := hR.of_touch_other h2
    obtain ⟨b4, t1R, h5, h6, h7, h8, -⟩ := unlink_spec hR3 hndR htr
      (by rw [h2.size_]; exact hszR) (by rw [h2.get_sentinel]; exact hhiR)
    have hL4 : Linked b4 .left (plug cL t1L) hiL loL := h3.of_touch_other h6
    exact ⟨b4, t1L, t1R, by simp only [h1, ok_bind, Side.opposite, h5],
      h2.toSame.trans h6.toSame, hL4, h7, h4, h8⟩
  | right =>
    obtain ⟨b3, t1R, h1, h2, h3, h4, -⟩ := unlink_spec hR hndR htr hszR hhiR
    have hL3 : Linked b3 .left tl hiL loL := hL.of_touch_other h2
    obtain ⟨b4, t1L, h5, h6, h7, h8, -⟩ := unlink_spec hL3 hndL htl
      (by rw [h2.size_]; exact hszL) (by rw [h2.get_sentinel]; exact hhiL)
    have hR4 : Linked b4 .right (plug cR t1R) hiR loR := h3.of_touch_other h6
    exact ⟨b4, t1L, t1R, by simp only [h1, ok_bind, Side.opposite, h5],
      h2.toSame.trans h6.toSame, h7, hR4, h8, h4⟩

theorem not_mem_of_nodup_mid {A B : List Nat} {n : Nat} (h : (A ++ n :: B).Nodup) :
    n ∉ A ++ B := by
  have h1 := List.nodup_middle.1 h
  exact (List.nodup_cons.1 h1).1

theorem nodup_drop_mid {A B : List Nat} {n : Nat} (h : (A ++ n :: B).Nodup) :
    (A ++ B).Nodup := by
  have h1 := List.nodup_middle.1 h
  exact (List.nodup_cons.1 h1).2

theorem sublist_drop_mid (A B : List Nat) (n : Nat) : (A ++ B).Sublist (A ++ n :: B) :=
  List.Sublist.append_left (List.sublist_cons_self n B) A

/-- The state after `delete_element` and the decrement of the count. -/
theorem side_after_delete {b b4 : Bimap L R} {s : Side} {t t1 : Tree} {A B : List Nat} {n : Nat}
    (hsame : Same b b4) (hsorted : t.toList.Pairwise (b.keyLt s))
    (ht : t.toList = A ++ n :: B) (ht1 : t1.toList = A ++ B) (hn : n ∉ A ++ B)
    (hlk : Linked b4 s t1 (lastD b.get_sentinel (A ++ B)) (firstD b.get_sentinel (A ++ B))) :
    SideInv { b4 with heap := Function.update b4.heap n none, size_ := b4.size_ - 1 } s t1 := by
  have hne : ∀ a ∈ t1.toList, a ≠ n := fun a ha h => hn (by rw [← ht1, ← h]; exact ha)
  have hlk6 : Linked { b4 with heap := Function.update b4.heap n none, size_ := b4.size_ - 1 } s t1
      (lastD b.get_sentinel (A ++ B)) (firstD b.get_sentinel (A ++ B)) := by
    refine hlk.congr_on rfl rfl (fun a ha => ?_)
    simp [Bimap.base, Function.update, hne a ha]
  have hg : Bimap.get_sentinel
      { b4 with heap := Function.update b4.heap n none, size_ := b4.size_ - 1 } =
      b.get_sentinel := by
    simp [Bimap.get_sentinel, hsame.self]
  refine ⟨hlk6.shape, ?_, ?_⟩
  · rw [hg, ht1]; exact hlk6.sentinel
  · have h1 : (A ++ B).Pairwise (b.keyLt s) :=
      List.Pairwise.sublist (sublist_drop_mid A B n) (ht ▸ hsorted)
    rw [ht1]
    refine List.Pairwise.imp_of_mem ?_ h1
    intro x y hx hy hxy
    have hxn : x ≠ n := fun h => hn (h ▸ hx)
    have hyn : y ≠ n := fun h => hn (h ▸ hy)
    obtain ⟨kx, ky, h2, h3, h4⟩ := hxy
    refine ⟨kx, ky, ?_, ?_, ?_⟩
    · rw [← h2, ← hsame.key s x]; simp [Bimap.key, Function.update, hxn]
    · rw [← h3, ← hsame.key s y]; simp [Bimap.key, Function.update, hyn]
    · rw [← h4]
      cases s <;> simp [Bimap.get_compare, hsame.compare_left_, hsame.compare_right_]

theorem delete_element_ok {b : Bimap L R} {n : Nat} (h : b.live (.element n)) :
    b.delete_element n = .ok { b with heap := Function.update b.heap n none } := by
  simp only [Bimap.live] at h
  simp only [Bimap.delete_element]
  cases h1 : b.heap n with
  | none => simp [h1] at h
  | some e => rfl

theorem split_of_plug (c : Ctx) (l r : Tree) (n : Nat) :
    (plug c (.node l n r)).toList = (before c ++ l.toList) ++ n :: (r.toList ++ after c) := by
  simp [toList_plug]

theorem erase_node_spec {b : Bimap L R} {tl tr : Tree} (hinv : Inv b tl tr) {n : Nat}
    (hn : n ∈ tl.toList) (s : Side) :
    ∃ b1 tl1 tr1, erase_node b s n = .ok b1 ∧ Inv b1 tl1 tr1 ∧ Shrunk b b1 n ∧
      (∃ A B, tl.toList = A ++ n :: B ∧ tl1.toList = A ++ B) ∧
      (∃ A B, tr.toList = A ++ n :: B ∧ tr1.toList = A ++ B) := by
  have hnr : n ∈ tr.toList := hinv.perm.mem_iff.1 hn
  obtain ⟨cL, lL, rL, htl⟩ := exists_plug_of_mem hn
  obtain ⟨cR, lR, rR, htr⟩ := exists_plug_of_mem hnr
  have hlistL := split_of_plug cL lL rL n
  have hlistR := split_of_plug cR lR rR n
  rw [← htl] at hlistL
  rw [← htr] at hlistR
  have hndL := hinv.nodup_left
  have hndR := hinv.nodup_right
  have hnL : n ∉ (before cL ++ lL.toList) ++ (rL.toList ++ after cL) :=
    not_mem_of_nodup_mid (hlistL ▸ hndL)
  have hnR : n ∉ (before cR ++ lR.toList) ++ (rR.toList ++ after cR) :=
    not_mem_of_nodup_mid (hlistR ▸ hndR)
  -- the caches
  obtain ⟨b1, h1, ht1, hL1⟩ := update_sentinel_old hinv.left (hinv.order .left) htl
    (le_of_eq hinv.size.symm)
  have hR1 : SideInv b1 .right tr := hinv.right.of_touch ht1
  obtain ⟨b2, h2, ht2, hR2⟩ := update_sentinel_old hR1 (ht1.toSame.order_of (hinv.order .right)) htr
    (by rw [ht1.size_]; exact le_of_eq hinv.size_right.symm)
  have hL2 := hL1.of_touch_other ht2
  have hs2 : Same b b2 := ht1.toSame.trans ht2.toSame
  rw [ht1.get_sentinel] at hR2
  -- the links
  obtain ⟨b4, t1L, t1R, h3, hs4, hL4, hR4, hl1, hr1⟩ := unlink_both hL2 hR2 hndL hndR htl htr
    (by rw [hs2.size_]; exact le_of_eq hinv.size.symm)
    (by rw [hs2.size_]; exact le_of_eq hinv.size_right.symm)
    (by rw [hs2.get_sentinel]; exact cache_cases _ _ _ _ n hlistL hnL)
    (by rw [hs2.get_sentinel]; exact cache_cases _ _ _ _ n hlistR hnR) s
  have hs : Same b b4 := hs2.trans hs4
  have hlive : b4.live (.element n) := (hs.live_iff _).2 ((hinv.dom n).2 hn)
  have htl1 : (plug cL t1L).toList = (before cL ++ lL.toList) ++ (rL.toList ++ after cL) := by
    simp [toList_plug, hl1]
  have htr1 : (plug cR t1R).toList = (before cR ++ lR.toList) ++ (rR.toList ++ after cR) := by
    simp [toList_plug, hr1]
  refine ⟨{ b4 with heap := Function.update b4.heap n none, size_ := b4.size_ - 1 },
    plug cL t1L, plug cR t1R, ?_, ?_, ?_, ⟨_, _, hlistL, htl1⟩, ⟨_, _, hlistR, htr1⟩⟩
  · simp only [erase_node, h1, ok_bind, h2]
    have h3b : unlink b2 s (some (.element n)) >>= (fun b3 =>
        unlink b3 s.opposite (some (.element n))) = .ok b4 := h3
    cases h5 : unlink b2 s (some (.element n)) with
    | error e => rw [h5] at h3b; simp at h3b
    | ok b3 =>
      rw [h5] at h3b
      simp only [ok_bind] at h3b ⊢
      simp only [h3b, ok_bind, delete_element_ok hlive, pure_eq_ok]
  · have hkeyL : ∀ a, a ≠ n → (Function.update b4.heap n none a).isSome = (b.heap a).isSome := by
      intro a ha
      have := hs.key .left a
      simp only [Bimap.key] at this
      simp only [Function.update, ha, dif_neg, not_false_eq_true]
      cases h6 : b4.heap a <;> cases h7 : b.heap a <;> simp [h6, h7] at this ⊢
    refine ⟨side_after_delete hs hinv.left.sorted hlistL htl1 hnL hL4,
      side_after_delete hs hinv.right.sorted hlistR htr1 hnR hR4, ?_, ?_, ?_, ?_, ?_, ?_⟩
    · rw [htl1, htr1]
      have h6 := hinv.perm
      rw [hlistL, hlistR] at h6
      have h7 := (List.perm_middle.symm.trans h6).trans List.perm_middle
      exact (List.perm_cons n).1 h7
    · show b4.size_ - 1 = _
      rw [hs.size_, hinv.size, htl1, hlistL]
      simp only [List.length_append, List.length_cons]
      omega
    · intro a
      show (Function.update b4.heap n none a).isSome = true ↔ _
      by_cases ha : a = n
      · subst ha
        rw [htl1]
        simp only [Function.update_same, Option.isSome_none, Bool.false_eq_true, false_iff]
        exact hnL
      · rw [hkeyL a ha, hinv.dom a, htl1, hlistL]
        simp only [List.mem_append, List.mem_cons, ha, false_or]
    · intro a ha
      show Function.update b4.heap n none a = none
      by_cases h6 : a = n
      · subst h6; simp
      · have h7 := hinv.fresh a (by rw [← hs.brk]; exact ha)
        have h8 := hkeyL a h6
        rw [h7] at h8
        simp only [Function.update, h6, dif_neg, not_false_eq_true] at h8 ⊢
        cases h9 : b4.heap a with
        | none => rfl
        | some e => simp [h9] at h8
    · show StrictWeakOrder b4.compare_left_
      rw [hs.compare_left_]; exact hinv.order_left
    · show StrictWeakOrder b4.compare_right_
      rw [hs.compare_right_]; exact hinv.order_right
  · refine ⟨hs.self, ?_, hs.compare_left_, hs.compare_right_, hs.brk, ?_, ?_⟩
    · show b4.size_ - 1 = _
      rw [hs.size_]
    · show Function.update b4.heap n none n = none
      simp
    · intro s1 a ha
      rw [← hs.key s1 a]
      simp [Bimap.key, Function.update, ha]


/-! ## Erasing one element of a container whose keys need not be in order -/

theorem Inv.wired {b : Bimap L R} {tl tr : Tree} (h : Inv b tl tr) : Wired b tl tr :=
  ⟨h.left.linked, h.right.linked, h.nodup_left, h.perm, h.size, h.dom, h.fresh⟩

theorem Wired.nodup_other {b : Bimap L R} {tl tr : Tree} (h : Wired b tl tr) :
    tr.toList.Nodup := h.perm.nodup_iff.1 h.nodup

theorem Wired.size_other {b : Bimap L R} {tl tr : Tree} (h : Wired b tl tr) :
    b.size_ = tr.toList.length := by rw [h.size, h.perm.length_eq]

theorem Wired.to_inv {b : Bimap L R} {tl tr : Tree} (h : Wired b tl tr)
    (hl : tl.toList.Pairwise (b.keyLt .left)) (hr : tr.toList.Pairwise (b.keyLt .right))
    (hol : StrictWeakOrder b.compare_left_) (hor : StrictWeakOrder b.compare_right_) :
    Inv b tl tr :=
  ⟨⟨h.left.shape, h.left.sentinel, hl⟩, ⟨h.right.shape, h.right.sentinel, hr⟩, h.perm, h.size,
    h.dom, h.fresh, hol, hor⟩

/-- The links after `delete_element` and the decrement of the count. -/
theorem linked_after_delete {b b4 : Bimap L R} {s : Side} {t1 : Tree} {A B : List Nat} {n : Nat}
    (hsame : Same b b4) (ht1 : t1.toList = A ++ B) (hn : n ∉ A ++ B)
    (hlk : Linked b4 s t1 (lastD b.get_sentinel (A ++ B)) (firstD b.get_sentinel (A ++ B))) :
    Linked { b4 with heap := Function.update b4.heap n none, size_ := b4.size_ - 1 } s t1
      (lastD (Bimap.get_sentinel
          { b4 with heap := Function.update b4.heap n none, size_ := b4.size_ - 1 }) t1.toList)
      (firstD (Bimap.get_sentinel
          { b4 with heap := Function.update b4.heap n none, size_ := b4.size_ - 1 })
        t1.toList) := by
  have hne : ∀ a ∈ t1.toList, a ≠ n := fun a ha h => hn (by rw [← ht1, ← h]; exact ha)
  have hg : Bimap.get_sentinel
      { b4 with heap := Function.update b4.heap n none, size_ := b4.size_ - 1 } =
      b.get_sentinel := by
    simp [Bimap.get_sentinel, hsame.self]
  rw [hg, ht1]
  refine hlk.congr_on rfl rfl (fun a ha => ?_)
  simp [Bimap.base, Function.update, hne a ha]

theorem erase_node_wired {b : Bimap L R} {tl tr : Tree} (hinv : Wired b tl tr) {n : Nat}
    (hn : n ∈ tl.toList) (s : Side) :
    ∃ b1 tl1 tr1, erase_node b s n = .ok b1 ∧ Wired b1 tl1 tr1 ∧ Shrunk b b1 n ∧
      (∃ A B, tl.toList = A ++ n :: B ∧ tl1.toList = A ++ B) ∧
      (∃ A B, tr.toList = A ++ n :: B ∧ tr1.toList = A ++ B) := by
  have hnr : n ∈ tr.toList := hinv.perm.mem_iff.1 hn
  obtain ⟨cL, lL, rL, htl⟩ := exists_plug_of_mem hn
  obtain ⟨cR, lR, rR, htr⟩ := exists_plug_of_mem hnr
  have hlistL := split_of_plug cL lL rL n
  have hlistR := split_of_plug cR lR rR n
  rw [← htl] at hlistL
  rw [← htr] at hlistR
  have hndL := hinv.nodup
  have hndR := hinv.nodup_other
  have hnL : n ∉ (before cL ++ lL.toList) ++ (rL.toList ++ after cL) :=
    not_mem_of_nodup_mid (hlistL ▸ hndL)
  have hnR : n ∉ (before cR ++ lR.toList) ++ (rR.toList ++ after cR) :=
    not_mem_of_nodup_mid (hlistR ▸ hndR)
  -- the caches
  obtain ⟨b1, h1, ht1, hL1⟩ := update_sentinel_linked hinv.left (hinv.left.nav_of hndL) htl
    (le_of_eq hinv.size.symm)
  have hR1 : Linked b1 .right tr (lastD b1.get_sentinel tr.toList)
      (firstD b1.get_sentinel tr.toList) := by
    rw [ht1.get_sentinel]; exact hinv.right.of_touch_other ht1
  obtain ⟨b2, h2, ht2, hR2⟩ := update_sentinel_linked hR1 (hR1.nav_of hndR) htr
    (by rw [ht1.size_]; exact le_of_eq hinv.size_other.symm)
  have hL2 := hL1.of_touch_other ht2
  have hs2 : Same b b2 := ht1.toSame.trans ht2.toSame
  rw [ht1.get_sentinel] at hR2
  -- the links
  obtain ⟨b4, t1L, t1R, h3, hs4, hL4, hR4, hl1, hr1⟩ := unlink_both hL2 hR2 hndL hndR htl htr
    (by rw [hs2.size_]; exact le_of_eq hinv.size.symm)
    (by rw [hs2.size_]; exact le_of_eq hinv.size_other.symm)
    (by rw [hs2.get_sentinel]; exact cache_cases _ _ _ _ n hlistL hnL)
    (by rw [hs2.get_sentinel]; exact cache_cases _ _ _ _ n hlistR hnR) s
  have hs : Same b b4 := hs2.trans hs4
  have hlive : b4.live (.element n) := (hs.live_iff _).2 ((hinv.dom n).2 hn)
  have htl1 : (plug cL t1L).toList = (before cL ++ lL.toList) ++ (rL.toList ++ after cL) := by
    simp [toList_plug, hl1]
  have htr1 : (plug cR t1R).toList = (before cR ++ lR.toList) ++ (rR.toList ++ after cR) := by
    simp [toList_plug, hr1]
  refine ⟨{ b4 with heap := Function.update b4.heap n none, size_ := b4.size_ - 1 },
    plug cL t1L, plug cR t1R, ?_, ?_, ?_, ⟨_, _, hlistL, htl1⟩, ⟨_, _, hlistR, htr1⟩⟩
  · simp only [erase_node, h1, ok_bind, h2]
    have h3b : unlink b2 s (some (.element n)) >>= (fun b3 =>
        unlink b3 s.opposite (some (.element n))) = .ok b4 := h3
    cases h5 : unlink b2 s (some (.element n)) with
    | error e => rw [h5] at h3b; simp at h3b
    | ok b3 =>
      rw [h5] at h3b
      simp only [ok_bind] at h3b ⊢
      simp only [h3b, ok_bind, delete_element_ok hlive, pure_eq_ok]
  · have hkeyL : ∀ a, a ≠ n → (Function.update b4.heap n none a).isSome = (b.heap a).isSome := by
      intro a ha
      have := hs.key .left a
      simp only [Bimap.key] at this
      simp only [Function.update, ha, dif_neg, not_false_eq_true]
      cases h6 : b4.heap a <;> cases h7 : b.heap a <;> simp [h6, h7] at this ⊢
    refine ⟨linked_after_delete hs htl1 hnL hL4, linked_after_delete hs htr1 hnR hR4,
      ?_, ?_, ?_, ?_, ?_⟩
    · rw [htl1]; exact nodup_drop_mid (hlistL ▸ hndL)
    · rw [htl1, htr1]
      have h6 := hinv.perm
      rw [hlistL, hlistR] at h6
      have h7 := (List.perm_middle.symm.trans h6).trans List.perm_middle
      exact (List.perm_cons n).1 h7
    · show b4.size_ - 1 = _
      rw [hs.size_, hinv.size, htl1, hlistL]
      simp only [List.length_append, List.length_cons]
      omega
    · intro a
      show (Function.update b4.heap n none a).isSome = true ↔ _
      by_cases ha : a = n
      · subst ha
        rw [htl1]
        simp only [Function.update_same, Option.isSome_none, Bool.false_eq_true, false_iff]
        exact hnL
      · rw [hkeyL a ha, hinv.dom a, htl1, hlistL]
        simp only [List.mem_append, List.mem_cons, ha, false_or]
    · intro a ha
      show Function.update b4.heap n none a = none
      by_cases h6 : a = n
      · subst h6; simp
      · have h7 := hinv.fresh a (by rw [← hs.brk]; exact ha)
        have h8 := hkeyL a h6
        rw [h7] at h8
        simp only [Function.update, h6, dif_neg, not_false_eq_true] at h8 ⊢
        cases h9 : b4.heap a with
        | none => rfl
        | some e => simp [h9] at h8
  · refine ⟨hs.self, ?_, hs.compare_left_, hs.compare_right_, hs.brk, ?_, ?_⟩
    · show b4.size_ - 1 = _
      rw [hs.size_]
    · show Function.update b4.heap n none n = none
      simp
    · intro s1 a ha
      rw [← hs.key s1 a]
      simp [Bimap.key, Function.update, ha]


/-! ## Linking a new element into an occupied slot -/

/-- Linking a child whose links are null into the left slot of an element that has a left
child, with `overwrite`: the child takes the slot and, as its left child, what the slot
held. -/
theorem link_to_parent_inherit {b : Bimap L R} {s : Side} {p c q : Ref} {pe qe : ElementBase}
    (hsen : is_sentinel b s p = .ok false) (hp : b.base s p = .ok pe)
    (hc : b.base s c = .ok {}) (hq : b.base s q = .ok qe)
    (hcp : c ≠ p) (hqp : q ≠ p) (hqc : q ≠ c) (hslot : pe.left_ = some q) :
    ∃ b1, link_to_parent b s (some p) (some c) false true = .ok b1 ∧ Touch s b b1 ∧
      b1.base s p = .ok { pe with left_ := some c } ∧
      b1.base s c = .ok { parent_ := some p, left_ := some q, right_ := none } ∧
      b1.base s q = .ok { qe with parent_ := some c } ∧
      ∀ y, y ≠ p → y ≠ c → y ≠ q → b1.base s y = b.base s y := by
  obtain ⟨b1, h1, a1⟩ := set_left_ok hc pe.left_
  have hq1 : b1.base s q = .ok qe := by rw [a1.frame q hqc, hq]
  obtain ⟨b2, h2, a2⟩ := set_parent_ok hq1 (some c)
  have hp2 : b2.base s p = .ok pe := by
    rw [a2.frame p (Ne.symm hqp), a1.frame p (Ne.symm hcp), hp]
  obtain ⟨b3, h3, a3⟩ := set_left_ok hp2 (some c)
  have hc3 : b3.base s c = .ok { left_ := some q } := by
    rw [a3.frame c hcp, a2.frame c (Ne.symm hqc), a1.here, hslot]
  obtain ⟨b4, h4, a4⟩ := set_parent_ok hc3 (some p)
  refine ⟨b4, ?_, a1.toTouch.trans_touch (a2.toTouch.trans_touch
    (a3.toTouch.trans_touch a4.toTouch)), ?_, a4.here, ?_, ?_⟩
  · rw [hslot] at h1 a1
    simp [link_to_parent, hsen, hp, hslot, h1, a1.here, h2, h3, h4]
  · rw [a4.frame p (Ne.symm hcp)]; simpa using a3.here
  · rw [a4.frame q hqc, a3.frame q hqp]; exact a2.here
  · intro y hy1 hy2 hy3
    rw [a4.frame y hy2, a3.frame y hy1, a2.frame y hy3, a1.frame y hy2]

theorem PlaceAt.split_list {top : Ref} {n : Nat} {t t1 : Tree} {pos : Ptr} {cr : Bool}
    (h : PlaceAt top n t pos cr t1) :
    ∃ P Q, t.toList = P ++ Q ∧ t1.toList = P ++ n :: Q := by
  cases h with
  | leaf h => exact h.toList
  | inherit c l a r =>
    refine ⟨before c ++ l.toList, a :: r.toList ++ after c, ?_, ?_⟩ <;> rw [toList_plug] <;> simp

theorem PlaceAt.nodup_place {top : Ref} {n : Nat} {t t1 : Tree} {pos : Ptr} {cr : Bool}
    (h : PlaceAt top n t pos cr t1) (hnd : t.toList.Nodup) (hn : n ∉ t.toList) :
    t1.toList.Nodup := by
  obtain ⟨P, Q, h1, h2⟩ := h.split_list
  rw [h2]
  rw [h1] at hnd hn
  exact nodup_insert_mid hnd hn

theorem PlaceAt.result_ne_nil {top : Ref} {n : Nat} {t t1 : Tree} {pos : Ptr} {cr : Bool}
    (h : PlaceAt top n t pos cr t1) : t1 ≠ .nil := by
  obtain ⟨P, Q, -, h2⟩ := h.split_list
  intro h3
  rw [h3] at h2
  simp at h2

theorem place_link {b : Bimap L R} {s : Side} {t t1 : Tree} {hi lo : Ref} {n : Nat}
    {pos : Ptr} {cr : Bool}
    (hl : Linked b s t hi lo) (hnd : t.toList.Nodup) (hn : b.base s (.element n) = .ok {})
    (hnt : n ∉ t.toList) (hempty : t = .nil → hi = b.get_sentinel ∧ lo = b.get_sentinel)
    (ha : PlaceAt b.get_sentinel n t pos cr t1) :
    ∃ b1, link_to_parent b s pos (some (.element n)) cr true = .ok b1 ∧ Touch s b b1 ∧
      Linked b1 s t1 (if t = .nil then .element n else hi) (if t = .nil then .element n else lo) := by
  cases ha with
  | leaf ha => exact attach_link hl hnd hn hnt hempty ha
  | inherit c l a r =>
    cases l with
    | nil =>
      exact attach_link hl hnd hn hnt hempty (AttachAt.left c a r)
    | node ll q lr =>
      have hlinks := hl.links hnd
      have hat : a ∈ (plug c (.node (.node ll q lr) a r)).toList := mem_plug_self _ _ _ _
      have hqt : q ∈ (plug c (.node (.node ll q lr) a r)).toList := by
        rw [toList_plug]; simp
      have hna : n ≠ a := fun h => hnt (h ▸ hat)
      have hnq : n ≠ q := fun h => hnt (h ▸ hqt)
      have hba := hlinks.base_at rfl
      have hsh := hl.shape
      rw [shape_plug] at hsh
      obtain ⟨hc, -, hsl, hsr⟩ := hsh
      obtain ⟨hbq, hsll, hslr⟩ := hsl
      obtain ⟨hn1, hn2, hn3, hn4, hn5, hn6, hn7, hn8, hn9⟩ := nodup_plug hnd
      have hqa : q ≠ a := by
        intro h; apply hn5; rw [← h]; simp
      have hq2 : q ∉ ll.toList ∧ q ∉ lr.toList := by
        simp only [toList_node, List.nodup_append, List.nodup_cons] at hn2
        refine ⟨fun h => hn2.2.2 h (by simp), hn2.2.1.1⟩
      obtain ⟨b1, h1, h2, h3, h4, h5, h6⟩ := link_to_parent_inherit
        (hlinks.is_sentinel_element hat) hba hn hbq
        (by simpa using hna) (by simpa using hqa) (by simpa using (Ne.symm hnq)) rfl
      have hframe : ∀ x, x ∈ (plug c (.node (.node ll q lr) a r)).toList → x ≠ a → x ≠ q →
          b1.base s (.element x) = b.base s (.element x) := by
        intro x hx hxa hxq
        apply h6
        · simpa using hxa
        · intro h; cases h; exact hnt hx
        · simpa using hxq
      have hne : plug c (.node (.node ll q lr) a r) ≠ .nil := plug_ne_nil _ _ _ _
      simp only [hne, if_false]
      refine ⟨b1, h1, h2, ?_, ?_⟩
      · rw [h2.get_sentinel, shape_plug]
        refine ⟨hc.congr_ctx ?_, ?_, ⟨?_, ⟨?_, hsll.congr ?_, hslr.congr ?_⟩, trivial⟩,
          hsr.congr ?_⟩
        · intro x hx
          apply hframe x
          · rw [toList_plug]
            simp only [ctxList, List.mem_append] at hx
            rcases hx with hx | hx <;> simp [hx]
          · intro h; subst h; exact hn4 hx
          · intro h; subst h; exact hn7 x (by simp) hx
        · simpa using h3
        · simpa using h4
        · simpa using h5
        · intro x hx
          apply hframe x
          · rw [toList_plug]; simp [hx]
          · intro h; subst h; exact hn5 (by simp [hx])
          · intro h; subst h; exact hq2.1 hx
        · intro x hx
          apply hframe x
          · rw [toList_plug]; simp [hx]
          · intro h; subst h; exact hn5 (by simp [hx])
          · intro h; subst h; exact hq2.2 hx
        · intro x hx
          apply hframe x
          · rw [toList_plug]; simp [hx]
          · intro h; subst h; exact hn6 hx
          · intro h; subst h; exact hn9 x (by simp) hx
      · have := h2.sentinel_of_frame (h6 _ (sentinel_ne_element b a) (sentinel_ne_element b n)
          (sentinel_ne_element b q))
        unfold SentinelFor
        rw [this, h2.get_sentinel, hl.sentinel,
          root_plug_node c (.node (.node ll q lr) n .nil) r (.node ll q lr) r a]


/-! ## The caches after the placement of a new element -/

theorem place_update {b : Bimap L R} {s : Side} {t t1 : Tree} {hi lo : Ref} {n : Nat}
    {pos : Ptr} {cr : Bool}
    (hl : Linked b s t1 hi lo) (hnd : t1.toList.Nodup)
    (ha : PlaceAt b.get_sentinel n t pos cr t1)
    (hhi : hi = if t = .nil then .element n else lastD b.get_sentinel t.toList)
    (hlo : lo = if t = .nil then .element n else firstD b.get_sentinel t.toList)
    (hsz : b.size_ = t.toList.length) :
    ∃ b2, update_sentinel b s none = .ok b2 ∧ Touch s b b2 ∧
      Linked b2 s t1 (lastD b.get_sentinel t1.toList) (firstD b.get_sentinel t1.toList) := by
  cases ha with
  | leaf ha => exact attach_update hl hnd ha hhi hlo hsz
  | inherit c l a r =>
    cases l with
    | nil => exact attach_update hl hnd (AttachAt.left c a r) hhi hlo hsz
    | node ll q lr =>
      have hlinks := hl.links hnd
      have hs := hl.sentinel
      unfold SentinelFor at hs
      have hne := plug_ne_nil c (.node ll q lr) a r
      simp only [hne, if_false] at hhi hlo
      have he : b.empty = false := by
        have h0 : b.size_ ≠ 0 := by
          rw [hsz, toList_plug]; simp
        simp [Bimap.empty, Bimap.size, h0]
      have e1 : (plug c (.node (.node (.node ll q lr) n .nil) a r)).toList
          = (before c ++ (ll.toList ++ q :: lr.toList)) ++ n :: a :: (r.toList ++ after c) := by
        rw [toList_plug]; simp
      have e2 : (plug c (.node (.node ll q lr) a r)).toList
          = (before c ++ (ll.toList ++ q :: lr.toList)) ++ a :: (r.toList ++ after c) := by
        rw [toList_plug]; simp
      have hX : before c ++ (ll.toList ++ q :: lr.toList) ≠ [] := by simp
      have hhi1 : lastD b.get_sentinel
          (plug c (.node (.node (.node ll q lr) n .nil) a r)).toList = hi := by
        rw [hhi, e1, e2, lastD_append_cons, lastD_append_cons, lastD_cons]
      have hlo2 : firstD b.get_sentinel
          (plug c (.node (.node (.node ll q lr) n .nil) a r)).toList = lo := by
        rw [hlo, e1, e2, firstD_append, firstD_append _ _ (a :: _)]
        exact firstD_of_ne_nil hX _ _
      obtain ⟨m, Y, hm⟩ : ∃ m Y,
          (plug c (.node (.node (.node ll q lr) n .nil) a r)).toList = Y ++ [m] ∧
          hi = .element m := by
        rw [← hhi1]
        rcases List.eq_nil_or_concat (plug c (.node (.node (.node ll q lr) n .nil) a r)).toList
          with h | ⟨Y, m, h⟩
        · exact absurd (toList_eq_nil.1 h) (plug_ne_nil _ _ _ _)
        · refine ⟨m, Y, by simpa using h, ?_⟩
          rw [h]; simp
      obtain ⟨f, Z, hf⟩ : ∃ f Z,
          (plug c (.node (.node (.node ll q lr) n .nil) a r)).toList = f :: Z ∧
          lo = .element f := by
        rw [← hlo2]
        cases h : (plug c (.node (.node (.node ll q lr) n .nil) a r)).toList with
        | nil => exact absurd (toList_eq_nil.1 h) (plug_ne_nil _ _ _ _)
        | cons f Z => exact ⟨f, Z, rfl, rfl⟩
      obtain ⟨me, hme, hmr⟩ := hlinks.right_none_of_last hm.1
      obtain ⟨fe, hfe, hfl⟩ := hlinks.left_none_of_first hf.1
      simp only [update_sentinel, he, Bool.false_eq_true, if_false, hs, Bimap.base_at]
      refine ⟨b, ?_, Touch.refl_touch s b, ?_⟩
      · simp [hm.2, hf.2, hme, hfe, has_right_of_none hme hmr, has_left_of_none hfe hfl]
      · rw [hhi1, hlo2]; exact hl

/-! ## `insert_at` at positions that may be occupied -/

theorem insert_at_place {b : Bimap L R} {tl tr : Tree} (hinv : Wired b tl tr) (l : L) (r : R)
    {posL posR : Ptr} {crL crR : Bool} {tl1 tr1 : Tree}
    (hcmp : (tl = .nil ∧ crL = false ∧ crR = false) ∨
      (tl ≠ .nil ∧ ∃ kl kr, operator_deref b .left posL = .ok kl ∧
        operator_deref b .right posR = .ok kr ∧ crL = b.compare_left_ kl l ∧
        crR = b.compare_right_ kr r))
    (haL : PlaceAt b.get_sentinel b.brk tl posL crL tl1)
    (haR : PlaceAt b.get_sentinel b.brk tr posR crR tr1) :
    ∃ b1, insert_at b l r posL posR = .ok (b1, some (.element b.brk)) ∧ Grown b b1 l r ∧
      Linked b1 .left tl1 (lastD b.get_sentinel tl1.toList) (firstD b.get_sentinel tl1.toList) ∧
      Linked b1 .right tr1 (lastD b.get_sentinel tr1.toList) (firstD b.get_sentinel tr1.toList) := by
  have hfresh : b.heap b.brk = none := hinv.fresh _ (le_refl _)
  have hnl : b.brk ∉ tl.toList := by
    intro h
    have := (hinv.dom _).2 h
    simp [hfresh] at this
  have hnr : b.brk ∉ tr.toList := fun h => hnl (hinv.perm.symm.subset h)
  have hndl := hinv.nodup
  have hndr := hinv.nodup_other
  -- the state after `new`
  have hL0 := new_element_linked hinv.left l r hnl
  have hR0 := new_element_linked hinv.right l r hnr
  have hbn : ∀ s, (b.new_element l r).1.base s (.element b.brk) = .ok {} := by
    intro s; rw [new_element_base]; simp
  -- linking into the left tree
  obtain ⟨b1, h1, t1, hL1⟩ := place_link hL0 hndl (hbn .left) hnl
    (by intro h; subst h; exact ⟨rfl, rfl⟩) haL
  have hR1 : Linked b1 .right tr _ _ := hR0.of_touch_other t1
  have hbn1 : b1.base .right (.element b.brk) = .ok {} := by
    rw [← hbn .right]; exact t1.other _
  -- linking into the right tree
  have hg1 : b1.get_sentinel = b.get_sentinel := t1.get_sentinel
  obtain ⟨b2, h2, t2, hR2⟩ := place_link hR1 hndr hbn1 hnr
    (by intro h; subst h; rw [hg1]; exact ⟨rfl, rfl⟩) (hg1 ▸ haR)
  have hL2 : Linked b2 .left tl1 _ _ := Linked.of_touch_other (s := .left) hL1 t2
  have hg2 : b2.get_sentinel = b.get_sentinel := t2.get_sentinel.trans hg1
  have hs2 : b2.size_ = b.size_ := t2.size_.trans t1.size_
  -- refreshing the caches
  obtain ⟨b3, h3, t3, hL3⟩ := place_update hL2 (haL.nodup_place hndl hnl) (hg2 ▸ haL)
    (by rw [hg2]) (by rw [hg2]) (hs2.trans hinv.size)
  have hR3 : Linked b3 .right tr1 _ _ := hR2.of_touch_other t3
  have hg3 : b3.get_sentinel = b.get_sentinel := t3.get_sentinel.trans hg2
  have hs3 : b3.size_ = b.size_ := t3.size_.trans hs2
  obtain ⟨b4, h4, t4, hR4⟩ := place_update hR3 (haR.nodup_place hndr hnr) (hg3 ▸ haR)
    (by rw [hg3]) (by rw [hg3]) (hs3.trans hinv.size_other)
  have hL4 : Linked b4 .left tl1 _ _ := Linked.of_touch_other (s := .left) hL3 t4
  have hsame : Same (b.new_element l r).1 b4 :=
    t1.toSame.trans (t2.toSame.trans (t3.toSame.trans t4.toSame))
  refine ⟨{ b4 with size_ := b4.size_ + 1 }, ?_, ?_, ?_, ?_⟩
  · have hcmp2 : (if (!b.empty) = true then do
          let kl ← operator_deref b .left posL
          let kr ← operator_deref b .right posR
          Except.ok (b.compare_left_ kl l, b.compare_right_ kr r)
        else (Except.ok (false, false) : Except Error (Bool × Bool))) = .ok (crL, crR) := by
      rcases hcmp with ⟨h0, hl0, hr0⟩ | ⟨h0, kl, kr, hkl, hkr, hl0, hr0⟩
      · have : b.empty = true := by
          simp [Bimap.empty, Bimap.size, hinv.size, h0]
        simp [this, hl0, hr0]
      · have : b.empty = false := by
          have h5 : b.size_ ≠ 0 := by
            rw [hinv.size]
            intro h6
            exact h0 (toList_eq_nil.1 (List.length_eq_zero.1 h6))
          simp [Bimap.empty, Bimap.size, h5]
        simp [this, hkl, hkr, hl0, hr0]
    simp only [insert_at, hcmp2, ok_bind, new_element_snd, h1, h2, h3, h4, pure_eq_ok]
  · exact
      { self := hsame.self
        size_ := by show b4.size_ + 1 = b.size_ + 1; rw [hsame.size_]; rfl
        compare_left_ := hsame.compare_left_
        compare_right_ := hsame.compare_right_
        brk := hsame.brk
        key_left_new := by
          show b4.key .left b.brk = some l
          rw [hsame.key]; simp [Bimap.new_element, Bimap.key, Element.get_key]
        key_right_new := by
          show b4.key .right b.brk = some r
          rw [hsame.key]; simp [Bimap.new_element, Bimap.key, Element.get_key]
        key_old := fun s a ha => by
          show b4.key s a = b.key s a
          rw [hsame.key, new_element_key b l r s a ha] }
  · have := hL4.size_succ
    rw [hg2] at this
    exact this
  · have := hR4.size_succ
    rw [hg3] at this
    exact this

/-- The two sides stay linked over the live elements when an element is added. -/
theorem wired_of_grown {b b1 : Bimap L R} {tl tr tl1 tr1 : Tree} {l : L} {r : R}
    (hinv : Wired b tl tr) (hg : Grown b b1 l r)
    (hL : Linked b1 .left tl1 (lastD b.get_sentinel tl1.toList) (firstD b.get_sentinel tl1.toList))
    (hR : Linked b1 .right tr1 (lastD b.get_sentinel tr1.toList)
      (firstD b.get_sentinel tr1.toList))
    (hiL : ∃ P Q, tl.toList = P ++ Q ∧ tl1.toList = P ++ b.brk :: Q)
    (hiR : ∃ P Q, tr.toList = P ++ Q ∧ tr1.toList = P ++ b.brk :: Q) : Wired b1 tl1 tr1 := by
  have hfresh : b.heap b.brk = none := hinv.fresh _ (le_refl _)
  have hnl : b.brk ∉ tl.toList := by
    intro h
    have := (hinv.dom _).2 h
    simp [hfresh] at this
  have hgs : b1.get_sentinel = b.get_sentinel := by simp [Bimap.get_sentinel, hg.self]
  obtain ⟨P, Q, hP1, hP2⟩ := hiL
  obtain ⟨P1, Q1, hQ1, hQ2⟩ := hiR
  have hpL : tl1.toList.Perm (b.brk :: tl.toList) := by
    rw [hP1, hP2]; exact List.perm_middle
  have hpR : tr1.toList.Perm (b.brk :: tr.toList) := by
    rw [hQ1, hQ2]; exact List.perm_middle
  refine
    { left := by rw [hgs]; exact hL
      right := by rw [hgs]; exact hR
      nodup := ?_
      perm := (hpL.trans ((List.Perm.cons _ hinv.perm).trans hpR.symm))
      size := by rw [hg.size_, hinv.size, hpL.length_eq]; simp
      dom := ?_
      fresh := ?_ }
  · rw [hP2]
    exact nodup_insert_mid (hP1 ▸ hinv.nodup) (hP1 ▸ hnl)
  · intro a
    rw [hpL.mem_iff, ← key_isSome b1 .left]
    by_cases ha : a = b.brk
    · subst ha; simp [hg.key_left_new]
    · rw [hg.key_old _ _ ha, key_isSome, hinv.dom]; simp [ha]
  · intro a ha
    rw [hg.brk] at ha
    have h1 : a ≠ b.brk := by omega
    have h2 := hg.key_old .left a h1
    have h3 := hinv.fresh a (by omega)
    simp only [Bimap.key, h3, Option.map_none', Option.map_eq_none'] at h2
    exact h2


/-! ## Erasing at an iterator in a container whose keys need not be in order -/

theorem split_unique {A B A1 B1 : List Nat} {a : Nat} (hn : (A ++ a :: B).Nodup)
    (h : A ++ a :: B = A1 ++ a :: B1) : A = A1 ∧ B = B1 := by
  induction A generalizing A1 with
  | nil =>
    cases A1 with
    | nil => simpa using h
    | cons z A1 =>
      simp only [List.nil_append, List.cons_append, List.cons.injEq] at h
      obtain ⟨hz, h1⟩ := h
      subst hz
      rw [h1] at hn
      simp [List.nodup_cons] at hn
  | cons y A ih =>
    cases A1 with
    | nil =>
      simp only [List.nil_append, List.cons_append, List.cons.injEq] at h
      obtain ⟨hz, h1⟩ := h
      subst hz
      simp [List.nodup_cons] at hn
    | cons z A1 =>
      simp only [List.cons_append, List.cons.injEq] at h
      obtain ⟨hz, h1⟩ := h
      subst hz
      simp only [List.cons_append, List.nodup_cons] at hn
      obtain ⟨h2, h3⟩ := ih hn.2 h1
      exact ⟨by rw [h2], h3⟩

/-- The successor of an element is the element that follows it in the order of the side. -/

theorem Wired.side {b : Bimap L R} {tl tr : Tree} (h : Wired b tl tr) (s : Side) :
    Linked b s (sideTree s tl tr) (lastD b.get_sentinel (sideTree s tl tr).toList)
      (firstD b.get_sentinel (sideTree s tl tr).toList) := by
  cases s
  · exact h.left
  · exact h.right

theorem Wired.mem_side {b : Bimap L R} {tl tr : Tree} (h : Wired b tl tr) (s : Side) (a : Nat) :
    a ∈ (sideTree s tl tr).toList ↔ a ∈ tl.toList := by
  cases s
  · exact Iff.rfl
  · exact h.perm.mem_iff.symm

theorem Wired.nodup_side {b : Bimap L R} {tl tr : Tree} (h : Wired b tl tr) (s : Side) :
    (sideTree s tl tr).toList.Nodup := by
  cases s
  · exact h.nodup
  · exact h.nodup_other

theorem Wired.size_side {b : Bimap L R} {tl tr : Tree} (h : Wired b tl tr) (s : Side) :
    b.size_ = (sideTree s tl tr).toList.length := by
  cases s
  · exact h.size
  · exact h.size_other

theorem Wired.nav_side {b : Bimap L R} {tl tr : Tree} (h : Wired b tl tr) (s : Side) :
    Nav b s (sideTree s tl tr) := (h.side s).nav_of (h.nodup_side s)

theorem erase_it_wired {b : Bimap L R} {tl tr : Tree} (hw : Wired b tl tr) (s : Side) {n : Nat}
    (hn : n ∈ tl.toList) :
    ∃ b1 tl1 tr1 next, erase_it_impl b s (some (.element n)) = .ok (b1, next) ∧
      Wired b1 tl1 tr1 ∧ Shrunk b b1 n ∧
      (∃ A B, tl.toList = A ++ n :: B ∧ tl1.toList = A ++ B) ∧
      (∃ A B, tr.toList = A ++ n :: B ∧ tr1.toList = A ++ B) := by
  have hns : n ∈ (sideTree s tl tr).toList := (hw.mem_side s n).2 hn
  obtain ⟨c, l, r, ht⟩ := exists_plug_of_mem hns
  have hnav := hw.nav_side s
  have hinc := hnav.operator_inc ht (le_of_eq (hw.size_side s).symm)
  have hnd := hw.nodup_side s
  rw [ht] at hnd
  obtain ⟨hn1, hn2, hn3, hn4, hn5, hn6, hn7, hn8, hn9⟩ := nodup_plug hnd
  have hnB : n ∉ r.toList ++ after c := by
    simp only [List.mem_append, not_or]
    exact ⟨hn6, fun h => hn4 (by simp [ctxList, h])⟩
  have hne : (some (Ref.element n) : Ptr) ≠ some (firstD b.get_sentinel (r.toList ++ after c)) := by
    intro h1
    exact firstD_ne_of_not_mem (sentinel_ne_element b n) hnB (Option.some.inj h1).symm
  have hpos : 0 < b.size_ := by
    rw [hw.size]; exact List.length_pos_of_mem hn
  have hemp : b.empty = false := by
    simp only [Bimap.empty, Bimap.size, beq_eq_false_iff_ne, ne_eq]
    omega
  obtain ⟨b1, tl1, tr1, h1, hw1, hsh, hlL, hlR⟩ := erase_node_wired hw hn s
  obtain ⟨k, hk⟩ : ∃ k, b.size_ = k + 1 := ⟨b.size_ - 1, by omega⟩
  refine ⟨b1, tl1, tr1, some (firstD b.get_sentinel (r.toList ++ after c)), ?_, hw1, hsh,
    hlL, hlR⟩
  simp only [erase_it_impl, hinc, ok_bind, erase_range_impl, Bimap.fuel]
  rw [erase_loop_succ, if_pos ⟨hne, by simp [hemp]⟩]
  simp only [to_element, pure_eq_ok, ok_bind, hinc, h1]
  rw [hk, erase_loop_succ]
  simp


/-! ## `at_or_default` -/

theorem sideTree_self (s : Side) (t1 t2 : Tree) :
    sideTree s (sideTree s t1 t2) (sideTree s.opposite t1 t2) = t1 := by
  cases s <;> rfl

theorem sideTree_opposite (s : Side) (t1 t2 : Tree) :
    sideTree s.opposite (sideTree s t1 t2) (sideTree s.opposite t1 t2) = t2 := by
  cases s <;> rfl

theorem side_cases (s σ : Side) : σ = s ∨ σ = s.opposite := by
  cases s <;> cases σ <;> simp [Side.opposite]

theorem Inv.sorted_side {b : Bimap L R} {tl tr : Tree} (h : Inv b tl tr) (s : Side) :
    (sideTree s tl tr).toList.Pairwise (b.keyLt s) := by
  cases s
  · exact h.left.sorted
  · exact h.right.sorted

theorem Wired.to_inv_sides {b : Bimap L R} {tl tr : Tree} (h : Wired b tl tr)
    (hs : ∀ σ, (sideTree σ tl tr).toList.Pairwise (b.keyLt σ))
    (ho : ∀ σ, StrictWeakOrder (b.get_compare σ)) : Inv b tl tr :=
  h.to_inv (hs .left) (hs .right) (ho .left) (ho .right)

theorem Wired.side_ne_nil {b : Bimap L R} {tl tr : Tree} (h : Wired b tl tr) (h0 : tl ≠ .nil)
    (s : Side) : sideTree s tl tr ≠ .nil := by
  intro h1
  obtain ⟨a, ha⟩ : ∃ a, a ∈ tl.toList := by
    cases tl with
    | nil => exact absurd rfl h0
    | node l a r => exact ⟨a, by simp⟩
  have := (h.mem_side s a).2 ha
  rw [h1] at this
  simp at this

theorem flip_element_ok {b : Bimap L R} {s : Side} {a : Nat}
    (h : is_sentinel b s (.element a) = .ok false) :
    flip b s (some (.element a)) = .ok (some (.element a)) := by
  simp [flip, h]

theorem deref_value_eq {b : Bimap L R} {s : Side} {n : Nat} {v : Key L R s.opposite}
    (hk : b.key s.opposite n = some v) (hs : is_sentinel b .left (.element n) = .ok false) :
    deref_value s b (some (.element n)) = .ok v := by
  cases s
  · simp only [deref_value, flip_element_ok hs, ok_bind]
    exact operator_deref_eq hk
  · exact operator_deref_eq hk

theorem find_pos_sides {b : Bimap L R} {s : Side} {key : Key L R s} {dflt : Key L R s.opposite}
    {p q : Ptr} (hf : find_insert_position b s key = .ok p)
    (hf2 : find_insert_position b s.opposite dflt = .ok q) :
    find_insert_position b .left (side_pair s key dflt).1 = .ok (side_pos s p q).1 ∧
    find_insert_position b .right (side_pair s key dflt).2 = .ok (side_pos s p q).2 := by
  cases s
  · exact ⟨hf, hf2⟩
  · exact ⟨hf2, hf⟩

theorem grown_key_sides {b b1 : Bimap L R} {s : Side} {key : Key L R s}
    {dflt : Key L R s.opposite}
    (hg : Grown b b1 (side_pair s key dflt).1 (side_pair s key dflt).2) :
    b1.key s b.brk = some key ∧ b1.key s.opposite b.brk = some dflt := by
  cases s
  · exact ⟨hg.key_left_new, hg.key_right_new⟩
  · exact ⟨hg.key_right_new, hg.key_left_new⟩

theorem Grown.compare_kept {b b1 : Bimap L R} {l : L} {r : R} (hg : Grown b b1 l r) (s : Side) :
    b1.get_compare s = b.get_compare s := by
  cases s
  · exact hg.compare_left_
  · exact hg.compare_right_

theorem Shrunk.compare_same {b b1 : Bimap L R} {n : Nat} (hg : Shrunk b b1 n) (s : Side) :
    b1.get_compare s = b.get_compare s := by
  cases s
  · exact hg.compare_left_
  · exact hg.compare_right_

theorem insert_at_sides {b : Bimap L R} {tl tr : Tree} (hw : Wired b tl tr) (h0 : tl ≠ .nil)
    (s : Side) (key : Key L R s) (dflt : Key L R s.opposite) {a e : Nat}
    {k : Key L R s} {kv : Key L R s.opposite}
    (hk : b.key s a = some k) (hkv : b.key s.opposite e = some kv) {t1 t2 : Tree}
    (h1 : PlaceAt b.get_sentinel b.brk (sideTree s tl tr) (some (.element a))
      (b.get_compare s k key) t1)
    (h2 : PlaceAt b.get_sentinel b.brk (sideTree s.opposite tl tr) (some (.element e))
      (b.get_compare s.opposite kv dflt) t2) :
    ∃ b1, insert_at b (side_pair s key dflt).1 (side_pair s key dflt).2
        (side_pos s (some (.element a)) (some (.element e))).1
        (side_pos s (some (.element a)) (some (.element e))).2 =
          .ok (b1, some (.element b.brk)) ∧
      Grown b b1 (side_pair s key dflt).1 (side_pair s key dflt).2 ∧
      Wired b1 (sideTree s t1 t2) (sideTree s.opposite t1 t2) := by
  cases s with
  | left =>
    obtain ⟨b1, h3, hg, hL, hR⟩ := insert_at_place hw key dflt
      (Or.inr ⟨h0, k, kv, operator_deref_eq hk, operator_deref_eq hkv, rfl, rfl⟩) h1 h2
    exact ⟨b1, h3, hg, wired_of_grown hw hg hL hR h1.split_list h2.split_list⟩
  | right =>
    obtain ⟨b1, h3, hg, hL, hR⟩ := insert_at_place hw dflt key
      (Or.inr ⟨h0, kv, k, operator_deref_eq hkv, operator_deref_eq hk, rfl, rfl⟩) h2 h1
    exact ⟨b1, h3, hg, wired_of_grown hw hg hL hR h2.split_list h1.split_list⟩

theorem splits_sides {X1 Y1 X2 Y2 : Tree} {e : Nat}
    (hL : ∃ A B, X1.toList = A ++ e :: B ∧ X2.toList = A ++ B)
    (hR : ∃ A B, Y1.toList = A ++ e :: B ∧ Y2.toList = A ++ B) (σ : Side) :
    ∃ A B, (sideTree σ X1 Y1).toList = A ++ e :: B ∧ (sideTree σ X2 Y2).toList = A ++ B := by
  cases σ
  · exact hL
  · exact hR

/-- The keys stay in order when an element is dropped from the list. -/
theorem sorted_drop {b b1 : Bimap L R} {s : Side} {A B : List Nat} {e : Nat}
    (hs : (A ++ e :: B).Pairwise (b.keyLt s)) (hn : e ∉ A ++ B)
    (hko : ∀ x, x ≠ e → b1.key s x = b.key s x) (hc : b1.get_compare s = b.get_compare s) :
    (A ++ B).Pairwise (b1.keyLt s) := by
  have h1 : (A ++ B).Pairwise (b.keyLt s) := List.Pairwise.sublist (sublist_drop_mid A B e) hs
  refine List.Pairwise.imp_of_mem ?_ h1
  intro x y hx hy hxy
  have hxn : x ≠ e := fun h => hn (h ▸ hx)
  have hyn : y ≠ e := fun h => hn (h ▸ hy)
  obtain ⟨kx, ky, h2, h3, h4⟩ := hxy
  exact ⟨kx, ky, by rw [hko x hxn, h2], by rw [hko y hyn, h3], by rw [hc]; exact h4⟩


/-! ## `at_or_default`: the three outcomes -/

theorem at_or_default_present {b : Bimap L R} {tl tr : Tree} (hinv : Inv b tl tr) (s : Side)
    (key : Key L R s) (dflt : Key L R s.opposite) {a : Nat}
    (hf : find_insert_position b s key = .ok (some (.element a)))
    (ha : a ∈ (sideTree s tl tr).toList) (he : b.keyEquiv s key a) :
    ∃ v, b.key s.opposite a = some v ∧ at_or_default b s key dflt = .ok (b, v) := by
  have hw := hinv.wired
  have hns := hw.nav_side s
  obtain ⟨k, hk⟩ := key_of_live (hns.shape.live a ha) s
  obtain ⟨v, hv⟩ := key_of_live (hns.shape.live a ha) s.opposite
  refine ⟨v, hv, ?_⟩
  simp [at_or_default, hf, operator_deref_eq hk, (is_equal_iff_equiv hk key).2 he,
    flip_element_ok (hns.is_sentinel_element ha), operator_deref_eq hv]

theorem at_or_default_fresh {b : Bimap L R} {tl tr : Tree} (hinv : Inv b tl tr) (h0 : tl ≠ .nil)
    (s : Side) (key : Key L R s) (dflt : Key L R s.opposite)
    {c : Ctx} {l r : Tree} {a : Nat} {c2 : Ctx} {l2 r2 : Tree} {e : Nat}
    (hf : find_insert_position b s key = .ok (some (.element a)))
    (hp : IsPosition b s key (sideTree s tl tr) c l a r) (he : ¬ b.keyEquiv s key a)
    (hf2 : find_insert_position b s.opposite dflt = .ok (some (.element e)))
    (hp2 : IsPosition b s.opposite dflt (sideTree s.opposite tl tr) c2 l2 e r2)
    (he2 : ¬ b.keyEquiv s.opposite dflt e) :
    ∃ b1 tl1 tr1, at_or_default b s key dflt = .ok (b1, dflt) ∧
      Grown b b1 (side_pair s key dflt).1 (side_pair s key dflt).2 ∧ Inv b1 tl1 tr1 := by
  have hw := hinv.wired
  have hns := hw.nav_side s
  have hno := hw.nav_side s.opposite
  have ha : a ∈ (sideTree s tl tr).toList := by rw [hp.1]; exact mem_plug_self _ _ _ _
  have hea : e ∈ (sideTree s.opposite tl tr).toList := by rw [hp2.1]; exact mem_plug_self _ _ _ _
  obtain ⟨k, hk⟩ := key_of_live (hns.shape.live a ha) s
  obtain ⟨kv, hkv⟩ := key_of_live (hno.shape.live e hea) s.opposite
  have hE : b.is_equal s k key = false := by
    rw [← Bool.not_eq_true, is_equal_iff_equiv hk key]; exact he
  have hE2 : b.is_equal s.opposite kv dflt = false := by
    rw [← Bool.not_eq_true, is_equal_iff_equiv hkv dflt]; exact he2
  obtain ⟨t1, hat1, hi1⟩ := position_attach (hinv.order s) hp (hinv.sorted_side s) he hk
    b.get_sentinel b.brk
  obtain ⟨t2, hat2, hi2⟩ := position_attach (hinv.order s.opposite) hp2
    (hinv.sorted_side s.opposite) he2 hkv b.get_sentinel b.brk
  obtain ⟨b1, h1, hg, hw1⟩ := insert_at_sides hw h0 s key dflt hk hkv (PlaceAt.leaf hat1)
    (PlaceAt.leaf hat2)
  have hfresh : b.heap b.brk = none := hinv.fresh _ (le_refl _)
  have hnl : ∀ σ, b.brk ∉ (sideTree σ tl tr).toList := by
    intro σ h
    have := (hinv.dom _).2 ((hw.mem_side σ _).1 h)
    simp [hfresh] at this
  obtain ⟨hkn, hkn2⟩ := grown_key_sides hg
  have hsorted : ∀ σ, (sideTree σ (sideTree s t1 t2) (sideTree s.opposite t1 t2)).toList.Pairwise
      (b1.keyLt σ) := by
    intro σ
    rcases side_cases s σ with h | h
    · subst h
      rw [sideTree_self]
      obtain ⟨P, Q, h2, h3, h4, h5⟩ := hi1
      rw [h3]
      refine sorted_insert (h2 ▸ hinv.sorted_side σ) h4 h5 hkn ?_ (hg.compare_kept σ)
      intro x hx
      exact hg.key_old _ _ (fun h => hnl σ (by rw [h2, ← h]; exact hx))
    · subst h
      rw [sideTree_opposite]
      obtain ⟨P, Q, h2, h3, h4, h5⟩ := hi2
      rw [h3]
      refine sorted_insert (h2 ▸ hinv.sorted_side s.opposite) h4 h5 hkn2 ?_
        (hg.compare_kept s.opposite)
      intro x hx
      exact hg.key_old _ _ (fun h => hnl s.opposite (by rw [h2, ← h]; exact hx))
  have hinv1 : Inv b1 _ _ := hw1.to_inv_sides hsorted (fun σ => by
    rw [hg.compare_kept σ]; exact hinv.order σ)
  have hlive : (b1.heap b.brk).isSome = true := by
    rw [← key_isSome b1 s, hkn]; rfl
  have hsen : is_sentinel b1 .left (.element b.brk) = .ok false :=
    (hw1.nav_side .left).is_sentinel_element ((hw1.dom _).1 hlive)
  refine ⟨b1, _, _, ?_, hg, hinv1⟩
  simp [at_or_default, hf, operator_deref_eq hk, hE, hf2, operator_deref_eq hkv, hE2, h1,
    deref_value_eq hkn2 hsen]


theorem at_or_default_steal {b : Bimap L R} {tl tr : Tree} (hinv : Inv b tl tr) (h0 : tl ≠ .nil)
    (s : Side) (key : Key L R s) (dflt : Key L R s.opposite)
    {c : Ctx} {l r : Tree} {a : Nat} {c2 : Ctx} {l2 r2 : Tree} {e : Nat}
    (hf : find_insert_position b s key = .ok (some (.element a)))
    (hp : IsPosition b s key (sideTree s tl tr) c l a r) (he : ¬ b.keyEquiv s key a)
    (hf2 : find_insert_position b s.opposite dflt = .ok (some (.element e)))
    (hp2 : IsPosition b s.opposite dflt (sideTree s.opposite tl tr) c2 l2 e r2)
    (he2 : b.keyEquiv s.opposite dflt e) :
    ∃ b2 tl2 tr2, at_or_default b s key dflt = .ok (b2, dflt) ∧
      Stolen b b2 (side_pair s key dflt).1 (side_pair s key dflt).2 e ∧ Inv b2 tl2 tr2 := by
  have hw := hinv.wired
  have hns := hw.nav_side s
  have hno := hw.nav_side s.opposite
  have ha : a ∈ (sideTree s tl tr).toList := by rw [hp.1]; exact mem_plug_self _ _ _ _
  have hea : e ∈ (sideTree s.opposite tl tr).toList := by rw [hp2.1]; exact mem_plug_self _ _ _ _
  obtain ⟨k, hk⟩ := key_of_live (hns.shape.live a ha) s
  obtain ⟨kv, hkv⟩ := key_of_live (hno.shape.live e hea) s.opposite
  have hE : b.is_equal s k key = false := by
    rw [← Bool.not_eq_true, is_equal_iff_equiv hk key]; exact he
  have hE2 : b.is_equal s.opposite kv dflt = true := (is_equal_iff_equiv hkv dflt).2 he2
  have hcv : b.get_compare s.opposite kv dflt = false := by
    obtain ⟨k1, hk1, h1, -⟩ := he2
    rw [hkv] at hk1; cases hk1
    exact h1
  obtain ⟨t1, hat1, hi1⟩ := position_attach (hinv.order s) hp (hinv.sorted_side s) he hk
    b.get_sentinel b.brk
  have hat2 : PlaceAt b.get_sentinel b.brk (sideTree s.opposite tl tr) (some (.element e))
      (b.get_compare s.opposite kv dflt) (plug c2 (.node (.node l2 b.brk .nil) e r2)) := by
    rw [hcv, hp2.1]
    exact PlaceAt.inherit c2 l2 e r2
  obtain ⟨b1, h1, hg, hw1⟩ := insert_at_sides hw h0 s key dflt hk hkv (PlaceAt.leaf hat1) hat2
  have hfresh : b.heap b.brk = none := hinv.fresh _ (le_refl _)
  have hnl : ∀ σ, b.brk ∉ (sideTree σ tl tr).toList := by
    intro σ h
    have := (hinv.dom _).2 ((hw.mem_side σ _).1 h)
    simp [hfresh] at this
  have hne : e ≠ b.brk := fun h => hnl s.opposite (h ▸ hea)
  obtain ⟨hkn, hkn2⟩ := grown_key_sides hg
  -- the element that holds the default value is erased
  have he1 : e ∈ (sideTree s t1 (plug c2 (.node (.node l2 b.brk .nil) e r2))).toList := by
    have h2 : e ∈ (sideTree s.opposite (sideTree s t1 (plug c2 (.node (.node l2 b.brk .nil) e r2)))
        (sideTree s.opposite t1 (plug c2 (.node (.node l2 b.brk .nil) e r2)))).toList := by
      rw [sideTree_opposite, toList_plug]; simp
    exact (hw1.mem_side s.opposite e).1 h2
  obtain ⟨b2, tl2, tr2, next, h2, hw2, hsh, hlL, hlR⟩ := erase_it_wired hw1 s.opposite he1
  have hsp := splits_sides hlL hlR
  have hkb2 : b2.key s b.brk = some key ∧ b2.key s.opposite b.brk = some dflt :=
    ⟨by rw [hsh.key_old _ _ (Ne.symm hne), hkn], by rw [hsh.key_old _ _ (Ne.symm hne), hkn2]⟩
  have hsorted : ∀ σ, (sideTree σ tl2 tr2).toList.Pairwise (b2.keyLt σ) := by
    intro σ
    rcases side_cases s σ with h | h
    · subst h
      obtain ⟨A, B, h3, h4⟩ := hsp σ
      rw [sideTree_self] at h3
      rw [h4]
      have hnd := hw1.nodup_side σ
      rw [sideTree_self, h3] at hnd
      obtain ⟨P, Q, h5, h6, h7, h8⟩ := hi1
      have h9 : t1.toList.Pairwise (b1.keyLt σ) := by
        rw [h6]
        refine sorted_insert (h5 ▸ hinv.sorted_side σ) h7 h8 hkn ?_ (hg.compare_kept σ)
        intro x hx
        exact hg.key_old _ _ (fun h => hnl σ (by rw [h5, ← h]; exact hx))
      exact sorted_drop (h3 ▸ h9) (not_mem_of_nodup_mid hnd) (fun x hx => hsh.key_old _ _ hx)
        (hsh.compare_same σ)
    · subst h
      obtain ⟨A, B, h3, h4⟩ := hsp s.opposite
      rw [sideTree_opposite] at h3
      rw [h4]
      have hnd := hw1.nodup_side s.opposite
      rw [sideTree_opposite] at hnd
      have h5 : (plug c2 (.node (.node l2 b.brk .nil) e r2)).toList =
          ((before c2 ++ l2.toList) ++ [b.brk]) ++ e :: (r2.toList ++ after c2) := by
        rw [toList_plug]; simp
      have h6 : (sideTree s.opposite tl tr).toList =
          (before c2 ++ l2.toList) ++ e :: (r2.toList ++ after c2) := by
        rw [hp2.1, toList_plug]; simp
      rw [h5] at hnd
      obtain ⟨h7, h8⟩ := split_unique hnd (h5.symm.trans h3)
      rw [← h7, ← h8]
      have hso := hinv.sorted_side s.opposite
      rw [h6] at hso
      obtain ⟨q1, q2, q3, q4⟩ := position_split (hinv.order s.opposite) hp2
        (hinv.sorted_side s.opposite)
      have hnd0 := hw.nodup_side s.opposite
      rw [h6] at hnd0
      have hne0 := not_mem_of_nodup_mid hnd0
      have h10 : (before c2 ++ l2.toList ++ b.brk :: (r2.toList ++ after c2)).Pairwise
          (b2.keyLt s.opposite) := by
        refine sorted_insert (List.Pairwise.sublist (sublist_drop_mid _ _ e) hso) ?_ ?_ hkb2.2 ?_
          ((hsh.compare_same _).trans (hg.compare_kept _))
        · intro x hx
          simp only [List.mem_append] at hx
          rcases hx with hx | hx
          · exact q1 x hx
          · exact q3 (Or.inl he2) x hx
        · intro x hx
          simp only [List.mem_append] at hx
          rcases hx with hx | hx
          · exact q4 (Or.inl he2) x hx
          · exact q2 x hx
        · intro x hx
          have hxe : x ≠ e := fun h => hne0 (h ▸ hx)
          have hxb : x ≠ b.brk := by
            intro h
            apply hnl s.opposite
            rw [h6, ← h]
            simp only [List.mem_append, List.mem_cons] at hx ⊢
            tauto
          rw [hsh.key_old _ _ hxe, hg.key_old _ _ hxb]
      simpa using h10
  have hinv2 : Inv b2 tl2 tr2 := hw2.to_inv_sides hsorted (fun σ => by
    rw [hsh.compare_same σ, hg.compare_kept σ]; exact hinv.order σ)
  have hlive : (b2.heap b.brk).isSome = true := by
    rw [← key_isSome b2 s, hkb2.1]; rfl
  have hsen : is_sentinel b2 .left (.element b.brk) = .ok false :=
    (hw2.nav_side .left).is_sentinel_element ((hw2.dom _).1 hlive)
  obtain ⟨hfl, hfr⟩ := find_pos_sides hf hf2
  refine ⟨b2, tl2, tr2, ?_, ?_, hinv2⟩
  · simp [at_or_default, hf, operator_deref_eq hk, hE, hf2, operator_deref_eq hkv, hE2,
      insert_impl, hfl, hfr, h1, h2, deref_value_eq hkb2.2 hsen]
  · have hkl : b1.key .left b.brk = some (side_pair s key dflt).1 := hg.key_left_new
    have hkr : b1.key .right b.brk = some (side_pair s key dflt).2 := hg.key_right_new
    refine ⟨hsh.self.trans hg.self, ?_, hsh.compare_left_.trans hg.compare_left_,
      hsh.compare_right_.trans hg.compare_right_, hsh.brk.trans hg.brk, ?_, ?_, hsh.gone, ?_⟩
    · rw [hsh.size_, hg.size_]; simp
    · rw [hsh.key_old _ _ (Ne.symm hne), hkl]
    · rw [hsh.key_old _ _ (Ne.symm hne), hkr]
    · intro σ x hx1 hx2
      rw [hsh.key_old _ _ hx2, hg.key_old _ _ hx1]


/-- The three outcomes of `at_or_default` on a container that is not empty: the key is
found; the key is absent and the default value is free; the key is absent and the default
value is the key of the element `e`, which is erased. -/
theorem at_or_default_spec {b : Bimap L R} {tl tr : Tree} (hinv : Inv b tl tr) (h0 : tl ≠ .nil)
    (s : Side) (key : Key L R s) (dflt : Key L R s.opposite) :
    (∃ a v, a ∈ tl.toList ∧ b.keyEquiv s key a ∧ b.key s.opposite a = some v ∧
      at_or_default b s key dflt = .ok (b, v)) ∨
    ((∀ a ∈ tl.toList, ¬ b.keyEquiv s key a) ∧
      (∀ a ∈ tl.toList, ¬ b.keyEquiv s.opposite dflt a) ∧
      ∃ b1 tl1 tr1, at_or_default b s key dflt = .ok (b1, dflt) ∧
        Grown b b1 (side_pair s key dflt).1 (side_pair s key dflt).2 ∧ Inv b1 tl1 tr1) ∨
    ((∀ a ∈ tl.toList, ¬ b.keyEquiv s key a) ∧
      ∃ e ∈ tl.toList, b.keyEquiv s.opposite dflt e ∧
      ∃ b2 tl2 tr2, at_or_default b s key dflt = .ok (b2, dflt) ∧
        Stolen b b2 (side_pair s key dflt).1 (side_pair s key dflt).2 e ∧ Inv b2 tl2 tr2) := by
  have hw := hinv.wired
  have hns := hw.nav_side s
  have hno := hw.nav_side s.opposite
  obtain ⟨c, l, a, r, hf, hp⟩ := hns.find_insert_position (hw.size_side s) (hw.side_ne_nil h0 s)
    key
  have ha : a ∈ (sideTree s tl tr).toList := by rw [hp.1]; exact mem_plug_self _ _ _ _
  by_cases he : b.keyEquiv s key a
  · left
    obtain ⟨v, hv, h1⟩ := at_or_default_present hinv s key dflt hf ha he
    exact ⟨a, v, (hw.mem_side s a).1 ha, he, hv, h1⟩
  · right
    have habs : ∀ x ∈ tl.toList, ¬ b.keyEquiv s key x := fun x hx =>
      position_no_equiv (hinv.order s) hp (hinv.sorted_side s) he x ((hw.mem_side s x).2 hx)
    obtain ⟨c2, l2, e, r2, hf2, hp2⟩ := hno.find_insert_position (hw.size_side s.opposite)
      (hw.side_ne_nil h0 s.opposite) dflt
    have hea : e ∈ (sideTree s.opposite tl tr).toList := by
      rw [hp2.1]; exact mem_plug_self _ _ _ _
    by_cases he2 : b.keyEquiv s.opposite dflt e
    · right
      exact ⟨habs, e, (hw.mem_side s.opposite e).1 hea, he2,
        at_or_default_steal hinv h0 s key dflt hf hp he hf2 hp2 he2⟩
    · left
      refine ⟨habs, fun x hx => ?_, at_or_default_fresh hinv h0 s key dflt hf hp he hf2 hp2 he2⟩
      exact position_no_equiv (hinv.order s.opposite) hp2 (hinv.sorted_side s.opposite) he2 x
        ((hw.mem_side s.opposite x).2 hx)

/-- On the empty container `at_or_default` reads a key through the sentinel. -/
theorem at_or_default_empty {b : Bimap L R} {tl tr : Tree} (hinv : Inv b tl tr) (h0 : tl = .nil)
    (s : Side) (key : Key L R s) (dflt : Key L R s.opposite) :
    at_or_default b s key dflt = .error .undefined := by
  have hw := hinv.wired
  have hns := hw.nav_side s
  have h1 : sideTree s tl tr = .nil := by
    have h2 : (sideTree s tl tr).toList = [] := by
      apply List.eq_nil_iff_forall_not_mem.2
      intro a ha
      have := (hw.mem_side s a).1 ha
      rw [h0] at this
      simp at this
    exact toList_eq_nil.1 h2
  rw [h1] at hns
  have hsz : b.size_ = 0 := by rw [hinv.size, h0]; rfl
  simp [at_or_default, hns.find_insert_position_empty hsz, operator_deref, Bimap.get_sentinel]

theorem at_or_default_inv {b b1 : Bimap L R} {tl tr : Tree} (hinv : Inv b tl tr) {s : Side}
    {key : Key L R s} {dflt v : Key L R s.opposite}
    (h : at_or_default b s key dflt = .ok (b1, v)) : ∃ tl1 tr1, Inv b1 tl1 tr1 := by
  by_cases h0 : tl = .nil
  · rw [at_or_default_empty hinv h0] at h
    cases h
  · rcases at_or_default_spec hinv h0 s key dflt with ⟨a, v1, -, -, -, h1⟩ |
      ⟨-, -, b2, tl1, tr1, h1, -, h2⟩ | ⟨-, e, -, -, b2, tl1, tr1, h1, -, h2⟩
    · rw [h1] at h
      simp only [Except.ok.injEq, Prod.mk.injEq] at h
      rw [← h.1]; exact ⟨tl, tr, hinv⟩
    · rw [h1] at h
      simp only [Except.ok.injEq, Prod.mk.injEq] at h
      rw [← h.1]; exact ⟨tl1, tr1, h2⟩
    · rw [h1] at h
      simp only [Except.ok.injEq, Prod.mk.injEq] at h
      rw [← h.1]; exact ⟨tl1, tr1, h2⟩


/-! ## The erase functions keep the invariant -/

theorem live_of_is_sentinel {b : Bimap L R} {s : Side} {x : Ref} {v : Bool}
    (h : is_sentinel b s x = .ok v) : b.live x := by
  rw [live_iff_base b s x]
  cases h1 : b.base s x with
  | error e => simp [is_sentinel, h1] at h
  | ok e => exact ⟨e, rfl⟩

theorem live_of_operator_inc {b : Bimap L R} {s : Side} {x : Ref} {y : Ptr}
    (h : operator_inc b s (some x) = .ok y) : b.live x := by
  simp only [operator_inc] at h
  cases h1 : is_sentinel b s x with
  | error e => simp [h1] at h
  | ok v => exact live_of_is_sentinel h1

theorem to_element_eq {it : Ptr} {n : Nat} (h : to_element it = .ok n) :
    it = some (.element n) := by
  cases it with
  | none => simp [to_element] at h
  | some x =>
    cases x with
    | sentinel o => simp [to_element] at h
    | element a =>
      simp only [to_element, pure_eq_ok, Except.ok.injEq] at h
      rw [h]

theorem erase_loop_inv (s : Side) (it_end : Ptr) :
    ∀ (fuel : Nat) (b b1 : Bimap L R) (it_start : Ptr) (tl tr : Tree), Inv b tl tr →
      erase_loop s it_end fuel b it_start = .ok b1 → ∃ tl1 tr1, Inv b1 tl1 tr1 := by
  intro fuel
  induction fuel with
  | zero => intro b b1 it_start tl tr _ h; simp [erase_loop] at h
  | succ fuel ih =>
    intro b b1 it_start tl tr hinv h
    rw [erase_loop_succ] at h
    split_ifs at h with hc
    · cases h1 : to_element it_start with
      | error e => simp [h1] at h
      | ok n =>
        have hit := to_element_eq h1
        subst hit
        simp only [h1, ok_bind] at h
        cases h2 : operator_inc b s (some (.element n)) with
        | error e => simp [h2] at h
        | ok next =>
          simp only [h2, ok_bind] at h
          have hlive := live_of_operator_inc h2
          have hn : n ∈ tl.toList := (hinv.dom n).1 hlive
          obtain ⟨b2, tl2, tr2, h3, hinv2, -, -, -⟩ := erase_node_spec hinv hn s
          simp only [h3, ok_bind] at h
          exact ih b2 b1 next tl2 tr2 hinv2 h
    · simp only [pure_eq_ok, Except.ok.injEq] at h
      subst h
      exact ⟨tl, tr, hinv⟩

theorem erase_range_inv {b b1 : Bimap L R} {s : Side} {first last it : Ptr} {tl tr : Tree}
    (hinv : Inv b tl tr) (h : erase_range_impl b s first last = .ok (b1, it)) :
    ∃ tl1 tr1, Inv b1 tl1 tr1 := by
  simp only [erase_range_impl] at h
  cases h1 : erase_loop s last b.fuel b first with
  | error e => simp [h1] at h
  | ok b2 =>
    simp only [h1, ok_bind, pure_eq_ok, Except.ok.injEq, Prod.mk.injEq] at h
    obtain ⟨h2, -⟩ := h
    subst h2
    exact erase_loop_inv s last _ _ _ _ _ _ hinv h1

theorem erase_it_inv {b b1 : Bimap L R} {s : Side} {it next : Ptr} {tl tr : Tree}
    (hinv : Inv b tl tr) (h : erase_it_impl b s it = .ok (b1, next)) :
    ∃ tl1 tr1, Inv b1 tl1 tr1 := by
  simp only [erase_it_impl] at h
  cases h1 : operator_inc b s it with
  | error e => simp [h1] at h
  | ok nx =>
    simp only [h1, ok_bind] at h
    exact erase_range_inv hinv h

theorem erase_val_inv {b b1 : Bimap L R} {s : Side} {k : Key L R s} {found : Bool}
    {tl tr : Tree} (hinv : Inv b tl tr) (h : erase_val_impl b s k = .ok (b1, found)) :
    ∃ tl1 tr1, Inv b1 tl1 tr1 := by
  simp only [erase_val_impl] at h
  cases h1 : find_insert_position b s k with
  | error e => simp [h1] at h
  | ok pos =>
    simp only [h1, ok_bind] at h
    cases h2 : operator_deref b s pos with
    | error e => simp [h2] at h
    | ok key =>
      simp only [h2, ok_bind] at h
      split_ifs at h with hc
      · simp only [pure_eq_ok, Except.ok.injEq, Prod.mk.injEq] at h
        obtain ⟨h3, -⟩ := h
        subst h3
        exact ⟨tl, tr, hinv⟩
      · cases h3 : erase_it_impl b s pos with
        | error e => simp [h3] at h
        | ok p =>
          obtain ⟨b2, nx⟩ := p
          simp only [h3, ok_bind, pure_eq_ok, Except.ok.injEq, Prod.mk.injEq] at h
          obtain ⟨h4, -⟩ := h
          subst h4
          exact erase_it_inv hinv h3

theorem mk_empty_inv (self : Nat) {cl : L → L → Bool} {cr : R → R → Bool}
    (hl : StrictWeakOrder cl) (hr : StrictWeakOrder cr) :
    Inv (Bimap.mk_empty self cl cr) .nil .nil := by
  refine ⟨⟨trivial, rfl, List.Pairwise.nil⟩, ⟨trivial, rfl, List.Pairwise.nil⟩, List.Perm.refl _,
    rfl, ?_, fun _ _ => rfl, hl, hr⟩
  intro a
  simp [Bimap.mk_empty, Tree.toList]

theorem reachable_inv {b : Bimap L R} (h : Reachable b) : ∃ tl tr, Inv b tl tr := by
  induction h with
  | mk_empty self cl cr hl hr => exact ⟨_, _, mk_empty_inv self hl hr⟩
  | insert l r it _ h ih =>
    obtain ⟨tl, tr, hinv⟩ := ih
    rcases insert_spec hinv l r with ⟨-, h1⟩ | ⟨-, -, b2, tl1, tr1, h1, -, h2, -, -⟩
    · rw [h1] at h
      simp only [Except.ok.injEq, Prod.mk.injEq] at h
      rw [← h.1]; exact ⟨tl, tr, hinv⟩
    · rw [h1] at h
      simp only [Except.ok.injEq, Prod.mk.injEq] at h
      rw [← h.1]; exact ⟨tl1, tr1, h2⟩
  | erase_left it next _ h ih =>
    obtain ⟨tl, tr, hinv⟩ := ih
    exact erase_it_inv hinv h
  | erase_right it next _ h ih =>
    obtain ⟨tl, tr, hinv⟩ := ih
    exact erase_it_inv hinv h
  | erase_left_key k found _ h ih =>
    obtain ⟨tl, tr, hinv⟩ := ih
    exact erase_val_inv hinv h
  | erase_right_key k found _ h ih =>
    obtain ⟨tl, tr, hinv⟩ := ih
    exact erase_val_inv hinv h
  | erase_left_range first last it _ h ih =>
    obtain ⟨tl, tr, hinv⟩ := ih
    exact erase_range_inv hinv h
  | erase_right_range first last it _ h ih =>
    obtain ⟨tl, tr, hinv⟩ := ih
    exact erase_range_inv hinv h
  | at_left_or_default k d v _ h ih =>
    obtain ⟨tl, tr, hinv⟩ := ih
    exact at_or_default_inv hinv h
  | at_right_or_default k d v _ h ih =>
    obtain ⟨tl, tr, hinv⟩ := ih
    exact at_or_default_inv hinv h


/-! ## The views of a reachable container -/

theorem Inv.view_left {b : Bimap L R} {tl tr : Tree} (h : Inv b tl tr) : SideView b .left tl :=
  ⟨h.left, h.order .left, h.size, h.dom⟩

theorem Inv.view_right {b : Bimap L R} {tl tr : Tree} (h : Inv b tl tr) : SideView b .right tr :=
  ⟨h.right, h.order .right, h.size_right, fun a => by rw [h.dom a, h.perm.mem_iff]⟩

theorem reachable_view {b : Bimap L R} (h : Reachable b) (s : Side) : ∃ t, SideView b s t := by
  obtain ⟨tl, tr, hinv⟩ := reachable_inv h
  cases s with
  | left => exact ⟨tl, hinv.view_left⟩
  | right => exact ⟨tr, hinv.view_right⟩

theorem SideView.to_nav {b : Bimap L R} {s : Side} {t : Tree} (h : SideView b s t) : Nav b s t :=
  h.inv.nav h.order

theorem SideView.nodup_list {b : Bimap L R} {s : Side} {t : Tree} (h : SideView b s t) :
    t.toList.Nodup := h.to_nav.nodup

theorem SideView.mem_of_key {b : Bimap L R} {s : Side} {t : Tree} (h : SideView b s t)
    {s1 : Side} {a : Nat} {k : Key L R s1} (hk : b.key s1 a = some k) : a ∈ t.toList :=
  (h.dom a).1 (live_of_key hk)

theorem SideView.key_of_mem {b : Bimap L R} {s : Side} {t : Tree} (h : SideView b s t)
    {a : Nat} (ha : a ∈ t.toList) (s1 : Side) : ∃ k, b.key s1 a = some k :=
  key_of_live ((h.dom a).2 ha) s1

theorem SideView.lt_or_lt {b : Bimap L R} {s : Side} {t : Tree} (h : SideView b s t)
    {x y : Nat} (hx : x ∈ t.toList) (hy : y ∈ t.toList) (hne : x ≠ y) :
    b.keyLt s x y ∨ b.keyLt s y x := by
  have hs := h.inv.sorted
  obtain ⟨A, B, hAB⟩ := List.append_of_mem hx
  rw [hAB] at hs hy
  simp only [List.pairwise_append, List.pairwise_cons, List.mem_cons, forall_eq_or_imp] at hs
  simp only [List.mem_append, List.mem_cons] at hy
  rcases hy with hy | hy | hy
  · exact Or.inr (hs.2.2 y hy).1
  · exact absurd hy.symm hne
  · exact Or.inl (hs.2.1.1 y hy)

/-- Two nodes whose keys of side `s` are equivalent to the same value are the same node. -/
theorem SideView.equiv_unique {b : Bimap L R} {s : Side} {t : Tree} (h : SideView b s t)
    {v : Key L R s} {x y : Nat} (hx : x ∈ t.toList) (hy : y ∈ t.toList)
    (hxv : b.keyEquiv s v x) (hyv : b.keyEquiv s v y) : x = y := by
  by_contra hne
  rcases h.lt_or_lt hx hy hne with hlt | hlt
  · exact not_equiv_of_below (keyBelow_of_keyLt h.order hlt (Or.inr hyv)) hxv
  · exact not_equiv_of_below (keyBelow_of_keyLt h.order hlt (Or.inr hxv)) hyv

/-! ## `flip` -/

theorem SideView.flip_element {b : Bimap L R} {s : Side} {t : Tree} (h : SideView b s t)
    {a : Nat} (ha : a ∈ t.toList) : flip b s (some (.element a)) = .ok (some (.element a)) := by
  simp [flip, h.to_nav.is_sentinel_element ha]

theorem SideView.flip_sentinel {b : Bimap L R} {s : Side} {t : Tree} (h : SideView b s t) :
    flip b s (some b.get_sentinel) = .ok (some b.get_sentinel) := by
  have h1 := h.to_nav.is_sent
  simp only [Bimap.get_sentinel] at h1 ⊢
  simp [flip, h1]

/-! ## `find_impl` and `at_impl` -/

theorem SideView.find_impl {b : Bimap L R} {s : Side} {t : Tree} (h : SideView b s t)
    (k : Key L R s) :
    (ct.find_impl b s k = .ok (some b.get_sentinel) ∧ ∀ a ∈ t.toList, ¬ b.keyEquiv s k a) ∨
    (∃ a ∈ t.toList, ct.find_impl b s k = .ok (some (.element a)) ∧ b.keyEquiv s k a) := by
  have hn := h.to_nav
  by_cases ht : t = .nil
  · subst ht
    left
    have hsz : b.size_ = 0 := by simpa using h.size
    have he : b.empty = true := by simp [Bimap.empty, Bimap.size, hsz]
    refine ⟨?_, by simp [Tree.toList]⟩
    simp [ct.find_impl, hn.find_insert_position_empty hsz, he, hn.get_end]
  · obtain ⟨c, l, a, r, hpos, hp⟩ := hn.find_insert_position h.size ht k
    have ha : a ∈ t.toList := by rw [hp.1]; exact mem_plug_self _ _ _ _
    obtain ⟨ka, hka⟩ := h.key_of_mem ha s
    have he : b.empty = false := by
      have : t.toList ≠ [] := fun h1 => ht (toList_eq_nil.1 h1)
      have h2 : 0 < t.toList.length := List.length_pos.2 this
      simp only [Bimap.empty, Bimap.size, h.size]
      simp only [beq_eq_false_iff_ne, ne_eq]
      omega
    by_cases heq : b.is_equal s ka k = true
    · right
      refine ⟨a, ha, ?_, (is_equal_iff_equiv hka k).1 heq⟩
      simp [ct.find_impl, hpos, he, operator_deref_eq hka, heq]
    · left
      have hne : ¬ b.keyEquiv s k a := fun h1 => heq ((is_equal_iff_equiv hka k).2 h1)
      refine ⟨?_, position_no_equiv h.order hp h.inv.sorted hne⟩
      simp [ct.find_impl, hpos, he, operator_deref_eq hka, heq, hn.get_end]

theorem SideView.at_impl {b : Bimap L R} {s : Side} {t : Tree} (h : SideView b s t)
    (k : Key L R s) :
    (ct.at_impl b s k = .error .out_of_range ∧ ∀ a ∈ t.toList, ¬ b.keyEquiv s k a) ∨
    (∃ a ∈ t.toList, ∃ v, b.key s.opposite a = some v ∧ ct.at_impl b s k = .ok v ∧
      b.keyEquiv s k a) := by
  rcases h.find_impl k with ⟨h1, h2⟩ | ⟨a, ha, h1, h2⟩
  · left
    refine ⟨?_, h2⟩
    simp [ct.at_impl, h1, h.to_nav.get_end]
  · right
    obtain ⟨v, hv⟩ := h.key_of_mem ha s.opposite
    refine ⟨a, ha, v, hv, ?_, h2⟩
    have hne : (some (Ref.element a) : Ptr) ≠ some b.get_sentinel := by
      simp [Bimap.get_sentinel]
    simp [ct.at_impl, h1, h.to_nav.get_end, hne, h.flip_element ha, operator_deref_eq hv]


/-! ## `bound_impl` -/

theorem compare_le_zero (b : Bimap L R) (s : Side) (k v : Key L R s) :
    b.compare s k v ≤ 0 ↔ b.get_compare s k v = false := by
  simp only [Bimap.compare]
  split_ifs <;> simp_all

theorem keyBelow_iff {b : Bimap L R} {s : Side} {a : Nat} {k : Key L R s}
    (hk : b.key s a = some k) (v : Key L R s) :
    b.keyBelow s v a ↔ b.get_compare s k v = true := by
  constructor
  · rintro ⟨k1, h1, h2⟩
    rw [hk] at h1; cases h1; exact h2
  · intro h; exact ⟨k, hk, h⟩

theorem keyAbove_iff {b : Bimap L R} {s : Side} {a : Nat} {k : Key L R s}
    (hk : b.key s a = some k) (v : Key L R s) :
    b.keyAbove s v a ↔ b.get_compare s v k = true := by
  constructor
  · rintro ⟨k1, h1, h2⟩
    rw [hk] at h1; cases h1; exact h2
  · intro h; exact ⟨k, hk, h⟩

theorem not_below_of_above {b : Bimap L R} {s : Side} (ho : StrictWeakOrder (b.get_compare s))
    {v : Key L R s} {x : Nat} (h : b.keyAbove s v x) : ¬ b.keyBelow s v x :=
  fun h1 => not_above_of_below ho h1 h

theorem not_below_of_equiv {b : Bimap L R} {s : Side} {v : Key L R s} {x : Nat}
    (h : b.keyEquiv s v x) : ¬ b.keyBelow s v x :=
  fun h1 => not_equiv_of_below h1 h

theorem not_above_of_equiv {b : Bimap L R} {s : Side} {v : Key L R s} {x : Nat}
    (h : b.keyEquiv s v x) : ¬ b.keyAbove s v x :=
  fun h1 => not_equiv_of_above h1 h

/-- The lower bound splits the keys: the part before the result is below `k`, the part from
the result on is not. -/
theorem SideView.lower_bound {b : Bimap L R} {s : Side} {t : Tree} (h : SideView b s t)
    (k : Key L R s) :
    ∃ A B, t.toList = A ++ B ∧ (∀ x ∈ A, b.keyBelow s k x) ∧ (∀ x ∈ B, ¬ b.keyBelow s k x) ∧
      bound_impl true b s k = .ok (some (firstD b.get_sentinel B)) := by
  have hn := h.to_nav
  by_cases ht : t = .nil
  · subst ht
    have hsz : b.size_ = 0 := by simpa using h.size
    refine ⟨[], [], rfl, by simp, by simp, ?_⟩
    simp [bound_impl, hn.find_insert_position_empty hsz, hn.get_end, firstD]
  · obtain ⟨c, l, a, r, hpos, hp⟩ := hn.find_insert_position h.size ht k
    have ha : a ∈ t.toList := by rw [hp.1]; exact mem_plug_self _ _ _ _
    obtain ⟨ka, hka⟩ := h.key_of_mem ha s
    obtain ⟨h1, h2, h3, h4⟩ := position_split h.order hp h.inv.sorted
    have hne : (some (Ref.element a) : Ptr) ≠ some b.get_sentinel := by
      simp [Bimap.get_sentinel]
    have hlist := split_of_plug c l r a
    rw [← hp.1] at hlist
    have hab : ∀ x ∈ after c, ¬ b.keyBelow s k x := fun x hx => not_below_of_above h.order (h2 x hx)
    by_cases hlt : b.get_compare s ka k = true
    · -- the key at the position is below `k`: the next position is the bound
      have hbelow : b.keyBelow s k a := (keyBelow_iff hka k).2 hlt
      have hr : r = .nil := by
        rcases hp.2.2 with h5 | ⟨-, h5⟩ | ⟨h5, -⟩
        · exact absurd hbelow (not_below_of_equiv h5)
        · exact h5
        · exact absurd h5 (not_above_of_below h.order hbelow)
      subst hr
      refine ⟨before c ++ l.toList ++ [a], after c, by simp [hlist, Tree.toList], ?_, hab, ?_⟩
      · intro x hx
        simp only [List.mem_append, List.mem_singleton] at hx
        rcases hx with (hx | hx) | hx
        · exact h1 x hx
        · exact h3 (Or.inr hbelow) x hx
        · rw [hx]; exact hbelow
      · have hinc := hn.operator_inc hp.1 (le_of_eq h.size.symm)
        simp only [Tree.toList, List.nil_append] at hinc
        have hc : ¬ b.compare s ka k ≤ 0 := by
          rw [compare_le_zero]; simp [hlt]
        simp [bound_impl, hpos, hn.get_end, hne, operator_deref_eq hka, hc, hinc]
    · -- the key at the position is not below `k`: the position is the bound
      have hnb : ¬ b.keyBelow s k a := fun h5 => hlt ((keyBelow_iff hka k).1 h5)
      have hcase : b.keyEquiv s k a ∨ b.keyAbove s k a := by
        rcases hp.2.2 with h5 | ⟨h5, -⟩ | ⟨h5, -⟩
        · exact Or.inl h5
        · exact absurd h5 hnb
        · exact Or.inr h5
      have hl : ∀ x ∈ l.toList, b.keyBelow s k x := by
        rcases hp.2.2 with h5 | ⟨h5, -⟩ | ⟨h5, h6⟩
        · exact h3 (Or.inl h5)
        · exact absurd h5 hnb
        · subst h6; simp [Tree.toList]
      refine ⟨before c ++ l.toList, a :: (r.toList ++ after c), hlist, ?_, ?_, ?_⟩
      · intro x hx
        simp only [List.mem_append] at hx
        rcases hx with hx | hx
        · exact h1 x hx
        · exact hl x hx
      · intro x hx
        simp only [List.mem_cons, List.mem_append] at hx
        rcases hx with hx | hx | hx
        · rw [hx]; exact hnb
        · exact not_below_of_above h.order (h4 hcase x hx)
        · exact hab x hx
      · have hc : b.compare s ka k ≤ 0 := by
          rw [compare_le_zero]; simpa using hlt
        simp [bound_impl, hpos, hn.get_end, hne, operator_deref_eq hka, hc, firstD]

/-- The upper bound splits the keys: the part before the result is not above `k`, the part
from the result on is. -/
theorem SideView.upper_bound {b : Bimap L R} {s : Side} {t : Tree} (h : SideView b s t)
    (k : Key L R s) :
    ∃ A B, t.toList = A ++ B ∧ (∀ x ∈ A, ¬ b.keyAbove s k x) ∧ (∀ x ∈ B, b.keyAbove s k x) ∧
      bound_impl false b s k = .ok (some (firstD b.get_sentinel B)) := by
  have hn := h.to_nav
  by_cases ht : t = .nil
  · subst ht
    have hsz : b.size_ = 0 := by simpa using h.size
    refine ⟨[], [], rfl, by simp, by simp, ?_⟩
    simp [bound_impl, hn.find_insert_position_empty hsz, hn.get_end, firstD]
  · obtain ⟨c, l, a, r, hpos, hp⟩ := hn.find_insert_position h.size ht k
    have ha : a ∈ t.toList := by rw [hp.1]; exact mem_plug_self _ _ _ _
    obtain ⟨ka, hka⟩ := h.key_of_mem ha s
    obtain ⟨h1, h2, h3, h4⟩ := position_split h.order hp h.inv.sorted
    have hne : (some (Ref.element a) : Ptr) ≠ some b.get_sentinel := by
      simp [Bimap.get_sentinel]
    have hlist := split_of_plug c l r a
    rw [← hp.1] at hlist
    have hbe : ∀ x ∈ before c, ¬ b.keyAbove s k x :=
      fun x hx => not_above_of_below h.order (h1 x hx)
    by_cases hgt : b.get_compare s k ka = true
    · -- the key at the position is above `k`: the position is the bound
      have habove : b.keyAbove s k a := (keyAbove_iff hka k).2 hgt
      have hl : l = .nil := by
        rcases hp.2.2 with h5 | ⟨h5, -⟩ | ⟨-, h5⟩
        · exact absurd habove (not_above_of_equiv h5)
        · exact absurd habove (not_above_of_below h.order h5)
        · exact h5
      subst hl
      refine ⟨before c, a :: (r.toList ++ after c), by simpa [Tree.toList] using hlist, hbe,
        ?_, ?_⟩
      · intro x hx
        simp only [List.mem_cons, List.mem_append] at hx
        rcases hx with hx | hx | hx
        · rw [hx]; exact habove
        · exact h4 (Or.inr habove) x hx
        · exact h2 x hx
      · have hg : b.is_greater s ka k = true := by
          rw [is_greater_eq]
          simp [hgt, h.order.asymm hgt]
        simp [bound_impl, hpos, hn.get_end, hne, operator_deref_eq hka, hg, firstD]
    · -- the key at the position is not above `k`: the next position is the bound
      have hna : ¬ b.keyAbove s k a := fun h5 => hgt ((keyAbove_iff hka k).1 h5)
      have hcase : b.keyEquiv s k a ∨ b.keyBelow s k a := by
        rcases hp.2.2 with h5 | ⟨h5, -⟩ | ⟨h5, -⟩
        · exact Or.inl h5
        · exact Or.inr h5
        · exact absurd h5 hna
      have hr : ∀ x ∈ r.toList, b.keyAbove s k x := by
        rcases hp.2.2 with h5 | ⟨h5, h6⟩ | ⟨h5, -⟩
        · exact h4 (Or.inl h5)
        · subst h6; simp [Tree.toList]
        · exact absurd h5 hna
      refine ⟨before c ++ l.toList ++ [a], r.toList ++ after c, by simp [hlist], ?_, ?_, ?_⟩
      · intro x hx
        simp only [List.mem_append, List.mem_singleton] at hx
        rcases hx with (hx | hx) | hx
        · exact hbe x hx
        · exact not_above_of_below h.order (h3 hcase x hx)
        · rw [hx]; exact hna
      · intro x hx
        simp only [List.mem_append] at hx
        rcases hx with hx | hx
        · exact hr x hx
        · exact h2 x hx
      · have hinc := hn.operator_inc hp.1 (le_of_eq h.size.symm)
        have hg : b.is_greater s ka k = false := by
          rw [is_greater_eq]
          simp only [Bool.not_eq_true] at hgt
          simp [hgt]
        simp [bound_impl, hpos, hn.get_end, hne, operator_deref_eq hka, hg, hinc]


/-! ## Iteration -/

/-- The successor of an element is the element that follows it in the order of the side. -/
theorem SideView.successor {b : Bimap L R} {s : Side} {t : Tree} (h : SideView b s t)
    {A B : List Nat} {a : Nat} (hl : t.toList = A ++ a :: B) :
    ct.operator_inc b s (some (.element a)) = .ok (some (firstD b.get_sentinel B)) := by
  have ha : a ∈ t.toList := by rw [hl]; simp
  obtain ⟨c, l, r, ht⟩ := exists_plug_of_mem ha
  have h1 := split_of_plug c l r a
  rw [← ht, hl] at h1
  have h2 := split_unique (hl ▸ h.nodup_list) h1
  rw [h.to_nav.operator_inc ht (le_of_eq h.size.symm), h2.2]

theorem SideView.traverse {b : Bimap L R} {s : Side} {t : Tree} (h : SideView b s t) :
    ∀ (B A : List Nat) (fuel : Nat), t.toList = A ++ B → B.length < fuel →
      ct.traverse b s (some b.get_sentinel) fuel (some (firstD b.get_sentinel B)) =
        .ok (B.map (fun a => some (Ref.element a))) := by
  intro B
  induction B with
  | nil =>
    intro A fuel _ hf
    obtain ⟨f, rfl⟩ : ∃ f, fuel = f + 1 := ⟨fuel - 1, by simp at hf; omega⟩
    simp [ct.traverse, firstD]
  | cons a B ih =>
    intro A fuel hl hf
    obtain ⟨f, rfl⟩ : ∃ f, fuel = f + 1 := ⟨fuel - 1, by simp at hf; omega⟩
    have hne : (some (Ref.element a) : Ptr) ≠ some b.get_sentinel := by
      simp [Bimap.get_sentinel]
    have h1 := ih (A ++ [a]) f (by simp [hl]) (by simp at hf ⊢; omega)
    have h2 : firstD b.get_sentinel (a :: B) = .element a := rfl
    rw [h2]
    simp only [ct.traverse, hne, if_false, h.successor hl, ok_bind, h1, pure_eq_ok,
      List.map_cons]

theorem SideView.begin {b : Bimap L R} {s : Side} {t : Tree} (h : SideView b s t) :
    (b.sentinel_ s).right_ = some (firstD b.get_sentinel t.toList) := by
  have := h.inv.sentinel
  unfold SentinelFor at this
  rw [this]

/-- A traversal from the begin iterator to the end iterator visits the nodes of the tree in
their order. -/
theorem SideView.traverse_all {b : Bimap L R} {s : Side} {t : Tree} (h : SideView b s t) :
    ct.traverse b s (some b.get_sentinel) b.fuel (b.sentinel_ s).right_ =
      .ok (t.toList.map (fun a => some (Ref.element a))) := by
  rw [h.begin]
  exact h.traverse t.toList [] b.fuel rfl (by simp [Bimap.fuel, h.size])

/-! ## The first entry with a property -/

/-- In a list split into a part without the property and a part whose head has it, the
head of the second part is the first entry with the property. -/
theorem SideView.isFirst {b : Bimap L R} {s : Side} {t : Tree} (h : SideView b s t)
    (p : Key L R s → Prop) {A B : List Nat} (hl : t.toList = A ++ B)
    (hA : ∀ x ∈ A, ∀ k, b.key s x = some k → ¬ p k)
    (hB : ∀ x ∈ B, ∀ k, b.key s x = some k → p k) :
    b.IsFirst s p (some b.get_sentinel) (some (firstD b.get_sentinel B)) := by
  cases B with
  | nil =>
    left
    refine ⟨rfl, fun a k hk => ?_⟩
    have ha := h.mem_of_key hk
    rw [hl] at ha
    simp only [List.append_nil] at ha
    exact hA a ha k hk
  | cons a B =>
    right
    have ha : a ∈ t.toList := by rw [hl]; simp
    obtain ⟨k, hk⟩ := h.key_of_mem ha s
    refine ⟨a, k, rfl, hk, hB a (by simp) k hk, ?_⟩
    intro a1 k1 hk1 hp1
    have ha1 := h.mem_of_key hk1
    rw [hl] at ha1
    simp only [List.mem_append, List.mem_cons] at ha1
    rcases ha1 with ha1 | ha1 | ha1
    · exact absurd hp1 (hA a1 ha1 k1 hk1)
    · exact Or.inl ha1
    · right
      have hs := h.inv.sorted
      rw [hl] at hs
      simp only [List.pairwise_append, List.pairwise_cons] at hs
      obtain ⟨k2, k3, h2, h3, h4⟩ := hs.2.1.1 a1 ha1
      rw [hk] at h2; cases h2
      rw [hk1] at h3; cases h3
      exact h4


/-! ## Lookups in terms of the stored keys -/

theorem StrictTotalOrder.weak {K : Type} {cmp : K → K → Bool} (h : StrictTotalOrder cmp) :
    StrictWeakOrder cmp := by
  refine ⟨h.irrefl, h.trans, ?_⟩
  intro a b c h1 h2 h3 h4
  have hab := h.total a b h1 h2
  have hbc := h.total b c h3 h4
  subst hab hbc
  exact ⟨h.irrefl a, h.irrefl a⟩

theorem keyEquiv_iff {b : Bimap L R} {s : Side} {a : Nat} {k : Key L R s}
    (hk : b.key s a = some k) (v : Key L R s) :
    b.keyEquiv s v a ↔ Equiv (b.get_compare s) k v := by
  constructor
  · rintro ⟨k1, h1, h2⟩
    rw [hk] at h1; cases h1; exact h2
  · intro h; exact ⟨k, hk, h⟩

theorem SideView.keyEquiv_self {b : Bimap L R} {s : Side} {t : Tree} (h : SideView b s t)
    {a : Nat} {k : Key L R s} (hk : b.key s a = some k) : b.keyEquiv s k a :=
  ⟨k, hk, h.order.irrefl k, h.order.irrefl k⟩

/-- Looking up the key stored in an element finds that element. -/
theorem SideView.find_key {b : Bimap L R} {s : Side} {t : Tree} (h : SideView b s t)
    {a : Nat} {k : Key L R s} (hk : b.key s a = some k) :
    ct.find_impl b s k = .ok (some (.element a)) := by
  have ha := h.mem_of_key hk
  rcases h.find_impl k with ⟨-, h2⟩ | ⟨a1, ha1, h1, h2⟩
  · exact absurd (h.keyEquiv_self hk) (h2 a ha)
  · rw [h1, h.equiv_unique ha1 ha h2 (h.keyEquiv_self hk)]

theorem SideView.find_only {b : Bimap L R} {s : Side} {t : Tree} (h : SideView b s t)
    (k : Key L R s) :
    ∃ it, ct.find_impl b s k = .ok it ∧
      b.IsOnly s (fun x => Equiv (b.get_compare s) x k) (some b.get_sentinel) it := by
  rcases h.find_impl k with ⟨h1, h2⟩ | ⟨a, ha, h1, h2⟩
  · refine ⟨_, h1, Or.inl ⟨rfl, ?_⟩⟩
    intro a ka hka he
    exact h2 a (h.mem_of_key hka) ((keyEquiv_iff hka k).2 he)
  · obtain ⟨ka, hka⟩ := h.key_of_mem ha s
    refine ⟨_, h1, Or.inr ⟨a, ka, rfl, hka, (keyEquiv_iff hka k).1 h2, ?_⟩⟩
    intro a1 k1 hk1 he
    exact h.equiv_unique (h.mem_of_key hk1) ha ((keyEquiv_iff hk1 k).2 he) h2

theorem SideView.lower_bound_first {b : Bimap L R} {s : Side} {t : Tree} (h : SideView b s t)
    (k : Key L R s) :
    ∃ it, bound_impl true b s k = .ok it ∧
      b.IsFirst s (fun x => b.get_compare s x k = false) (some b.get_sentinel) it := by
  obtain ⟨A, B, hl, hA, hB, hres⟩ := h.lower_bound k
  refine ⟨_, hres, h.isFirst _ hl ?_ ?_⟩
  · intro x hx kx hkx
    have := (keyBelow_iff hkx k).1 (hA x hx)
    simp [this]
  · intro x hx kx hkx
    have := hB x hx
    rw [keyBelow_iff hkx k] at this
    simpa using this

theorem SideView.upper_bound_first {b : Bimap L R} {s : Side} {t : Tree} (h : SideView b s t)
    (k : Key L R s) :
    ∃ it, bound_impl false b s k = .ok it ∧
      b.IsFirst s (fun x => b.get_compare s k x = true) (some b.get_sentinel) it := by
  obtain ⟨A, B, hl, hA, hB, hres⟩ := h.upper_bound k
  refine ⟨_, hres, h.isFirst _ hl ?_ ?_⟩
  · intro x hx kx hkx
    have := hA x hx
    rw [keyAbove_iff hkx k] at this
    exact this
  · intro x hx kx hkx
    exact (keyAbove_iff hkx k).1 (hB x hx)

theorem SideView.at_absent {b : Bimap L R} {s : Side} {t : Tree} (h : SideView b s t)
    (k : Key L R s) :
    ct.at_impl b s k = .error .out_of_range ↔
      ∀ a ka, b.key s a = some ka → ¬ Equiv (b.get_compare s) ka k := by
  rcases h.at_impl k with ⟨h1, h2⟩ | ⟨a, ha, v, hv, h1, h2⟩
  · refine ⟨fun _ a ka hka he => ?_, fun _ => h1⟩
    exact h2 a (h.mem_of_key hka) ((keyEquiv_iff hka k).2 he)
  · obtain ⟨ka, hka⟩ := h.key_of_mem ha s
    constructor
    · intro h3; rw [h1] at h3; cases h3
    · intro h3
      exact absurd ((keyEquiv_iff hka k).1 h2) (h3 a ka hka)

theorem SideView.at_present {b : Bimap L R} {s : Side} {t : Tree} (h : SideView b s t)
    {k ka : Key L R s} {a : Nat} {v : Key L R s.opposite} (hka : b.key s a = some ka)
    (hv : b.key s.opposite a = some v) (he : Equiv (b.get_compare s) ka k) :
    ct.at_impl b s k = .ok v := by
  have ha := h.mem_of_key hka
  rcases h.at_impl k with ⟨-, h2⟩ | ⟨a1, ha1, v1, hv1, h1, h2⟩
  · exact absurd ((keyEquiv_iff hka k).2 he) (h2 a ha)
  · have := h.equiv_unique ha1 ha h2 ((keyEquiv_iff hka k).2 he)
    subst this
    rw [hv] at hv1; cases hv1
    exact h1

theorem SideView.duplicate_iff {b : Bimap L R} {s : Side} {t : Tree} (h : SideView b s t)
    (v : Key L R s) :
    (∃ a ∈ t.toList, b.keyEquiv s v a) ↔
      ∃ a k, b.key s a = some k ∧ Equiv (b.get_compare s) k v := by
  constructor
  · rintro ⟨a, -, k, hk, he⟩
    exact ⟨a, k, hk, he⟩
  · rintro ⟨a, k, hk, he⟩
    exact ⟨a, h.mem_of_key hk, k, hk, he⟩

/-! ## The containers of the scenarios -/

theorem insert_total {b : Bimap L R} (h : Reachable b) (l : L) (r : R) :
    ∃ b1 it, b.insert l r = .ok (b1, it) := by
  obtain ⟨tl, tr, hinv⟩ := reachable_inv h
  rcases insert_spec hinv l r with ⟨-, h1⟩ | ⟨-, -, b1, -, -, h1, -⟩
  · exact ⟨_, _, h1⟩
  · exact ⟨_, _, h1⟩

theorem reachable_after_insert {b : Bimap L R} (h : Reachable b) (l : L) (r : R) :
    Reachable (after_insert b l r) := by
  obtain ⟨b1, it, h1⟩ := insert_total h l r
  have h2 : after_insert b l r = b1 := by simp [after_insert, h1]
  rw [h2]
  exact Reachable.insert l r it h h1

theorem key_none_of_fresh {b : Bimap L R} (h : Reachable b) (s : Side) {a : Nat}
    (ha : b.brk ≤ a) : b.key s a = none := by
  obtain ⟨tl, tr, hinv⟩ := reachable_inv h
  simp [Bimap.key, hinv.fresh a ha]

theorem nat_less_order : StrictWeakOrder nat_less := by
  refine ⟨fun a => by simp [nat_less], fun a b c h1 h2 => ?_, fun a b c h1 h2 h3 h4 => ?_⟩
  · simp only [nat_less, decide_eq_true_eq] at *
    omega
  · simp only [nat_less, decide_eq_false_iff_not, not_lt] at *
    omega

theorem order_of_strict_total {K : Type} (r : K → K → Prop) [DecidableRel r]
    [IsStrictTotalOrder K r] : StrictWeakOrder (fun a b => decide (r a b)) := by
  refine ⟨fun a => ?_, fun a b c h1 h2 => ?_, fun a b c h1 h2 h3 h4 => ?_⟩
  · simpa using irrefl_of r a
  · simp only [decide_eq_true_eq] at *
    exact trans_of r h1 h2
  · simp only [decide_eq_false_iff_not] at *
    have hab : a = b := by
      rcases trichotomous_of r a b with h | h | h
      · exact absurd h h1
      · exact h
      · exact absurd h h2
    have hbc : b = c := by
      rcases trichotomous_of r b c with h | h | h
      · exact absurd h h3
      · exact h
      · exact absurd h h4
    subst hab hbc
    exact ⟨h1, h1⟩

theorem StrictWeakOrder.comap {K J : Type} {cmp : K → K → Bool} (h : StrictWeakOrder cmp)
    (f : J → K) : StrictWeakOrder (fun a b => cmp (f a) (f b)) :=
  ⟨fun _ => h.irrefl _, fun _ _ _ => h.trans _ _ _, fun _ _ _ => h.incomp_trans _ _ _⟩

theorem string_less_order : StrictWeakOrder string_less :=
  (order_of_strict_total (List.Lex (fun x y : Nat => x < y))).comap
    (fun a : String => a.toList.map Char.toNat)

theorem demo_empty_reachable : Reachable demo_empty :=
  Reachable.mk_empty 0 nat_less string_less nat_less_order string_less_order

theorem demo_one_reachable : Reachable demo_one :=
  reachable_after_insert demo_empty_reachable 5 "x"

theorem demo_three_reachable : Reachable demo_three :=
  reachable_after_insert (reachable_after_insert (reachable_after_insert demo_empty_reachable
    2 "b") 1 "a") 3 "c"


/-! ## The claims -/

/-- Claim C1. In every container built from an empty one by calls of `insert` and `erase`
that return, with strict weak orderings (in particular strict total orders) as comparators,
the loop from `begin_left()` to `end_left()` with `operator++` ends within `size() + 1` steps
and visits every stored element exactly once, in strictly increasing order of the left keys;
the loop from `begin_right()` to `end_right()` does the same for the right keys. -/
theorem iteration_sorted (b : Bimap L R) (h : Reachable b) :
    (∃ xs : List Nat,
      traverse b .left b.end_left b.fuel b.begin_left =
        .ok (xs.map (fun a => some (Ref.element a))) ∧
      xs.Nodup ∧ (∀ a, a ∈ xs ↔ (b.heap a).isSome = true) ∧ xs.length = b.size ∧
      xs.Pairwise (b.keyLt .left)) ∧
    (∃ ys : List Nat,
      traverse b .right b.end_right b.fuel b.begin_right =
        .ok (ys.map (fun a => some (Ref.element a))) ∧
      ys.Nodup ∧ (∀ a, a ∈ ys ↔ (b.heap a).isSome = true) ∧ ys.length = b.size ∧
      ys.Pairwise (b.keyLt .right)) := by
  obtain ⟨tl, hl⟩ := reachable_view h .left
  obtain ⟨tr, hr⟩ := reachable_view h .right
  exact ⟨⟨tl.toList, hl.traverse_all, hl.nodup_list, fun a => (hl.dom a).symm, hl.size.symm,
      hl.inv.sorted⟩,
    ⟨tr.toList, hr.traverse_all, hr.nodup_list, fun a => (hr.dom a).symm, hr.size.symm,
      hr.inv.sorted⟩⟩

theorem iteration_sorted_witness :
    Reachable demo_three ∧
    (∃ xs : List Nat,
      traverse demo_three .left demo_three.end_left demo_three.fuel demo_three.begin_left =
        .ok (xs.map (fun a => some (Ref.element a))) ∧
      xs.Nodup ∧ (∀ a, a ∈ xs ↔ (demo_three.heap a).isSome = true) ∧
      xs.length = demo_three.size ∧ xs.Pairwise (demo_three.keyLt .left)) ∧
    (∃ ys : List Nat,
      traverse demo_three .right demo_three.end_right demo_three.fuel demo_three.begin_right =
        .ok (ys.map (fun a => some (Ref.element a))) ∧
      ys.Nodup ∧ (∀ a, a ∈ ys ↔ (demo_three.heap a).isSome = true) ∧
      ys.length = demo_three.size ∧ ys.Pairwise (demo_three.keyLt .right)) :=
  ⟨demo_three_reachable, iteration_sorted demo_three demo_three_reachable⟩

/-- A scenario of the specification: after `insert(2, "b")`, `insert(1, "a")` and `insert(3, "c")`
the iteration over the left view yields 1, 2, 3. -/
theorem demo_three_left_iteration :
    (traverse demo_three .left demo_three.end_left demo_three.fuel demo_three.begin_left).map
      (List.map (operator_deref demo_three .left)) = .ok [.ok 1, .ok 2, .ok 3] := rfl

/-- Claim C2. In every reachable container two different stored elements have neither
equivalent left keys nor equivalent right keys. -/
theorem keys_unique (b : Bimap L R) (h : Reachable b) (a1 a2 : Nat) (l1 l2 : L) (r1 r2 : R)
    (hl1 : b.key .left a1 = some l1) (hr1 : b.key .right a1 = some r1)
    (hl2 : b.key .left a2 = some l2) (hr2 : b.key .right a2 = some r2) (hne : a1 ≠ a2) :
    ¬ Equiv b.compare_left_ l1 l2 ∧ ¬ Equiv b.compare_right_ r1 r2 := by
  obtain ⟨tl, hl⟩ := reachable_view h .left
  obtain ⟨tr, hr⟩ := reachable_view h .right
  constructor
  · intro he
    exact hne (hl.equiv_unique (hl.mem_of_key hl1) (hl.mem_of_key hl2)
      ((keyEquiv_iff hl1 l2).2 he) (hl.keyEquiv_self hl2))
  · intro he
    exact hne (hr.equiv_unique (hr.mem_of_key hr1) (hr.mem_of_key hr2)
      ((keyEquiv_iff hr1 r2).2 he) (hr.keyEquiv_self hr2))

theorem keys_unique_witness :
    Reachable demo_three ∧ demo_three.key .left 0 = some 2 ∧
    demo_three.key .right 0 = some "b" ∧ demo_three.key .left 1 = some 1 ∧
    demo_three.key .right 1 = some "a" ∧ (0 : Nat) ≠ 1 ∧
    ¬ Equiv demo_three.compare_left_ 2 1 ∧ ¬ Equiv demo_three.compare_right_ "b" "a" :=
  ⟨demo_three_reachable, rfl, rfl, rfl, rfl, by decide,
    keys_unique demo_three demo_three_reachable 0 1 2 1 "b" "a" rfl rfl rfl rfl (by decide)⟩

/-- Claim C3. In every reachable container, empty or not, `insert(l, r)` returns, and it
returns `end_left()` exactly when a stored element has a left key equivalent to `l` or a
stored element has a right key equivalent to `r`; otherwise the iterator it returns differs
from `end_left()`. -/
theorem insert_end_iff_duplicate (b : Bimap L R) (h : Reachable b) (l : L) (r : R) :
    ∃ b1 it, b.insert l r = .ok (b1, it) ∧
      (it = b.end_left ↔
        ((∃ a k, b.key .left a = some k ∧ Equiv b.compare_left_ k l) ∨
         (∃ a k, b.key .right a = some k ∧ Equiv b.compare_right_ k r))) := by
  obtain ⟨tl, tr, hinv⟩ := reachable_inv h
  have hdl := hinv.view_left.duplicate_iff l
  have hdr := hinv.view_right.duplicate_iff r
  rcases insert_spec hinv l r with ⟨h1, h2⟩ | ⟨h1, h2, b1, -, -, h3, -⟩
  · refine ⟨_, _, h2, fun _ => ?_, fun _ => rfl⟩
    rcases h1 with h1 | h1
    · exact Or.inl (hdl.1 h1)
    · exact Or.inr (hdr.1 h1)
  · refine ⟨_, _, h3, fun h4 => ?_, fun h4 => ?_⟩
    · simp [Bimap.end_left, Bimap.get_sentinel] at h4
    · rcases h4 with h4 | h4
      · obtain ⟨a, ha, h5⟩ := hdl.2 h4
        exact absurd h5 (h1 a ha)
      · obtain ⟨a, ha, h5⟩ := hdr.2 h4
        exact absurd h5 (h2 a ha)

theorem insert_end_iff_duplicate_witness :
    Reachable demo_one ∧
    ∃ b1 it, demo_one.insert 5 "y" = .ok (b1, it) ∧
      (it = demo_one.end_left ↔
        ((∃ a k, demo_one.key .left a = some k ∧ Equiv demo_one.compare_left_ k 5) ∨
         (∃ a k, demo_one.key .right a = some k ∧ Equiv demo_one.compare_right_ k "y"))) :=
  ⟨demo_one_reachable, insert_end_iff_duplicate demo_one demo_one_reachable 5 "y"⟩

/-- Claim C4. A rejected insert changes nothing: if `insert(l, r)` on a reachable container
returns `end_left()`, the container after the call, with its size, its sentinels, the links
of both trees and the stored pairs, is the container before the call. -/
theorem rejected_insert_atomic (b : Bimap L R) (h : Reachable b) (l : L) (r : R)
    (b1 : Bimap L R) (it : Ptr) (hcall : b.insert l r = .ok (b1, it)) (hit : it = b.end_left) :
    b1 = b := by
  obtain ⟨tl, tr, hinv⟩ := reachable_inv h
  rcases insert_spec hinv l r with ⟨-, h2⟩ | ⟨-, -, b2, -, -, h3, -⟩
  · rw [h2] at hcall
    simp only [Except.ok.injEq, Prod.mk.injEq] at hcall
    exact hcall.1.symm
  · rw [h3] at hcall
    simp only [Except.ok.injEq, Prod.mk.injEq] at hcall
    rw [← hcall.2] at hit
    simp [Bimap.end_left, Bimap.get_sentinel] at hit

theorem rejected_insert_atomic_witness :
    Reachable demo_one ∧ demo_one.insert 5 "y" = .ok (demo_one, demo_one.end_left) ∧
    demo_one.end_left = demo_one.end_left ∧ demo_one.size = 1 ∧ demo_one = demo_one :=
  ⟨demo_one_reachable, rfl, rfl, rfl,
    rejected_insert_atomic demo_one demo_one_reachable 5 "y" demo_one demo_one.end_left rfl rfl⟩


/-- Claim C5. If no stored left key is equivalent to `l` and no stored right key is
equivalent to `r`, then `insert(l, r)` on a reachable container returns an iterator `it` and
a container whose size is one more, `*it` is `l`, `*it.flip()` is `r`, and afterwards
`find_left(l)` is `it` and `find_right(r)` is `it.flip()`. -/
theorem insert_fresh (b : Bimap L R) (h : Reachable b) (l : L) (r : R)
    (hl : ∀ a k, b.key .left a = some k → ¬ Equiv b.compare_left_ k l)
    (hr : ∀ a k, b.key .right a = some k → ¬ Equiv b.compare_right_ k r) :
    ∃ b1 it itf, b.insert l r = .ok (b1, it) ∧ b1.size = b.size + 1 ∧
      operator_deref b1 .left it = .ok l ∧ flip b1 .left it = .ok itf ∧
      operator_deref b1 .right itf = .ok r ∧
      b1.find_left l = .ok it ∧ b1.find_right r = .ok itf := by
  obtain ⟨tl, tr, hinv⟩ := reachable_inv h
  rcases insert_spec hinv l r with ⟨h1, -⟩ | ⟨-, -, b1, tl1, tr1, h3, hg, hinv1, -, -⟩
  · exfalso
    rcases h1 with h1 | h1
    · obtain ⟨a, k, hk, he⟩ := (hinv.view_left.duplicate_iff l).1 h1
      exact hl a k hk he
    · obtain ⟨a, k, hk, he⟩ := (hinv.view_right.duplicate_iff r).1 h1
      exact hr a k hk he
  · have hvl := hinv1.view_left
    have hvr := hinv1.view_right
    refine ⟨b1, some (.element b.brk), some (.element b.brk), h3, ?_,
      operator_deref_eq hg.key_left_new, hvl.flip_element (hvl.mem_of_key hg.key_left_new),
      operator_deref_eq hg.key_right_new, hvl.find_key hg.key_left_new,
      hvr.find_key hg.key_right_new⟩
    simp [Bimap.size, hg.size_]

theorem insert_fresh_witness :
    Reachable demo_one ∧
    (∀ a k, demo_one.key .left a = some k → ¬ Equiv demo_one.compare_left_ k 7) ∧
    (∀ a k, demo_one.key .right a = some k → ¬ Equiv demo_one.compare_right_ k "z") ∧
    ∃ b1 it itf, demo_one.insert 7 "z" = .ok (b1, it) ∧ b1.size = demo_one.size + 1 ∧
      operator_deref b1 .left it = .ok 7 ∧ flip b1 .left it = .ok itf ∧
      operator_deref b1 .right itf = .ok "z" ∧
      b1.find_left 7 = .ok it ∧ b1.find_right "z" = .ok itf := by
  have hl : ∀ a k, demo_one.key .left a = some k → ¬ Equiv demo_one.compare_left_ k 7 := by
    intro a k hk
    rcases Nat.eq_zero_or_pos a with h0 | h0
    · subst h0
      have h1 : demo_one.key .left 0 = some 5 := rfl
      rw [h1] at hk
      cases hk
      have h2 : demo_one.compare_left_ 5 7 = true := rfl
      intro he
      rw [he.1] at h2
      cases h2
    · rw [key_none_of_fresh demo_one_reachable .left h0] at hk
      cases hk
  have hr : ∀ a k, demo_one.key .right a = some k → ¬ Equiv demo_one.compare_right_ k "z" := by
    intro a k hk
    rcases Nat.eq_zero_or_pos a with h0 | h0
    · subst h0
      have h1 : demo_one.key .right 0 = some "x" := rfl
      rw [h1] at hk
      cases hk
      have h2 : demo_one.compare_right_ "x" "z" = true := rfl
      intro he
      rw [he.1] at h2
      cases h2
    · rw [key_none_of_fresh demo_one_reachable .right h0] at hk
      cases hk
  exact ⟨demo_one_reachable, hl, hr, insert_fresh demo_one demo_one_reachable 7 "z" hl hr⟩

/-- Claim C6. For every element of a reachable container, with left key `l` and right key
`r`, `find_left(l)` and `find_right(r)` return iterators to that element, and `flip()` maps
each of the two to the other. -/
theorem bijection_consistent (b : Bimap L R) (h : Reachable b) (a : Nat) (l : L) (r : R)
    (hl : b.key .left a = some l) (hr : b.key .right a = some r) :
    ∃ itl itr, b.find_left l = .ok itl ∧ b.find_right r = .ok itr ∧
      flip b .left itl = .ok itr ∧ flip b .right itr = .ok itl ∧
      itl = some (.element a) ∧ operator_deref b .left itl = .ok l ∧
      operator_deref b .right itr = .ok r := by
  obtain ⟨tl, hvl⟩ := reachable_view h .left
  obtain ⟨tr, hvr⟩ := reachable_view h .right
  exact ⟨_, _, hvl.find_key hl, hvr.find_key hr, hvl.flip_element (hvl.mem_of_key hl),
    hvr.flip_element (hvr.mem_of_key hr), rfl, operator_deref_eq hl, operator_deref_eq hr⟩

theorem bijection_consistent_witness :
    Reachable demo_three ∧ demo_three.key .left 0 = some 2 ∧
    demo_three.key .right 0 = some "b" ∧
    ∃ itl itr, demo_three.find_left 2 = .ok itl ∧ demo_three.find_right "b" = .ok itr ∧
      flip demo_three .left itl = .ok itr ∧ flip demo_three .right itr = .ok itl ∧
      itl = some (.element 0) ∧ operator_deref demo_three .left itl = .ok 2 ∧
      operator_deref demo_three .right itr = .ok "b" :=
  ⟨demo_three_reachable, rfl, rfl,
    bijection_consistent demo_three demo_three_reachable 0 2 "b" rfl rfl⟩

/-- A scenario of the specification: after `insert(2, "b")`, `insert(1, "a")` and `insert(3, "c")`
the iterator `find_right("b").flip()` dereferences to 2. -/
theorem demo_three_find_right_flip :
    (demo_three.find_right "b" >>= flip demo_three .right >>= operator_deref demo_three .left) =
      .ok 2 := rfl

/-- Claim C7. In every reachable container, the empty one included, `find_left(k)` returns
`end_left()` if no stored left key is equivalent to `k`, and otherwise the iterator to the
only element whose left key is equivalent to `k`; `find_right` and `end_right()` behave the
same for the right keys. -/
theorem find_correct (b : Bimap L R) (h : Reachable b) (kl : L) (kr : R) :
    (∃ it, b.find_left kl = .ok it ∧
      b.IsOnly .left (fun x => Equiv b.compare_left_ x kl) b.end_left it) ∧
    (∃ it, b.find_right kr = .ok it ∧
      b.IsOnly .right (fun x => Equiv b.compare_right_ x kr) b.end_right it) := by
  obtain ⟨tl, hvl⟩ := reachable_view h .left
  obtain ⟨tr, hvr⟩ := reachable_view h .right
  exact ⟨hvl.find_only kl, hvr.find_only kr⟩

theorem find_correct_witness :
    Reachable demo_three ∧
    (∃ it, demo_three.find_left 2 = .ok it ∧
      demo_three.IsOnly .left (fun x => Equiv demo_three.compare_left_ x 2)
        demo_three.end_left it) ∧
    (∃ it, demo_three.find_right "d" = .ok it ∧
      demo_three.IsOnly .right (fun x => Equiv demo_three.compare_right_ x "d")
        demo_three.end_right it) :=
  ⟨demo_three_reachable, find_correct demo_three demo_three_reachable 2 "d"⟩

/-- Claim C8. In every reachable container, the empty one included, `at_left(k)` throws
`std::out_of_range` exactly when no stored left key is equivalent to `k`; otherwise it
returns the right key of the element whose left key is equivalent to `k`. The function
yields no new container: the container is as before. `at_right` behaves the same with the
sides exchanged. -/
theorem at_correct (b : Bimap L R) (h : Reachable b) (kl : L) (kr : R) :
    (b.at_left kl = .error .out_of_range ↔
      ∀ a l, b.key .left a = some l → ¬ Equiv b.compare_left_ l kl) ∧
    (∀ a l r, b.key .left a = some l → b.key .right a = some r → Equiv b.compare_left_ l kl →
      b.at_left kl = .ok r) ∧
    (b.at_right kr = .error .out_of_range ↔
      ∀ a r, b.key .right a = some r → ¬ Equiv b.compare_right_ r kr) ∧
    (∀ a l r, b.key .left a = some l → b.key .right a = some r → Equiv b.compare_right_ r kr →
      b.at_right kr = .ok l) := by
  obtain ⟨tl, hvl⟩ := reachable_view h .left
  obtain ⟨tr, hvr⟩ := reachable_view h .right
  exact ⟨hvl.at_absent kl, fun a l r h1 h2 h3 => hvl.at_present h1 h2 h3, hvr.at_absent kr,
    fun a l r h1 h2 h3 => hvr.at_present h2 h1 h3⟩

theorem at_correct_witness :
    Reachable demo_three ∧
    (demo_three.at_left 2 = .error .out_of_range ↔
      ∀ a l, demo_three.key .left a = some l → ¬ Equiv demo_three.compare_left_ l 2) ∧
    (∀ a l r, demo_three.key .left a = some l → demo_three.key .right a = some r →
      Equiv demo_three.compare_left_ l 2 → demo_three.at_left 2 = .ok r) ∧
    (demo_three.at_right "d" = .error .out_of_range ↔
      ∀ a r, demo_three.key .right a = some r → ¬ Equiv demo_three.compare_right_ r "d") ∧
    (∀ a l r, demo_three.key .left a = some l → demo_three.key .right a = some r →
      Equiv demo_three.compare_right_ r "d" → demo_three.at_right "d" = .ok l) :=
  ⟨demo_three_reachable, at_correct demo_three demo_three_reachable 2 "d"⟩

/-- A scenario on the container with the pairs (2, "b"), (1, "a"), (3, "c"):
`at_left(2)` returns "b" and `at_right("d")` throws `std::out_of_range`. -/
theorem demo_three_at :
    demo_three.at_left 2 = .ok "b" ∧ demo_three.at_right "d" = .error .out_of_range :=
  ⟨rfl, rfl⟩

/-- Claim C9. In every reachable container `lower_bound_left(k)` returns the iterator to the
first element, in the order of the left keys, whose key is not less than `k`, and
`end_left()` if every left key is less than `k`, as in the empty container;
`lower_bound_right` behaves the same for the right keys. -/
theorem lower_bound_correct (b : Bimap L R) (h : Reachable b) (kl : L) (kr : R) :
    (∃ it, b.lower_bound_left kl = .ok it ∧
      b.IsFirst .left (fun x => b.compare_left_ x kl = false) b.end_left it) ∧
    (∃ it, b.lower_bound_right kr = .ok it ∧
      b.IsFirst .right (fun x => b.compare_right_ x kr = false) b.end_right it) := by
  obtain ⟨tl, hvl⟩ := reachable_view h .left
  obtain ⟨tr, hvr⟩ := reachable_view h .right
  exact ⟨hvl.lower_bound_first kl, hvr.lower_bound_first kr⟩

theorem lower_bound_correct_witness :
    Reachable demo_three ∧
    (∃ it, demo_three.lower_bound_left 2 = .ok it ∧
      demo_three.IsFirst .left (fun x => demo_three.compare_left_ x 2 = false)
        demo_three.end_left it) ∧
    (∃ it, demo_three.lower_bound_right "d" = .ok it ∧
      demo_three.IsFirst .right (fun x => demo_three.compare_right_ x "d" = false)
        demo_three.end_right it) :=
  ⟨demo_three_reachable, lower_bound_correct demo_three demo_three_reachable 2 "d"⟩

/-- A scenario on the container with the pairs (2, "b"), (1, "a"), (3, "c"):
`lower_bound_left(2)` references the key 2, `lower_bound_left(4)` is `end_left()`, and on the
empty container the lower bound is `end_left()`. -/
theorem demo_three_lower_bound :
    (demo_three.lower_bound_left 2 >>= operator_deref demo_three .left) = .ok 2 ∧
    demo_three.lower_bound_left 4 = .ok demo_three.end_left ∧
    demo_empty.lower_bound_left 4 = .ok demo_empty.end_left :=
  ⟨rfl, rfl, rfl⟩

/-- Claim C10. In every reachable container `upper_bound_left(k)` returns the iterator to
the first element, in the order of the left keys, whose key is greater than `k`, and
`end_left()` if no left key is greater than `k`, as in the empty container or for a `k` that
is not below the greatest key; `upper_bound_right` behaves the same for the right keys. -/
theorem upper_bound_correct (b : Bimap L R) (h : Reachable b) (kl : L) (kr : R) :
    (∃ it, b.upper_bound_left kl = .ok it ∧
      b.IsFirst .left (fun x => b.compare_left_ kl x = true) b.end_left it) ∧
    (∃ it, b.upper_bound_right kr = .ok it ∧
      b.IsFirst .right (fun x => b.compare_right_ kr x = true) b.end_right it) := by
  obtain ⟨tl, hvl⟩ := reachable_view h .left
  obtain ⟨tr, hvr⟩ := reachable_view h .right
  exact ⟨hvl.upper_bound_first kl, hvr.upper_bound_first kr⟩

theorem upper_bound_correct_witness :
    Reachable demo_three ∧
    (∃ it, demo_three.upper_bound_left 2 = .ok it ∧
      demo_three.IsFirst .left (fun x => demo_three.compare_left_ 2 x = true)
        demo_three.end_left it) ∧
    (∃ it, demo_three.upper_bound_right "c" = .ok it ∧
      demo_three.IsFirst .right (fun x => demo_three.compare_right_ "c" x = true)
        demo_three.end_right it) :=
  ⟨demo_three_reachable, upper_bound_correct demo_three demo_three_reachable 2 "c"⟩

/-- A scenario on the container with the pairs (2, "b"), (1, "a"), (3, "c"):
`upper_bound_left(2)` references the key 3, `upper_bound_left(3)` is `end_left()`, and on the
empty container the upper bound is `end_left()`. -/
theorem demo_three_upper_bound :
    (demo_three.upper_bound_left 2 >>= operator_deref demo_three .left) = .ok 3 ∧
    demo_three.upper_bound_left 3 = .ok demo_three.end_left ∧
    demo_empty.upper_bound_left 3 = .ok demo_empty.end_left :=
  ⟨rfl, rfl, rfl⟩


/-! ## The erase functions return -/

theorem filter_drop_mid {A B : List Nat} {n : Nat} (h : (A ++ n :: B).Nodup) :
    (A ++ n :: B).filter (fun a => decide (a ≠ n)) = A ++ B := by
  have hn := not_mem_of_nodup_mid h
  simp only [List.mem_append, not_or] at hn
  rw [List.filter_append, List.filter_cons]
  simp only [ne_eq, not_true_eq_false, decide_False, Bool.false_eq_true, if_false]
  rw [List.filter_eq_self.2, List.filter_eq_self.2]
  · intro a ha
    simp only [ne_eq, decide_not, Bool.not_eq_true', decide_eq_false_iff_not]
    intro h1; subst h1; exact hn.2 ha
  · intro a ha
    simp only [ne_eq, decide_not, Bool.not_eq_true', decide_eq_false_iff_not]
    intro h1; subst h1; exact hn.1 ha

theorem filter_not_mem_cons (xs M : List Nat) (n : Nat) :
    xs.filter (fun a => decide (a ∉ n :: M)) =
      (xs.filter (fun a => decide (a ≠ n))).filter (fun a => decide (a ∉ M)) := by
  rw [List.filter_filter]
  congr 1
  funext a
  simp only [List.mem_cons, not_or, ne_eq]
  by_cases h1 : a = n <;> by_cases h2 : a ∈ M <;> simp [h1, h2]

theorem filter_not_mem_nil (xs : List Nat) :
    xs.filter (fun a => decide (a ∉ ([] : List Nat))) = xs := by
  simp

theorem Inv.view {b : Bimap L R} {tl tr : Tree} (h : Inv b tl tr) (s : Side) :
    SideView b s (sideTree s tl tr) := by
  cases s with
  | left => exact h.view_left
  | right => exact h.view_right

theorem Inv.mem_iff {b : Bimap L R} {tl tr : Tree} (h : Inv b tl tr) (s : Side) (a : Nat) :
    a ∈ (sideTree s tl tr).toList ↔ a ∈ tl.toList := by
  rw [← (h.view s).dom a, h.dom a]

/-- Erasing one element, in terms of the lists of both sides. -/
theorem erase_node_lists {b : Bimap L R} {tl tr : Tree} (hinv : Inv b tl tr) {n : Nat}
    (hn : n ∈ tl.toList) (s : Side) :
    ∃ b1 tl1 tr1, erase_node b s n = .ok b1 ∧ Inv b1 tl1 tr1 ∧ Shrunk b b1 n ∧
      ∀ s1, (sideTree s1 tl1 tr1).toList =
        (sideTree s1 tl tr).toList.filter (fun a => decide (a ≠ n)) := by
  obtain ⟨b1, tl1, tr1, h1, hinv1, hsh, ⟨A, B, h2, h3⟩, ⟨A1, B1, h4, h5⟩⟩ :=
    erase_node_spec hinv hn s
  refine ⟨b1, tl1, tr1, h1, hinv1, hsh, fun s1 => ?_⟩
  cases s1 with
  | left =>
    show tl1.toList = tl.toList.filter _
    rw [h3, h2, filter_drop_mid (h2 ▸ hinv.nodup_left)]
  | right =>
    show tr1.toList = tr.toList.filter _
    rw [h5, h4, filter_drop_mid (h4 ▸ hinv.nodup_right)]

theorem nodup_mid_parts {A M B : List Nat} (h : (A ++ M ++ B).Nodup) :
    ∀ m ∈ M, m ∉ B := by
  intro m hm hb
  rw [List.append_assoc] at h
  have h1 := (List.nodup_append.1 h).2.1
  exact (List.nodup_append.1 h1).2.2 hm hb

theorem firstD_ne_of_not_mem_list {d : Ref} {B : List Nat} {n : Nat} (h : n ∉ B)
    (hd : d ≠ .element n) : firstD d B ≠ .element n := by
  rcases firstD_cases d B with ⟨-, h1⟩ | ⟨m, hm, h1⟩
  · rw [h1]; exact hd
  · rw [h1]; intro h2; cases h2; exact h hm

theorem erase_loop_total (s : Side) (B : List Nat) :
    ∀ (M : List Nat) (b : Bimap L R) (tl tr : Tree) (A : List Nat) (fuel : Nat),
      Inv b tl tr → (sideTree s tl tr).toList = A ++ M ++ B → M.length < fuel →
      ∃ b1 tl1 tr1, erase_loop s (some (firstD b.get_sentinel B)) fuel b
          (some (firstD b.get_sentinel (M ++ B))) = .ok b1 ∧
        Inv b1 tl1 tr1 ∧ Erased b b1 M ∧
        ∀ s1, (sideTree s1 tl1 tr1).toList =
          (sideTree s1 tl tr).toList.filter (fun a => decide (a ∉ M)) := by
  intro M
  induction M with
  | nil =>
    intro b tl tr A fuel hinv hl hf
    obtain ⟨f, rfl⟩ : ∃ f, fuel = f + 1 := ⟨fuel - 1, by simp at hf; omega⟩
    refine ⟨b, tl, tr, ?_, hinv, ⟨rfl, rfl, rfl, rfl, rfl, by simp, fun _ _ _ => rfl⟩,
      fun s1 => by simp⟩
    rw [erase_loop_succ]
    simp
  | cons n M ih =>
    intro b tl tr A fuel hinv hl hf
    obtain ⟨f, rfl⟩ : ∃ f, fuel = f + 1 := ⟨fuel - 1, by simp at hf; omega⟩
    have hv := hinv.view s
    have hnd := hv.nodup_list
    rw [hl] at hnd
    have hnB : n ∉ B := nodup_mid_parts hnd n (by simp)
    have hns : n ∈ (sideTree s tl tr).toList := by rw [hl]; simp
    have hn : n ∈ tl.toList := (hinv.mem_iff s n).1 hns
    have hne : (some (firstD b.get_sentinel ((n :: M) ++ B)) : Ptr) ≠
        some (firstD b.get_sentinel B) := by
      intro h1
      have h2 : firstD b.get_sentinel B = .element n := (Option.some.inj h1).symm
      exact firstD_ne_of_not_mem_list hnB (by simp [Bimap.get_sentinel]) h2
    have hemp : b.empty = false := by
      have h0 : 0 < tl.toList.length := List.length_pos_of_mem hn
      simp only [Bimap.empty, Bimap.size, hinv.size, beq_eq_false_iff_ne, ne_eq]
      omega
    have hl2 : (sideTree s tl tr).toList = A ++ n :: (M ++ B) := by rw [hl]; simp
    have hinc := hv.successor hl2
    obtain ⟨b1, tl1, tr1, h1, hinv1, hsh, hlists⟩ := erase_node_lists hinv hn s
    have hg : b1.get_sentinel = b.get_sentinel := by simp [Bimap.get_sentinel, hsh.self]
    have hl1 : (sideTree s tl1 tr1).toList = A ++ M ++ B := by
      rw [hlists s, hl2, filter_drop_mid (hl2 ▸ hv.nodup_list)]; simp
    obtain ⟨b2, tl2, tr2, h2, hinv2, her, hlists2⟩ := ih b1 tl1 tr1 A f hinv1 hl1
      (by simp at hf ⊢; omega)
    rw [hg] at h2
    have hsz : 0 < b.size_ := by
      rw [hinv.size]; exact List.length_pos_of_mem hn
    refine ⟨b2, tl2, tr2, ?_, hinv2, ?_, fun s1 => ?_⟩
    · rw [erase_loop_succ, if_pos ⟨hne, by simp [hemp]⟩]
      have hfd : firstD b.get_sentinel ((n :: M) ++ B) = .element n := rfl
      rw [hfd]
      simp only [to_element, pure_eq_ok, ok_bind, hinc, h1, h2]
    · refine ⟨her.self.trans hsh.self, ?_, her.compare_left_.trans hsh.compare_left_,
        her.compare_right_.trans hsh.compare_right_, her.brk.trans hsh.brk, ?_, ?_⟩
      · have h3 := her.size_
        have h4 := hsh.size_
        simp only [List.length_cons]
        omega
      · intro a ha
        simp only [List.mem_cons] at ha
        by_cases h3 : a ∈ M
        · exact her.gone a h3
        · have h4 : a = n := by tauto
          subst h4
          have h5 := her.key_old .left a h3
          have h6 : b1.key .left a = none := by simp [Bimap.key, hsh.gone]
          rw [h6] at h5
          simp only [Bimap.key, Option.map_eq_none'] at h5
          exact h5
      · intro s1 a ha
        simp only [List.mem_cons, not_or] at ha
        rw [her.key_old s1 a ha.2, hsh.key_old s1 a ha.1]
    · rw [hlists2 s1, hlists s1, ← filter_not_mem_cons]


theorem erase_range_total {b : Bimap L R} {tl tr : Tree} (hinv : Inv b tl tr) (s : Side)
    {A M B : List Nat} (hl : (sideTree s tl tr).toList = A ++ M ++ B) :
    ∃ b1 tl1 tr1, erase_range_impl b s (some (firstD b.get_sentinel (M ++ B)))
        (some (firstD b.get_sentinel B)) = .ok (b1, some (firstD b.get_sentinel B)) ∧
      Inv b1 tl1 tr1 ∧ Erased b b1 M ∧
      ∀ s1, (sideTree s1 tl1 tr1).toList =
        (sideTree s1 tl tr).toList.filter (fun a => decide (a ∉ M)) := by
  have hlen : M.length < b.fuel := by
    have h1 := (hinv.view s).size
    rw [hl] at h1
    simp only [List.length_append] at h1
    simp only [Bimap.fuel]
    omega
  obtain ⟨b1, tl1, tr1, h1, h2, h3, h4⟩ := erase_loop_total s B M b tl tr A b.fuel hinv hl hlen
  exact ⟨b1, tl1, tr1, by simp [erase_range_impl, h1], h2, h3, h4⟩

theorem erase_it_total {b : Bimap L R} {tl tr : Tree} (hinv : Inv b tl tr) (s : Side)
    {A B : List Nat} {n : Nat} (hl : (sideTree s tl tr).toList = A ++ n :: B) :
    ∃ b1 tl1 tr1, erase_it_impl b s (some (.element n)) =
        .ok (b1, some (firstD b.get_sentinel B)) ∧
      Inv b1 tl1 tr1 ∧ Erased b b1 [n] ∧
      ∀ s1, (sideTree s1 tl1 tr1).toList =
        (sideTree s1 tl tr).toList.filter (fun a => decide (a ∉ [n])) := by
  have hl2 : (sideTree s tl tr).toList = A ++ [n] ++ B := by rw [hl]; simp
  obtain ⟨b1, tl1, tr1, h1, h2, h3, h4⟩ := erase_range_total hinv s hl2
  refine ⟨b1, tl1, tr1, ?_, h2, h3, h4⟩
  have hfd : firstD b.get_sentinel ([n] ++ B) = .element n := rfl
  rw [hfd] at h1
  simp only [erase_it_impl, (hinv.view s).successor hl, ok_bind, h1]

theorem erase_it_end {b : Bimap L R} {tl tr : Tree} (hinv : Inv b tl tr) (s : Side) :
    erase_it_impl b s (some b.get_sentinel) = .ok (b, some b.get_sentinel) := by
  have h1 := (hinv.view s).to_nav.operator_inc_sentinel
  simp only [erase_it_impl, h1, ok_bind, erase_range_impl, Bimap.fuel, erase_loop_succ]
  simp

theorem erase_val_total {b : Bimap L R} {tl tr : Tree} (hinv : Inv b tl tr) (s : Side)
    (hne : b.empty = false) (k : Key L R s) :
    (∃ A B n, (sideTree s tl tr).toList = A ++ n :: B ∧ b.keyEquiv s k n ∧
      ∃ b1 tl1 tr1, erase_val_impl b s k = .ok (b1, true) ∧ Inv b1 tl1 tr1 ∧ Erased b b1 [n] ∧
        ∀ s1, (sideTree s1 tl1 tr1).toList =
          (sideTree s1 tl tr).toList.filter (fun a => decide (a ∉ [n]))) ∨
    ((∀ a ∈ (sideTree s tl tr).toList, ¬ b.keyEquiv s k a) ∧
      erase_val_impl b s k = .ok (b, false)) := by
  have hv := hinv.view s
  have ht : sideTree s tl tr ≠ .nil := by
    intro h1
    have h2 := hv.size
    rw [h1] at h2
    simp [Bimap.empty, Bimap.size, h2, Tree.toList] at hne
  obtain ⟨c, l, a, r, hpos, hp⟩ := hv.to_nav.find_insert_position hv.size ht k
  have ha : a ∈ (sideTree s tl tr).toList := by rw [hp.1]; exact mem_plug_self _ _ _ _
  obtain ⟨ka, hka⟩ := hv.key_of_mem ha s
  by_cases heq : b.is_equal s ka k = true
  · left
    obtain ⟨A, B, hAB⟩ := List.append_of_mem ha
    obtain ⟨b1, tl1, tr1, h1, h2, h3, h4⟩ := erase_it_total hinv s hAB
    refine ⟨A, B, a, hAB, (is_equal_iff_equiv hka k).1 heq, b1, tl1, tr1, ?_, h2, h3, h4⟩
    simp [erase_val_impl, hpos, operator_deref_eq hka, heq, h1]
  · right
    have hnk : ¬ b.keyEquiv s k a := fun h1 => heq ((is_equal_iff_equiv hka k).2 h1)
    refine ⟨position_no_equiv hv.order hp hv.inv.sorted hnk, ?_⟩
    simp [erase_val_impl, hpos, operator_deref_eq hka, heq]

/-! ## Ranges of iterators -/

theorem traverse_nil {b : Bimap L R} {s : Side} {last first : Ptr} {fuel : Nat}
    (h : traverse b s last fuel first = .ok []) : first = last := by
  cases fuel with
  | zero => simp [traverse] at h
  | succ f =>
    simp only [traverse] at h
    split_ifs at h with h1
    · exact h1
    · cases h2 : operator_inc b s first with
      | error e => simp [h2] at h
      | ok next =>
        simp only [h2, ok_bind] at h
        cases h3 : traverse b s last f next with
        | error e => simp [h3] at h
        | ok rest => simp [h3] at h

theorem traverse_cons {b : Bimap L R} {s : Side} {last first : Ptr} {fuel : Nat} {x : Ptr}
    {rest : List Ptr} (h : traverse b s last fuel first = .ok (x :: rest)) :
    first = x ∧ first ≠ last ∧ ∃ f next, fuel = f + 1 ∧ operator_inc b s first = .ok next ∧
      traverse b s last f next = .ok rest := by
  cases fuel with
  | zero => simp [traverse] at h
  | succ f =>
    simp only [traverse] at h
    split_ifs at h with h1
    · simp at h
    · cases h2 : operator_inc b s first with
      | error e => simp [h2] at h
      | ok next =>
        simp only [h2, ok_bind] at h
        cases h3 : traverse b s last f next with
        | error e => simp [h3] at h
        | ok rest1 =>
          simp only [h3, ok_bind, pure_eq_ok, Except.ok.injEq, List.cons.injEq] at h
          exact ⟨h.1, h1, f, next, rfl, rfl, by rw [← h.2]; exact h3⟩

/-- A range that a traversal visits is a segment of the order of the side. -/
theorem SideView.traverse_inv {b : Bimap L R} {s : Side} {t : Tree} (h : SideView b s t)
    (last : Ptr) :
    ∀ (M : List Nat) (fuel : Nat) (first : Ptr),
      ct.traverse b s last fuel first = .ok (M.map (fun a => some (Ref.element a))) →
      M ≠ [] → ∃ A B, t.toList = A ++ M ++ B ∧
        first = some (firstD b.get_sentinel (M ++ B)) ∧ last = some (firstD b.get_sentinel B) := by
  intro M
  induction M with
  | nil => intro fuel first _ h1; exact absurd rfl h1
  | cons m M ih =>
    intro fuel first htr _
    simp only [List.map_cons] at htr
    obtain ⟨h1, h2, f, next, rfl, h3, h4⟩ := traverse_cons htr
    subst h1
    have hm : m ∈ t.toList := (h.dom m).1 (live_of_operator_inc h3)
    obtain ⟨A, B0, hAB⟩ := List.append_of_mem hm
    have hnext := h.successor hAB
    rw [h3] at hnext
    simp only [Except.ok.injEq] at hnext
    by_cases hM : M = []
    · subst hM
      have h5 := traverse_nil h4
      refine ⟨A, B0, by simp [hAB], rfl, ?_⟩
      rw [← h5, hnext]
    · obtain ⟨A1, B1, h5, h6, h7⟩ := ih f next h4 hM
      obtain ⟨m1, M1, rfl⟩ := List.exists_cons_of_ne_nil hM
      have h8 : firstD b.get_sentinel B0 = .element m1 := by
        have := hnext.symm.trans h6
        simpa [firstD] using this
      obtain ⟨B2, hB2⟩ := firstD_mem h8 (by simp [Bimap.get_sentinel])
      subst hB2
      have h9 : (A ++ [m]) ++ m1 :: B2 = A1 ++ m1 :: (M1 ++ B1) := by
        have h12 := hAB.symm.trans h5
        simpa using h12
      have hnd : ((A ++ [m]) ++ m1 :: B2).Nodup := by
        have := h.nodup_list
        rw [hAB] at this
        simpa using this
      obtain ⟨h10, h11⟩ := split_unique hnd h9
      refine ⟨A, B1, ?_, rfl, h7⟩
      rw [hAB, h11]; simp


/-! ## `operator==` -/

theorem is_equal_iff (b : Bimap L R) (s : Side) (k v : Key L R s) :
    b.is_equal s k v = true ↔ Equiv (b.get_compare s) k v := by
  rw [is_equal_eq]
  simp [Equiv]

theorem samePair_iff {lhs rhs : Bimap L R} {x y : Nat} {lx ly : L} {rx ry : R}
    (h1 : lhs.key .left x = some lx) (h2 : lhs.key .right x = some rx)
    (h3 : rhs.key .left y = some ly) (h4 : rhs.key .right y = some ry) :
    SamePair lhs rhs x y ↔
      lhs.is_equal .left lx ly = true ∧ lhs.is_equal .right rx ry = true := by
  rw [is_equal_iff, is_equal_iff]
  constructor
  · rintro ⟨lx1, rx1, ly1, ry1, h5, h6, h7, h8, h9, h10⟩
    rw [h1] at h5; rw [h2] at h6; rw [h3] at h7; rw [h4] at h8
    cases h5; cases h6; cases h7; cases h8
    exact ⟨h9, h10⟩
  · rintro ⟨h9, h10⟩
    exact ⟨lx, rx, ly, ry, h1, h2, h3, h4, h9, h10⟩

theorem operator_eq_loop_spec {lhs rhs : Bimap L R} {tl tr tl1 tr1 : Tree}
    (hl : Inv lhs tl tr) (hr : Inv rhs tl1 tr1) :
    ∀ (X Y A A1 : List Nat) (fuel : Nat), tl.toList = A ++ X → tl1.toList = A1 ++ Y →
      X.length = Y.length → X.length < fuel →
      ∃ v, operator_eq_loop lhs rhs fuel (some (firstD lhs.get_sentinel X))
          (some (firstD rhs.get_sentinel Y)) = .ok v ∧
        (v = true ↔ List.Forall₂ (SamePair lhs rhs) X Y) := by
  intro X
  induction X with
  | nil =>
    intro Y A A1 fuel _ _ hlen hf
    obtain ⟨f, rfl⟩ : ∃ f, fuel = f + 1 := ⟨fuel - 1, by simp at hf; omega⟩
    have hY : Y = [] := List.length_eq_zero.1 hlen.symm
    subst hY
    refine ⟨true, ?_, by simp⟩
    simp [operator_eq_loop, firstD, Bimap.end_left]
  | cons x X ih =>
    intro Y A A1 fuel hX hY hlen hf
    obtain ⟨f, rfl⟩ : ∃ f, fuel = f + 1 := ⟨fuel - 1, by simp at hf; omega⟩
    obtain ⟨y, Y, rfl⟩ : ∃ y Y1, Y = y :: Y1 := by
      cases Y with
      | nil => simp at hlen
      | cons y Y1 => exact ⟨y, Y1, rfl⟩
    have hvl := hl.view_left
    have hvr := hr.view_left
    have hx : x ∈ tl.toList := by rw [hX]; simp
    have hy : y ∈ tl1.toList := by rw [hY]; simp
    obtain ⟨lx, hlx⟩ := hvl.key_of_mem hx .left
    obtain ⟨rx, hrx⟩ := hvl.key_of_mem hx .right
    obtain ⟨ly, hly⟩ := hvr.key_of_mem hy .left
    obtain ⟨ry, hry⟩ := hvr.key_of_mem hy .right
    have hne : (some (Ref.element x) : Ptr) ≠ lhs.end_left := by
      simp [Bimap.end_left, Bimap.get_sentinel]
    have hsp := samePair_iff hlx hrx hly hry
    obtain ⟨v, hv1, hv2⟩ := ih Y (A ++ [x]) (A1 ++ [y]) f (by simp [hX]) (by simp [hY])
      (by simpa using hlen) (by simp at hf ⊢; omega)
    have hfx : firstD lhs.get_sentinel (x :: X) = .element x := rfl
    have hfy : firstD rhs.get_sentinel (y :: Y) = .element y := rfl
    rw [hfx, hfy]
    simp only [operator_eq_loop, hne, ne_eq, not_false_eq_true, if_true, operator_deref_eq hlx,
      operator_deref_eq hly, ok_bind, hvl.flip_element hx, operator_deref_eq hrx,
      hvr.flip_element hy, operator_deref_eq hry, hvl.successor hX, hvr.successor hY,
      List.forall₂_cons, hsp]
    by_cases h1 : lhs.is_equal .left lx ly = true
    · by_cases h2 : lhs.is_equal .right rx ry = true
      · refine ⟨v, ?_, ?_⟩
        · simp [h1, h2, hv1]
        · simp [h1, h2, hv2]
      · refine ⟨false, ?_, ?_⟩
        · simp [h1, h2]
        · simp [h2]
    · refine ⟨false, ?_, ?_⟩
      · simp [h1]
      · simp [h1]

theorem operator_eq_spec {lhs rhs : Bimap L R} {tl tr tl1 tr1 : Tree}
    (hl : Inv lhs tl tr) (hr : Inv rhs tl1 tr1) :
    ∃ v, operator_eq lhs rhs = .ok v ∧
      (v = true ↔ lhs.size = rhs.size ∧
        List.Forall₂ (SamePair lhs rhs) tl.toList tl1.toList) := by
  by_cases hsz : lhs.size = rhs.size
  · have hlen : tl.toList.length = tl1.toList.length := by
      rw [← hl.size, ← hr.size]; exact hsz
    obtain ⟨v, h1, h2⟩ := operator_eq_loop_spec hl hr tl.toList tl1.toList [] [] lhs.fuel rfl rfl
      hlen (by simp [Bimap.fuel, hl.size])
    refine ⟨v, ?_, by simp [hsz, h2]⟩
    have hb1 : lhs.begin_left = some (firstD lhs.get_sentinel tl.toList) := hl.view_left.begin
    have hb2 : rhs.begin_left = some (firstD rhs.get_sentinel tl1.toList) := hr.view_left.begin
    simp [operator_eq, hsz, hb1, hb2, h1]
  · refine ⟨false, by simp [operator_eq, hsz], by simp [hsz]⟩

theorem samePair_refl_of_keys {b b1 : Bimap L R} {tl tr : Tree} (hinv : Inv b tl tr)
    (hk : ∀ s a, a ∈ tl.toList → b1.key s a = b.key s a) :
    ∀ xs : List Nat, (∀ a ∈ xs, a ∈ tl.toList) → List.Forall₂ (SamePair b b1) xs xs := by
  intro xs
  induction xs with
  | nil => intro _; exact List.Forall₂.nil
  | cons x xs ih =>
    intro h
    have hx := h x (by simp)
    obtain ⟨lx, hlx⟩ := hinv.view_left.key_of_mem hx .left
    obtain ⟨rx, hrx⟩ := hinv.view_left.key_of_mem hx .right
    refine List.Forall₂.cons ⟨lx, rx, lx, rx, hlx, hrx, ?_, ?_, ?_, ?_⟩
      (ih (fun a ha => h a (by simp [ha])))
    · rw [hk .left x hx]; exact hlx
    · rw [hk .right x hx]; exact hrx
    · exact ⟨hinv.order_left.irrefl _, hinv.order_left.irrefl _⟩
    · exact ⟨hinv.order_right.irrefl _, hinv.order_right.irrefl _⟩


/-! ## The copy constructor -/

theorem pair_eq_some_iff (b : Bimap L R) (a : Nat) (l : L) (r : R) :
    b.pair a = some (l, r) ↔ b.key .left a = some l ∧ b.key .right a = some r := by
  simp only [Bimap.pair, Bimap.key]
  cases b.heap a <;> simp [Element.get_key]

theorem pair_congr {b b1 : Bimap L R} {a a1 : Nat} (h : ∀ s, b1.key s a1 = b.key s a) :
    b1.pair a1 = b.pair a := by
  have hl := h .left
  have hr := h .right
  simp only [Bimap.pair, Bimap.key] at *
  cases h1 : b1.heap a1 <;> cases h2 : b.heap a <;> simp [h1, h2, Element.get_key] at hl hr ⊢
  exact ⟨hl, hr⟩

theorem forall₂_mem_left {α β : Type} {P : α → β → Prop} {xs : List α} {ys : List β}
    (h : List.Forall₂ P xs ys) : ∀ x ∈ xs, ∃ y ∈ ys, P x y := by
  induction h with
  | nil => simp
  | cons h1 _ ih =>
    intro x hx
    simp only [List.mem_cons] at hx
    rcases hx with hx | hx
    · subst hx; exact ⟨_, by simp, h1⟩
    · obtain ⟨y, hy, hxy⟩ := ih x hx
      exact ⟨y, by simp [hy], hxy⟩

theorem forall₂_map_eq {α β γ : Type} {f : α → γ} {g : β → γ} {xs : List α} {ys : List β}
    (h : List.Forall₂ (fun x y => f x = g y) xs ys) : xs.map f = ys.map g := by
  induction h with
  | nil => rfl
  | cons h1 _ ih => simp [h1, ih]

theorem forall₂_imp_mem {α β : Type} {P Q : α → β → Prop} {xs : List α} {ys : List β}
    (h : List.Forall₂ P xs ys) (hi : ∀ x ∈ xs, ∀ y, P x y → Q x y) : List.Forall₂ Q xs ys := by
  induction h with
  | nil => exact List.Forall₂.nil
  | cons h1 _ ih =>
    exact List.Forall₂.cons (hi _ (by simp) _ h1) (ih (fun x hx y hxy => hi x (by simp [hx]) y hxy))

/-- One round of the loop of the copy constructor: the pair of the next element of `o`
belongs behind all pairs copied so far, on the left side, and is not rejected. -/
theorem copy_step {this o : Bimap L R} {dl dr tl tr : Tree} (hinv : Inv this dl dr)
    (ho : Inv o tl tr) (hcl : this.compare_left_ = o.compare_left_)
    (hcr : this.compare_right_ = o.compare_right_) {A X : List Nat} {x : Nat}
    (hX : tl.toList = A ++ x :: X)
    (hrel : List.Forall₂ (fun d a => this.pair d = o.pair a) dl.toList A)
    {lx : L} {rx : R} (hlx : o.key .left x = some lx) (hrx : o.key .right x = some rx) :
    ∃ this1 dl1 dr1, this.insert lx rx = .ok (this1, some (.element this.brk)) ∧
      Inv this1 dl1 dr1 ∧ this1.self = this.self ∧ this1.size = this.size + 1 ∧
      this1.compare_left_ = o.compare_left_ ∧ this1.compare_right_ = o.compare_right_ ∧
      List.Forall₂ (fun d a => this1.pair d = o.pair a) dl1.toList (A ++ [x]) := by
  have hvl := ho.view_left
  have hvr := ho.view_right
  have hnd := ho.nodup_left
  rw [hX] at hnd
  have hsorted := ho.left.sorted
  rw [hX] at hsorted
  simp only [List.pairwise_append, List.pairwise_cons] at hsorted
  have hxt : x ∈ tl.toList := by rw [hX]; simp
  -- what the elements copied so far look like
  have hold : ∀ d ∈ dl.toList, this.keyBelow .left lx d ∧
      (this.keyBelow .right rx d ∨ this.keyAbove .right rx d) := by
    intro d hd
    obtain ⟨a, ha, hda⟩ := forall₂_mem_left hrel d hd
    have hat : a ∈ tl.toList := by rw [hX]; simp [ha]
    have hax : a ≠ x := by
      intro h1; subst h1
      exact (List.nodup_append.1 hnd).2.2 ha (by simp)
    obtain ⟨la, hla⟩ := hvl.key_of_mem hat .left
    obtain ⟨ra, hra⟩ := hvl.key_of_mem hat .right
    have hp : this.pair d = some (la, ra) := by
      rw [hda]; exact (pair_eq_some_iff o a la ra).2 ⟨hla, hra⟩
    obtain ⟨hdl, hdr⟩ := (pair_eq_some_iff this d la ra).1 hp
    constructor
    · obtain ⟨k1, k2, h1, h2, h3⟩ := hsorted.2.2 a ha x (by simp)
      rw [hla] at h1; cases h1
      rw [hlx] at h2; cases h2
      exact ⟨la, hdl, by
        show this.compare_left_ la lx = true
        rw [hcl]; exact h3⟩
    · have hatr : a ∈ tr.toList := ho.perm.mem_iff.1 hat
      have hxtr : x ∈ tr.toList := ho.perm.mem_iff.1 hxt
      rcases hvr.lt_or_lt hatr hxtr hax with ⟨k1, k2, h1, h2, h3⟩ | ⟨k1, k2, h1, h2, h3⟩
      · rw [hra] at h1; cases h1
        rw [hrx] at h2; cases h2
        exact Or.inl ⟨ra, hdr, by
          show this.compare_right_ ra rx = true
          rw [hcr]; exact h3⟩
      · rw [hrx] at h1; cases h1
        rw [hra] at h2; cases h2
        exact Or.inr ⟨ra, hdr, by
          show this.compare_right_ rx ra = true
          rw [hcr]; exact h3⟩
  rcases insert_spec hinv lx rx with ⟨h1, -⟩ | ⟨-, -, this1, dl1, dr1, h3, hg, hinv1, hiL, -⟩
  · exfalso
    rcases h1 with ⟨d, hd, h2⟩ | ⟨d, hd, h2⟩
    · exact not_equiv_of_below (hold d hd).1 h2
    · have hd1 : d ∈ dl.toList := hinv.perm.mem_iff.2 hd
      rcases (hold d hd1).2 with h4 | h4
      · exact not_equiv_of_below h4 h2
      · exact not_equiv_of_above h4 h2
  · obtain ⟨P, Q, hPQ, hPQ1, -, hQ⟩ := hiL
    have hQnil : Q = [] := by
      rw [List.eq_nil_iff_forall_not_mem]
      intro q hq
      have hq1 : q ∈ dl.toList := by rw [hPQ]; simp [hq]
      exact not_above_of_below (hinv.order .left) (hold q hq1).1 (hQ q hq)
    subst hQnil
    simp only [List.append_nil] at hPQ
    have hfresh : this.heap this.brk = none := hinv.fresh _ (le_refl _)
    refine ⟨this1, dl1, dr1, h3, hinv1, hg.self, by simp [Bimap.size, hg.size_],
      hg.compare_left_.trans hcl, hg.compare_right_.trans hcr, ?_⟩
    rw [hPQ1, ← hPQ]
    refine List.rel_append ?_ ?_
    · refine forall₂_imp_mem hrel ?_
      intro d hd a hda
      have hne : d ≠ this.brk := by
        intro h4
        have := (hinv.dom d).2 hd
        rw [h4, hfresh] at this
        simp at this
      rw [← hda]
      exact pair_congr (fun s => hg.key_old s d hne)
    · refine List.Forall₂.cons ?_ List.Forall₂.nil
      rw [(pair_eq_some_iff o x lx rx).2 ⟨hlx, hrx⟩]
      exact (pair_eq_some_iff this1 this.brk lx rx).2 ⟨hg.key_left_new, hg.key_right_new⟩

theorem copy_loop_spec {o : Bimap L R} {tl tr : Tree} (ho : Inv o tl tr) :
    ∀ (X A : List Nat) (this : Bimap L R) (dl dr : Tree) (fuel : Nat),
      Reachable this → Inv this dl dr → this.compare_left_ = o.compare_left_ →
      this.compare_right_ = o.compare_right_ → tl.toList = A ++ X →
      List.Forall₂ (fun d a => this.pair d = o.pair a) dl.toList A → X.length < fuel →
      ∃ dst dl1 dr1, copy_loop o fuel this (some (firstD o.get_sentinel X)) = .ok dst ∧
        Reachable dst ∧ Inv dst dl1 dr1 ∧ dst.self = this.self ∧
        dst.size = this.size + X.length ∧ dst.compare_left_ = o.compare_left_ ∧
        dst.compare_right_ = o.compare_right_ ∧
        List.Forall₂ (fun d a => dst.pair d = o.pair a) dl1.toList (A ++ X) := by
  intro X
  induction X with
  | nil =>
    intro A this dl dr fuel hre hinv hcl hcr _ hrel hf
    obtain ⟨f, rfl⟩ : ∃ f, fuel = f + 1 := ⟨fuel - 1, by simp at hf; omega⟩
    refine ⟨this, dl, dr, ?_, hre, hinv, rfl, by simp, hcl, hcr, by simpa using hrel⟩
    simp [copy_loop, firstD, Bimap.end_left]
  | cons x X ih =>
    intro A this dl dr fuel hre hinv hcl hcr hX hrel hf
    obtain ⟨f, rfl⟩ : ∃ f, fuel = f + 1 := ⟨fuel - 1, by simp at hf; omega⟩
    have hvl := ho.view_left
    have hx : x ∈ tl.toList := by rw [hX]; simp
    obtain ⟨lx, hlx⟩ := hvl.key_of_mem hx .left
    obtain ⟨rx, hrx⟩ := hvl.key_of_mem hx .right
    obtain ⟨this1, dl1, dr1, h1, hinv1, hself1, hsize1, hcl1, hcr1, hrel1⟩ :=
      copy_step hinv ho hcl hcr hX hrel hlx hrx
    have hre1 : Reachable this1 := Reachable.insert lx rx _ hre h1
    obtain ⟨dst, dl2, dr2, h2, hre2, hinv2, hself2, hsize2, hcl2, hcr2, hrel2⟩ :=
      ih (A ++ [x]) this1 dl1 dr1 f hre1 hinv1 hcl1 hcr1 (by simp [hX]) hrel1
        (by simp at hf ⊢; omega)
    have hne : (some (Ref.element x) : Ptr) ≠ o.end_left := by
      simp [Bimap.end_left, Bimap.get_sentinel]
    refine ⟨dst, dl2, dr2, ?_, hre2, hinv2, hself2.trans hself1, ?_, hcl2, hcr2,
      by simpa using hrel2⟩
    · have hfx : firstD o.get_sentinel (x :: X) = .element x := rfl
      rw [hfx]
      simp only [copy_loop, hne, ne_eq, not_false_eq_true, if_true, operator_deref_eq hlx,
        ok_bind, hvl.flip_element hx, operator_deref_eq hrx, h1, hvl.successor hX, h2]
    · rw [hsize2, hsize1]; simp only [List.length_cons]; omega

/-- The copy constructor builds a reachable container with the pairs of `o`, in the order of
the left keys. -/
theorem copy_construct_spec {o : Bimap L R} {tl tr : Tree} (ho : Inv o tl tr) (self : Nat) :
    ∃ dst dl dr, copy_construct self o = .ok dst ∧ Reachable dst ∧ Inv dst dl dr ∧
      dst.self = self ∧ dst.size = o.size ∧ dst.compare_left_ = o.compare_left_ ∧
      dst.compare_right_ = o.compare_right_ ∧
      List.Forall₂ (fun d a => dst.pair d = o.pair a) dl.toList tl.toList := by
  have hre : Reachable (Bimap.mk_empty self o.compare_left_ o.compare_right_) :=
    Reachable.mk_empty self _ _ ho.order_left ho.order_right
  obtain ⟨dst, dl, dr, h1, h2, h3, h4, h5, h6, h7, h8⟩ :=
    copy_loop_spec ho tl.toList [] _ .nil .nil o.fuel hre
      (mk_empty_inv self ho.order_left ho.order_right) rfl rfl rfl List.Forall₂.nil
      (by simp [Bimap.fuel, ho.size])
  refine ⟨dst, dl, dr, ?_, h2, h3, h4, ?_, h6, h7, by simpa using h8⟩
  · have hb : o.begin_left = some (firstD o.get_sentinel tl.toList) := ho.view_left.begin
    simp only [copy_construct, hb, h1]
  · rw [h5]
    simp [Bimap.size, Bimap.mk_empty, ho.size]

theorem samePair_of_pair_eq {a b : Bimap L R} {tl tr : Tree} (ha : Inv a tl tr)
    {xs ys : List Nat} (hx : ∀ x ∈ xs, x ∈ tl.toList)
    (h : List.Forall₂ (fun x y => a.pair x = b.pair y) xs ys) :
    List.Forall₂ (SamePair a b) xs ys := by
  refine forall₂_imp_mem h ?_
  intro x hxs y hxy
  have hxt := hx x hxs
  obtain ⟨lx, hlx⟩ := ha.view_left.key_of_mem hxt .left
  obtain ⟨rx, hrx⟩ := ha.view_left.key_of_mem hxt .right
  have hp : b.pair y = some (lx, rx) := by
    rw [← hxy]; exact (pair_eq_some_iff a x lx rx).2 ⟨hlx, hrx⟩
  obtain ⟨hly, hry⟩ := (pair_eq_some_iff b y lx rx).1 hp
  exact ⟨lx, rx, lx, rx, hlx, hrx, hly, hry,
    ⟨ha.order_left.irrefl _, ha.order_left.irrefl _⟩,
    ⟨ha.order_right.irrefl _, ha.order_right.irrefl _⟩⟩

theorem forall₂_flip_eq {α β γ : Type} {f : α → γ} {g : β → γ} {xs : List α} {ys : List β}
    (h : List.Forall₂ (fun x y => f x = g y) xs ys) :
    List.Forall₂ (fun y x => g y = f x) ys xs := by
  induction h with
  | nil => exact List.Forall₂.nil
  | cons h1 _ ih => exact List.Forall₂.cons h1.symm ih

theorem forall₂_mem_right {α β : Type} {P : α → β → Prop} {xs : List α} {ys : List β}
    (h : List.Forall₂ P xs ys) : ∀ y ∈ ys, ∃ x ∈ xs, P x y := by
  induction h with
  | nil => simp
  | cons h1 _ ih =>
    intro y hy
    simp only [List.mem_cons] at hy
    rcases hy with hy | hy
    · subst hy; exact ⟨_, by simp, h1⟩
    · obtain ⟨x, hx, hxy⟩ := ih y hy
      exact ⟨x, by simp [hx], hxy⟩


/-! ## `swap` and the move constructor -/

theorem lastD_nonempty (d d1 : Ref) {xs : List Nat} (h : xs ≠ []) : lastD d xs = lastD d1 xs := by
  rcases List.eq_nil_or_concat xs with h1 | ⟨ys, y, h1⟩
  · exact absurd h1 h
  · subst h1; simp

theorem firstD_nonempty (d d1 : Ref) {xs : List Nat} (h : xs ≠ []) :
    firstD d xs = firstD d1 xs := by
  cases xs with
  | nil => exact absurd rfl h
  | cons x xs => rfl

/-- Anchoring the root of side `s` at the sentinel of the container that took the tree
over. -/
theorem rehome_side {b : Bimap L R} (b1 : Bimap L R) {s : Side} {l r : Tree} {a : Nat}
    (hsi : SideInv b s (.node l a r)) (hnd : (Tree.node l a r).toList.Nodup)
    (hb : ∀ x ∈ (Tree.node l a r).toList, b1.base s (.element x) = b.base s (.element x))
    (hsen : b1.sentinel_ s = b.sentinel_ s) :
    ∃ b2, b1.anchor_root s = .ok b2 ∧
      Touch s b1 b2 ∧
      Linked b2 s (.node l a r) (lastD b1.get_sentinel (Tree.node l a r).toList)
        (firstD b1.get_sentinel (Tree.node l a r).toList) := by
  have hs := hsi.sentinel
  unfold SentinelFor at hs
  simp only [root_node, Option.getD_some] at hs
  have hba : b1.base s (.element a) =
      .ok { parent_ := some b.get_sentinel, left_ := l.root, right_ := r.root } := by
    rw [hb a (by simp)]; exact hsi.shape.1
  obtain ⟨b2, h1, h2⟩ := set_parent_ok hba (some b1.get_sentinel)
  have hself : b2.self = b1.self := h2.self
  have hg : b2.get_sentinel = b1.get_sentinel := by simp [Bimap.get_sentinel, hself]
  refine ⟨b2, ?_, h2.toTouch, ?_, ?_⟩
  · simp only [Bimap.anchor_root, hsen, hs]; exact h1
  · rw [hg]
    refine Shape.reparent hsi.shape h2.here ?_
    intro x hx
    have hxa : x ≠ a := by
      intro h3; subst h3
      simp only [toList_node] at hnd
      have h4 := List.nodup_middle.1 hnd
      exact (List.nodup_cons.1 h4).1 hx
    rw [h2.frame _ (by simpa using hxa)]
    exact hb x (by
      simp only [toList_node, List.mem_append, List.mem_cons] at hx ⊢
      tauto)
  · have h3 : b2.base s b2.get_sentinel = b1.base s b2.get_sentinel :=
      h2.frame _ (by rw [hg]; simp [Bimap.get_sentinel])
    have h4 : b2.sentinel_ s = b1.sentinel_ s := by
      have h5 : b2.base s b2.get_sentinel = .ok (b2.sentinel_ s) := base_sentinel_self b2 s
      have h6 : b1.base s b2.get_sentinel = .ok (b1.sentinel_ s) := by
        rw [hg]; exact base_sentinel_self b1 s
      rw [h5, h6] at h3
      exact Except.ok.inj h3
    have hne : (Tree.node l a r).toList ≠ [] := by simp
    show b2.sentinel_ s = _
    rw [h4, hsen, hs]
    simp only [root_node, Option.getD_some]
    rw [lastD_nonempty b.get_sentinel b1.get_sentinel hne,
      firstD_nonempty b.get_sentinel b1.get_sentinel hne]

/-- The contents of a non-empty container `b`, taken over by the container at `self1`. -/
theorem rehome_spec {b : Bimap L R} {tl tr : Tree} (hinv : Inv b tl tr) (hne : b.empty = false)
    (self1 : Nat) :
    ∃ b2, Bimap.update_parents ({ b with self := self1 } : Bimap L R) = .ok b2 ∧
      Inv b2 tl tr ∧ b2.self = self1 ∧ b2.size_ = b.size_ ∧
      b2.compare_left_ = b.compare_left_ ∧ b2.compare_right_ = b.compare_right_ ∧
      ∀ s a, b2.key s a = b.key s a := by
  have htl : tl ≠ .nil := by
    intro h1
    have h2 := hinv.size
    rw [h1] at h2
    simp [Bimap.empty, Bimap.size, h2, Tree.toList] at hne
  have htr : tr ≠ .nil := fun h1 => htl (hinv.nil_iff.2 h1)
  obtain ⟨ll, la, lr, rfl⟩ : ∃ l a r, tl = .node l a r := by
    cases tl with
    | nil => exact absurd rfl htl
    | node l a r => exact ⟨l, a, r, rfl⟩
  obtain ⟨rl, ra, rr, rfl⟩ : ∃ l a r, tr = .node l a r := by
    cases tr with
    | nil => exact absurd rfl htr
    | node l a r => exact ⟨l, a, r, rfl⟩
  obtain ⟨b1, h1, t1, hL1⟩ := rehome_side ({ b with self := self1 } : Bimap L R)
    hinv.left hinv.nodup_left (fun _ _ => rfl) rfl
  have hself1 : b1.self = self1 := t1.self
  have hg1 : b1.get_sentinel = .sentinel self1 := by simp [Bimap.get_sentinel, hself1]
  have hsen1 : b1.sentinel_ .right = b.sentinel_ .right := by
    have h3 := t1.other b1.get_sentinel
    have h5 : b1.base .right b1.get_sentinel = .ok (b1.sentinel_ .right) :=
      base_sentinel_self b1 .right
    have h6 : Bimap.base ({ b with self := self1 } : Bimap L R) .right b1.get_sentinel =
        .ok (b.sentinel_ .right) := by
      rw [hg1]; simp [Bimap.base]
    simp only [Side.opposite] at h3
    rw [h5, h6] at h3
    exact Except.ok.inj h3
  obtain ⟨b2, h2, t2, hR2⟩ := rehome_side b1 hinv.right hinv.nodup_right
    (fun x _ => t1.other (.element x)) hsen1
  have hL2 := hL1.of_touch_other t2
  have hsame : Same ({ b with self := self1 } : Bimap L R) b2 := t1.toSame.trans t2.toSame
  have hg2 : b2.get_sentinel = .sentinel self1 := by
    simp [Bimap.get_sentinel, hsame.self]
  have hkey : ∀ s a, b2.key s a = b.key s a := fun s a => hsame.key s a
  have hcmp : ∀ s, b2.get_compare s = b.get_compare s := by
    intro s
    cases s
    · exact hsame.compare_left_
    · exact hsame.compare_right_
  have hlt : ∀ s, b2.keyLt s = b.keyLt s := by
    intro s
    funext x y
    simp only [Bimap.keyLt, hkey, hcmp]
  have hheap : ∀ a, (b2.heap a).isSome = (b.heap a).isSome := by
    intro a
    have := hkey .left a
    simp only [Bimap.key] at this
    cases h6 : b2.heap a <;> cases h7 : b.heap a <;> simp [h6, h7] at this ⊢
  refine ⟨b2, ?_, ?_, hsame.self, hsame.size_, hsame.compare_left_, hsame.compare_right_, hkey⟩
  · have hne1 : Bimap.empty ({ b with self := self1 } : Bimap L R) = false := hne
    simp only [Bimap.update_parents, hne1, Bool.false_eq_true, if_false, h1, ok_bind, h2]
  · refine ⟨⟨hL2.shape, ?_, ?_⟩, ⟨hR2.shape, ?_, ?_⟩, hinv.perm, hsame.size_.trans hinv.size, ?_,
      ?_, ?_, ?_⟩
    · have := hL2.sentinel
      rw [hg2]
      exact this
    · rw [hlt]; exact hinv.left.sorted
    · have := hR2.sentinel
      rw [hg1] at this
      rw [hg2]
      exact this
    · rw [hlt]; exact hinv.right.sorted
    · intro a; rw [hheap a]; exact hinv.dom a
    · intro a ha
      have h6 := hinv.fresh a (by rw [← hsame.brk]; exact ha)
      have h7 := hheap a
      rw [h6] at h7
      cases h8 : b2.heap a with
      | none => rfl
      | some e => simp [h8] at h7
    · rw [hsame.compare_left_]; exact hinv.order_left
    · rw [hsame.compare_right_]; exact hinv.order_right


/-! ## The nodes below a sentinel -/

theorem root_eq_element {t : Tree} {a : Nat} (h : t.root = some (.element a)) :
    ∃ l r, t = .node l a r := by
  cases t with
  | nil => simp at h
  | node l x r =>
    simp only [root_node, Option.some.injEq, Ref.element.injEq] at h
    subst h
    exact ⟨l, r, rfl⟩

theorem Links.mem_of_inTree {b : Bimap L R} {s : Side} {t : Tree} (hn : Links b s t) {a : Nat}
    (h : InTree b s a) : a ∈ t.toList := by
  induction h with
  | root hroot =>
    rw [hn.anchor] at hroot
    cases t with
    | nil => simp [Bimap.get_sentinel] at hroot
    | node l x r =>
      simp only [root_node, Option.getD_some, Option.some.injEq, Ref.element.injEq] at hroot
      subst hroot
      simp
  | left _ hbase hleft ih =>
    obtain ⟨c0, l, r, ht⟩ := exists_plug_of_mem ih
    rw [hn.base_at ht] at hbase
    cases hbase
    obtain ⟨l1, r1, hl⟩ := root_eq_element hleft
    rw [ht, toList_plug, hl]
    simp
  | right _ hbase hright ih =>
    obtain ⟨c0, l, r, ht⟩ := exists_plug_of_mem ih
    rw [hn.base_at ht] at hbase
    cases hbase
    obtain ⟨l1, r1, hr⟩ := root_eq_element hright
    rw [ht, toList_plug, hr]
    simp

theorem shape_inTree {b : Bimap L R} {s : Side} :
    ∀ (t : Tree) (p : Ref), Shape b s t p →
      (∀ a, t.root = some (.element a) → InTree b s a) → ∀ x ∈ t.toList, InTree b s x := by
  intro t
  induction t with
  | nil => intro p _ _ x hx; simp [Tree.toList] at hx
  | node l a r ihl ihr =>
    intro p hsh hroot x hx
    have ha : InTree b s a := hroot a rfl
    obtain ⟨hb, hl, hr⟩ := hsh
    simp only [toList_node, List.mem_append, List.mem_cons] at hx
    rcases hx with hx | hx | hx
    · exact ihl _ hl (fun c hc => InTree.left ha hb hc) x hx
    · rw [hx]; exact ha
    · exact ihr _ hr (fun c hc => InTree.right ha hb hc) x hx

theorem Links.inTree_iff {b : Bimap L R} {s : Side} {t : Tree} (hn : Links b s t) (a : Nat) :
    InTree b s a ↔ a ∈ t.toList := by
  refine ⟨hn.mem_of_inTree, shape_inTree t _ hn.shape ?_ a⟩
  intro a0 h0
  refine InTree.root ?_
  rw [hn.anchor, h0]
  rfl

theorem SideView.inTree_iff_live {b : Bimap L R} {s : Side} {t : Tree} (h : SideView b s t)
    (a : Nat) : InTree b s a ↔ (b.heap a).isSome = true := by
  rw [h.to_nav.toLinks.inTree_iff a, h.dom a]

/-! ## The cache of the sentinel -/

theorem SideView.isMax_last {b : Bimap L R} {s : Side} {t : Tree} (h : SideView b s t)
    {A : List Nat} {m : Nat} (hl : t.toList = A ++ [m]) : b.IsMax s m := by
  have hm : m ∈ t.toList := by rw [hl]; simp
  obtain ⟨k, hk⟩ := h.key_of_mem hm s
  refine ⟨k, hk, fun a1 k1 hk1 => ?_⟩
  have ha1 := h.mem_of_key hk1
  rw [hl] at ha1
  simp only [List.mem_append, List.mem_singleton] at ha1
  rcases ha1 with ha1 | ha1
  · right
    have hs := h.inv.sorted
    rw [hl] at hs
    simp only [List.pairwise_append, List.mem_singleton, forall_eq] at hs
    obtain ⟨k2, k3, h2, h3, h4⟩ := hs.2.2 a1 ha1
    rw [hk1] at h2; cases h2
    rw [hk] at h3; cases h3
    exact h4
  · exact Or.inl ha1

theorem SideView.isMin_first {b : Bimap L R} {s : Side} {t : Tree} (h : SideView b s t)
    {B : List Nat} {m : Nat} (hl : t.toList = m :: B) : b.IsMin s m := by
  have hm : m ∈ t.toList := by rw [hl]; simp
  obtain ⟨k, hk⟩ := h.key_of_mem hm s
  refine ⟨k, hk, fun a1 k1 hk1 => ?_⟩
  have ha1 := h.mem_of_key hk1
  rw [hl] at ha1
  simp only [List.mem_cons] at ha1
  rcases ha1 with ha1 | ha1
  · exact Or.inl ha1
  · right
    have hs := h.inv.sorted
    rw [hl] at hs
    simp only [List.pairwise_cons] at hs
    obtain ⟨k2, k3, h2, h3, h4⟩ := hs.1 a1 ha1
    rw [hk] at h2; cases h2
    rw [hk1] at h3; cases h3
    exact h4

theorem SideView.ne_nil {b : Bimap L R} {s : Side} {t : Tree} (h : SideView b s t)
    (hne : b.empty = false) : t.toList ≠ [] := by
  intro h1
  have h2 := h.size
  rw [h1] at h2
  simp [Bimap.empty, Bimap.size, h2] at hne

theorem SideView.empty_iff {b : Bimap L R} {s : Side} {t : Tree} (h : SideView b s t) :
    b.empty = true ↔ t.toList = [] := by
  simp only [Bimap.empty, Bimap.size, h.size, beq_iff_eq, List.length_eq_zero]

/-- The cache of a non-empty side: the left link of the sentinel references the greatest
element, the right link the least, the parent link the root, whose parent link references
the sentinel. -/
theorem SideView.cache {b : Bimap L R} {s : Side} {t : Tree} (h : SideView b s t)
    (hne : b.empty = false) :
    ∃ amax amin root e, b.sentinel_ s =
        { parent_ := some (.element root), left_ := some (.element amax),
          right_ := some (.element amin) } ∧
      b.IsMax s amax ∧ b.IsMin s amin ∧ b.base s (.element root) = .ok e ∧
      e.parent_ = some b.get_sentinel := by
  have hnn := h.ne_nil hne
  have hs := h.inv.sentinel
  unfold SentinelFor at hs
  obtain ⟨l, a, r, rfl⟩ : ∃ l a r, t = .node l a r := by
    cases t with
    | nil => simp [Tree.toList] at hnn
    | node l a r => exact ⟨l, a, r, rfl⟩
  obtain ⟨A, m, hA⟩ : ∃ A m, (Tree.node l a r).toList = A ++ [m] := by
    rcases List.eq_nil_or_concat (Tree.node l a r).toList with h1 | ⟨A, m, h1⟩
    · exact absurd h1 hnn
    · exact ⟨A, m, by simpa using h1⟩
  obtain ⟨m1, B, hB⟩ : ∃ m1 B, (Tree.node l a r).toList = m1 :: B := by
    cases h1 : (Tree.node l a r).toList with
    | nil => exact absurd h1 hnn
    | cons m1 B => exact ⟨m1, B, rfl⟩
  refine ⟨m, m1, a, _, ?_, h.isMax_last hA, h.isMin_first hB, h.inv.shape.1, rfl⟩
  rw [hs]
  simp only [root_node, Option.getD_some]
  rw [hA, lastD_append_singleton, ← hA, hB, firstD_cons]

theorem SideView.sentinel_empty {b : Bimap L R} {s : Side} {t : Tree} (h : SideView b s t)
    (he : b.empty = true) : b.sentinel_ s = reset b.get_sentinel := by
  have h1 := h.empty_iff.1 he
  have h2 : t = .nil := toList_eq_nil.1 h1
  subst h2
  have hs := h.inv.sentinel
  unfold SentinelFor at hs
  rw [hs]
  rfl

theorem SideView.operator_dec_end {b : Bimap L R} {s : Side} {t : Tree} (h : SideView b s t) :
    ct.operator_dec b s (some b.get_sentinel) = .ok (b.sentinel_ s).left_ :=
  h.to_nav.operator_dec_sentinel


/-! ## Erasure in terms of the stored keys -/

theorem filter_not_mem_singleton (xs : List Nat) (n : Nat) :
    xs.filter (fun a => decide (a ∉ [n])) = xs.filter (fun a => decide (a ≠ n)) := by
  congr 1
  funext a
  simp

theorem Erased.size_eq {b b1 : Bimap L R} {M : List Nat} (h : Erased b b1 M) :
    b1.size + M.length = b.size := h.size_

theorem Erased.sentinel_eq {b b1 : Bimap L R} {M : List Nat} (h : Erased b b1 M) :
    b1.get_sentinel = b.get_sentinel := by
  simp [Bimap.get_sentinel, h.self]

theorem Erased.compare_eq {b b1 : Bimap L R} {M : List Nat} (h : Erased b b1 M) (s : Side) :
    b1.get_compare s = b.get_compare s := by
  cases s
  · exact h.compare_left_
  · exact h.compare_right_

theorem mem_filter_not_mem {xs M : List Nat} {a : Nat}
    (h : a ∈ xs.filter (fun a => decide (a ∉ M))) : a ∈ xs ∧ a ∉ M := by
  simpa using h

/-- After the erasure of the element whose key is equivalent to `k`, no key is. -/
theorem find_after_erase {b b1 : Bimap L R} {t t1 : Tree} {s : Side} {n : Nat}
    (hv : SideView b s t) (hv1 : SideView b1 s t1) (her : Erased b b1 [n])
    (hl : t1.toList = t.toList.filter (fun a => decide (a ∉ [n])))
    (hn : n ∈ t.toList) {k : Key L R s} (hk : b.keyEquiv s k n) :
    find_impl b1 s k = .ok (some b1.get_sentinel) := by
  rcases hv1.find_impl k with ⟨h1, -⟩ | ⟨a, ha, -, h2⟩
  · exact h1
  · exfalso
    rw [hl] at ha
    obtain ⟨hat, han⟩ := mem_filter_not_mem ha
    obtain ⟨ka, hka, he⟩ := h2
    rw [her.key_old s a han, her.compare_eq s] at *
    have h3 : b.keyEquiv s k a := ⟨ka, hka, he⟩
    have := hv.equiv_unique hat hn h3 hk
    simp [this] at han

theorem erase_val_correct {b : Bimap L R} {tl tr : Tree} (hinv : Inv b tl tr) (s : Side)
    (hne : b.empty = false) (k : Key L R s) :
    ∃ b1 found, erase_val_impl b s k = .ok (b1, found) ∧
      (found = true ↔ ∃ a ka, b.key s a = some ka ∧ Equiv (b.get_compare s) ka k) ∧
      (found = true → b1.size + 1 = b.size ∧ find_impl b1 s k = .ok (some b1.get_sentinel) ∧
        ∀ a ka v, b.key s a = some ka → Equiv (b.get_compare s) ka k →
          b.key s.opposite a = some v →
          find_impl b1 s.opposite v = .ok (some b1.get_sentinel)) ∧
      (found = false → b1 = b) := by
  have hv := hinv.view s
  have hvo := hinv.view s.opposite
  rcases erase_val_total hinv s hne k with
    ⟨A, B, n, hAB, hkn, b1, tl1, tr1, h1, hinv1, her, hlists⟩ | ⟨h1, h2⟩
  · have hn : n ∈ (sideTree s tl tr).toList := by rw [hAB]; simp
    obtain ⟨kn, hkn1, hkn2⟩ := hkn
    refine ⟨b1, true, h1, ?_, ?_, by simp⟩
    · simp only [true_iff]
      exact ⟨n, kn, hkn1, hkn2⟩
    · intro _
      refine ⟨her.size_eq, find_after_erase hv (hinv1.view s) her (hlists s) hn ⟨kn, hkn1, hkn2⟩,
        ?_⟩
      intro a ka v hka he hv1
      have ha : a ∈ (sideTree s tl tr).toList := hv.mem_of_key hka
      have han : a = n := hv.equiv_unique ha hn ((keyEquiv_iff hka k).2 he) ⟨kn, hkn1, hkn2⟩
      subst han
      have hno : a ∈ (sideTree s.opposite tl tr).toList := hvo.mem_of_key hv1
      exact find_after_erase hvo (hinv1.view s.opposite) her (hlists s.opposite) hno
        (hvo.keyEquiv_self hv1)
  · refine ⟨b, false, h2, ?_, by simp, fun _ => rfl⟩
    simp only [Bool.false_eq_true, false_iff, not_exists, not_and]
    intro a ka hka he
    exact h1 a (hv.mem_of_key hka) ((keyEquiv_iff hka k).2 he)

/-! ## Erasure of a range -/

theorem rangeErased_of {b b1 : Bimap L R} {tl tr tl1 tr1 : Tree} {M : List Nat}
    (hinv : Inv b tl tr) (hinv1 : Inv b1 tl1 tr1) (her : Erased b b1 M)
    (hlists : ∀ s1, (sideTree s1 tl1 tr1).toList =
      (sideTree s1 tl tr).toList.filter (fun a => decide (a ∉ M))) :
    RangeErased b b1 M := by
  refine ⟨her.size_eq, her.gone, her.key_old, fun s => ⟨(sideTree s tl tr).toList, ?_, ?_⟩⟩
  · exact (hinv.view s).traverse_all
  · rw [← hlists s]
    exact (hinv1.view s).traverse_all

theorem erase_range_correct {b : Bimap L R} {tl tr : Tree} (hinv : Inv b tl tr) (s : Side)
    {first last : Ptr} {M : List Nat}
    (h : traverse b s last b.fuel first = .ok (M.map (fun a => some (Ref.element a)))) :
    ∃ b1, erase_range_impl b s first last = .ok (b1, last) ∧ RangeErased b b1 M := by
  by_cases hM : M = []
  · subst hM
    have h1 := traverse_nil h
    subst h1
    refine ⟨b, ?_, ?_⟩
    · simp only [erase_range_impl, Bimap.fuel, erase_loop_succ]
      simp
    · exact rangeErased_of hinv hinv ⟨rfl, rfl, rfl, rfl, rfl, by simp, fun _ _ _ => rfl⟩
        (fun s1 => by simp)
  · obtain ⟨A, B, hl, hf, hla⟩ := (hinv.view s).traverse_inv last M b.fuel first h hM
    subst hf hla
    obtain ⟨b1, tl1, tr1, h1, hinv1, her, hlists⟩ := erase_range_total hinv s hl
    exact ⟨b1, h1, rangeErased_of hinv hinv1 her hlists⟩

/-! ## Lock-step comparison by index -/

theorem forall₂_iff_index {α β : Type} (P : α → β → Prop) :
    ∀ (xs : List α) (ys : List β), xs.length = ys.length →
      (List.Forall₂ P xs ys ↔ ∀ (i : Nat) x y, xs[i]? = some x → ys[i]? = some y → P x y) := by
  intro xs
  induction xs with
  | nil =>
    intro ys hlen
    have : ys = [] := List.length_eq_zero.1 hlen.symm
    subst this
    simp
  | cons x xs ih =>
    intro ys hlen
    cases ys with
    | nil => simp at hlen
    | cons y ys =>
      simp only [List.length_cons, add_left_inj] at hlen
      rw [List.forall₂_cons, ih ys hlen]
      constructor
      · rintro ⟨h1, h2⟩ i x1 y1 hx hy
        cases i with
        | zero =>
          simp only [List.getElem?_cons_zero, Option.some.injEq] at hx hy
          subst hx hy
          exact h1
        | succ i =>
          simp only [List.getElem?_cons_succ] at hx hy
          exact h2 i x1 y1 hx hy
      · intro h
        refine ⟨h 0 x y (by simp) (by simp), fun i x1 y1 hx hy => ?_⟩
        exact h (i + 1) x1 y1 (by simpa using hx) (by simpa using hy)

/-! ## Containers that took over the elements of another -/

theorem moved_of {src dst : Bimap L R} {tl tr : Tree} (hs : Inv src tl tr) (hd : Inv dst tl tr)
    (hne : src.empty = false) (hsize : dst.size_ = src.size_)
    (hcl : dst.compare_left_ = src.compare_left_) (hcr : dst.compare_right_ = src.compare_right_)
    (hkey : ∀ s x, dst.key s x = src.key s x) : Moved src dst := by
  have hdne : dst.empty = false := by
    simp only [Bimap.empty, Bimap.size, hsize] at hne ⊢
    exact hne
  refine ⟨hsize, hcl, hcr, hkey, fun s => ⟨(sideTree s tl tr).toList, (hs.view s).traverse_all,
    (hd.view s).traverse_all⟩, fun s => ?_⟩
  obtain ⟨amax, amin, root, e, h1, -, -, h2, h3⟩ := (hd.view s).cache hdne
  exact ⟨root, e, by rw [h1], h2, h3⟩

theorem swap_eq (lhs rhs : Bimap L R) :
    swap lhs rhs = (do
      let l2 ← Bimap.update_parents ({ rhs with self := lhs.self } : Bimap L R)
      let r2 ← Bimap.update_parents ({ lhs with self := rhs.self } : Bimap L R)
      pure (l2, r2)) := rfl

theorem move_construct_eq (self : Nat) (other : Bimap L R) :
    move_construct self other = (do
      let l2 ← Bimap.update_parents ({ other with self := self } : Bimap L R)
      pure (l2, { other with size_ := 0, sentinel_ := (fun _ => reset (.sentinel self)),
                             heap := (fun _ => none), brk := 0 })) := by
  simp only [move_construct, swap_without_compare, Bimap.mk_empty]
  cases Bimap.update_parents ({ other with self := self } : Bimap L R) with
  | error e => rfl
  | ok l2 => rfl


/-! ## The containers of further scenarios -/

theorem reachable_after_erase_left {b : Bimap L R} (h : Reachable b) (it : Ptr) :
    Reachable (after_erase_left b it) := by
  unfold after_erase_left
  cases h1 : b.erase_left it with
  | error e => exact h
  | ok p =>
    obtain ⟨b1, next⟩ := p
    exact Reachable.erase_left it next h h1

theorem demo_pair_reachable : Reachable demo_pair :=
  reachable_after_insert (reachable_after_insert
    (Reachable.mk_empty 1 nat_less string_less nat_less_order string_less_order) 7 "p") 5 "q"

theorem demo_two_reachable : Reachable demo_two :=
  reachable_after_insert (reachable_after_insert demo_empty_reachable 1 "a") 2 "b"

theorem demo_two_less_reachable : Reachable demo_two_less :=
  reachable_after_erase_left demo_two_reachable demo_two.begin_left

theorem demo_erased_reachable : Reachable demo_erased :=
  reachable_after_erase_left demo_two_less_reachable demo_two_less.begin_left

/-! ## Claims on erasure, the caches and the set of nodes -/

/-- Claim C11. For every reachable container and every pair `(l, r)`, the calls
`erase_left(insert(l, r))` return and leave a container with the size it had before that
compares equal, by `operator==`, to the container before the two calls. This covers the
accepted insert and the rejected one, where `erase_left(end_left())` does nothing. -/
theorem erase_insert_round_trip (b : Bimap L R) (h : Reachable b) (l : L) (r : R) :
    ∃ b1 it b2 next, b.insert l r = .ok (b1, it) ∧ b1.erase_left it = .ok (b2, next) ∧
      b2.size = b.size ∧ operator_eq b2 b = .ok true := by
  obtain ⟨tl, tr, hinv⟩ := reachable_inv h
  have heq : ∀ (b2 : Bimap L R) (tl2 tr2 : Tree), Inv b2 tl2 tr2 → tl2.toList = tl.toList →
      b2.size = b.size → (∀ s a, a ∈ tl2.toList → b.key s a = b2.key s a) →
      operator_eq b2 b = .ok true := by
    intro b2 tl2 tr2 hinv2 hl hsz hk
    obtain ⟨v, h1, h2⟩ := operator_eq_spec hinv2 hinv
    have h3 : v = true := by
      refine h2.2 ⟨hsz, ?_⟩
      rw [← hl]
      exact samePair_refl_of_keys hinv2 hk tl2.toList (fun _ ha => ha)
    rw [h1, h3]
  rcases insert_spec hinv l r with ⟨-, h1⟩ | ⟨-, -, b1, tl1, tr1, h1, hg, hinv1, hiL, -⟩
  · refine ⟨b, b.end_left, b, some b.get_sentinel, h1, erase_it_end hinv .left, rfl, ?_⟩
    exact heq b tl tr hinv rfl rfl (fun _ _ _ => rfl)
  · obtain ⟨P, Q, hPQ, hPQ1, -, -⟩ := hiL
    obtain ⟨b2, tl2, tr2, h2, hinv2, her, hlists⟩ :=
      erase_it_total hinv1 .left (A := P) (B := Q) (n := b.brk) hPQ1
    have hl2 : tl2.toList = tl.toList := by
      have h3 := hlists .left
      simp only [sideTree] at h3
      rw [h3, filter_not_mem_singleton, hPQ1, filter_drop_mid (hPQ1 ▸ hinv1.nodup_left), hPQ]
    have hsz : b2.size = b.size := by
      have h3 := her.size_
      have h4 := hg.size_
      simp only [List.length_singleton] at h3
      simp only [Bimap.size]
      omega
    refine ⟨b1, _, b2, _, h1, h2, hsz, heq b2 tl2 tr2 hinv2 hl2 hsz ?_⟩
    intro s a ha
    have hab : a ≠ b.brk := by
      intro h3
      have h4 := (hinv.dom a).2 (hl2 ▸ ha)
      rw [h3, hinv.fresh _ (le_refl _)] at h4
      simp at h4
    rw [her.key_old s a (by simpa using hab), hg.key_old s a hab]

theorem erase_insert_round_trip_witness :
    Reachable demo_one ∧
    ∃ b1 it b2 next, demo_one.insert 7 "z" = .ok (b1, it) ∧ b1.erase_left it = .ok (b2, next) ∧
      b2.size = demo_one.size ∧ operator_eq b2 demo_one = .ok true :=
  ⟨demo_one_reachable, erase_insert_round_trip demo_one demo_one_reachable 7 "z"⟩

/-- Claim C12. In every non-empty reachable container `erase_left(k)` returns, and returns
true exactly when an element has a left key equivalent to `k`; then the size is smaller by
one, `find_left(k)` is `end_left()` and `find_right(r)` is `end_right()` for the right key
`r` of that element; when it returns false the container is as before. `erase_right(k)`
behaves the same with the sides exchanged. -/
theorem erase_key_correct (b : Bimap L R) (h : Reachable b) (hne : b.empty = false)
    (kl : L) (kr : R) :
    (∃ b1 found, b.erase_left_key kl = .ok (b1, found) ∧
      (found = true ↔ ∃ a l, b.key .left a = some l ∧ Equiv b.compare_left_ l kl) ∧
      (found = true → b1.size + 1 = b.size ∧ b1.find_left kl = .ok b1.end_left ∧
        ∀ a l r, b.key .left a = some l → Equiv b.compare_left_ l kl →
          b.key .right a = some r → b1.find_right r = .ok b1.end_right) ∧
      (found = false → b1 = b)) ∧
    (∃ b1 found, b.erase_right_key kr = .ok (b1, found) ∧
      (found = true ↔ ∃ a r, b.key .right a = some r ∧ Equiv b.compare_right_ r kr) ∧
      (found = true → b1.size + 1 = b.size ∧ b1.find_right kr = .ok b1.end_right ∧
        ∀ a l r, b.key .right a = some r → Equiv b.compare_right_ r kr →
          b.key .left a = some l → b1.find_left l = .ok b1.end_left) ∧
      (found = false → b1 = b)) := by
  obtain ⟨tl, tr, hinv⟩ := reachable_inv h
  constructor
  · obtain ⟨b1, found, h1, h2, h3, h4⟩ := erase_val_correct hinv .left hne kl
    exact ⟨b1, found, h1, h2, fun hf => ⟨(h3 hf).1, (h3 hf).2.1, (h3 hf).2.2⟩, h4⟩
  · obtain ⟨b1, found, h1, h2, h3, h4⟩ := erase_val_correct hinv .right hne kr
    exact ⟨b1, found, h1, h2,
      fun hf => ⟨(h3 hf).1, (h3 hf).2.1, fun a l r hr he hl => (h3 hf).2.2 a r l hr he hl⟩, h4⟩

theorem erase_key_correct_witness :
    Reachable demo_three ∧ demo_three.empty = false ∧
    (∃ b1 found, demo_three.erase_left_key 2 = .ok (b1, found) ∧
      (found = true ↔
        ∃ a l, demo_three.key .left a = some l ∧ Equiv demo_three.compare_left_ l 2) ∧
      (found = true → b1.size + 1 = demo_three.size ∧ b1.find_left 2 = .ok b1.end_left ∧
        ∀ a l r, demo_three.key .left a = some l → Equiv demo_three.compare_left_ l 2 →
          demo_three.key .right a = some r → b1.find_right r = .ok b1.end_right) ∧
      (found = false → b1 = demo_three)) ∧
    (∃ b1 found, demo_three.erase_right_key "d" = .ok (b1, found) ∧
      (found = true ↔
        ∃ a r, demo_three.key .right a = some r ∧ Equiv demo_three.compare_right_ r "d") ∧
      (found = true → b1.size + 1 = demo_three.size ∧ b1.find_right "d" = .ok b1.end_right ∧
        ∀ a l r, demo_three.key .right a = some r → Equiv demo_three.compare_right_ r "d" →
          demo_three.key .left a = some l → b1.find_left l = .ok b1.end_left) ∧
      (found = false → b1 = demo_three)) :=
  ⟨demo_three_reachable, rfl, erase_key_correct demo_three demo_three_reachable rfl 2 "d"⟩

/-- A scenario on the container with the pairs (2, "b"), (1, "a"), (3, "c"): `erase_left(2)`
returns true and leaves the size 2, `erase_right("d")` returns false. -/
theorem demo_three_erase_key :
    (demo_three.erase_left_key 2).map (fun p => (p.1.size, p.2)) = .ok (2, true) ∧
    (demo_three.erase_right_key "d").map (fun p => (p.1.size, p.2)) = .ok (3, false) :=
  ⟨rfl, rfl⟩


/-- Claim C13. In every reachable container, for a range of the left view from `firstL` to
`lastL` that `operator++` walks through, visiting the elements `ML`, `erase_left(firstL,
lastL)` returns `lastL`; afterwards the size is smaller by the number of elements of the
range, these elements are gone from both trees, and every other element is still present
with its pair of keys. `erase_right(firstR, lastR)` behaves the same for a range of the right
view. -/
theorem erase_range_removes (b : Bimap L R) (h : Reachable b)
    (firstL lastL : Ptr) (ML : List Nat)
    (hL : traverse b .left lastL b.fuel firstL = .ok (ML.map (fun a => some (Ref.element a))))
    (firstR lastR : Ptr) (MR : List Nat)
    (hR : traverse b .right lastR b.fuel firstR =
      .ok (MR.map (fun a => some (Ref.element a)))) :
    (∃ b1, b.erase_left_range firstL lastL = .ok (b1, lastL) ∧ RangeErased b b1 ML) ∧
    (∃ b1, b.erase_right_range firstR lastR = .ok (b1, lastR) ∧ RangeErased b b1 MR) := by
  obtain ⟨tl, tr, hinv⟩ := reachable_inv h
  exact ⟨erase_range_correct hinv .left hL, erase_range_correct hinv .right hR⟩

theorem erase_range_removes_witness :
    Reachable demo_three ∧
    traverse demo_three .left (some (.element 2)) demo_three.fuel demo_three.begin_left =
      .ok ([1, 0].map (fun a => some (Ref.element a))) ∧
    traverse demo_three .right demo_three.end_right demo_three.fuel (some (.element 0)) =
      .ok ([0, 2].map (fun a => some (Ref.element a))) ∧
    (∃ b1, demo_three.erase_left_range demo_three.begin_left (some (.element 2)) =
        .ok (b1, some (.element 2)) ∧ RangeErased demo_three b1 [1, 0]) ∧
    (∃ b1, demo_three.erase_right_range (some (.element 0)) demo_three.end_right =
        .ok (b1, demo_three.end_right) ∧ RangeErased demo_three b1 [0, 2]) :=
  ⟨demo_three_reachable, rfl, rfl,
    erase_range_removes demo_three demo_three_reachable demo_three.begin_left
      (some (.element 2)) [1, 0] rfl (some (.element 0)) demo_three.end_right [0, 2] rfl⟩

/-- A scenario on the container with the pairs (2, "b"), (1, "a"), (3, "c"): erasing the
left range from `begin_left()` to the element with the key 3 leaves the size 1 and the left
key 3 at the begin of the left view. -/
theorem demo_three_erase_range :
    (demo_three.erase_left_range demo_three.begin_left (some (.element 2))).map
      (fun p => (p.1.size, operator_deref p.1 .left p.1.begin_left, p.2)) =
      .ok (1, .ok 3, some (.element 2)) := rfl

/-- Claim C14. In every non-empty reachable container `operator--` on `end_left()` returns
the cached left link of the left sentinel, read without a walk through the tree, and this
link references the element with the greatest left key; `operator--` on `end_right()` does
the same for the right keys. -/
theorem end_decrement_max (b : Bimap L R) (h : Reachable b) (hne : b.empty = false) :
    (∃ a, operator_dec b .left b.end_left = .ok (some (.element a)) ∧
      (b.sentinel_ .left).left_ = some (.element a) ∧ b.IsMax .left a) ∧
    (∃ a, operator_dec b .right b.end_right = .ok (some (.element a)) ∧
      (b.sentinel_ .right).left_ = some (.element a) ∧ b.IsMax .right a) := by
  obtain ⟨tl, hvl⟩ := reachable_view h .left
  obtain ⟨tr, hvr⟩ := reachable_view h .right
  obtain ⟨a1, m1, ro1, e1, h1, h2, -, -, -⟩ := hvl.cache hne
  obtain ⟨a2, m2, ro2, e2, h3, h4, -, -, -⟩ := hvr.cache hne
  refine ⟨⟨a1, ?_, by rw [h1], h2⟩, ⟨a2, ?_, by rw [h3], h4⟩⟩
  · have := hvl.operator_dec_end
    rw [h1] at this
    exact this
  · have := hvr.operator_dec_end
    rw [h3] at this
    exact this

theorem end_decrement_max_witness :
    Reachable demo_three ∧ demo_three.empty = false ∧
    (∃ a, operator_dec demo_three .left demo_three.end_left = .ok (some (.element a)) ∧
      (demo_three.sentinel_ .left).left_ = some (.element a) ∧ demo_three.IsMax .left a) ∧
    (∃ a, operator_dec demo_three .right demo_three.end_right = .ok (some (.element a)) ∧
      (demo_three.sentinel_ .right).left_ = some (.element a) ∧ demo_three.IsMax .right a) :=
  ⟨demo_three_reachable, rfl, end_decrement_max demo_three demo_three_reachable rfl⟩

/-- A scenario on the container with the pairs (2, "b"), (1, "a"), (3, "c"): the iterator
`--end_left()` dereferences to 3 and `--end_right()` to "c". -/
theorem demo_three_end_decrement :
    (operator_dec demo_three .left demo_three.end_left >>= operator_deref demo_three .left) =
      .ok 3 ∧
    (operator_dec demo_three .right demo_three.end_right >>= operator_deref demo_three .right) =
      .ok "c" :=
  ⟨rfl, rfl⟩

/-- Claim C15. In every reachable container, hence after every `insert` and `erase`, the
elements linked below the root of the left sentinel are the elements linked below the root
of the right sentinel, and their number is `size()`. -/
theorem same_node_set (b : Bimap L R) (h : Reachable b) :
    (∀ a, InTree b .left a ↔ InTree b .right a) ∧
    ∃ xs : List Nat, xs.Nodup ∧ (∀ a, a ∈ xs ↔ InTree b .left a) ∧ xs.length = b.size := by
  obtain ⟨tl, hvl⟩ := reachable_view h .left
  obtain ⟨tr, hvr⟩ := reachable_view h .right
  refine ⟨fun a => by rw [hvl.inTree_iff_live a, hvr.inTree_iff_live a], tl.toList, hvl.nodup_list,
    fun a => ?_, hvl.size.symm⟩
  rw [hvl.inTree_iff_live a, hvl.dom a]

theorem same_node_set_witness :
    Reachable demo_three ∧
    (∀ a, InTree demo_three .left a ↔ InTree demo_three .right a) ∧
    ∃ xs : List Nat, xs.Nodup ∧ (∀ a, a ∈ xs ↔ InTree demo_three .left a) ∧
      xs.length = demo_three.size :=
  ⟨demo_three_reachable, same_node_set demo_three demo_three_reachable⟩


/-! ## Claims on the sentinels, equality, copies and swaps -/

theorem SideView.cache_keys {b : Bimap L R} {s : Side} {t : Tree} (h : SideView b s t)
    (hne : b.empty = false) :
    ∃ amax amin k, (b.sentinel_ s).left_ = some (.element amax) ∧ b.IsMax s amax ∧
      (b.sentinel_ s).right_ = some (.element amin) ∧ b.IsMin s amin ∧
      b.key s amin = some k ∧ operator_deref b s (b.sentinel_ s).right_ = .ok k := by
  obtain ⟨amax, amin, root, e, h1, h2, h3, -, -⟩ := h.cache hne
  obtain ⟨k, hk, hmin⟩ := h3
  refine ⟨amax, amin, k, by rw [h1], h2, by rw [h1], ⟨k, hk, hmin⟩, hk, ?_⟩
  rw [h1]
  exact operator_deref_eq hk

theorem SideView.begin_eq_end_iff {b : Bimap L R} {s : Side} {t : Tree} (h : SideView b s t) :
    b.empty = true ↔ (b.sentinel_ s).right_ = some b.get_sentinel := by
  cases he : b.empty with
  | true =>
    simp only [true_iff]
    rw [h.sentinel_empty he]
    rfl
  | false =>
    obtain ⟨amax, amin, root, e, h1, -, -, -, -⟩ := h.cache he
    simp [h1, Bimap.get_sentinel]

/-- Claim C16. In every non-empty reachable container, hence after every `insert` and
`erase`, on each side the left link of the sentinel references the element with the
greatest key of the side and the right link the element with the least key, so that
`begin_left()` dereferences to the least left key and `begin_right()` to the least right
key. -/
theorem sentinel_cache_extremes (b : Bimap L R) (h : Reachable b) (hne : b.empty = false) :
    (∃ amax amin k, (b.sentinel_ .left).left_ = some (.element amax) ∧ b.IsMax .left amax ∧
      (b.sentinel_ .left).right_ = some (.element amin) ∧ b.IsMin .left amin ∧
      b.key .left amin = some k ∧ operator_deref b .left b.begin_left = .ok k) ∧
    (∃ amax amin k, (b.sentinel_ .right).left_ = some (.element amax) ∧ b.IsMax .right amax ∧
      (b.sentinel_ .right).right_ = some (.element amin) ∧ b.IsMin .right amin ∧
      b.key .right amin = some k ∧ operator_deref b .right b.begin_right = .ok k) := by
  obtain ⟨tl, hvl⟩ := reachable_view h .left
  obtain ⟨tr, hvr⟩ := reachable_view h .right
  exact ⟨hvl.cache_keys hne, hvr.cache_keys hne⟩

theorem sentinel_cache_extremes_witness :
    Reachable demo_two_less ∧ demo_two_less.empty = false ∧
    (∃ amax amin k, (demo_two_less.sentinel_ .left).left_ = some (.element amax) ∧
      demo_two_less.IsMax .left amax ∧
      (demo_two_less.sentinel_ .left).right_ = some (.element amin) ∧
      demo_two_less.IsMin .left amin ∧ demo_two_less.key .left amin = some k ∧
      operator_deref demo_two_less .left demo_two_less.begin_left = .ok k) ∧
    (∃ amax amin k, (demo_two_less.sentinel_ .right).left_ = some (.element amax) ∧
      demo_two_less.IsMax .right amax ∧
      (demo_two_less.sentinel_ .right).right_ = some (.element amin) ∧
      demo_two_less.IsMin .right amin ∧ demo_two_less.key .right amin = some k ∧
      operator_deref demo_two_less .right demo_two_less.begin_right = .ok k) :=
  ⟨demo_two_less_reachable, rfl,
    sentinel_cache_extremes demo_two_less demo_two_less_reachable rfl⟩

/-- A scenario: after the erasure of the least element of the container with the pairs
(1, "a"), (2, "b"), and after the insertion of a new least element, the begin of the left
view dereferences to the least left key. -/
theorem demo_cache_steps :
    operator_deref demo_two_less .left demo_two_less.begin_left = .ok 2 ∧
    operator_deref (after_insert demo_two 0 "c") .left (after_insert demo_two 0 "c").begin_left =
      .ok 0 ∧
    (operator_dec (after_insert demo_two 9 "c") .left (after_insert demo_two 9 "c").end_left >>=
      operator_deref (after_insert demo_two 9 "c") .left) = .ok 9 :=
  ⟨rfl, rfl, rfl⟩

/-- Claim C17. In every reachable container `empty()` holds exactly when `begin_left()` is
`end_left()`, and exactly when `begin_right()` is `end_right()`; in an empty reachable
container, as after the erasure of every element, the parent, left and right links of each
sentinel reference the sentinel itself. -/
theorem empty_iff_begin_is_end (b : Bimap L R) (h : Reachable b) :
    (b.empty = true ↔ b.begin_left = b.end_left) ∧
    (b.empty = true ↔ b.begin_right = b.end_right) ∧
    (b.empty = true → ∀ s, b.sentinel_ s = reset b.get_sentinel) := by
  obtain ⟨tl, tr, hinv⟩ := reachable_inv h
  refine ⟨hinv.view_left.begin_eq_end_iff, hinv.view_right.begin_eq_end_iff, fun he s => ?_⟩
  exact (hinv.view s).sentinel_empty he

theorem empty_iff_begin_is_end_witness :
    Reachable demo_erased ∧
    (demo_erased.empty = true ↔ demo_erased.begin_left = demo_erased.end_left) ∧
    (demo_erased.empty = true ↔ demo_erased.begin_right = demo_erased.end_right) ∧
    (demo_erased.empty = true → ∀ s, demo_erased.sentinel_ s = reset demo_erased.get_sentinel) :=
  ⟨demo_erased_reachable, empty_iff_begin_is_end demo_erased demo_erased_reachable⟩

/-- A scenario of the specification: after the erasure of the only two entries, one after
the other, the container is empty and `begin_left()` is `end_left()`. -/
theorem demo_erased_empty :
    demo_two.size = 2 ∧ demo_erased.empty = true ∧
    demo_erased.begin_left = demo_erased.end_left ∧
    demo_erased.begin_right = demo_erased.end_right :=
  ⟨rfl, rfl, rfl, rfl⟩

/-- Claim C18. For reachable containers `a` and `b`, `a == b` returns, and returns true
exactly when the sizes agree and, for every index, the elements at that index of the left
orders of `a` and of `b` hold equivalent left keys and equivalent right keys; the
comparisons are those of `a`, which are those of `b` when both use the same comparators.
`a != b` returns the negation. -/
theorem operator_eq_correct (a b : Bimap L R) (ha : Reachable a) (hb : Reachable b) :
    ∃ (xs ys : List Nat) (v : Bool),
      traverse a .left a.end_left a.fuel a.begin_left =
        .ok (xs.map (fun x => some (Ref.element x))) ∧
      traverse b .left b.end_left b.fuel b.begin_left =
        .ok (ys.map (fun x => some (Ref.element x))) ∧
      operator_eq a b = .ok v ∧
      (v = true ↔ a.size = b.size ∧
        ∀ (i : Nat) x y, xs[i]? = some x → ys[i]? = some y → SamePair a b x y) ∧
      operator_ne a b = .ok (!v) := by
  obtain ⟨tl, tr, hinva⟩ := reachable_inv ha
  obtain ⟨tl1, tr1, hinvb⟩ := reachable_inv hb
  obtain ⟨v, h1, h2⟩ := operator_eq_spec hinva hinvb
  refine ⟨tl.toList, tl1.toList, v, hinva.view_left.traverse_all, hinvb.view_left.traverse_all,
    h1, ?_, by simp [operator_ne, h1]⟩
  rw [h2]
  constructor
  · rintro ⟨h3, h4⟩
    have hlen : tl.toList.length = tl1.toList.length := by
      rw [← hinva.size, ← hinvb.size]; exact h3
    exact ⟨h3, (forall₂_iff_index _ _ _ hlen).1 h4⟩
  · rintro ⟨h3, h4⟩
    have hlen : tl.toList.length = tl1.toList.length := by
      rw [← hinva.size, ← hinvb.size]; exact h3
    exact ⟨h3, (forall₂_iff_index _ _ _ hlen).2 h4⟩

theorem operator_eq_correct_witness :
    Reachable demo_three ∧ Reachable demo_one ∧
    ∃ (xs ys : List Nat) (v : Bool),
      traverse demo_three .left demo_three.end_left demo_three.fuel demo_three.begin_left =
        .ok (xs.map (fun x => some (Ref.element x))) ∧
      traverse demo_one .left demo_one.end_left demo_one.fuel demo_one.begin_left =
        .ok (ys.map (fun x => some (Ref.element x))) ∧
      operator_eq demo_three demo_one = .ok v ∧
      (v = true ↔ demo_three.size = demo_one.size ∧
        ∀ (i : Nat) x y, xs[i]? = some x → ys[i]? = some y →
          SamePair demo_three demo_one x y) ∧
      operator_ne demo_three demo_one = .ok (!v) :=
  ⟨demo_three_reachable, demo_one_reachable,
    operator_eq_correct demo_three demo_one demo_three_reachable demo_one_reachable⟩

/-- A scenario: the container with the pairs (2, "b"), (1, "a"), (3, "c") equals the
container built from the same pairs in another order, and differs from a container that
pairs 3 with "d". -/
theorem demo_three_equality :
    operator_eq demo_three
      (after_insert (after_insert (after_insert demo_empty 3 "c") 2 "b") 1 "a") = .ok true ∧
    operator_eq demo_three
      (after_insert (after_insert (after_insert demo_empty 3 "d") 2 "b") 1 "a") = .ok false ∧
    operator_ne demo_three demo_one = .ok true :=
  ⟨rfl, rfl, rfl⟩


/-- Claim C19. For every reachable container `src`, the empty one included, the copy
constructor returns a reachable container of the size of `src` that compares equal to
`src` by `operator==`, in both directions, and whose elements in the order of the left keys
hold the pairs of `src` in the order of the left keys. The copy performs one `insert` per
element of `src`, so the equal sizes show that no `insert` was rejected. -/
theorem copy_correct (src : Bimap L R) (h : Reachable src) (self : Nat) :
    ∃ (dst : Bimap L R) (xs ds : List Nat), copy_construct self src = .ok dst ∧
      Reachable dst ∧ dst.size = src.size ∧
      operator_eq dst src = .ok true ∧ operator_eq src dst = .ok true ∧
      traverse src .left src.end_left src.fuel src.begin_left =
        .ok (xs.map (fun x => some (Ref.element x))) ∧
      traverse dst .left dst.end_left dst.fuel dst.begin_left =
        .ok (ds.map (fun x => some (Ref.element x))) ∧
      ds.map dst.pair = xs.map src.pair := by
  obtain ⟨tl, tr, hinv⟩ := reachable_inv h
  obtain ⟨dst, dl, dr, h1, h2, h3, -, h5, -, -, h8⟩ := copy_construct_spec hinv self
  have hlen : dl.toList.length = tl.toList.length := h8.length_eq
  refine ⟨dst, tl.toList, dl.toList, h1, h2, h5, ?_, ?_, hinv.view_left.traverse_all,
    h3.view_left.traverse_all, forall₂_map_eq h8⟩
  · obtain ⟨v, h9, h10⟩ := operator_eq_spec h3 hinv
    have : v = true := h10.2 ⟨h5, samePair_of_pair_eq h3 (fun _ hx => hx) h8⟩
    rw [h9, this]
  · obtain ⟨v, h9, h10⟩ := operator_eq_spec hinv h3
    have : v = true := h10.2 ⟨h5.symm, samePair_of_pair_eq hinv (fun _ hx => hx)
      (forall₂_flip_eq h8)⟩
    rw [h9, this]

theorem copy_correct_witness :
    Reachable demo_three ∧
    ∃ (dst : Bimap Nat String) (xs ds : List Nat), copy_construct 7 demo_three = .ok dst ∧
      Reachable dst ∧ dst.size = demo_three.size ∧
      operator_eq dst demo_three = .ok true ∧ operator_eq demo_three dst = .ok true ∧
      traverse demo_three .left demo_three.end_left demo_three.fuel demo_three.begin_left =
        .ok (xs.map (fun x => some (Ref.element x))) ∧
      traverse dst .left dst.end_left dst.fuel dst.begin_left =
        .ok (ds.map (fun x => some (Ref.element x))) ∧
      ds.map dst.pair = xs.map demo_three.pair :=
  ⟨demo_three_reachable, copy_correct demo_three demo_three_reachable 7⟩

/-- A scenario: the copy of the container with the pairs (2, "b"), (1, "a"), (3, "c") has
the size 3, and the copy of the empty container is empty. -/
theorem demo_three_copy :
    (copy_construct 7 demo_three).map (fun c => (c.size, c.pair 0, c.pair 1, c.pair 2)) =
      .ok (3, some (1, "a"), some (2, "b"), some (3, "c")) ∧
    (copy_construct 7 demo_empty).map (fun c => (c.size, decide (c.begin_left = c.end_left))) =
      .ok (0, true) :=
  ⟨rfl, rfl⟩

/-- Claim C20. For non-empty reachable containers `a` and `b`, `swap(a, b)` returns; then
`a` has the former size of `b`, its comparators, its pairs of keys, and on each side its
former sequence of elements, and `b` has those of `a`; on each side the parent link of the
sentinel of each container references the root it owns now, whose parent link references
the sentinel of that container. The container that the move constructor builds from a
non-empty reachable container takes over the elements in the same way. -/
theorem swap_transfers (a b : Bimap L R) (ha : Reachable a) (hb : Reachable b)
    (hane : a.empty = false) (hbne : b.empty = false) (self : Nat) :
    (∃ a1 b1, swap a b = .ok (a1, b1) ∧ a1.self = a.self ∧ b1.self = b.self ∧
      Moved b a1 ∧ Moved a b1) ∧
    (∃ n o, move_construct self a = .ok (n, o) ∧ n.self = self ∧ Moved a n) := by
  obtain ⟨tl, tr, hinva⟩ := reachable_inv ha
  obtain ⟨tl1, tr1, hinvb⟩ := reachable_inv hb
  obtain ⟨a1, h1, hi1, hs1, hz1, hcl1, hcr1, hk1⟩ := rehome_spec hinvb hbne a.self
  obtain ⟨b1, h2, hi2, hs2, hz2, hcl2, hcr2, hk2⟩ := rehome_spec hinva hane b.self
  obtain ⟨n, h3, hi3, hs3, hz3, hcl3, hcr3, hk3⟩ := rehome_spec hinva hane self
  refine ⟨⟨a1, b1, ?_, hs1, hs2, moved_of hinvb hi1 hbne hz1 hcl1 hcr1 hk1,
    moved_of hinva hi2 hane hz2 hcl2 hcr2 hk2⟩, ?_⟩
  · rw [swap_eq, h1, h2]; rfl
  · rw [move_construct_eq, h3]
    exact ⟨n, _, rfl, hs3, moved_of hinva hi3 hane hz3 hcl3 hcr3 hk3⟩

theorem swap_transfers_witness :
    Reachable demo_three ∧ Reachable demo_pair ∧ demo_three.empty = false ∧
    demo_pair.empty = false ∧
    (∃ a1 b1, swap demo_three demo_pair = .ok (a1, b1) ∧ a1.self = demo_three.self ∧
      b1.self = demo_pair.self ∧ Moved demo_pair a1 ∧ Moved demo_three b1) ∧
    (∃ n o, move_construct 9 demo_three = .ok (n, o) ∧ n.self = 9 ∧ Moved demo_three n) :=
  ⟨demo_three_reachable, demo_pair_reachable, rfl, rfl,
    swap_transfers demo_three demo_pair demo_three_reachable demo_pair_reachable rfl rfl 9⟩

/-- A scenario: after `swap` of the container with the pairs (2, "b"), (1, "a"), (3, "c")
and the container with the pairs (7, "p"), (5, "q"), the first has the size 2 and the least
left key 5, the second the size 3 and the least left key 1. -/
theorem demo_swap :
    (swap demo_three demo_pair).map (fun p =>
      (p.1.size, operator_deref p.1 .left p.1.begin_left,
       p.2.size, operator_deref p.2 .left p.2.begin_left)) = .ok (2, .ok 5, 3, .ok 1) := rfl


/-! ## Claims on empty containers: swaps, assignments, erasure by key, lookups with a default -/

/-- Claim C21. A container that is empty after `swap`, or after it was moved from, does not
reference its own sentinel. After `swap` of the container with the pairs (2, "b"), (1, "a"),
(3, "c") at address 0 and the empty container at address 1, the container at address 0 has
the size 0 and every link of its sentinel, on both sides, references the sentinel of the
container at address 1: `begin_left()` differs from `end_left()` and `begin_right()` from
`end_right()`. The same container, moved from by the construction of a container at address
9, references the sentinel at address 9 in the same way. -/
theorem swap_empty_sentinel_dangles :
    (swap demo_three demo_other_empty).map (fun p =>
      (p.1.size, p.1.sentinel_ .left, p.1.sentinel_ .right, p.1.end_left,
       decide (p.1.begin_left = p.1.end_left), decide (p.1.begin_right = p.1.end_right))) =
      .ok (0, reset (.sentinel 1), reset (.sentinel 1), some (.sentinel 0), false, false) ∧
    (move_construct 9 demo_three).map (fun p =>
      (p.2.size, p.2.sentinel_ .left, p.2.sentinel_ .right, p.2.end_left,
       decide (p.2.begin_left = p.2.end_left), decide (p.2.begin_right = p.2.end_right))) =
      .ok (0, reset (.sentinel 9), reset (.sentinel 9), some (.sentinel 0), false, false) :=
  ⟨rfl, rfl⟩

/-- Claim C22. After the copy assignment `a = b` of the empty container `b` at address 1 to
the container `a` at address 0 with the pairs (2, "b"), (1, "a"), (3, "c"), the temporary
being at address 2, the container `a` has the size 0, but every link of its sentinel, on
both sides, references the sentinel of the destroyed temporary: `a.empty()` holds while
`a.begin_left()` differs from `a.end_left()`. -/
theorem copy_assign_empty_dangles :
    (copy_assign demo_three demo_other_empty 2).map (fun a =>
      (a.size, a.empty, a.sentinel_ .left, a.sentinel_ .right, a.end_left,
       decide (a.begin_left = a.end_left), decide (a.begin_right = a.end_right))) =
      .ok (0, true, reset (.sentinel 2), reset (.sentinel 2), some (.sentinel 0), false, false) :=
  rfl

/-- A scenario: the copy assignment `a = b` of the container `b` with the pairs (2, "b"),
(1, "a"), (3, "c") to the container `a` at address 1 with the pairs (7, "p"), (5, "q"), the
temporary being at address 2, leaves `a` with the size 3, the least left key 1 and the
parent link of its left sentinel referencing a root whose parent link references the
sentinel of `a`. -/
theorem demo_copy_assign :
    (copy_assign demo_pair demo_three 2).map (fun a =>
      (a.size, operator_deref a .left a.begin_left, a.end_left,
       (a.base_at .left (a.sentinel_ .left).parent_).map (fun e => e.parent_))) =
      .ok (3, .ok 1, some (.sentinel 1), .ok (some (.sentinel 1))) :=
  rfl

/-- Claim C26. On the empty container `erase_left(k)` does not return false:
`find_insert_position` returns `end_left()`, and `erase_val_impl` reads the key behind that
iterator without a test of `empty()`, which is undefined for the sentinel. `erase_right(k)`
does the same on the right side. -/
theorem erase_key_empty_undefined (self : Nat) (cl : L → L → Bool) (cr : R → R → Bool)
    (kl : L) (kr : R) :
    find_insert_position (Bimap.mk_empty self cl cr) .left kl =
      .ok (Bimap.mk_empty self cl cr).end_left ∧
    operator_deref (Bimap.mk_empty self cl cr) .left (Bimap.mk_empty self cl cr).end_left =
      .error .undefined ∧
    (Bimap.mk_empty self cl cr).erase_left_key kl = .error .undefined ∧
    find_insert_position (Bimap.mk_empty self cl cr) .right kr =
      .ok (Bimap.mk_empty self cl cr).end_right ∧
    operator_deref (Bimap.mk_empty self cl cr) .right (Bimap.mk_empty self cl cr).end_right =
      .error .undefined ∧
    (Bimap.mk_empty self cl cr).erase_right_key kr = .error .undefined := by
  have h1 : ∀ s v, find_insert_position (Bimap.mk_empty self cl cr) s v =
      .ok (some (.sentinel self)) := by
    intro s v
    simp [find_insert_position, Bimap.empty, Bimap.size, Bimap.mk_empty, Bimap.get_end,
      Bimap.get_root, Bimap.base_at, Bimap.base, reset]
  have h2 : ∀ s, operator_deref (Bimap.mk_empty self cl cr) s (some (.sentinel self)) =
      .error .undefined := fun s => rfl
  refine ⟨h1 _ _, h2 _, ?_, h1 _ _, h2 _, ?_⟩
  · simp [Bimap.erase_left_key, erase_val_impl, h1, h2]
  · simp [Bimap.erase_right_key, erase_val_impl, h1, h2]

/-- Claim C27. On the empty container `at_left_or_default(k)` does not insert `(k, d)`:
`find_insert_position` returns `end_left()`, and `at_or_default` reads the key behind that
iterator without a test of `empty()`, which is undefined for the sentinel.
`at_right_or_default(k)` does the same on the right side. -/
theorem at_or_default_empty_undefined (self : Nat) (cl : L → L → Bool) (cr : R → R → Bool)
    (kl dl : L) (kr dr : R) :
    find_insert_position (Bimap.mk_empty self cl cr) .left kl =
      .ok (Bimap.mk_empty self cl cr).end_left ∧
    operator_deref (Bimap.mk_empty self cl cr) .left (Bimap.mk_empty self cl cr).end_left =
      .error .undefined ∧
    (Bimap.mk_empty self cl cr).at_left_or_default kl dr = .error .undefined ∧
    find_insert_position (Bimap.mk_empty self cl cr) .right kr =
      .ok (Bimap.mk_empty self cl cr).end_right ∧
    operator_deref (Bimap.mk_empty self cl cr) .right (Bimap.mk_empty self cl cr).end_right =
      .error .undefined ∧
    (Bimap.mk_empty self cl cr).at_right_or_default kr dl = .error .undefined := by
  have h1 : ∀ s v, find_insert_position (Bimap.mk_empty self cl cr) s v =
      .ok (some (.sentinel self)) := by
    intro s v
    simp [find_insert_position, Bimap.empty, Bimap.size, Bimap.mk_empty, Bimap.get_end,
      Bimap.get_root, Bimap.base_at, Bimap.base, reset]
  have h2 : ∀ s, operator_deref (Bimap.mk_empty self cl cr) s (some (.sentinel self)) =
      .error .undefined := fun s => rfl
  refine ⟨h1 _ _, h2 _, ?_, h1 _ _, h2 _, ?_⟩
  · simp [Bimap.at_left_or_default, at_or_default, h1, h2]
  · simp [Bimap.at_right_or_default, at_or_default, h1, h2]


/-! ## Claims on `at_or_default` without a default constructor and on `flip` -/

/-- On a container that is not empty, `at_or_default` for a value type without default
constructor does what `at_impl` does. -/
theorem at_or_default_throw_eq {b : Bimap L R} {tl tr : Tree} (hinv : Inv b tl tr)
    (h0 : tl ≠ .nil) (s : Side) (key : Key L R s) :
    at_or_default_throw b s key = at_impl b s key := by
  have hw := hinv.wired
  have hns := hw.nav_side s
  obtain ⟨c, l, a, r, hf, hp⟩ := hns.find_insert_position (hw.size_side s) (hw.side_ne_nil h0 s)
    key
  have ha : a ∈ (sideTree s tl tr).toList := by rw [hp.1]; exact mem_plug_self _ _ _ _
  obtain ⟨k, hk⟩ := key_of_live (hns.shape.live a ha) s
  have he : b.empty = false := by simp [hinv.empty_eq, h0]
  have hne : (some (Ref.element a) : Ptr) ≠ some b.get_sentinel := by
    simp [Bimap.get_sentinel]
  by_cases hE : b.is_equal s k key = true
  · simp [at_or_default_throw, at_impl, find_impl, hf, he, operator_deref_eq hk, hE,
      hns.get_end, hne]
  · simp [at_or_default_throw, at_impl, find_impl, hf, he, operator_deref_eq hk, hE,
      hns.get_end]

theorem Inv.tree_ne_nil {b : Bimap L R} {tl tr : Tree} (hinv : Inv b tl tr) (hne : b.empty = false) :
    tl ≠ .nil := by
  intro h
  rw [hinv.empty_eq, h] at hne
  simp at hne

/-- Claim C25. In every non-empty reachable container, `at_left_or_default(k)` for a `Right`
type without default constructor throws `std::out_of_range` exactly when no stored left key
is equivalent to `k`; otherwise it returns the right key of the element whose left key is
equivalent to `k`. The function only reads the container: it yields no new container, nothing
is inserted. `at_right_or_default` behaves the same with the sides exchanged. -/
theorem at_or_default_throw_correct (b : Bimap L R) (h : Reachable b) (hne : b.empty = false)
    (kl : L) (kr : R) :
    (at_or_default_throw b .left kl = .error .out_of_range ↔
      ∀ a l, b.key .left a = some l → ¬ Equiv b.compare_left_ l kl) ∧
    (∀ a l r, b.key .left a = some l → b.key .right a = some r → Equiv b.compare_left_ l kl →
      at_or_default_throw b .left kl = .ok r) ∧
    (at_or_default_throw b .right kr = .error .out_of_range ↔
      ∀ a r, b.key .right a = some r → ¬ Equiv b.compare_right_ r kr) ∧
    (∀ a l r, b.key .left a = some l → b.key .right a = some r → Equiv b.compare_right_ r kr →
      at_or_default_throw b .right kr = .ok l) := by
  obtain ⟨tl, tr, hinv⟩ := reachable_inv h
  have h0 := hinv.tree_ne_nil hne
  have hvl := hinv.view .left
  have hvr := hinv.view .right
  rw [at_or_default_throw_eq hinv h0 .left kl, at_or_default_throw_eq hinv h0 .right kr]
  exact ⟨hvl.at_absent kl, fun a l r h1 h2 h3 => hvl.at_present h1 h2 h3, hvr.at_absent kr,
    fun a l r h1 h2 h3 => hvr.at_present h2 h1 h3⟩

theorem at_or_default_throw_correct_witness :
    Reachable demo_three ∧ demo_three.empty = false ∧
    (at_or_default_throw demo_three .left 2 = .error .out_of_range ↔
      ∀ a l, demo_three.key .left a = some l → ¬ Equiv demo_three.compare_left_ l 2) ∧
    (∀ a l r, demo_three.key .left a = some l → demo_three.key .right a = some r →
      Equiv demo_three.compare_left_ l 2 → at_or_default_throw demo_three .left 2 = .ok r) ∧
    (at_or_default_throw demo_three .right "d" = .error .out_of_range ↔
      ∀ a r, demo_three.key .right a = some r → ¬ Equiv demo_three.compare_right_ r "d") ∧
    (∀ a l r, demo_three.key .left a = some l → demo_three.key .right a = some r →
      Equiv demo_three.compare_right_ r "d" →
      at_or_default_throw demo_three .right "d" = .ok l) :=
  ⟨demo_three_reachable, rfl,
    at_or_default_throw_correct demo_three demo_three_reachable rfl 2 "d"⟩

/-- A scenario: in the container with the pairs (2, "b"), (1, "a"), (3, "c"), for types
without default constructor, `at_left_or_default(2)` is "b", `at_left_or_default(5)` throws,
`at_right_or_default("c")` is 3 and `at_right_or_default("d")` throws. -/
theorem demo_three_at_or_default_throw :
    at_or_default_throw demo_three .left 2 = .ok "b" ∧
    at_or_default_throw demo_three .left 5 = .error .out_of_range ∧
    at_or_default_throw demo_three .right "c" = .ok (3 : Nat) ∧
    at_or_default_throw demo_three .right "d" = .error .out_of_range :=
  ⟨rfl, rfl, rfl, rfl⟩

/-- Claim C28. In every reachable container, the empty one included: for an element that
holds the pair `(l, r)`, the left iterator dereferences to `l` and `flip` of it is the right
iterator of the same element, which dereferences to `r`; `end_left().flip()` is `end_right()`
and `end_right().flip()` is `end_left()`; and for every iterator of either side, that of an
element or the end, `flip` of `flip` of it is the iterator itself. -/
theorem flip_correct (b : Bimap L R) (h : Reachable b) :
    (∀ a l r, b.key .left a = some l → b.key .right a = some r →
      operator_deref b .left (some (.element a)) = .ok l ∧
      flip b .left (some (.element a)) = .ok (some (.element a)) ∧
      operator_deref b .right (some (.element a)) = .ok r) ∧
    flip b .left b.end_left = .ok b.end_right ∧
    flip b .right b.end_right = .ok b.end_left ∧
    (∀ s it, (it = some b.get_sentinel ∨ ∃ a, it = some (.element a) ∧ (b.heap a).isSome = true) →
      ∃ f, flip b s it = .ok f ∧ flip b s.opposite f = .ok it) := by
  obtain ⟨tl, tr, hinv⟩ := reachable_inv h
  have hv := fun s => hinv.view s
  refine ⟨fun a l r hl hr => ⟨operator_deref_eq hl, (hv .left).flip_element
    ((hv .left).mem_of_key hl), operator_deref_eq hr⟩, (hv .left).flip_sentinel,
    (hv .right).flip_sentinel, ?_⟩
  rintro s it (h1 | ⟨a, h1, h2⟩)
  · subst h1
    exact ⟨_, (hv s).flip_sentinel, (hv s.opposite).flip_sentinel⟩
  · subst h1
    exact ⟨_, (hv s).flip_element (((hv s).dom a).1 h2),
      (hv s.opposite).flip_element (((hv s.opposite).dom a).1 h2)⟩

theorem flip_correct_witness :
    Reachable demo_three ∧
    (∀ a l r, demo_three.key .left a = some l → demo_three.key .right a = some r →
      operator_deref demo_three .left (some (.element a)) = .ok l ∧
      flip demo_three .left (some (.element a)) = .ok (some (.element a)) ∧
      operator_deref demo_three .right (some (.element a)) = .ok r) ∧
    flip demo_three .left demo_three.end_left = .ok demo_three.end_right ∧
    flip demo_three .right demo_three.end_right = .ok demo_three.end_left ∧
    (∀ s it, (it = some demo_three.get_sentinel ∨
        ∃ a, it = some (.element a) ∧ (demo_three.heap a).isSome = true) →
      ∃ f, flip demo_three s it = .ok f ∧ flip demo_three s.opposite f = .ok it) :=
  ⟨demo_three_reachable, flip_correct demo_three demo_three_reachable⟩

/-- A scenario: in the container with the pairs (2, "b"), (1, "a"), (3, "c") the iterator
that `find_left(3)` returns flips to the iterator that `find_right("c")` returns, and in the
empty container `end_left().flip()` is `end_right()`. -/
theorem demo_flip :
    (demo_three.find_left 3 >>= fun it => flip demo_three .left it) = demo_three.find_right "c" ∧
    flip demo_empty .left demo_empty.end_left = .ok demo_empty.end_right ∧
    flip demo_empty .right demo_empty.end_right = .ok demo_empty.end_left :=
  ⟨rfl, rfl, rfl⟩


/-! ## The search tree property read off the heap -/

theorem below_mem {b : Bimap L R} {s : Side} :
    ∀ (t : Tree) (p : Ref) (d : Nat), Shape b s t p → Below b s t.root d → d ∈ t.toList := by
  intro t
  induction t with
  | nil =>
    intro p d _ h
    simp only [root_nil] at h
    cases h
  | node l a r ihl ihr =>
    intro p d hs h
    obtain ⟨hb, hl, hr⟩ := hs
    simp only [root_node] at h
    cases h with
    | here => simp
    | left h1 h2 =>
      rw [hb] at h1
      cases h1
      have := ihl _ d hl h2
      simp [this]
    | right h1 h2 =>
      rw [hb] at h1
      cases h1
      have := ihr _ d hr h2
      simp [this]

theorem SideView.isSearchTree {b : Bimap L R} {s : Side} {t : Tree} (h : SideView b s t) :
    b.IsSearchTree s := by
  intro a e he
  have ha : a ∈ t.toList := (h.dom a).1 (live_of_base he)
  obtain ⟨c, l, r, ht⟩ := exists_plug_of_mem ha
  have hb := h.to_nav.toLinks.base_at ht
  rw [hb] at he
  cases he
  have hsh := h.inv.shape
  rw [ht, shape_plug] at hsh
  obtain ⟨-, -, hsl, hsr⟩ := hsh
  have hso := h.inv.sorted
  rw [ht, toList_plug] at hso
  have h1 : (l.toList ++ a :: r.toList).Pairwise (b.keyLt s) :=
    hso.sublist (List.infix_append (before c) _ (after c)).sublist
  rw [List.pairwise_append] at h1
  constructor
  · intro d hd
    have hm := below_mem l _ d hsl hd
    exact h1.2.2 d hm a (List.mem_cons_self _ _)
  · intro d hd
    have hm := below_mem r _ d hsr hd
    exact (List.pairwise_cons.1 h1.2.1).1 d hm

theorem SideView.reciprocal {b : Bimap L R} {s : Side} {t : Tree} (h : SideView b s t) :
    b.Reciprocal s := by
  have hs := h.inv.sentinel
  unfold SentinelFor at hs
  refine ⟨?_, ?_, ?_, ?_⟩
  · intro a e c he hc
    have ha : a ∈ t.toList := (h.dom a).1 (live_of_base he)
    obtain ⟨cx, l, r, ht⟩ := exists_plug_of_mem ha
    have hb := h.to_nav.toLinks.base_at ht
    rw [hb] at he
    cases he
    have hsh := h.inv.shape
    rw [ht, shape_plug] at hsh
    obtain ⟨-, -, hsl, hsr⟩ := hsh
    rcases hc with hc | hc
    · cases l with
      | nil => simp at hc
      | node ll x lr =>
        simp only [root_node, Option.some.injEq] at hc
        subst hc
        exact ⟨_, hsl.1, rfl⟩
    · cases r with
      | nil => simp at hc
      | node rl x rr =>
        simp only [root_node, Option.some.injEq] at hc
        subst hc
        exact ⟨_, hsr.1, rfl⟩
  · intro root hr
    cases t with
    | nil =>
      rw [hs] at hr
      simp [Bimap.get_sentinel] at hr
    | node l x r =>
      rw [hs] at hr
      simp only [root_node, Option.getD_some, Option.some.injEq, Ref.element.injEq] at hr
      subst hr
      exact ⟨_, h.inv.shape.1, rfl⟩
  · intro a e he hp
    have ha : a ∈ t.toList := (h.dom a).1 (live_of_base he)
    cases t with
    | nil => simp at ha
    | node l x r =>
      rw [hs]
      simp only [root_node, Option.getD_some, Option.some.injEq, Ref.element.injEq]
      obtain ⟨hx, hl, hr⟩ := h.inv.shape
      simp only [toList_node, List.mem_append, List.mem_cons] at ha
      rcases ha with ha | ha | ha
      · obtain ⟨e1, he1, hp1⟩ := hl.parent_ne_sentinel ha b.self
        rw [he1] at he
        cases he
        exact absurd hp hp1
      · exact ha.symm
      · obtain ⟨e1, he1, hp1⟩ := hr.parent_ne_sentinel ha b.self
        rw [he1] at he
        cases he
        exact absurd hp hp1
  · intro hne
    cases t with
    | nil =>
      have := h.size
      simp [Bimap.empty, Bimap.size, this] at hne
    | node l x r =>
      exact ⟨x, by rw [hs]; rfl⟩

/-- Equivalent keys of a side are stored in one element. -/
theorem SideView.unique_keys {b : Bimap L R} {s : Side} {t : Tree} (h : SideView b s t)
    {a1 a2 : Nat} {k1 k2 : Key L R s} (h1 : b.key s a1 = some k1) (h2 : b.key s a2 = some k2)
    (he : Equiv (b.get_compare s) k1 k2) : a1 = a2 :=
  h.equiv_unique (h.mem_of_key h1) (h.mem_of_key h2) ((keyEquiv_iff h1 k2).2 he)
    (h.keyEquiv_self h2)

theorem Inv.lookups {b : Bimap L R} {tl tr : Tree} (hinv : Inv b tl tr) {a : Nat} {l : L} {r : R}
    (hl : b.key .left a = some l) (hr : b.key .right a = some r) :
    b.at_left l = .ok r ∧ b.at_right r = .ok l :=
  ⟨(hinv.view .left).at_present hl hr ⟨hinv.order_left.irrefl l, hinv.order_left.irrefl l⟩,
    (hinv.view .right).at_present hr hl ⟨hinv.order_right.irrefl r, hinv.order_right.irrefl r⟩⟩


/-! ## Claims on `at_or_default` with a default value -/

theorem key_none_of_inv {b : Bimap L R} {tl tr : Tree} (hinv : Inv b tl tr) (s : Side) :
    b.key s b.brk = none := by
  simp [Bimap.key, hinv.fresh _ (le_refl _)]

/-- The key is absent and the default value is free: `at_or_default` stores the pair. -/
theorem at_or_default_fresh_keys {b : Bimap L R} {tl tr : Tree} (hinv : Inv b tl tr)
    (h0 : tl ≠ .nil) (s : Side) (key : Key L R s) (dflt : Key L R s.opposite)
    (habs : ∀ a k, b.key s a = some k → ¬ Equiv (b.get_compare s) k key)
    (hfree : ∀ a k, b.key s.opposite a = some k → ¬ Equiv (b.get_compare s.opposite) k dflt) :
    ∃ b1 tl1 tr1, at_or_default b s key dflt = .ok (b1, dflt) ∧ Inv b1 tl1 tr1 ∧
      b1.size_ = b.size_ + 1 ∧ b1.key s b.brk = some key ∧
      b1.key s.opposite b.brk = some dflt ∧
      ∀ σ a (k : Key L R σ), b.key σ a = some k → b1.key σ a = some k := by
  rcases at_or_default_spec hinv h0 s key dflt with ⟨a, v, -, ⟨k, hk, he⟩, -, -⟩ |
    ⟨-, -, b1, tl1, tr1, h1, hg, hinv1⟩ | ⟨-, e, -, ⟨k, hk, he⟩, -⟩
  · exact absurd he (habs a k hk)
  · obtain ⟨hk1, hk2⟩ := grown_key_sides hg
    refine ⟨b1, tl1, tr1, h1, hinv1, hg.size_, hk1, hk2, ?_⟩
    intro σ a k hk
    rw [hg.key_old σ a ?_, hk]
    intro h
    rw [h, key_none_of_inv hinv σ] at hk
    cases hk
  · exact absurd he (hfree e k hk)

theorem stolen_key_sides {b b1 : Bimap L R} {s : Side} {key : Key L R s}
    {dflt : Key L R s.opposite} {e : Nat}
    (hg : Stolen b b1 (side_pair s key dflt).1 (side_pair s key dflt).2 e) :
    b1.key s b.brk = some key ∧ b1.key s.opposite b.brk = some dflt := by
  cases s
  · exact ⟨hg.key_left_new, hg.key_right_new⟩
  · exact ⟨hg.key_right_new, hg.key_left_new⟩

theorem Stolen.compare_held {b b1 : Bimap L R} {l : L} {r : R} {e : Nat}
    (hg : Stolen b b1 l r e) (s : Side) : b1.get_compare s = b.get_compare s := by
  cases s
  · exact hg.compare_left_
  · exact hg.compare_right_

/-- The key is absent and the default value is the key of the element `e`: `at_or_default`
stores the pair and erases `e`. -/
theorem at_or_default_steal_keys {b : Bimap L R} {tl tr : Tree} (hinv : Inv b tl tr)
    (s : Side) (key : Key L R s) (dflt : Key L R s.opposite) {e : Nat} {k0 : Key L R s}
    {d0 : Key L R s.opposite} (hk0 : b.key s e = some k0) (hd0 : b.key s.opposite e = some d0)
    (heq : Equiv (b.get_compare s.opposite) d0 dflt)
    (habs : ∀ a k, b.key s a = some k → ¬ Equiv (b.get_compare s) k key) :
    ∃ b1 tl1 tr1, at_or_default b s key dflt = .ok (b1, dflt) ∧ Inv b1 tl1 tr1 ∧
      b1.size_ = b.size_ ∧ b1.key s b.brk = some key ∧
      b1.key s.opposite b.brk = some dflt ∧
      find_impl b1 s k0 = .ok (some b1.get_sentinel) ∧ b1.heap e = none ∧
      ∀ σ a (k : Key L R σ), a ≠ e → b.key σ a = some k → b1.key σ a = some k := by
  have hv := hinv.view s
  have hvo := hinv.view s.opposite
  have hel : e ∈ tl.toList := (hinv.dom e).1 (live_of_key hk0)
  have h0 : tl ≠ .nil := by
    intro h; rw [h] at hel; simp at hel
  rcases at_or_default_spec hinv h0 s key dflt with ⟨a, v, -, ⟨k, hk, he⟩, -, -⟩ |
    ⟨-, hfree, -⟩ | ⟨-, e1, he1, hq1, b1, tl1, tr1, h1, hst, hinv1⟩
  · exact absurd he (habs a k hk)
  · exact absurd ⟨d0, hd0, heq⟩ (hfree e hel)
  · have hee : e1 = e := hvo.equiv_unique ((hinv.mem_iff s.opposite e1).2 he1)
      ((hinv.mem_iff s.opposite e).2 hel) hq1 ⟨d0, hd0, heq⟩
    subst hee
    obtain ⟨hk1, hk2⟩ := stolen_key_sides hst
    have hold : ∀ σ a (k : Key L R σ), a ≠ e1 → b.key σ a = some k → b1.key σ a = some k := by
      intro σ a k hae hk
      rw [hst.key_old σ a ?_ hae, hk]
      intro h
      rw [h, key_none_of_inv hinv σ] at hk
      cases hk
    refine ⟨b1, tl1, tr1, h1, hinv1, hst.size_, hk1, hk2, ?_, hst.gone, hold⟩
    have hv1 := hinv1.view s
    rcases hv1.find_impl k0 with ⟨h2, -⟩ | ⟨a, ha, -, ⟨k, hk, he⟩⟩
    · exact h2
    · exfalso
      rw [hst.compare_held s] at he
      by_cases hab : a = b.brk
      · subst hab
        rw [hk1] at hk
        cases hk
        exact habs e1 k0 hk0 he.symm
      · have hae : a ≠ e1 := by
          intro h
          subst h
          have := (hv1.dom a).2 ha
          rw [hst.gone] at this
          cases this
        rw [hst.key_old s a hab hae] at hk
        exact hae (hv.unique_keys hk hk0 he)

/-- Claim C23. In every non-empty reachable container, with a default value `d` of the
`Right` type that is equivalent to no stored right key, and a key `k` equivalent to no
stored left key: `at_left_or_default(k)` returns `d`, the size grows by one, afterwards
`at_left(k)` is `d` and `at_right(d)` is `k`, and every element that was stored keeps its
pair of keys, found by `at_left` and `at_right` as before. If an element has a left key
equivalent to `k`, `at_left_or_default(k)` returns its right key and the container is as
before. `at_right_or_default` behaves the same with the sides exchanged. -/
theorem at_or_default_inserts (b : Bimap L R) (h : Reachable b) (hne : b.empty = false)
    (kl dl : L) (kr dr : R) :
    ((∀ a l, b.key .left a = some l → ¬ Equiv b.compare_left_ l kl) →
     (∀ a r, b.key .right a = some r → ¬ Equiv b.compare_right_ r dr) →
      ∃ b1, b.at_left_or_default kl dr = .ok (b1, dr) ∧ b1.size = b.size + 1 ∧
        b1.at_left kl = .ok dr ∧ b1.at_right dr = .ok kl ∧
        ∀ a l r, b.key .left a = some l → b.key .right a = some r →
          b1.key .left a = some l ∧ b1.key .right a = some r ∧
          b1.at_left l = .ok r ∧ b1.at_right r = .ok l) ∧
    (∀ a l r, b.key .left a = some l → b.key .right a = some r → Equiv b.compare_left_ l kl →
      b.at_left_or_default kl dr = .ok (b, r)) ∧
    ((∀ a r, b.key .right a = some r → ¬ Equiv b.compare_right_ r kr) →
     (∀ a l, b.key .left a = some l → ¬ Equiv b.compare_left_ l dl) →
      ∃ b1, b.at_right_or_default kr dl = .ok (b1, dl) ∧ b1.size = b.size + 1 ∧
        b1.at_right kr = .ok dl ∧ b1.at_left dl = .ok kr ∧
        ∀ a l r, b.key .left a = some l → b.key .right a = some r →
          b1.key .left a = some l ∧ b1.key .right a = some r ∧
          b1.at_left l = .ok r ∧ b1.at_right r = .ok l) ∧
    (∀ a l r, b.key .left a = some l → b.key .right a = some r → Equiv b.compare_right_ r kr →
      b.at_right_or_default kr dl = .ok (b, l)) := by
  obtain ⟨tl, tr, hinv⟩ := reachable_inv h
  have h0 := hinv.tree_ne_nil hne
  refine ⟨?_, ?_, ?_, ?_⟩
  · intro habs hfree
    obtain ⟨b1, tl1, tr1, h1, hinv1, hsz, hk1, hk2, hold⟩ :=
      at_or_default_fresh_keys hinv h0 .left kl dr habs hfree
    refine ⟨b1, h1, hsz, (hinv1.lookups hk1 hk2).1, (hinv1.lookups hk1 hk2).2, ?_⟩
    intro a l r hl hr
    exact ⟨hold .left a l hl, hold .right a r hr,
      hinv1.lookups (hold .left a l hl) (hold .right a r hr)⟩
  · intro a l r hl hr he
    have ha : a ∈ (sideTree .left tl tr).toList := (hinv.view .left).mem_of_key hl
    rcases at_or_default_spec hinv h0 .left kl dr with ⟨a1, v, ha1, he1, hv1, h1⟩ |
      ⟨habs, -, -⟩ | ⟨habs, -⟩
    · have : a1 = a := (hinv.view .left).equiv_unique ha1 ha he1 ((keyEquiv_iff hl kl).2 he)
      subst this
      have hv2 : b.key .right a1 = some v := hv1
      rw [hr] at hv2
      cases hv2
      exact h1
    · exact absurd ((keyEquiv_iff hl kl).2 he) (habs a ha)
    · exact absurd ((keyEquiv_iff hl kl).2 he) (habs a ha)
  · intro habs hfree
    obtain ⟨b1, tl1, tr1, h1, hinv1, hsz, hk1, hk2, hold⟩ :=
      at_or_default_fresh_keys hinv h0 .right kr dl habs hfree
    have hk3 : b1.key .left b.brk = some dl := hk2
    refine ⟨b1, h1, hsz, (hinv1.lookups hk3 hk1).2, (hinv1.lookups hk3 hk1).1, ?_⟩
    intro a l r hl hr
    exact ⟨hold .left a l hl, hold .right a r hr,
      hinv1.lookups (hold .left a l hl) (hold .right a r hr)⟩
  · intro a l r hl hr he
    have ha : a ∈ tl.toList := (hinv.dom a).1 (live_of_key hl)
    rcases at_or_default_spec hinv h0 .right kr dl with ⟨a1, v, ha1, he1, hv1, h1⟩ |
      ⟨habs, -, -⟩ | ⟨habs, -⟩
    · have : a1 = a := (hinv.view .right).equiv_unique ((hinv.mem_iff .right a1).2 ha1)
        ((hinv.mem_iff .right a).2 ha) he1 ((keyEquiv_iff hr kr).2 he)
      subst this
      have hv2 : b.key .left a1 = some v := hv1
      rw [hl] at hv2
      cases hv2
      exact h1
    · exact absurd ((keyEquiv_iff hr kr).2 he) (habs a ha)
    · exact absurd ((keyEquiv_iff hr kr).2 he) (habs a ha)

theorem at_or_default_inserts_witness :
    Reachable demo_three ∧ demo_three.empty = false ∧
    ((∀ a l, demo_three.key .left a = some l → ¬ Equiv demo_three.compare_left_ l 5) →
     (∀ a r, demo_three.key .right a = some r → ¬ Equiv demo_three.compare_right_ r "") →
      ∃ b1, demo_three.at_left_or_default 5 "" = .ok (b1, "") ∧ b1.size = demo_three.size + 1 ∧
        b1.at_left 5 = .ok "" ∧ b1.at_right "" = .ok 5 ∧
        ∀ a l r, demo_three.key .left a = some l → demo_three.key .right a = some r →
          b1.key .left a = some l ∧ b1.key .right a = some r ∧
          b1.at_left l = .ok r ∧ b1.at_right r = .ok l) ∧
    (∀ a l r, demo_three.key .left a = some l → demo_three.key .right a = some r →
      Equiv demo_three.compare_left_ l 5 →
      demo_three.at_left_or_default 5 "" = .ok (demo_three, r)) ∧
    ((∀ a r, demo_three.key .right a = some r → ¬ Equiv demo_three.compare_right_ r "x") →
     (∀ a l, demo_three.key .left a = some l → ¬ Equiv demo_three.compare_left_ l 0) →
      ∃ b1, demo_three.at_right_or_default "x" 0 = .ok (b1, 0) ∧
        b1.size = demo_three.size + 1 ∧ b1.at_right "x" = .ok 0 ∧ b1.at_left 0 = .ok "x" ∧
        ∀ a l r, demo_three.key .left a = some l → demo_three.key .right a = some r →
          b1.key .left a = some l ∧ b1.key .right a = some r ∧
          b1.at_left l = .ok r ∧ b1.at_right r = .ok l) ∧
    (∀ a l r, demo_three.key .left a = some l → demo_three.key .right a = some r →
      Equiv demo_three.compare_right_ r "x" →
      demo_three.at_right_or_default "x" 0 = .ok (demo_three, l)) :=
  ⟨demo_three_reachable, rfl,
    at_or_default_inserts demo_three demo_three_reachable rfl 5 0 "x" ""⟩

/-- A scenario: in the container with the pairs (2, "b"), (1, "a"), (3, "c"), with the empty
string as the default value, `at_left_or_default(5)` returns the empty string; afterwards the
size is 4, `at_left(5)` is the empty string, `at_right("")` is 5 and `at_left(2)` is "b".
`at_left_or_default(2)` returns "b" and leaves the size 3. -/
theorem demo_three_at_left_or_default :
    (demo_three.at_left_or_default 5 "").map (fun p =>
      (p.2, p.1.size, p.1.at_left 5, p.1.at_right "", p.1.at_left 2)) =
      .ok ("", 4, .ok "", .ok 5, .ok "b") ∧
    (demo_three.at_left_or_default 2 "").map (fun p => (p.2, p.1.size)) = .ok ("b", 3) :=
  ⟨rfl, rfl⟩

/-- Claim C24. In every reachable container in which an element `e` holds the pair
`(l0, d0)` with `d0` equivalent to the default value `d` of the `Right` type, and for every
key `k` equivalent to no stored left key: `at_left_or_default(k)` returns `d`; afterwards
`find_left(l0)` is `end_left()` and the element `e` is deallocated, `at_left(k)` is `d` and
`at_right(d)` is `k`, the size is as before, every other element keeps its pair of keys,
found by `at_left` and `at_right` as before, both trees have the search tree property, and
no two elements hold equivalent keys of a side. `at_right_or_default` behaves the same with
the sides exchanged. -/
theorem default_collision_steals (b : Bimap L R) (h : Reachable b) (kl dl : L) (kr dr : R) :
    (∀ e l0 d0, b.key .left e = some l0 → b.key .right e = some d0 →
      Equiv b.compare_right_ d0 dr →
      (∀ a l, b.key .left a = some l → ¬ Equiv b.compare_left_ l kl) →
      ∃ b1, b.at_left_or_default kl dr = .ok (b1, dr) ∧
        b1.find_left l0 = .ok b1.end_left ∧ b1.heap e = none ∧
        b1.at_left kl = .ok dr ∧ b1.at_right dr = .ok kl ∧ b1.size = b.size ∧
        (∀ a l r, a ≠ e → b.key .left a = some l → b.key .right a = some r →
          b1.key .left a = some l ∧ b1.key .right a = some r ∧
          b1.at_left l = .ok r ∧ b1.at_right r = .ok l) ∧
        (∀ s, b1.IsSearchTree s) ∧
        (∀ s a1 a2 (k1 k2 : Key L R s), b1.key s a1 = some k1 → b1.key s a2 = some k2 →
          Equiv (b1.get_compare s) k1 k2 → a1 = a2)) ∧
    (∀ e l0 d0, b.key .left e = some l0 → b.key .right e = some d0 →
      Equiv b.compare_left_ l0 dl →
      (∀ a r, b.key .right a = some r → ¬ Equiv b.compare_right_ r kr) →
      ∃ b1, b.at_right_or_default kr dl = .ok (b1, dl) ∧
        b1.find_right d0 = .ok b1.end_right ∧ b1.heap e = none ∧
        b1.at_right kr = .ok dl ∧ b1.at_left dl = .ok kr ∧ b1.size = b.size ∧
        (∀ a l r, a ≠ e → b.key .left a = some l → b.key .right a = some r →
          b1.key .left a = some l ∧ b1.key .right a = some r ∧
          b1.at_left l = .ok r ∧ b1.at_right r = .ok l) ∧
        (∀ s, b1.IsSearchTree s) ∧
        (∀ s a1 a2 (k1 k2 : Key L R s), b1.key s a1 = some k1 → b1.key s a2 = some k2 →
          Equiv (b1.get_compare s) k1 k2 → a1 = a2)) := by
  obtain ⟨tl, tr, hinv⟩ := reachable_inv h
  constructor
  · intro e l0 d0 hl0 hd0 heq habs
    obtain ⟨b1, tl1, tr1, h1, hinv1, hsz, hk1, hk2, hfind, hgone, hold⟩ :=
      at_or_default_steal_keys hinv .left kl dr hl0 hd0 heq habs
    refine ⟨b1, h1, hfind, hgone, (hinv1.lookups hk1 hk2).1, (hinv1.lookups hk1 hk2).2, hsz,
      ?_, fun s => (hinv1.view s).isSearchTree,
      fun s a1 a2 k1 k2 h2 h3 h4 => (hinv1.view s).unique_keys h2 h3 h4⟩
    intro a l r hae hl hr
    exact ⟨hold .left a l hae hl, hold .right a r hae hr,
      hinv1.lookups (hold .left a l hae hl) (hold .right a r hae hr)⟩
  · intro e l0 d0 hl0 hd0 heq habs
    obtain ⟨b1, tl1, tr1, h1, hinv1, hsz, hk1, hk2, hfind, hgone, hold⟩ :=
      at_or_default_steal_keys hinv .right kr dl hd0 hl0 heq habs
    have hk3 : b1.key .left b.brk = some dl := hk2
    refine ⟨b1, h1, hfind, hgone, (hinv1.lookups hk3 hk1).2, (hinv1.lookups hk3 hk1).1, hsz,
      ?_, fun s => (hinv1.view s).isSearchTree,
      fun s a1 a2 k1 k2 h2 h3 h4 => (hinv1.view s).unique_keys h2 h3 h4⟩
    intro a l r hae hl hr
    exact ⟨hold .left a l hae hl, hold .right a r hae hr,
      hinv1.lookups (hold .left a l hae hl) (hold .right a r hae hr)⟩

theorem default_collision_steals_witness :
    Reachable demo_three ∧
    (∀ e l0 d0, demo_three.key .left e = some l0 → demo_three.key .right e = some d0 →
      Equiv demo_three.compare_right_ d0 "a" →
      (∀ a l, demo_three.key .left a = some l → ¬ Equiv demo_three.compare_left_ l 5) →
      ∃ b1, demo_three.at_left_or_default 5 "a" = .ok (b1, "a") ∧
        b1.find_left l0 = .ok b1.end_left ∧ b1.heap e = none ∧
        b1.at_left 5 = .ok "a" ∧ b1.at_right "a" = .ok 5 ∧ b1.size = demo_three.size ∧
        (∀ a l r, a ≠ e → demo_three.key .left a = some l → demo_three.key .right a = some r →
          b1.key .left a = some l ∧ b1.key .right a = some r ∧
          b1.at_left l = .ok r ∧ b1.at_right r = .ok l) ∧
        (∀ s, b1.IsSearchTree s) ∧
        (∀ s a1 a2 (k1 k2 : Key Nat String s), b1.key s a1 = some k1 → b1.key s a2 = some k2 →
          Equiv (b1.get_compare s) k1 k2 → a1 = a2)) ∧
    (∀ e l0 d0, demo_three.key .left e = some l0 → demo_three.key .right e = some d0 →
      Equiv demo_three.compare_left_ l0 3 →
      (∀ a r, demo_three.key .right a = some r → ¬ Equiv demo_three.compare_right_ r "x") →
      ∃ b1, demo_three.at_right_or_default "x" 3 = .ok (b1, 3) ∧
        b1.find_right d0 = .ok b1.end_right ∧ b1.heap e = none ∧
        b1.at_right "x" = .ok 3 ∧ b1.at_left 3 = .ok "x" ∧ b1.size = demo_three.size ∧
        (∀ a l r, a ≠ e → demo_three.key .left a = some l → demo_three.key .right a = some r →
          b1.key .left a = some l ∧ b1.key .right a = some r ∧
          b1.at_left l = .ok r ∧ b1.at_right r = .ok l) ∧
        (∀ s, b1.IsSearchTree s) ∧
        (∀ s a1 a2 (k1 k2 : Key Nat String s), b1.key s a1 = some k1 → b1.key s a2 = some k2 →
          Equiv (b1.get_compare s) k1 k2 → a1 = a2)) :=
  ⟨demo_three_reachable, default_collision_steals demo_three demo_three_reachable 5 3 "x" "a"⟩

/-- A scenario: in the container with the pairs (2, "b"), (1, "a"), (3, "c"), with "a" as
the default value, `at_left_or_default(5)` returns "a"; afterwards the size is 3,
`find_left(1)` is `end_left()`, `at_left(5)` is "a", `at_right("a")` is 5, `at_left(2)` is
"b", and the traversal of the right side visits the elements with the right keys "a", "b",
"c" in this order. -/
theorem demo_three_steal :
    (demo_three.at_left_or_default 5 "a").map (fun p =>
      (p.2, p.1.size, p.1.find_left 1, p.1.end_left, p.1.at_left 5,
       p.1.at_right "a", p.1.at_left 2,
       (traverse p.1 .right p.1.end_right p.1.fuel p.1.begin_right).map
         (fun xs => xs.map (fun it => operator_deref p.1 .right it)))) =
      .ok ("a", 3, .ok (some (.sentinel 0)), some (.sentinel 0), .ok "a", .ok 5, .ok "b",
        .ok [.ok "a", .ok "b", .ok "c"]) :=
  rfl


/-! ## Claim on the stability of iterators -/

theorem stableAt_of_inv {b1 : Bimap L R} {tl tr : Tree} (hinv : Inv b1 tl tr) {a : Nat}
    {l : L} {r : R} (hl : b1.key .left a = some l) (hr : b1.key .right a = some r) :
    b1.StableAt a l r := by
  have hvl := hinv.view .left
  have hvr := hinv.view .right
  have hlive : (b1.heap a).isSome = true := live_of_key hl
  exact ⟨(hvl.inTree_iff_live a).2 hlive, (hvr.inTree_iff_live a).2 hlive, operator_deref_eq hl,
    ⟨_, hvl.flip_element (hvl.mem_of_key hl), operator_deref_eq hr⟩, hvl.find_key hl⟩

/-- Erasing at an iterator other than that of the element `a` keeps the keys of `a`. -/
theorem erase_it_keeps {b b1 : Bimap L R} {tl tr : Tree} (hinv : Inv b tl tr) (s : Side)
    {x next : Ptr} {a : Nat} (hx : x ≠ some (.element a))
    (h : erase_it_impl b s x = .ok (b1, next)) :
    (∃ tl1 tr1, Inv b1 tl1 tr1) ∧ ∀ σ, b1.key σ a = b.key σ a := by
  refine ⟨erase_it_inv hinv h, ?_⟩
  have hinc : ∃ nx, operator_inc b s x = .ok nx := by
    simp only [erase_it_impl] at h
    cases h1 : operator_inc b s x with
    | error e => simp [h1] at h
    | ok nx => exact ⟨nx, rfl⟩
  obtain ⟨nx, hnx⟩ := hinc
  cases x with
  | none => simp [operator_inc] at hnx
  | some y =>
    have hlive := live_of_operator_inc hnx
    cases y with
    | sentinel o =>
      simp only [Bimap.live] at hlive
      subst hlive
      have h2 := erase_it_end hinv s
      simp only [Bimap.get_sentinel] at h2
      rw [h2] at h
      simp only [Except.ok.injEq, Prod.mk.injEq] at h
      intro σ
      rw [← h.1]
    | element n =>
      have hn : n ∈ (sideTree s tl tr).toList := (hinv.mem_iff s n).2 ((hinv.dom n).1 hlive)
      obtain ⟨A, B, hAB⟩ := List.append_of_mem hn
      obtain ⟨b2, tl1, tr1, h2, -, her, -⟩ := erase_it_total hinv s hAB
      rw [h2] at h
      simp only [Except.ok.injEq, Prod.mk.injEq] at h
      intro σ
      rw [← h.1]
      apply her.key_old
      simp only [List.mem_singleton]
      intro h3
      exact hx (by rw [h3])

/-- Erasing by a key that is not equivalent to the key of the element `a` keeps the keys of
`a`. -/
theorem erase_val_keeps {b b1 : Bimap L R} {tl tr : Tree} (hinv : Inv b tl tr) (s : Side)
    {k ka : Key L R s} {found : Bool} {a : Nat} (hka : b.key s a = some ka)
    (hne : ¬ Equiv (b.get_compare s) ka k) (h : erase_val_impl b s k = .ok (b1, found)) :
    (∃ tl1 tr1, Inv b1 tl1 tr1) ∧ ∀ σ, b1.key σ a = b.key σ a := by
  refine ⟨erase_val_inv hinv h, ?_⟩
  have hemp : b.empty = false := by
    have ha : a ∈ tl.toList := (hinv.dom a).1 (live_of_key hka)
    have h0 : 0 < tl.toList.length := List.length_pos_of_mem ha
    simp only [Bimap.empty, Bimap.size, hinv.size, beq_eq_false_iff_ne, ne_eq]
    omega
  rcases erase_val_total hinv s hemp k with
    ⟨A, B, n, -, hkn, b2, tl1, tr1, h2, -, her, -⟩ | ⟨-, h2⟩
  · rw [h2] at h
    simp only [Except.ok.injEq, Prod.mk.injEq] at h
    intro σ
    rw [← h.1]
    apply her.key_old
    simp only [List.mem_singleton]
    intro h3
    subst h3
    exact hne ((keyEquiv_iff hka k).1 hkn)
  · rw [h2] at h
    simp only [Except.ok.injEq, Prod.mk.injEq] at h
    intro σ
    rw [← h.1]

/-- Erasing a range that does not visit the element `a` keeps the keys of `a`. -/
theorem erase_range_keeps {b b1 : Bimap L R} {tl tr : Tree} (hinv : Inv b tl tr) (s : Side)
    {first last it : Ptr} {M : List Nat} {a : Nat}
    (ht : traverse b s last b.fuel first = .ok (M.map (fun x => some (Ref.element x))))
    (ha : a ∉ M) (h : erase_range_impl b s first last = .ok (b1, it)) :
    (∃ tl1 tr1, Inv b1 tl1 tr1) ∧ ∀ σ, b1.key σ a = b.key σ a := by
  refine ⟨erase_range_inv hinv h, ?_⟩
  obtain ⟨b2, h2, -, -, h3, -⟩ := erase_range_correct hinv s ht
  rw [h2] at h
  simp only [Except.ok.injEq, Prod.mk.injEq] at h
  intro σ
  rw [← h.1]
  exact h3 σ a ha

/-- Claim C29. In every reachable container, for the left iterator `it` of an element that
holds the pair `(l, r)`: the element is linked in both trees, `*it` is `l`, `*it.flip()` is
`r` and `find_left(l)` is `it`; and the same holds in the container after every `insert`
that returns, successful or rejected, after `erase_left` and `erase_right` at every other
iterator, after `erase_left(k)` and `erase_right(k)` for every key that is not equivalent to
`l`, respectively `r`, and after the erasure of every range whose traversal does not visit
the element. -/
theorem iterator_stable (b : Bimap L R) (h : Reachable b) (a : Nat) (l : L) (r : R)
    (hl : b.key .left a = some l) (hr : b.key .right a = some r) :
    b.StableAt a l r ∧
    (∀ l1 r1 b1 it, b.insert l1 r1 = .ok (b1, it) → b1.StableAt a l r) ∧
    (∀ x b1 next, x ≠ some (.element a) → b.erase_left x = .ok (b1, next) →
      b1.StableAt a l r) ∧
    (∀ x b1 next, x ≠ some (.element a) → b.erase_right x = .ok (b1, next) →
      b1.StableAt a l r) ∧
    (∀ k b1 found, ¬ Equiv b.compare_left_ l k → b.erase_left_key k = .ok (b1, found) →
      b1.StableAt a l r) ∧
    (∀ k b1 found, ¬ Equiv b.compare_right_ r k → b.erase_right_key k = .ok (b1, found) →
      b1.StableAt a l r) ∧
    (∀ first last (M : List Nat) b1 it,
      traverse b .left last b.fuel first = .ok (M.map (fun x => some (Ref.element x))) →
      a ∉ M → b.erase_left_range first last = .ok (b1, it) → b1.StableAt a l r) ∧
    (∀ first last (M : List Nat) b1 it,
      traverse b .right last b.fuel first = .ok (M.map (fun x => some (Ref.element x))) →
      a ∉ M → b.erase_right_range first last = .ok (b1, it) → b1.StableAt a l r) := by
  obtain ⟨tl, tr, hinv⟩ := reachable_inv h
  have hkeep : ∀ {b1 : Bimap L R}, (∃ tl1 tr1, Inv b1 tl1 tr1) ∧ (∀ σ, b1.key σ a = b.key σ a) →
      b1.StableAt a l r := by
    rintro b1 ⟨⟨tl1, tr1, hinv1⟩, hk⟩
    exact stableAt_of_inv hinv1 ((hk .left).trans hl) ((hk .right).trans hr)
  refine ⟨stableAt_of_inv hinv hl hr, ?_, ?_, ?_, ?_, ?_, ?_, ?_⟩
  · intro l1 r1 b1 it h1
    rcases insert_spec hinv l1 r1 with ⟨-, h2⟩ | ⟨-, -, b2, tl1, tr1, h2, hg, hinv1, -, -⟩
    · rw [h2] at h1
      simp only [Except.ok.injEq, Prod.mk.injEq] at h1
      rw [← h1.1]
      exact stableAt_of_inv hinv hl hr
    · rw [h2] at h1
      simp only [Except.ok.injEq, Prod.mk.injEq] at h1
      rw [← h1.1]
      have hab : a ≠ b.brk := by
        intro h3
        rw [h3, key_none_of_inv hinv .left] at hl
        cases hl
      exact stableAt_of_inv hinv1 ((hg.key_old .left a hab).trans hl)
        ((hg.key_old .right a hab).trans hr)
  · intro x b1 next hx h1
    exact hkeep (erase_it_keeps hinv .left hx h1)
  · intro x b1 next hx h1
    exact hkeep (erase_it_keeps hinv .right hx h1)
  · intro k b1 found hk h1
    exact hkeep (erase_val_keeps hinv .left hl hk h1)
  · intro k b1 found hk h1
    exact hkeep (erase_val_keeps hinv .right hr hk h1)
  · intro first last M b1 it ht ha h1
    exact hkeep (erase_range_keeps hinv .left ht ha h1)
  · intro first last M b1 it ht ha h1
    exact hkeep (erase_range_keeps hinv .right ht ha h1)

theorem iterator_stable_witness :
    Reachable demo_three ∧ demo_three.key .left 0 = some 2 ∧
    demo_three.key .right 0 = some "b" ∧
    demo_three.StableAt 0 2 "b" ∧
    (∀ l1 r1 b1 it, demo_three.insert l1 r1 = .ok (b1, it) → b1.StableAt 0 2 "b") ∧
    (∀ x b1 next, x ≠ some (.element 0) → demo_three.erase_left x = .ok (b1, next) →
      b1.StableAt 0 2 "b") ∧
    (∀ x b1 next, x ≠ some (.element 0) → demo_three.erase_right x = .ok (b1, next) →
      b1.StableAt 0 2 "b") ∧
    (∀ k b1 found, ¬ Equiv demo_three.compare_left_ 2 k →
      demo_three.erase_left_key k = .ok (b1, found) → b1.StableAt 0 2 "b") ∧
    (∀ k b1 found, ¬ Equiv demo_three.compare_right_ "b" k →
      demo_three.erase_right_key k = .ok (b1, found) → b1.StableAt 0 2 "b") ∧
    (∀ first last (M : List Nat) b1 it,
      traverse demo_three .left last demo_three.fuel first =
        .ok (M.map (fun x => some (Ref.element x))) →
      0 ∉ M → demo_three.erase_left_range first last = .ok (b1, it) → b1.StableAt 0 2 "b") ∧
    (∀ first last (M : List Nat) b1 it,
      traverse demo_three .right last demo_three.fuel first =
        .ok (M.map (fun x => some (Ref.element x))) →
      0 ∉ M → demo_three.erase_right_range first last = .ok (b1, it) → b1.StableAt 0 2 "b") :=
  ⟨demo_three_reachable, rfl, rfl,
    iterator_stable demo_three demo_three_reachable 0 2 "b" rfl rfl⟩

/-- A scenario: the iterator of the element (2, "b") of the container with the pairs
(2, "b"), (1, "a"), (3, "c") still dereferences to 2, flips to "b" and is what `find_left(2)`
returns after `insert(4, "d")`, after the rejected `insert(1, "z")` and after
`erase_left(1)`. -/
theorem demo_three_stable :
    (demo_three.insert 4 "d").map (fun p =>
      (operator_deref p.1 .left (some (.element 0)),
       flip p.1 .left (some (.element 0)) >>= fun f => operator_deref p.1 .right f,
       p.1.find_left 2)) = .ok (.ok 2, .ok "b", .ok (some (.element 0))) ∧
    (demo_three.insert 1 "z").map (fun p =>
      (p.1.size, operator_deref p.1 .left (some (.element 0)),
       flip p.1 .left (some (.element 0)) >>= fun f => operator_deref p.1 .right f,
       p.1.find_left 2)) = .ok (3, .ok 2, .ok "b", .ok (some (.element 0))) ∧
    (demo_three.erase_left_key 1).map (fun p =>
      (p.2, operator_deref p.1 .left (some (.element 0)),
       flip p.1 .left (some (.element 0)) >>= fun f => operator_deref p.1 .right f,
       p.1.find_left 2)) = .ok (true, .ok 2, .ok "b", .ok (some (.element 0))) :=
  ⟨rfl, rfl, rfl⟩


/-! ## Claim on the search tree invariant -/

theorem bst_of_reachable {b : Bimap L R} (h : Reachable b) (s : Side) :
    b.IsSearchTree s ∧ b.Reciprocal s := by
  obtain ⟨tl, tr, hinv⟩ := reachable_inv h
  exact ⟨(hinv.view s).isSearchTree, (hinv.view s).reciprocal⟩

/-- Claim C30. In every reachable container, and in the container after every call of
`insert`, of the six `erase` functions and of `at_left_or_default` and `at_right_or_default`
that returns, on each side the key of every element is greater than every key in its left
subtree and less than every key in its right subtree under the comparator of the side, the
parent link of every child references its parent, the parent link of the root references the
sentinel, and the parent link of the sentinel references the root. -/
theorem bst_invariant (b : Bimap L R) (h : Reachable b) :
    (∀ s, b.IsSearchTree s ∧ b.Reciprocal s) ∧
    (∀ l r b1 it, b.insert l r = .ok (b1, it) → ∀ s, b1.IsSearchTree s ∧ b1.Reciprocal s) ∧
    (∀ x b1 next, b.erase_left x = .ok (b1, next) → ∀ s, b1.IsSearchTree s ∧ b1.Reciprocal s) ∧
    (∀ x b1 next, b.erase_right x = .ok (b1, next) → ∀ s, b1.IsSearchTree s ∧ b1.Reciprocal s) ∧
    (∀ k b1 found, b.erase_left_key k = .ok (b1, found) →
      ∀ s, b1.IsSearchTree s ∧ b1.Reciprocal s) ∧
    (∀ k b1 found, b.erase_right_key k = .ok (b1, found) →
      ∀ s, b1.IsSearchTree s ∧ b1.Reciprocal s) ∧
    (∀ first last b1 it, b.erase_left_range first last = .ok (b1, it) →
      ∀ s, b1.IsSearchTree s ∧ b1.Reciprocal s) ∧
    (∀ first last b1 it, b.erase_right_range first last = .ok (b1, it) →
      ∀ s, b1.IsSearchTree s ∧ b1.Reciprocal s) ∧
    (∀ k d b1 v, b.at_left_or_default k d = .ok (b1, v) →
      ∀ s, b1.IsSearchTree s ∧ b1.Reciprocal s) ∧
    (∀ k d b1 v, b.at_right_or_default k d = .ok (b1, v) →
      ∀ s, b1.IsSearchTree s ∧ b1.Reciprocal s) :=
  ⟨fun s => bst_of_reachable h s,
    fun l r _ it h1 s => bst_of_reachable (Reachable.insert l r it h h1) s,
    fun x _ next h1 s => bst_of_reachable (Reachable.erase_left x next h h1) s,
    fun x _ next h1 s => bst_of_reachable (Reachable.erase_right x next h h1) s,
    fun k _ found h1 s => bst_of_reachable (Reachable.erase_left_key k found h h1) s,
    fun k _ found h1 s => bst_of_reachable (Reachable.erase_right_key k found h h1) s,
    fun first last _ it h1 s => bst_of_reachable (Reachable.erase_left_range first last it h h1) s,
    fun first last _ it h1 s =>
      bst_of_reachable (Reachable.erase_right_range first last it h h1) s,
    fun k d _ v h1 s => bst_of_reachable (Reachable.at_left_or_default k d v h h1) s,
    fun k d _ v h1 s => bst_of_reachable (Reachable.at_right_or_default k d v h h1) s⟩

theorem bst_invariant_witness :
    Reachable demo_three ∧
    (∀ s, demo_three.IsSearchTree s ∧ demo_three.Reciprocal s) ∧
    (∀ l r b1 it, demo_three.insert l r = .ok (b1, it) →
      ∀ s, b1.IsSearchTree s ∧ b1.Reciprocal s) ∧
    (∀ x b1 next, demo_three.erase_left x = .ok (b1, next) →
      ∀ s, b1.IsSearchTree s ∧ b1.Reciprocal s) ∧
    (∀ x b1 next, demo_three.erase_right x = .ok (b1, next) →
      ∀ s, b1.IsSearchTree s ∧ b1.Reciprocal s) ∧
    (∀ k b1 found, demo_three.erase_left_key k = .ok (b1, found) →
      ∀ s, b1.IsSearchTree s ∧ b1.Reciprocal s) ∧
    (∀ k b1 found, demo_three.erase_right_key k = .ok (b1, found) →
      ∀ s, b1.IsSearchTree s ∧ b1.Reciprocal s) ∧
    (∀ first last b1 it, demo_three.erase_left_range first last = .ok (b1, it) →
      ∀ s, b1.IsSearchTree s ∧ b1.Reciprocal s) ∧
    (∀ first last b1 it, demo_three.erase_right_range first last = .ok (b1, it) →
      ∀ s, b1.IsSearchTree s ∧ b1.Reciprocal s) ∧
    (∀ k d b1 v, demo_three.at_left_or_default k d = .ok (b1, v) →
      ∀ s, b1.IsSearchTree s ∧ b1.Reciprocal s) ∧
    (∀ k d b1 v, demo_three.at_right_or_default k d = .ok (b1, v) →
      ∀ s, b1.IsSearchTree s ∧ b1.Reciprocal s) :=
  ⟨demo_three_reachable, bst_invariant demo_three demo_three_reachable⟩

/-- A scenario: after `at_left_or_default(5)` with the default value "a" on the container
with the pairs (2, "b"), (1, "a"), (3, "c"), the root of the right tree is the element
(2, "b"), whose parent link references the sentinel; its left child is the new element
(5, "a"), its right child the element (3, "c"), and the parent links of both children
reference the root. -/
theorem demo_steal_links :
    (demo_three.at_left_or_default 5 "a").map (fun p =>
      (p.1.sentinel_ .right, p.1.base .right (.element 0), p.1.pair 3,
       (p.1.base .right (.element 3)).map (fun e => e.parent_), p.1.pair 2,
       (p.1.base .right (.element 2)).map (fun e => e.parent_))) =
      .ok ({ parent_ := some (.element 0), left_ := some (.element 2),
             right_ := some (.element 3) },
           .ok { parent_ := some (.sentinel 0), left_ := some (.element 3),
                 right_ := some (.element 2) },
           some (5, "a"), .ok (some (.element 0)), some (3, "c"), .ok (some (.element 0))) :=
  rfl


/-! ## Successor and predecessor in the order of a side -/

theorem Nav.successor_at {b : Bimap L R} {s : Side} {t : Tree} (hn : Nav b s t)
    (hsz : t.toList.length ≤ b.size_) {A B : List Nat} {a : Nat} (hl : t.toList = A ++ a :: B) :
    ct.operator_inc b s (some (.element a)) = .ok (some (firstD b.get_sentinel B)) := by
  have ha : a ∈ t.toList := by rw [hl]; simp
  obtain ⟨c, l, r, ht⟩ := exists_plug_of_mem ha
  have h1 := split_of_plug c l r a
  rw [← ht, hl] at h1
  have h2 := split_unique (hl ▸ hn.nodup) h1
  rw [hn.operator_inc ht hsz, h2.2]

theorem Nav.predecessor_at {b : Bimap L R} {s : Side} {t : Tree} (hn : Nav b s t)
    (hsz : t.toList.length ≤ b.size_) {A B : List Nat} {p a : Nat}
    (hl : t.toList = A ++ p :: a :: B) :
    ct.operator_dec b s (some (.element a)) = .ok (some (.element p)) := by
  have hl1 : t.toList = (A ++ [p]) ++ a :: B := by rw [hl]; simp
  have ha : a ∈ t.toList := by rw [hl]; simp
  obtain ⟨c, l, r, ht⟩ := exists_plug_of_mem ha
  have h1 := split_of_plug c l r a
  rw [← ht, hl1] at h1
  have h2 := (split_unique (hl1 ▸ hn.nodup) h1).1
  rw [hn.operator_dec ht hsz]
  by_cases hl0 : l.toList = []
  · rw [hl0] at h2 ⊢
    simp only [List.append_nil] at h2
    have hne : before c ≠ [] := by rw [← h2]; simp
    rw [lastD_nil, aboveLeft_eq a c b.get_sentinel hne, ← h2, lastD_append_singleton]
  · have h3 : lastD (aboveLeft a c) l.toList = lastD b.get_sentinel (before c ++ l.toList) := by
      rw [lastD_append]
      exact lastD_of_ne_nil hl0 _ _
    rw [h3, ← h2, lastD_append_singleton]

theorem Nav.traverse_from {b : Bimap L R} {s : Side} {t : Tree} (hn : Nav b s t)
    (hsz : t.toList.length ≤ b.size_) :
    ∀ (B A : List Nat) (fuel : Nat), t.toList = A ++ B → B.length < fuel →
      ct.traverse b s (some b.get_sentinel) fuel (some (firstD b.get_sentinel B)) =
        .ok (B.map (fun a => some (Ref.element a))) := by
  intro B
  induction B with
  | nil =>
    intro A fuel _ hf
    obtain ⟨f, rfl⟩ : ∃ f, fuel = f + 1 := ⟨fuel - 1, by simp at hf; omega⟩
    simp [ct.traverse, firstD]
  | cons a B ih =>
    intro A fuel hl hf
    obtain ⟨f, rfl⟩ : ∃ f, fuel = f + 1 := ⟨fuel - 1, by simp at hf; omega⟩
    have hne : (some (Ref.element a) : Ptr) ≠ some b.get_sentinel := by
      simp [Bimap.get_sentinel]
    have h1 := ih (A ++ [a]) f (by simp [hl]) (by simp at hf ⊢; omega)
    have h2 : firstD b.get_sentinel (a :: B) = .element a := rfl
    rw [h2]
    simp only [ct.traverse, hne, if_false, hn.successor_at hsz hl, ok_bind, h1, pure_eq_ok,
      List.map_cons]

theorem SideView.predecessor {b : Bimap L R} {s : Side} {t : Tree} (h : SideView b s t)
    {A B : List Nat} {p a : Nat} (hl : t.toList = A ++ p :: a :: B) :
    ct.operator_dec b s (some (.element a)) = .ok (some (.element p)) :=
  h.to_nav.predecessor_at (le_of_eq h.size.symm) hl

theorem SideView.dec_end {b : Bimap L R} {s : Side} {t : Tree} (h : SideView b s t) :
    ct.operator_dec b s (some b.get_sentinel) = .ok (some (lastD b.get_sentinel t.toList)) := by
  rw [h.to_nav.operator_dec_sentinel]
  have := h.inv.sentinel
  unfold SentinelFor at this
  rw [this]

/-- The keys of a sorted list, relative to an element of the list. -/
theorem SideView.split_keys {b : Bimap L R} {s : Side} {t : Tree} (h : SideView b s t)
    {A B : List Nat} {a : Nat} (hl : t.toList = A ++ a :: B) :
    (∀ x ∈ A, b.keyLt s x a) ∧ (∀ x ∈ B, b.keyLt s a x) := by
  have hs := h.inv.sorted
  rw [hl, List.pairwise_append] at hs
  refine ⟨fun x hx => hs.2.2 x hx a (List.mem_cons_self _ _), fun x hx => ?_⟩
  exact (List.pairwise_cons.1 hs.2.1).1 x hx

theorem exists_split_of_mem {xs : List Nat} {a : Nat} (h : a ∈ xs) :
    ∃ A B, xs = A ++ a :: B := List.append_of_mem h

/-- The iterator after `++` references the first entry whose key follows the key of the
entry. -/
theorem SideView.inc_first {b : Bimap L R} {s : Side} {t : Tree} (h : SideView b s t)
    {a : Nat} {k : Key L R s} (hk : b.key s a = some k) :
    ∃ it, ct.operator_inc b s (some (.element a)) = .ok it ∧
      b.IsFirst s (fun k1 => b.get_compare s k k1 = true) (some b.get_sentinel) it := by
  obtain ⟨A, B, hl⟩ := exists_split_of_mem (h.mem_of_key hk)
  obtain ⟨hA, hB⟩ := h.split_keys hl
  have hl1 : t.toList = (A ++ [a]) ++ B := by rw [hl]; simp
  refine ⟨_, h.successor hl, h.isFirst _ hl1 ?_ ?_⟩
  · intro x hx kx hkx
    simp only [List.mem_append, List.mem_singleton] at hx
    rcases hx with hx | hx
    · obtain ⟨k1, k2, h1, h2, h3⟩ := hA x hx
      rw [hkx] at h1; cases h1
      rw [hk] at h2; cases h2
      rw [h.order.asymm h3]; simp
    · subst hx
      rw [hk] at hkx; cases hkx
      rw [h.order.irrefl]; simp
  · intro x hx kx hkx
    obtain ⟨k1, k2, h1, h2, h3⟩ := hB x hx
    rw [hk] at h1; cases h1
    rw [hkx] at h2; cases h2
    exact h3

/-- The iterator before `--` followed by `++`, and the iterator before `++` followed by
`--`. -/
theorem SideView.inc_dec {b : Bimap L R} {s : Side} {t : Tree} (h : SideView b s t)
    {a : Nat} (ha : a ∈ t.toList) :
    ∃ n1, ct.operator_inc b s (some (.element a)) = .ok n1 ∧
      ct.operator_dec b s n1 = .ok (some (.element a)) := by
  obtain ⟨A, B, hl⟩ := exists_split_of_mem ha
  refine ⟨_, h.successor hl, ?_⟩
  cases B with
  | nil =>
    rw [firstD_nil, h.dec_end, hl, lastD_append_singleton]
  | cons x B =>
    rw [firstD_cons]
    exact h.predecessor hl

theorem SideView.dec_inc {b : Bimap L R} {s : Side} {t : Tree} (h : SideView b s t)
    {A B : List Nat} {p : Nat} (hl : t.toList = A ++ p :: B) :
    ct.operator_dec b s (some (firstD b.get_sentinel B)) = .ok (some (.element p)) ∧
      ct.operator_inc b s (some (.element p)) = .ok (some (firstD b.get_sentinel B)) := by
  refine ⟨?_, h.successor hl⟩
  cases B with
  | nil =>
    rw [firstD_nil, h.dec_end, hl, lastD_append_singleton]
  | cons x B =>
    rw [firstD_cons]
    exact h.predecessor hl


/-! ## The claims about the iterators and the sentinel test -/

/-- Claim C36. In every reachable container and on each side, `is_sentinel` returns true for
the sentinel of the side and false for every data node linked in the tree of the side. -/
theorem is_sentinel_exact (b : Bimap L R) (h : Reachable b) (s : Side) :
    is_sentinel b s b.get_sentinel = .ok true ∧
    ∀ a, InTree b s a → is_sentinel b s (.element a) = .ok false := by
  obtain ⟨t, hv⟩ := reachable_view h s
  refine ⟨hv.to_nav.is_sent, fun a ha => ?_⟩
  exact hv.to_nav.toLinks.is_sentinel_element ((hv.to_nav.toLinks.inTree_iff a).1 ha)

theorem is_sentinel_exact_witness :
    Reachable demo_three ∧
    is_sentinel demo_three .left demo_three.get_sentinel = .ok true ∧
    ∀ a, InTree demo_three .left a → is_sentinel demo_three .left (.element a) = .ok false :=
  ⟨demo_three_reachable, is_sentinel_exact demo_three demo_three_reachable .left⟩

/-- A scenario: the sentinel test on the empty container, on the container with the single
pair (5, "x"), whose root has no children, and on the container with the pairs (2, "b"),
(1, "a"), (3, "c"), whose root has both children. -/
theorem demo_sentinel_detection :
    is_sentinel demo_empty .left demo_empty.get_sentinel = .ok true ∧
    is_sentinel demo_empty .right demo_empty.get_sentinel = .ok true ∧
    is_sentinel demo_one .left demo_one.get_sentinel = .ok true ∧
    is_sentinel demo_one .right demo_one.get_sentinel = .ok true ∧
    demo_one.get_root .left = some (.element 0) ∧
    is_sentinel demo_one .left (.element 0) = .ok false ∧
    is_sentinel demo_one .right (.element 0) = .ok false ∧
    is_sentinel demo_three .left demo_three.get_sentinel = .ok true ∧
    is_sentinel demo_three .right demo_three.get_sentinel = .ok true ∧
    demo_three.base .left (.element 0) = .ok
      { parent_ := some demo_three.get_sentinel, left_ := some (.element 1),
        right_ := some (.element 2) } ∧
    is_sentinel demo_three .left (.element 0) = .ok false ∧
    is_sentinel demo_three .left (.element 1) = .ok false ∧
    is_sentinel demo_three .left (.element 2) = .ok false ∧
    is_sentinel demo_three .right (.element 0) = .ok false ∧
    is_sentinel demo_three .right (.element 1) = .ok false ∧
    is_sentinel demo_three .right (.element 2) = .ok false :=
  ⟨rfl, rfl, rfl, rfl, rfl, rfl, rfl, rfl, rfl, rfl, rfl, rfl, rfl, rfl, rfl, rfl⟩

/-- Claim C34. In every reachable container and on each side, `++` on the iterator of an
entry returns the iterator of the entry with the least key that follows the key of the
entry, and the end iterator of the side when no key follows it; `++` on the end iterator
returns the end iterator. -/
theorem increment_is_successor (b : Bimap L R) (h : Reachable b) (s : Side) :
    operator_inc b s (some b.get_sentinel) = .ok (some b.get_sentinel) ∧
    ∀ a k, b.key s a = some k →
      ∃ it, operator_inc b s (some (.element a)) = .ok it ∧
        b.IsFirst s (fun k1 => b.get_compare s k k1 = true) (some b.get_sentinel) it := by
  obtain ⟨t, hv⟩ := reachable_view h s
  exact ⟨hv.to_nav.operator_inc_sentinel, fun a k hk => hv.inc_first hk⟩

theorem increment_is_successor_witness :
    Reachable demo_three ∧
    operator_inc demo_three .left (some demo_three.get_sentinel) =
      .ok (some demo_three.get_sentinel) ∧
    ∀ a k, demo_three.key .left a = some k →
      ∃ it, operator_inc demo_three .left (some (.element a)) = .ok it ∧
        demo_three.IsFirst .left (fun k1 => demo_three.get_compare .left k k1 = true)
          (some demo_three.get_sentinel) it :=
  ⟨demo_three_reachable, increment_is_successor demo_three demo_three_reachable .left⟩

/-- A scenario: in the container with the pairs (2, "b"), (1, "a"), (3, "c"), stored at the
addresses 0, 1 and 2, `++` leads from 1 to 2, from 2 to 3 and from 3 to the end on the left
side, from "a" to "b", from "b" to "c" and from "c" to the end on the right side; on the
empty container `++` leaves the end iterator where it is. -/
theorem demo_three_increment :
    operator_inc demo_three .left (some (.element 1)) = .ok (some (.element 0)) ∧
    operator_inc demo_three .left (some (.element 0)) = .ok (some (.element 2)) ∧
    operator_inc demo_three .left (some (.element 2)) = .ok demo_three.end_left ∧
    operator_inc demo_three .right (some (.element 1)) = .ok (some (.element 0)) ∧
    operator_inc demo_three .right (some (.element 0)) = .ok (some (.element 2)) ∧
    operator_inc demo_three .right (some (.element 2)) = .ok demo_three.end_right ∧
    operator_inc demo_three .left demo_three.end_left = .ok demo_three.end_left ∧
    operator_inc demo_empty .left demo_empty.end_left = .ok demo_empty.end_left ∧
    operator_inc demo_empty .right demo_empty.end_right = .ok demo_empty.end_right :=
  ⟨rfl, rfl, rfl, rfl, rfl, rfl, rfl, rfl, rfl⟩

/-- Claim C35. In every reachable container that is not empty and on each side: `--` after
`++` on the iterator of an entry returns that iterator; `--` on the end iterator returns the
iterator of the entry with the greatest key, and `++` leads back to the end; and `--` on the
iterator of an entry other than the first returns the iterator of the entry with the
greatest key that precedes the key of the entry, and `++` leads back. -/
theorem decrement_mirrors_increment (b : Bimap L R) (h : Reachable b) (hne : b.empty = false)
    (s : Side) :
    (∀ a k, b.key s a = some k →
      ∃ n1, operator_inc b s (some (.element a)) = .ok n1 ∧
        operator_dec b s n1 = .ok (some (.element a))) ∧
    (∃ m, operator_dec b s (some b.get_sentinel) = .ok (some (.element m)) ∧
      operator_inc b s (some (.element m)) = .ok (some b.get_sentinel) ∧ b.IsMax s m) ∧
    (∀ a k, b.key s a = some k → some (.element a) ≠ (b.sentinel_ s).right_ →
      ∃ p kp, operator_dec b s (some (.element a)) = .ok (some (.element p)) ∧
        operator_inc b s (some (.element p)) = .ok (some (.element a)) ∧
        b.key s p = some kp ∧ b.get_compare s kp k = true ∧
        ∀ a1 k1, b.key s a1 = some k1 → b.get_compare s k1 k = true →
          a1 = p ∨ b.get_compare s k1 kp = true) := by
  obtain ⟨t, hv⟩ := reachable_view h s
  refine ⟨fun a k hk => hv.inc_dec (hv.mem_of_key hk), ?_, ?_⟩
  · rcases List.eq_nil_or_concat t.toList with h1 | ⟨A, m, h1⟩
    · exact absurd h1 (hv.ne_nil hne)
    · rw [List.concat_eq_append] at h1
      have h2 := hv.dec_inc (B := []) h1
      exact ⟨m, h2.1, h2.2, hv.isMax_last h1⟩
  · intro a k hk hbeg
    obtain ⟨A, B, hl⟩ := exists_split_of_mem (hv.mem_of_key hk)
    rcases List.eq_nil_or_concat A with h1 | ⟨A1, p, h1⟩
    · subst h1
      rw [hv.begin, hl] at hbeg
      exact absurd rfl hbeg
    · rw [List.concat_eq_append] at h1
      subst h1
      have hl1 : t.toList = A1 ++ p :: (a :: B) := by rw [hl]; simp
      have h2 := hv.dec_inc hl1
      rw [firstD_cons] at h2
      have hp : p ∈ t.toList := by rw [hl1]; simp
      obtain ⟨kp, hkp⟩ := hv.key_of_mem hp s
      obtain ⟨hA, hB⟩ := hv.split_keys hl1
      obtain ⟨hA2, hB2⟩ := hv.split_keys hl
      refine ⟨p, kp, h2.1, h2.2, hkp, ?_, ?_⟩
      · obtain ⟨k1, k2, h3, h4, h5⟩ := hB a (by simp)
        rw [hkp] at h3; cases h3
        rw [hk] at h4; cases h4
        exact h5
      · intro a1 k1 hk1 hlt
        have ha1 := hv.mem_of_key hk1
        rw [hl1] at ha1
        simp only [List.mem_append, List.mem_cons] at ha1
        rcases ha1 with ha1 | ha1 | ha1 | ha1
        · right
          obtain ⟨k2, k3, h3, h4, h5⟩ := hA a1 ha1
          rw [hk1] at h3; cases h3
          rw [hkp] at h4; cases h4
          exact h5
        · exact Or.inl ha1
        · subst ha1
          rw [hk] at hk1; cases hk1
          rw [hv.order.irrefl] at hlt; cases hlt
        · obtain ⟨k2, k3, h3, h4, h5⟩ := hB2 a1 ha1
          rw [hk] at h3; cases h3
          rw [hk1] at h4; cases h4
          rw [hv.order.asymm h5] at hlt; cases hlt

theorem decrement_mirrors_increment_witness :
    Reachable demo_three ∧ demo_three.empty = false ∧
    (∀ a k, demo_three.key .left a = some k →
      ∃ n1, operator_inc demo_three .left (some (.element a)) = .ok n1 ∧
        operator_dec demo_three .left n1 = .ok (some (.element a))) ∧
    (∃ m, operator_dec demo_three .left (some demo_three.get_sentinel) =
        .ok (some (.element m)) ∧
      operator_inc demo_three .left (some (.element m)) = .ok (some demo_three.get_sentinel) ∧
      demo_three.IsMax .left m) ∧
    (∀ a k, demo_three.key .left a = some k →
      some (.element a) ≠ (demo_three.sentinel_ .left).right_ →
      ∃ p kp, operator_dec demo_three .left (some (.element a)) = .ok (some (.element p)) ∧
        operator_inc demo_three .left (some (.element p)) = .ok (some (.element a)) ∧
        demo_three.key .left p = some kp ∧ demo_three.get_compare .left kp k = true ∧
        ∀ a1 k1, demo_three.key .left a1 = some k1 →
          demo_three.get_compare .left k1 k = true →
          a1 = p ∨ demo_three.get_compare .left k1 kp = true) :=
  ⟨demo_three_reachable, rfl,
    decrement_mirrors_increment demo_three demo_three_reachable rfl .left⟩

/-- A scenario: in the container with the pairs (2, "b"), (1, "a"), (3, "c"), stored at the
addresses 0, 1 and 2, `--` leads from the end to 3, from 3 to 2 and from 2 to 1 on the left
side, and from the end to "c", from "c" to "b" and from "b" to "a" on the right side. -/
theorem demo_three_decrement :
    operator_dec demo_three .left demo_three.end_left = .ok (some (.element 2)) ∧
    operator_dec demo_three .left (some (.element 2)) = .ok (some (.element 0)) ∧
    operator_dec demo_three .left (some (.element 0)) = .ok (some (.element 1)) ∧
    operator_dec demo_three .right demo_three.end_right = .ok (some (.element 2)) ∧
    operator_dec demo_three .right (some (.element 2)) = .ok (some (.element 0)) ∧
    operator_dec demo_three .right (some (.element 0)) = .ok (some (.element 1)) ∧
    demo_three.begin_left = some (.element 1) :=
  ⟨rfl, rfl, rfl, rfl, rfl, rfl, rfl⟩


/-! ## The insertion position and the iterator returned by an erasure -/

theorem find_position_spec {b : Bimap L R} {s : Side} {t : Tree} (hv : SideView b s t)
    (hne : b.empty = false) (v : Key L R s) :
    ∃ p kp e, find_insert_position b s v = .ok (some (.element p)) ∧ InTree b s p ∧
      b.key s p = some kp ∧ b.base s (.element p) = .ok e ∧
      (Equiv (b.get_compare s) kp v ∨
        (b.get_compare s kp v = true ∧ e.right_ = none ∧
          ∀ a k, b.key s a = some k → b.get_compare s k v = true →
            a = p ∨ b.get_compare s k kp = true) ∨
        (b.get_compare s v kp = true ∧ e.left_ = none ∧
          ∀ a k, b.key s a = some k → b.get_compare s v k = true →
            a = p ∨ b.get_compare s kp k = true)) ∧
      ((∃ a k, b.key s a = some k ∧ Equiv (b.get_compare s) k v) →
        Equiv (b.get_compare s) kp v) := by
  have hnil : t ≠ .nil := by
    intro h0
    exact hv.ne_nil hne (by rw [h0]; rfl)
  obtain ⟨c, l, p, r, hf, hp⟩ := hv.to_nav.find_insert_position hv.size hnil v
  have ht := hp.1
  have hpm : p ∈ t.toList := by rw [ht]; exact mem_plug_self _ _ _ _
  obtain ⟨kp, hkp⟩ := hv.key_of_mem hpm s
  have hbase := hv.to_nav.toLinks.base_at ht
  have hl := split_of_plug c l r p
  rw [← ht] at hl
  obtain ⟨hA, hB⟩ := hv.split_keys hl
  obtain ⟨h1, h2, h3, h4⟩ := position_split hv.order hp hv.inv.sorted
  have hlt : ∀ {x y : Nat} {kx ky : Key L R s}, b.keyLt s x y → b.key s x = some kx →
      b.key s y = some ky → b.get_compare s kx ky = true := by
    intro x y kx ky hxy hx hy
    obtain ⟨k1, k2, e1, e2, e3⟩ := hxy
    rw [hx] at e1; cases e1
    rw [hy] at e2; cases e2
    exact e3
  refine ⟨p, kp, _, hf, (hv.to_nav.toLinks.inTree_iff p).2 hpm, hkp, hbase, ?_, ?_⟩
  · rcases hp.2.2 with he | ⟨hb, hr⟩ | ⟨ha, hl0⟩
    · exact Or.inl ((keyEquiv_iff hkp v).1 he)
    · right; left
      subst hr
      refine ⟨(keyBelow_iff hkp v).1 hb, rfl, ?_⟩
      intro a k hk hlt1
      have ha := hv.mem_of_key hk
      rw [hl] at ha
      simp only [toList_nil, List.nil_append, List.mem_append, List.mem_cons] at ha
      rcases ha with ha | ha | ha
      · exact Or.inr (hlt (hA a (by simpa using ha)) hk hkp)
      · exact Or.inl ha
      · have := (keyAbove_iff hk v).1 (h2 a ha)
        rw [hv.order.asymm this] at hlt1; cases hlt1
    · right; right
      subst hl0
      refine ⟨(keyAbove_iff hkp v).1 ha, rfl, ?_⟩
      intro a k hk hlt1
      have ha1 := hv.mem_of_key hk
      rw [hl] at ha1
      simp only [toList_nil, List.append_nil, List.mem_append, List.mem_cons] at ha1
      rcases ha1 with ha1 | ha1 | ha1
      · have := (keyBelow_iff hk v).1 (h1 a ha1)
        rw [hv.order.asymm this] at hlt1; cases hlt1
      · exact Or.inl ha1
      · exact Or.inr (hlt (hB a (by simpa using ha1)) hkp hk)
  · rintro ⟨a, k, hk, he⟩
    by_contra hcon
    have hne1 : ¬ b.keyEquiv s v p := fun h => hcon ((keyEquiv_iff hkp v).1 h)
    exact position_no_equiv hv.order hp hv.inv.sorted hne1 a (hv.mem_of_key hk)
      ((keyEquiv_iff hk v).2 he)

/-- Claim C33. On each side of a reachable container, `find_insert_position(key)` returns
the end iterator of the side when the container is empty; otherwise it returns a data node
`p` of the tree such that the key of `p` is equivalent to `key`, or precedes `key` while `p`
has no right child and holds the greatest key that precedes `key`, or follows `key` while `p`
has no left child and holds the least key that follows `key`; and the key of `p` is
equivalent to `key` whenever an entry with an equivalent key exists. -/
theorem find_insert_position_correct (b : Bimap L R) (h : Reachable b) (s : Side)
    (v : Key L R s) :
    (b.empty = true → find_insert_position b s v = b.get_end s ∧
      b.get_end s = .ok (some b.get_sentinel)) ∧
    (b.empty = false →
      ∃ p kp e, find_insert_position b s v = .ok (some (.element p)) ∧ InTree b s p ∧
        b.key s p = some kp ∧ b.base s (.element p) = .ok e ∧
        (Equiv (b.get_compare s) kp v ∨
          (b.get_compare s kp v = true ∧ e.right_ = none ∧
            ∀ a k, b.key s a = some k → b.get_compare s k v = true →
              a = p ∨ b.get_compare s k kp = true) ∨
          (b.get_compare s v kp = true ∧ e.left_ = none ∧
            ∀ a k, b.key s a = some k → b.get_compare s v k = true →
              a = p ∨ b.get_compare s kp k = true)) ∧
        ((∃ a k, b.key s a = some k ∧ Equiv (b.get_compare s) k v) →
          Equiv (b.get_compare s) kp v)) := by
  obtain ⟨t, hv⟩ := reachable_view h s
  refine ⟨fun he => ⟨?_, hv.to_nav.get_end⟩, fun hne => find_position_spec hv hne v⟩
  simp [find_insert_position, he]

theorem find_insert_position_correct_witness :
    Reachable demo_three ∧
    (demo_three.empty = true →
      find_insert_position demo_three .left (4 : Nat) = demo_three.get_end .left ∧
      demo_three.get_end .left = .ok (some demo_three.get_sentinel)) ∧
    (demo_three.empty = false →
      ∃ p kp e, find_insert_position demo_three .left (4 : Nat) = .ok (some (.element p)) ∧
        InTree demo_three .left p ∧
        demo_three.key .left p = some kp ∧ demo_three.base .left (.element p) = .ok e ∧
        (Equiv (demo_three.get_compare .left) kp (4 : Nat) ∨
          (demo_three.get_compare .left kp (4 : Nat) = true ∧ e.right_ = none ∧
            ∀ a k, demo_three.key .left a = some k →
              demo_three.get_compare .left k (4 : Nat) = true →
              a = p ∨ demo_three.get_compare .left k kp = true) ∨
          (demo_three.get_compare .left (4 : Nat) kp = true ∧ e.left_ = none ∧
            ∀ a k, demo_three.key .left a = some k →
              demo_three.get_compare .left (4 : Nat) k = true →
              a = p ∨ demo_three.get_compare .left kp k = true)) ∧
        ((∃ a k, demo_three.key .left a = some k ∧
            Equiv (demo_three.get_compare .left) k (4 : Nat)) →
          Equiv (demo_three.get_compare .left) kp (4 : Nat))) :=
  ⟨demo_three_reachable,
    find_insert_position_correct demo_three demo_three_reachable .left (4 : Nat)⟩

/-- A scenario: in the container with the pairs (2, "b"), (1, "a"), (3, "c"), stored at the
addresses 0, 1 and 2, the position for the left key 4 is the node of 3, the position for the
left key 0 is the node of 1, the position for the left key 2 is the node of 2 and the
position for the right key "bb" is the node of "c"; in the empty container the position is
the end. -/
theorem demo_three_positions :
    find_insert_position demo_three .left (4 : Nat) = .ok (some (.element 2)) ∧
    find_insert_position demo_three .left (0 : Nat) = .ok (some (.element 1)) ∧
    find_insert_position demo_three .left (2 : Nat) = .ok (some (.element 0)) ∧
    find_insert_position demo_three .right "bb" = .ok (some (.element 2)) ∧
    find_insert_position demo_empty .left (4 : Nat) = .ok demo_empty.end_left ∧
    find_insert_position demo_empty .right "a" = .ok demo_empty.end_right :=
  ⟨rfl, rfl, rfl, rfl, rfl, rfl⟩

theorem erase_it_successor {b : Bimap L R} {tl tr : Tree} (hinv : Inv b tl tr) (s : Side)
    {a : Nat} {k : Key L R s} (hk : b.key s a = some k) :
    ∃ b1 next, erase_it_impl b s (some (.element a)) = .ok (b1, next) ∧
      operator_inc b s (some (.element a)) = .ok next ∧
      b.IsFirst s (fun k1 => b.get_compare s k k1 = true) (some b.get_sentinel) next ∧
      b1.get_sentinel = b.get_sentinel ∧ b1.size + 1 = b.size ∧
      (next = some b1.get_sentinel ∨
        ∃ m lm rm, next = some (.element m) ∧ m ≠ a ∧ b.key .left m = some lm ∧
          b.key .right m = some rm ∧ b1.StableAt m lm rm) := by
  have hv := hinv.view s
  obtain ⟨A, B, hl⟩ := exists_split_of_mem (hv.mem_of_key hk)
  obtain ⟨b1, tl1, tr1, h1, hinv1, her, -⟩ := erase_it_total hinv s hl
  obtain ⟨it, h2, h3⟩ := hv.inc_first hk
  have h4 := hv.successor hl
  rw [h2] at h4
  cases h4
  refine ⟨b1, _, h1, h2, h3, her.sentinel_eq, by simpa using her.size_eq, ?_⟩
  cases B with
  | nil => left; rw [firstD_nil, her.sentinel_eq]
  | cons m B =>
    right
    have hm : m ∈ (sideTree s tl tr).toList := by rw [hl]; simp
    have hma : m ≠ a := by
      intro h5
      have hnd := hv.nodup_list
      rw [hl] at hnd
      have := not_mem_of_nodup_mid hnd
      exact this (by simp [h5])
    obtain ⟨lm, hlm⟩ := hv.key_of_mem hm .left
    obtain ⟨rm, hrm⟩ := hv.key_of_mem hm .right
    refine ⟨m, lm, rm, rfl, hma, hlm, hrm, ?_⟩
    apply stableAt_of_inv hinv1
    · rw [her.key_old .left m (by simpa using hma)]; exact hlm
    · rw [her.key_old .right m (by simpa using hma)]; exact hrm

/-- Claim C37. In every reachable container, `erase_left(it)` on the iterator of an entry
returns the iterator that `++it` yields in the container before the erasure, which
references the entry with the least left key that follows the erased key, or is `end_left()`
when no key follows it; the returned iterator is the end iterator of the resulting container
or the iterator of an entry of it, with the pair it held; the size decreases by one; and
`erase_left(end_left())` returns `end_left()` and leaves the container as it is. The same
holds for `erase_right` on the right side. -/
theorem erase_returns_successor (b : Bimap L R) (h : Reachable b) :
    b.erase_left b.end_left = .ok (b, b.end_left) ∧
    b.erase_right b.end_right = .ok (b, b.end_right) ∧
    (∀ a l, b.key .left a = some l →
      ∃ b1 next, b.erase_left (some (.element a)) = .ok (b1, next) ∧
        operator_inc b .left (some (.element a)) = .ok next ∧
        b.IsFirst .left (fun k1 => b.compare_left_ l k1 = true) b.end_left next ∧
        b1.end_left = b.end_left ∧ b1.size + 1 = b.size ∧
        (next = b1.end_left ∨
          ∃ m lm rm, next = some (.element m) ∧ m ≠ a ∧ b.key .left m = some lm ∧
            b.key .right m = some rm ∧ b1.StableAt m lm rm)) ∧
    (∀ a r, b.key .right a = some r →
      ∃ b1 next, b.erase_right (some (.element a)) = .ok (b1, next) ∧
        operator_inc b .right (some (.element a)) = .ok next ∧
        b.IsFirst .right (fun k1 => b.compare_right_ r k1 = true) b.end_right next ∧
        b1.end_right = b.end_right ∧ b1.size + 1 = b.size ∧
        (next = b1.end_right ∨
          ∃ m lm rm, next = some (.element m) ∧ m ≠ a ∧ b.key .left m = some lm ∧
            b.key .right m = some rm ∧ b1.StableAt m lm rm ∧
            operator_deref b1 .right next = .ok rm)) := by
  obtain ⟨tl, tr, hinv⟩ := reachable_inv h
  refine ⟨erase_it_end hinv .left, erase_it_end hinv .right, ?_, ?_⟩
  · intro a l hl
    obtain ⟨b1, next, h1, h2, h3, h4, h5, h6⟩ := erase_it_successor hinv .left hl
    exact ⟨b1, next, h1, h2, h3, congrArg some h4, h5, h6⟩
  · intro a r hr
    obtain ⟨b1, next, h1, h2, h3, h4, h5, h6⟩ := erase_it_successor hinv .right hr
    refine ⟨b1, next, h1, h2, h3, congrArg some h4, h5, ?_⟩
    rcases h6 with h6 | ⟨m, lm, rm, h7, h8, h9, h10, h11⟩
    · exact Or.inl h6
    · refine Or.inr ⟨m, lm, rm, h7, h8, h9, h10, h11, ?_⟩
      obtain ⟨f, hf1, hf2⟩ := h11.2.2.2.1
      have hvl := reachable_view h .left
      subst h7
      have hin := h11.1
      cases hb : b1.heap m with
      | none =>
        have := h11.2.2.1
        simp [operator_deref, hb] at this
      | some e =>
        have h12 := h11.2.2.1
        simp only [operator_deref, hb] at h12 hf2 ⊢
        have hfe : f = some (.element m) := by
          simp only [flip] at hf1
          cases hsen : is_sentinel b1 .left (.element m) with
          | error er => rw [hsen] at hf1; cases hf1
          | ok v =>
            rw [hsen] at hf1
            cases v with
            | true => cases hf1
            | false => cases hf1; rfl
        subst hfe
        simpa [operator_deref, hb] using hf2

theorem erase_returns_successor_witness :
    Reachable demo_three ∧
    demo_three.erase_left demo_three.end_left = .ok (demo_three, demo_three.end_left) ∧
    demo_three.erase_right demo_three.end_right = .ok (demo_three, demo_three.end_right) ∧
    (∀ a l, demo_three.key .left a = some l →
      ∃ b1 next, demo_three.erase_left (some (.element a)) = .ok (b1, next) ∧
        operator_inc demo_three .left (some (.element a)) = .ok next ∧
        demo_three.IsFirst .left (fun k1 => demo_three.compare_left_ l k1 = true)
          demo_three.end_left next ∧
        b1.end_left = demo_three.end_left ∧ b1.size + 1 = demo_three.size ∧
        (next = b1.end_left ∨
          ∃ m lm rm, next = some (.element m) ∧ m ≠ a ∧ demo_three.key .left m = some lm ∧
            demo_three.key .right m = some rm ∧ b1.StableAt m lm rm)) ∧
    (∀ a r, demo_three.key .right a = some r →
      ∃ b1 next, demo_three.erase_right (some (.element a)) = .ok (b1, next) ∧
        operator_inc demo_three .right (some (.element a)) = .ok next ∧
        demo_three.IsFirst .right (fun k1 => demo_three.compare_right_ r k1 = true)
          demo_three.end_right next ∧
        b1.end_right = demo_three.end_right ∧ b1.size + 1 = demo_three.size ∧
        (next = b1.end_right ∨
          ∃ m lm rm, next = some (.element m) ∧ m ≠ a ∧ demo_three.key .left m = some lm ∧
            demo_three.key .right m = some rm ∧ b1.StableAt m lm rm ∧
            operator_deref b1 .right next = .ok rm)) :=
  ⟨demo_three_reachable, erase_returns_successor demo_three demo_three_reachable⟩

/-- A scenario: in the container with the pairs (2, "b"), (1, "a"), (3, "c"), stored at the
addresses 0, 1 and 2, `erase_left` at the entry of 2 returns the iterator of the entry of 3,
which still dereferences to 3 in the result; `erase_left` at the entry of 3 returns the end;
and `erase_right` at the entry of "a" returns the iterator of the entry of "b". -/
theorem demo_three_erase_next :
    (demo_three.erase_left (some (.element 0))).map (fun p =>
      (p.2, p.1.size, operator_deref p.1 .left p.2)) =
      .ok (some (.element 2), 2, .ok 3) ∧
    (demo_three.erase_left (some (.element 2))).map (fun p => (p.2, p.1.size)) =
      .ok (demo_three.end_left, 2) ∧
    (demo_three.erase_right (some (.element 1))).map (fun p =>
      (p.2, p.1.size, operator_deref p.1 .right p.2)) =
      .ok (some (.element 0), 2, .ok "b") :=
  ⟨rfl, rfl, rfl⟩


/-! ## The height of a tree and the loops over it -/

theorem height_plug (c : Ctx) (t : Tree) : c.length + t.height ≤ (plug c t).height := by
  induction c generalizing t with
  | nil => simp
  | cons f c ih =>
    cases f with
    | left a r =>
      have := ih (.node t a r)
      simp only [plug, Tree.height, List.length_cons] at this ⊢
      omega
    | right l a =>
      have := ih (.node l a t)
      simp only [plug, Tree.height, List.length_cons] at this ⊢
      omega

theorem subtree_height_nil (b : Bimap L R) (s : Side) (fuel : Nat) :
    subtree_height b s fuel none = 0 := by
  cases fuel <;> rfl

theorem subtree_height_sentinel (b : Bimap L R) (s : Side) (fuel o : Nat) :
    subtree_height b s fuel (some (.sentinel o)) = 0 := by
  cases fuel <;> rfl

theorem subtree_height_eq {b : Bimap L R} {s : Side} :
    ∀ (t : Tree) (p : Ref) (fuel : Nat), Shape b s t p → t.height ≤ fuel →
      subtree_height b s fuel t.root = t.height := by
  intro t
  induction t with
  | nil =>
    intro p fuel _ _
    simp [subtree_height_nil, Tree.height]
  | node l a r ihl ihr =>
    intro p fuel hs hf
    obtain ⟨hb, hl, hr⟩ := hs
    cases fuel with
    | zero => simp [Tree.height] at hf
    | succ fuel =>
      simp only [Tree.height] at hf
      simp only [root_node, subtree_height, hb, Tree.height]
      rw [ihl _ fuel hl (by omega), ihr _ fuel hr (by omega)]
      omega

theorem Links.height_eq {b : Bimap L R} {s : Side} {t : Tree} (hl : Links b s t)
    (hsz : t.toList.length ≤ b.size_) : b.height s = t.height := by
  have hh := toList_length_le_height_bound t
  unfold Bimap.height Bimap.get_root
  rw [hl.anchor]
  cases t with
  | nil => simp [Bimap.get_sentinel, subtree_height_sentinel, Tree.height]
  | node l a r =>
    simp only [root_node, Option.getD_some]
    exact subtree_height_eq (.node l a r) _ _ hl.shape (by omega)

theorem Links.descend_left_height {b : Bimap L R} {s : Side} {t : Tree} (hn : Links b s t)
    (l : Tree) (a : Nat) (r : Tree) (c : Ctx) (ht : t = plug c (.node l a r))
    (fuel : Nat) (hf : l.height < fuel) :
    ct.descend_left b s fuel (some (.element a)) =
      .ok (some (firstD (.element a) l.toList)) := by
  induction l generalizing a r c fuel with
  | nil =>
    cases fuel with
    | zero => omega
    | succ fuel => simp [ct.descend_left, hn.to_left ht]
  | node ll la lr ihl _ =>
    cases fuel with
    | zero => omega
    | succ fuel =>
      simp only [ct.descend_left, hn.to_left ht, ok_bind, root_node, Option.isSome_some,
        if_true]
      have ht2 : t = plug (.left a r :: c) (.node ll la lr) := by rw [ht]; rfl
      rw [ihl la lr (.left a r :: c) ht2 fuel (by simp only [Tree.height] at hf; omega)]
      simp [firstD_append]

theorem Links.descend_right_height {b : Bimap L R} {s : Side} {t : Tree} (hn : Links b s t)
    (l : Tree) (a : Nat) (r : Tree) (c : Ctx) (ht : t = plug c (.node l a r))
    (fuel : Nat) (hf : r.height < fuel) :
    ct.descend_right b s fuel (some (.element a)) =
      .ok (some (lastD (.element a) r.toList)) := by
  induction r generalizing a l c fuel with
  | nil =>
    cases fuel with
    | zero => omega
    | succ fuel => simp [ct.descend_right, hn.to_right ht]
  | node rl ra rr _ ihr =>
    cases fuel with
    | zero => omega
    | succ fuel =>
      simp only [ct.descend_right, hn.to_right ht, ok_bind, root_node, Option.isSome_some,
        if_true]
      have ht2 : t = plug (.right l a :: c) (.node rl ra rr) := by rw [ht]; rfl
      rw [ihr rl ra (.right l a :: c) ht2 fuel (by simp only [Tree.height] at hf; omega)]
      simp [lastD_append]

theorem Nav.find_insert_loop_height {b : Bimap L R} {s : Side} {t : Tree} (hn : Nav b s t)
    (v : Key L R s) (l : Tree) (a : Nat) (r : Tree) (c : Ctx)
    (ht : t = plug c (.node l a r)) (hp : PathOK b s v c)
    (fuel : Nat) (hf : (Tree.node l a r).height ≤ fuel) :
    ∃ c1 l1 a1 r1, ct.find_insert_loop b s v fuel (some (.element a)) = .ok (some (.element a1)) ∧
      IsPosition b s v t c1 l1 a1 r1 := by
  induction fuel generalizing l a r c with
  | zero => simp [Tree.height] at hf
  | succ fuel ih =>
    have ha : a ∈ t.toList := by rw [ht]; exact mem_plug_self _ _ _ _
    obtain ⟨k, hk⟩ := key_of_live (hn.shape.live a ha) s
    simp only [ct.find_insert_loop, operator_deref_eq hk, ok_bind, Bimap.base_at,
      hn.base_at ht, is_less_eq, is_greater_eq, hn.has_right ht, hn.has_left ht]
    cases h1 : b.get_compare s k v with
    | true =>
      simp only [if_true]
      cases r with
      | nil =>
        refine ⟨c, l, a, .nil, by simp, ht, hp, Or.inr (Or.inl ⟨⟨k, hk, h1⟩, rfl⟩)⟩
      | node rl ra rr =>
        have ht2 : t = plug (.right l a :: c) (.node rl ra rr) := by rw [ht]; rfl
        obtain ⟨c1, l1, a1, r1, h2, h3⟩ := ih rl ra rr (.right l a :: c) ht2 ⟨⟨k, hk, h1⟩, hp⟩
          (by simp only [Tree.height] at hf ⊢; omega)
        exact ⟨c1, l1, a1, r1, by simpa using h2, h3⟩
    | false =>
      cases h2 : b.get_compare s v k with
      | true =>
        simp only [Bool.false_eq_true, if_false, Bool.not_false, Bool.and_self, if_true]
        cases l with
        | nil =>
          refine ⟨c, .nil, a, r, by simp, ht, hp, Or.inr (Or.inr ⟨⟨k, hk, h2⟩, rfl⟩)⟩
        | node ll la lr =>
          have ht2 : t = plug (.left a r :: c) (.node ll la lr) := by rw [ht]; rfl
          obtain ⟨c1, l1, a1, r1, h3, h4⟩ := ih ll la lr (.left a r :: c) ht2 ⟨⟨k, hk, h2⟩, hp⟩
            (by simp only [Tree.height] at hf ⊢; omega)
          exact ⟨c1, l1, a1, r1, by simpa using h3, h4⟩
      | false =>
        refine ⟨c, l, a, r, by simp, ht, hp, Or.inl ⟨k, hk, h1, h2⟩⟩

/-- The height of a subtree and the length of the path to it, within the height of the
tree. -/
theorem height_parts {t : Tree} {c : Ctx} {l r : Tree} {a : Nat}
    (ht : t = plug c (.node l a r)) :
    l.height < t.height ∧ r.height < t.height ∧ c.length < t.height := by
  have := height_plug c (.node l a r)
  rw [← ht] at this
  simp only [Tree.height] at this
  omega

/-- The loops that start at a node of the tree return with every fuel that reaches the
height of the tree, and return what they return with more fuel. -/
theorem Nav.loops_return {b : Bimap L R} {s : Side} {t : Tree} (hn : Nav b s t)
    {a : Nat} (ha : a ∈ t.toList) (fuel fuel1 : Nat) (hf : t.height ≤ fuel)
    (hf1 : t.height ≤ fuel1) :
    (∃ p, ct.descend_left b s fuel (some (.element a)) = .ok p ∧
      ct.descend_left b s fuel1 (some (.element a)) = .ok p) ∧
    (∃ p, ct.descend_right b s fuel (some (.element a)) = .ok p ∧
      ct.descend_right b s fuel1 (some (.element a)) = .ok p) ∧
    (∃ p, ct.climb_right b s fuel (some (.element a)) = .ok p) ∧
    (∃ p, ct.climb_left b s fuel (some (.element a)) = .ok p) := by
  obtain ⟨c, l, r, ht⟩ := exists_plug_of_mem ha
  obtain ⟨h1, h2, h3⟩ := height_parts ht
  refine ⟨⟨_, hn.toLinks.descend_left_height l a r c ht fuel (by omega),
      hn.toLinks.descend_left_height l a r c ht fuel1 (by omega)⟩,
    ⟨_, hn.toLinks.descend_right_height l a r c ht fuel (by omega),
      hn.toLinks.descend_right_height l a r c ht fuel1 (by omega)⟩, ?_, ?_⟩
  · obtain ⟨top, te, h4, -⟩ := hn.climb_right c l a r ht fuel (by omega)
    exact ⟨_, h4⟩
  · obtain ⟨top, te, h4, -⟩ := hn.climb_left c l a r ht fuel (by omega)
    exact ⟨_, h4⟩

/-- The predecessor search of `unlink` returns with every fuel that reaches the height of
the tree. -/
theorem Links.predecessor_search {b : Bimap L R} {s : Side} {t : Tree} (hn : Links b s t)
    {n : Nat} (ha : n ∈ t.toList) (fuel fuel1 : Nat) (hf : t.height ≤ fuel)
    (hf1 : t.height ≤ fuel1) :
    ∃ e, b.base s (.element n) = .ok e ∧
      (e.left_ ≠ none → ∃ p, ct.descend_right b s fuel e.left_ = .ok p ∧
        ct.descend_right b s fuel1 e.left_ = .ok p) := by
  obtain ⟨c, l, r, ht⟩ := exists_plug_of_mem ha
  obtain ⟨h1, h2, h3⟩ := height_parts ht
  refine ⟨_, hn.base_at ht, ?_⟩
  intro hne
  cases l with
  | nil => simp at hne
  | node ll la lr =>
    have ht2 : t = plug (.left n r :: c) (.node ll la lr) := by rw [ht]; rfl
    obtain ⟨h4, h5, h6⟩ := height_parts ht2
    exact ⟨_, hn.descend_right_height ll la lr _ ht2 fuel (by omega),
      hn.descend_right_height ll la lr _ ht2 fuel1 (by omega)⟩


/-! ## `unlink`: what replaces the node -/

/-- The first block of `unlink` chooses the last node of the left subtree when there is one,
and the root of the right subtree otherwise. -/
theorem unlink_head_form {b : Bimap L R} {s : Side} {t : Tree} (hlk : Links b s t)
    {c : Ctx} {l r : Tree} {n : Nat} (ht : t = plug c (.node l n r))
    (hsz : t.toList.length ≤ b.size_) :
    ∃ bf t1, unlink_head b s (.element n) l.root.isSome = .ok (bf, t1.root) ∧
      Spliced s l r t1 b bf ∧
      t1.root = if l.root.isSome then some (lastD b.get_sentinel l.toList) else r.root := by
  have hbn := hlk.base_at ht
  cases l with
  | nil =>
    have hsh := hlk.shape
    rw [ht, shape_plug] at hsh
    refine ⟨b, r, ?_, ⟨Touch.refl_touch s b, fun _ _ => rfl, ShapeLoose.of_shape hsh.2.2.2,
      by simp⟩, by simp⟩
    simp only [unlink_head, root_nil, Option.isSome_none, Bool.false_eq_true, if_false,
      hlk.has_right ht, ok_bind, hbn]
    cases r <;> rfl
  | node ll la lr =>
    have hfuel : (Tree.node ll la lr).toList.length ≤ b.fuel := by
      have := length_plug c (.node (.node ll la lr) n r)
      rw [← ht] at this
      simp only [toList_node, List.length_append, List.length_cons, Bimap.fuel] at this ⊢
      omega
    have ht2 : t = plug (.left n r :: c) (.node ll la lr) := by rw [ht]; rfl
    have hdesc := hlk.descend_right_tree _ _ ht2 (by simp) b.fuel hfuel b.get_sentinel
    obtain ⟨sp, ml, m, hsp⟩ := exists_spine ll la lr
    have hlast : lastD b.get_sentinel (Tree.node ll la lr).toList = .element m := by
      rw [hsp, toList_spine]
      simp only [toList_node, toList_nil, List.append_nil]
      rw [← List.append_assoc]
      exact lastD_append_singleton _ _ _
    rw [hlast] at hdesc
    simp only [root_node, Option.isSome_some, if_true, hlast]
    rw [hsp] at ht hbn hdesc
    cases sp with
    | nil =>
      simp only [rightCtx, List.map_nil, plug_nil] at ht hbn hdesc hsp
      obtain ⟨b1, h1, h2, h3⟩ := splice_direct hlk ht
      rw [hsp]
      refine ⟨b1, _, ?_, h3, rfl⟩
      simp only [unlink_head, if_true, hbn, ok_bind]
      simp only [root_node] at hdesc
      simp [hdesc, h1, h2]
    | cons p sp =>
      obtain ⟨ql, q⟩ := p
      obtain ⟨b1, b2, b3, h1, h2, h3, h4, h5, h6, h7⟩ := splice_spine hlk ht
      rw [hsp]
      refine ⟨b3, _, ?_, h7, rfl⟩
      simp only [unlink_head, if_true, hbn, ok_bind, hdesc, h1, h2, h3, h4, h5, h6,
        pure_eq_ok, root_node]

theorem unlink_form {b : Bimap L R} {s : Side} {t : Tree} {hi lo : Ref}
    (hlk : Linked b s t hi lo) (hnd : t.toList.Nodup) {c : Ctx} {l r : Tree} {n : Nat}
    (ht : t = plug c (.node l n r)) (hsz : t.toList.length ≤ b.size_)
    (hhi : hi = b.get_sentinel ∨ ∃ a ∈ t.toList, a ≠ n ∧ hi = .element a) :
    ∃ b3 t1, unlink b s (some (.element n)) = .ok b3 ∧ Touch s b b3 ∧
      Linked b3 s (plug c t1) hi lo ∧ t1.toList = l.toList ++ r.toList ∧
      b3.base s (.element n) = .ok (reset (.element n)) ∧
      t1.root = if l.root.isSome then some (lastD b.get_sentinel l.toList) else r.root := by
  have hlinks := hlk.links hnd
  have hnt : n ∈ t.toList := by rw [ht]; exact mem_plug_self _ _ _ _
  obtain ⟨bf, t1, h1, hsp, hroot⟩ := unlink_head_form hlinks ht hsz
  obtain ⟨b3, h2, h3, h4, h5⟩ := unlink_tail_spec hlk hnd ht hsp hhi
  refine ⟨b3, t1, ?_, h3, h4, hsp.toList, h5, hroot⟩
  rw [unlink_eq]
  simp only [hlinks.is_sentinel_element hnt, ok_bind, Bool.false_eq_true, if_false,
    hlinks.has_left ht, h1, h2]


/-! ## The tree after `unlink` -/

theorem Links.linkedSearchTree {b : Bimap L R} {s : Side} {t : Tree} (hl : Links b s t)
    (hso : t.toList.Pairwise (b.keyLt s)) : b.LinkedSearchTree s := by
  intro a e hin he
  have ha : a ∈ t.toList := (hl.inTree_iff a).1 hin
  obtain ⟨c, l, r, ht⟩ := exists_plug_of_mem ha
  have hb := hl.base_at ht
  rw [hb] at he
  cases he
  have hsh := hl.shape
  rw [ht, shape_plug] at hsh
  obtain ⟨-, -, hsl, hsr⟩ := hsh
  rw [ht, toList_plug] at hso
  have h1 : (l.toList ++ a :: r.toList).Pairwise (b.keyLt s) :=
    hso.sublist (List.infix_append (before c) _ (after c)).sublist
  rw [List.pairwise_append] at h1
  constructor
  · intro d hd
    have hm := below_mem l _ d hsl hd
    exact h1.2.2 d hm a (List.mem_cons_self _ _)
  · intro d hd
    have hm := below_mem r _ d hsr hd
    exact (List.pairwise_cons.1 h1.2.1).1 d hm

theorem Links.linkedReciprocal {b : Bimap L R} {s : Side} {t : Tree} (hl : Links b s t) :
    b.LinkedReciprocal s := by
  have hs := hl.anchor
  refine ⟨?_, ?_, ?_⟩
  · intro a e c hin he hc
    have ha : a ∈ t.toList := (hl.inTree_iff a).1 hin
    obtain ⟨cx, l, r, ht⟩ := exists_plug_of_mem ha
    have hb := hl.base_at ht
    rw [hb] at he
    cases he
    have hsh := hl.shape
    rw [ht, shape_plug] at hsh
    obtain ⟨-, -, hsl, hsr⟩ := hsh
    rcases hc with hc | hc
    · cases l with
      | nil => simp at hc
      | node ll x lr =>
        simp only [root_node, Option.some.injEq] at hc
        subst hc
        exact ⟨_, hsl.1, rfl⟩
    · cases r with
      | nil => simp at hc
      | node rl x rr =>
        simp only [root_node, Option.some.injEq] at hc
        subst hc
        exact ⟨_, hsr.1, rfl⟩
  · intro root hr
    cases t with
    | nil =>
      rw [hs] at hr
      simp [Bimap.get_sentinel] at hr
    | node l x r =>
      rw [hs] at hr
      simp only [root_node, Option.getD_some, Option.some.injEq, Ref.element.injEq] at hr
      subst hr
      exact ⟨_, hl.shape.1, rfl⟩
  · intro a e hin he hp
    have ha : a ∈ t.toList := (hl.inTree_iff a).1 hin
    cases t with
    | nil => simp at ha
    | node l x r =>
      rw [hs]
      simp only [root_node, Option.getD_some, Option.some.injEq, Ref.element.injEq]
      obtain ⟨hx, hl1, hr1⟩ := hl.shape
      simp only [toList_node, List.mem_append, List.mem_cons] at ha
      rcases ha with ha | ha | ha
      · obtain ⟨e1, he1, hp1⟩ := hl1.parent_ne_sentinel ha b.self
        rw [he1] at he
        cases he
        exact absurd hp hp1
      · exact ha.symm
      · obtain ⟨e1, he1, hp1⟩ := hr1.parent_ne_sentinel ha b.self
        rw [he1] at he
        cases he
        exact absurd hp hp1

theorem shape_root_parent {b : Bimap L R} {s : Side} {t : Tree} {p m : Ref}
    (h : Shape b s t p) (hm : t.root = some m) :
    ∃ me, b.base s m = .ok me ∧ me.parent_ = some p := by
  cases t with
  | nil => simp at hm
  | node l x r =>
    simp only [root_node, Option.some.injEq] at hm
    subst hm
    exact ⟨_, h.1, rfl⟩

/-- The tree `t1` hangs where the node `n` hung. -/
theorem takes_place {b b3 : Bimap L R} {s : Side} {t t1 : Tree} {hi lo : Ref} {c : Ctx}
    {l r : Tree} {n : Nat} (hb : Links b s t) (ht : t = plug c (.node l n r))
    (hl3 : Linked b3 s (plug c t1) hi lo) (hgs : b3.get_sentinel = b.get_sentinel) :
    TakesPlace b b3 s n t1.root := by
  have hbn := hb.base_at ht
  have hnd := hb.nodup
  rw [ht] at hnd
  obtain ⟨-, -, -, hn4, -⟩ := nodup_plug hnd
  have hsh := hb.shape
  rw [ht, shape_plug] at hsh
  have hsh3 := hl3.shape
  rw [shape_plug, hgs] at hsh3
  cases c with
  | nil =>
    have hS3 : b3.base s b.get_sentinel = .ok (b3.sentinel_ s) := by
      rw [← hgs]; exact base_sentinel_self b3 s
    refine ⟨_, _, _, _, hbn, rfl, base_sentinel_self b s, hS3, ?_, ?_, ?_⟩
    · intro a ha
      exact absurd ha (sentinel_ne_element b a)
    · intro o _
      have := hl3.sentinel
      unfold SentinelFor at this
      rw [this, hgs]
      rfl
    · intro m hm
      exact shape_root_parent hsh3.2 hm
  | cons f c =>
    cases f with
    | left pa sr =>
      refine ⟨_, _, _, _, hbn, rfl, hsh.1.1, hsh3.1.1, ?_, ?_, ?_⟩
      · intro a _
        refine ⟨fun _ => rfl, fun h => ?_⟩
        have : n ∈ sr.toList := root_mem h
        exact absurd (by simp [ctxList, before, after, this]) hn4
      · intro o ho
        simp [holeParent] at ho
      · intro m hm
        exact shape_root_parent hsh3.2 hm
    | right sl pa =>
      refine ⟨_, _, _, _, hbn, rfl, hsh.1.1, hsh3.1.1, ?_, ?_, ?_⟩
      · intro a _
        refine ⟨fun h => ?_, fun _ => rfl⟩
        have : n ∈ sl.toList := root_mem h
        exact absurd (by simp [ctxList, before, after, this]) hn4
      · intro o ho
        simp [holeParent] at ho
      · intro m hm
        exact shape_root_parent hsh3.2 hm

theorem mem_without {A B : List Nat} {n a : Nat} (hn : n ∉ A ++ B) :
    a ∈ A ++ B ↔ a ∈ A ++ n :: B ∧ a ≠ n := by
  simp only [List.mem_append, List.mem_cons] at hn ⊢
  constructor
  · intro h
    refine ⟨by tauto, fun h1 => hn (h1 ▸ h)⟩
  · rintro ⟨h1, h2⟩
    tauto

/-- What `unlink` makes of a side whose caches were refreshed. -/
theorem unlinked_of_form {b b2 : Bimap L R} {s : Side} {t : Tree} (hv : SideView b s t)
    (hs : Same b b2) {c : Ctx} {l r : Tree} {n : Nat} (ht : t = plug c (.node l n r))
    (hl2 : Linked b2 s t (lastD b.get_sentinel (before c ++ l.toList ++ (r.toList ++ after c)))
      (firstD b.get_sentinel (before c ++ l.toList ++ (r.toList ++ after c)))) :
    ∃ b3, unlink b2 s (some (.element n)) = .ok b3 ∧ Touch s b2 b3 ∧
      UnlinkedFrom b b3 s n := by
  have hnd := hv.nodup_list
  have hlist := split_of_plug c l r n
  rw [← ht] at hlist
  have hnot : n ∉ (before c ++ l.toList) ++ (r.toList ++ after c) :=
    not_mem_of_nodup_mid (hlist ▸ hnd)
  have hsz : t.toList.length ≤ b2.size_ := by rw [hs.size_]; exact le_of_eq hv.size.symm
  obtain ⟨b3, t1, h3, htouch, hl3, hlist1, hreset, hroot⟩ := unlink_form hl2 hnd ht hsz
    (by rw [hs.get_sentinel]; exact cache_cases _ _ _ _ n hlist hnot)
  have hs3 : Same b b3 := hs.trans htouch.toSame
  have hgs : b3.get_sentinel = b.get_sentinel := hs3.get_sentinel
  have hlist3 : (plug c t1).toList = (before c ++ l.toList) ++ (r.toList ++ after c) := by
    simp [toList_plug, hlist1]
  have hl3a : Linked b3 s (plug c t1) (lastD b3.get_sentinel (plug c t1).toList)
      (firstD b3.get_sentinel (plug c t1).toList) := by
    rw [hgs, hlist3]; exact hl3
  have hnd3 : (plug c t1).toList.Nodup := by
    rw [hlist3]
    exact List.Nodup.sublist (sublist_drop_mid _ _ n) (hlist ▸ hnd)
  have hnav3 := hl3a.nav_of hnd3
  have hsz3 : (plug c t1).toList.length ≤ b3.size_ := by
    rw [hs3.size_, hv.size, hlist3, hlist]
    simp only [List.length_append, List.length_cons]
    omega
  have hbn := hv.to_nav.toLinks.base_at ht
  refine ⟨b3, h3, htouch, hs3.key, hs3.get_compare s, ⟨t.toList, hv.traverse_all, ?_, ?_, ?_⟩,
    ?_, hnav3.toLinks.linkedReciprocal, ⟨_, hbn, ?_⟩, hreset⟩
  · have hbeg : (b3.sentinel_ s).right_ = some (firstD b3.get_sentinel (plug c t1).toList) := by
      have := hl3a.sentinel
      unfold SentinelFor at this
      rw [this]
    rw [hbeg, hnav3.traverse_from hsz3 _ [] b3.fuel rfl (by simp only [Bimap.fuel]; omega),
      hlist3]
    congr 2
    rw [hlist]
    exact (filter_drop_mid (hlist ▸ hnd)).symm
  · rw [hlist]; simp
  · intro a
    rw [hnav3.toLinks.inTree_iff a, hlist3, hlist]
    exact mem_without hnot
  · apply hnav3.toLinks.linkedSearchTree
    rw [hs3.keyLt s, hlist3]
    exact List.Pairwise.sublist (sublist_drop_mid _ _ n) (hlist ▸ hv.inv.sorted)
  · cases l with
    | nil =>
      right
      refine ⟨rfl, ?_⟩
      have h5 := takes_place hv.to_nav.toLinks ht hl3 hgs
      simp only [root_nil, Option.isSome_none, Bool.false_eq_true, if_false] at hroot
      rw [hroot] at h5
      exact h5
    | node ll la lr =>
      left
      refine ⟨by simp, ?_⟩
      have hne : (Tree.node ll la lr).toList ≠ [] := by simp
      rcases lastD_cases b.get_sentinel (Tree.node ll la lr).toList with ⟨h6, -⟩ | ⟨m, -, h6⟩
      · exact absurd h6 hne
      · refine ⟨m, ?_, ?_⟩
        · rw [hv.to_nav.operator_dec ht (le_of_eq hv.size.symm),
            lastD_of_ne_nil hne _ b.get_sentinel, h6]
        · have h5 := takes_place hv.to_nav.toLinks ht hl3 hgs
          simp only [root_node, Option.isSome_some, if_true] at hroot
          rw [hroot, hs.get_sentinel, h6] at h5
          exact h5


/-! ## More fuel does not change what a loop returns -/

theorem climb_right_mono (b : Bimap L R) (s : Side) :
    ∀ (fuel : Nat) (current p : Ptr), climb_right b s fuel current = .ok p →
      ∀ k, climb_right b s (fuel + k) current = .ok p := by
  intro fuel
  induction fuel with
  | zero => intro current p h; simp [climb_right] at h
  | succ f ih =>
    intro current p h k
    rw [show f + 1 + k = (f + k) + 1 by omega]
    cases current with
    | none => simp [climb_right] at h
    | some c =>
      simp only [climb_right] at h ⊢
      cases h1 : is_right_child b s c with
      | error e => rw [h1] at h; simp at h
      | ok r =>
        rw [h1] at h
        simp only [ok_bind] at h ⊢
        cases r with
        | false => simpa using h
        | true =>
          simp only [if_true] at h ⊢
          cases h2 : to_parent b s (some c) with
          | error e => rw [h2] at h; simp at h
          | ok q =>
            rw [h2] at h
            obtain ⟨m, next⟩ := q
            simp only [ok_bind] at h ⊢
            exact ih _ _ h k

theorem climb_left_mono (b : Bimap L R) (s : Side) :
    ∀ (fuel : Nat) (current p : Ptr), climb_left b s fuel current = .ok p →
      ∀ k, climb_left b s (fuel + k) current = .ok p := by
  intro fuel
  induction fuel with
  | zero => intro current p h; simp [climb_left] at h
  | succ f ih =>
    intro current p h k
    rw [show f + 1 + k = (f + k) + 1 by omega]
    cases current with
    | none => simp [climb_left] at h
    | some c =>
      simp only [climb_left] at h ⊢
      cases h1 : is_left_child b s c with
      | error e => rw [h1] at h; simp at h
      | ok r =>
        rw [h1] at h
        simp only [ok_bind] at h ⊢
        cases r with
        | false => simpa using h
        | true =>
          simp only [if_true] at h ⊢
          cases h2 : to_parent b s (some c) with
          | error e => rw [h2] at h; simp at h
          | ok q =>
            rw [h2] at h
            obtain ⟨m, next⟩ := q
            simp only [ok_bind] at h ⊢
            exact ih _ _ h k

theorem find_insert_loop_mono (b : Bimap L R) (s : Side) (v : Key L R s) :
    ∀ (fuel : Nat) (current p : Ptr), find_insert_loop b s v fuel current = .ok p →
      ∀ k, find_insert_loop b s v (fuel + k) current = .ok p := by
  intro fuel
  induction fuel with
  | zero => intro current p h; simp [find_insert_loop] at h
  | succ f ih =>
    intro current p h k
    rw [show f + 1 + k = (f + k) + 1 by omega]
    simp only [find_insert_loop] at h ⊢
    cases h1 : operator_deref b s current with
    | error e => rw [h1] at h; simp at h
    | ok kk =>
      rw [h1] at h
      simp only [ok_bind] at h ⊢
      cases h2 : b.base_at s current with
      | error e => rw [h2] at h; simp at h
      | ok ce =>
        rw [h2] at h
        simp only [ok_bind] at h ⊢
        cases current with
        | none => simp at h
        | some c =>
          simp only at h ⊢
          cases h3 : b.is_less s kk v with
          | true =>
            simp only [h3, if_true] at h ⊢
            cases h4 : has_right b s c with
            | error e => rw [h4] at h; simp at h
            | ok hr =>
              rw [h4] at h
              simp only [ok_bind] at h ⊢
              cases hr with
              | false => simpa using h
              | true =>
                simp only [Bool.not_true, Bool.false_eq_true, if_false] at h ⊢
                exact ih _ _ h k
          | false =>
            simp only [h3, Bool.false_eq_true, if_false] at h ⊢
            cases h5 : b.is_greater s kk v with
            | true =>
              simp only [h5, if_true] at h ⊢
              cases h4 : has_left b s c with
              | error e => rw [h4] at h; simp at h
              | ok hl =>
                rw [h4] at h
                simp only [ok_bind] at h ⊢
                cases hl with
                | false => simpa using h
                | true =>
                  simp only [Bool.not_true, Bool.false_eq_true, if_false] at h ⊢
                  exact ih _ _ h k
            | false =>
              simp only [h5, Bool.false_eq_true, if_false] at h ⊢
              exact h

theorem mono_le {α : Type} {f : Nat → Except Error α} {p : α} {fuel fuel1 : Nat}
    (hm : ∀ k, f (fuel + k) = .ok p) (hle : fuel ≤ fuel1) : f fuel1 = .ok p := by
  have := hm (fuel1 - fuel)
  rwa [show fuel + (fuel1 - fuel) = fuel1 by omega] at this

/-! ## The states in which `unlink` runs -/

/-- The refreshment of the caches that precedes the erasure of a node. -/
theorem erase_node_steps {b : Bimap L R} {tl tr : Tree} (hinv : Inv b tl tr) {n : Nat}
    (hn : n ∈ tl.toList) :
    ∃ b1 b2, update_sentinel b .left (some (.element n)) = .ok b1 ∧
      update_sentinel b1 .right (some (.element n)) = .ok b2 ∧ Same b b2 ∧
      ∀ σ, ∃ c l r, sideTree σ tl tr = plug c (.node l n r) ∧
        Linked b2 σ (sideTree σ tl tr)
          (lastD b.get_sentinel (before c ++ l.toList ++ (r.toList ++ after c)))
          (firstD b.get_sentinel (before c ++ l.toList ++ (r.toList ++ after c))) := by
  have hnr : n ∈ tr.toList := hinv.perm.mem_iff.1 hn
  obtain ⟨cL, lL, rL, htl⟩ := exists_plug_of_mem hn
  obtain ⟨cR, lR, rR, htr⟩ := exists_plug_of_mem hnr
  obtain ⟨b1, h1, ht1, hL1⟩ := update_sentinel_old hinv.left (hinv.order .left) htl
    (le_of_eq hinv.size.symm)
  have hR1 : SideInv b1 .right tr := hinv.right.of_touch ht1
  obtain ⟨b2, h2, ht2, hR2⟩ := update_sentinel_old hR1 (ht1.toSame.order_of (hinv.order .right)) htr
    (by rw [ht1.size_]; exact le_of_eq hinv.size_right.symm)
  have hL2 := hL1.of_touch_other ht2
  rw [ht1.get_sentinel] at hR2
  refine ⟨b1, b2, h1, h2, ht1.toSame.trans ht2.toSame, fun σ => ?_⟩
  cases σ with
  | left => exact ⟨cL, lL, rL, htl, hL2⟩
  | right => exact ⟨cR, lR, rR, htr, hR2⟩

/-- The two calls of `unlink` in an erasure that starts on side `s`. -/
theorem unlink_twice {b : Bimap L R} {tl tr : Tree} (hinv : Inv b tl tr) {n : Nat}
    (hn : n ∈ tl.toList) (s : Side) :
    ∃ b1 b2 b3 b4, update_sentinel b .left (some (.element n)) = .ok b1 ∧
      update_sentinel b1 .right (some (.element n)) = .ok b2 ∧
      unlink b2 s (some (.element n)) = .ok b3 ∧ UnlinkedFrom b b3 s n ∧
      unlink b3 s.opposite (some (.element n)) = .ok b4 ∧ UnlinkedFrom b b4 s.opposite n ∧
      Same b b2 ∧ Same b b3 ∧
      (∀ σ, ∃ hi lo, Linked b2 σ (sideTree σ tl tr) hi lo) ∧
      ∃ hi lo, Linked b3 s.opposite (sideTree s.opposite tl tr) hi lo := by
  obtain ⟨b1, b2, h1, h2, hs2, hlk⟩ := erase_node_steps hinv hn
  obtain ⟨c, l, r, ht, hl2⟩ := hlk s
  obtain ⟨b3, h3, htouch, hu3⟩ := unlinked_of_form (hinv.view s) hs2 ht hl2
  have hs3 : Same b b3 := hs2.trans htouch.toSame
  obtain ⟨c1, l1, r1, ht1, hl21⟩ := hlk s.opposite
  have htouch2 : Touch s.opposite.opposite b2 b3 := by
    rw [Side.opposite_opposite]; exact htouch
  have hl3 := hl21.of_touch_other htouch2
  obtain ⟨b4, h4, -, hu4⟩ := unlinked_of_form (hinv.view s.opposite) hs3 ht1 hl3
  refine ⟨b1, b2, b3, b4, h1, h2, h3, hu3, h4, hu4, hs2, hs3, fun σ => ?_, _, _, hl3⟩
  obtain ⟨c2, l2, r2, -, h5⟩ := hlk σ
  exact ⟨_, _, h5⟩


/-! ## The claims about `unlink` and about termination -/

/-- Claim C32. For every reachable container, every data node `n` and each side `s`: after
the caches of the sentinels were refreshed for the erasure of `n`, `unlink(n)` on side `s`
returns, and so does `unlink(n)` on the other side after it; after each of them, on the side
it ran on, the traversal visits what it visited before without `n`, the keys being
unchanged, the linked nodes form a search tree with reciprocal parent and child links, the
in-order predecessor of `n` is linked where `n` was when `n` had a left child and otherwise
what the right link of `n` referenced is (or nothing), and `parent_`, `left_` and `right_`
of `n` reference `n`. -/
theorem unlink_correct (b : Bimap L R) (h : Reachable b) (n : Nat)
    (hn : (b.heap n).isSome = true) (s : Side) :
    ∃ b1 b2 b3 b4, update_sentinel b .left (some (.element n)) = .ok b1 ∧
      update_sentinel b1 .right (some (.element n)) = .ok b2 ∧
      unlink b2 s (some (.element n)) = .ok b3 ∧ UnlinkedFrom b b3 s n ∧
      unlink b3 s.opposite (some (.element n)) = .ok b4 ∧ UnlinkedFrom b b4 s.opposite n := by
  obtain ⟨tl, tr, hinv⟩ := reachable_inv h
  obtain ⟨b1, b2, b3, b4, h1, h2, h3, h4, h5, h6, -⟩ := unlink_twice hinv ((hinv.dom n).1 hn) s
  exact ⟨b1, b2, b3, b4, h1, h2, h3, h4, h5, h6⟩

theorem unlink_correct_witness :
    Reachable demo_three ∧ (demo_three.heap 0).isSome = true ∧
    ∃ b1 b2 b3 b4, update_sentinel demo_three .left (some (.element 0)) = .ok b1 ∧
      update_sentinel b1 .right (some (.element 0)) = .ok b2 ∧
      unlink b2 .left (some (.element 0)) = .ok b3 ∧ UnlinkedFrom demo_three b3 .left 0 ∧
      unlink b3 Side.left.opposite (some (.element 0)) = .ok b4 ∧
      UnlinkedFrom demo_three b4 Side.left.opposite 0 :=
  ⟨demo_three_reachable, rfl, unlink_correct demo_three demo_three_reachable 0 rfl .left⟩

/-- A scenario: in the container with the pairs (2, "b"), (1, "a"), (3, "c"), stored at the
addresses 0, 1 and 2, the node of 2 is the root with both children; after `unlink` on the
left side its predecessor, the node of 1, is the root, with the node of 3 as right child,
and the links of the node of 2 reference the node itself. -/
theorem demo_three_unlink :
    demo_three.base .left (.element 0) = .ok
      { parent_ := some demo_three.get_sentinel, left_ := some (.element 1),
        right_ := some (.element 2) } ∧
    (update_sentinel demo_three .left (some (.element 0)) >>= fun b1 =>
      update_sentinel b1 .right (some (.element 0)) >>= fun b2 =>
      unlink b2 .left (some (.element 0))).map (fun b3 =>
        (b3.sentinel_ .left, b3.base .left (.element 1), b3.base .left (.element 2),
          b3.base .left (.element 0))) =
      .ok ({ parent_ := some (.element 1), left_ := some (.element 2),
             right_ := some (.element 1) },
        .ok { parent_ := some demo_three.get_sentinel, left_ := none,
              right_ := some (.element 2) },
        .ok { parent_ := some (.element 1), left_ := none, right_ := none },
        .ok (reset (.element 0))) :=
  ⟨rfl, rfl⟩

/-- The loops over the tree of a side return with every fuel that reaches the height. -/
theorem SideView.loops {b : Bimap L R} {s : Side} {t : Tree} (hv : SideView b s t)
    (fuel : Nat) (hf : t.height ≤ fuel) :
    (b.empty = false → ∀ v, ∃ p, find_insert_loop b s v fuel (b.get_root s) = .ok p ∧
      find_insert_position b s v = .ok p) ∧
    ∀ a, InTree b s a →
      (∃ p, descend_left b s fuel (some (.element a)) = .ok p ∧
        descend_left b s b.fuel (some (.element a)) = .ok p) ∧
      (∃ p, descend_right b s fuel (some (.element a)) = .ok p ∧
        descend_right b s b.fuel (some (.element a)) = .ok p) ∧
      (∃ p, climb_right b s fuel (some (.element a)) = .ok p ∧
        climb_right b s b.fuel (some (.element a)) = .ok p) ∧
      (∃ p, climb_left b s fuel (some (.element a)) = .ok p ∧
        climb_left b s b.fuel (some (.element a)) = .ok p) ∧
      (∃ p, operator_inc b s (some (.element a)) = .ok p) ∧
      (∃ p, operator_dec b s (some (.element a)) = .ok p) := by
  have hh := toList_length_le_height_bound t
  have hfuel : t.height ≤ b.fuel := by
    simp only [Bimap.fuel, hv.size]; omega
  constructor
  · intro hne v
    cases t with
    | nil => exact absurd rfl (hv.ne_nil hne)
    | node l a r =>
      have hroot : b.get_root s = some (.element a) := by
        simp [Bimap.get_root, hv.to_nav.anchor]
      obtain ⟨c1, l1, a1, r1, h1, -⟩ := hv.to_nav.find_insert_loop_height v l a r [] rfl trivial
        (Tree.node l a r).height (le_refl _)
      have hm := find_insert_loop_mono b s v _ _ _ h1
      refine ⟨_, by rw [hroot]; exact mono_le (f := fun k => find_insert_loop b s v k _) hm hf,
        ?_⟩
      simp only [find_insert_position, hne, Bool.false_eq_true, if_false, hroot]
      exact mono_le (f := fun k => find_insert_loop b s v k _) hm hfuel
  · intro a hin
    have ha : a ∈ t.toList := (hv.to_nav.toLinks.inTree_iff a).1 hin
    obtain ⟨h1, h2, -, -⟩ := hv.to_nav.loops_return ha fuel b.fuel hf hfuel
    obtain ⟨c, l, r, ht⟩ := exists_plug_of_mem ha
    obtain ⟨-, -, h3⟩ := height_parts ht
    obtain ⟨top, te, h4, -⟩ := hv.to_nav.climb_right c l a r ht t.height h3
    obtain ⟨top1, te1, h5, -⟩ := hv.to_nav.climb_left c l a r ht t.height h3
    have hm4 := climb_right_mono b s _ _ _ h4
    have hm5 := climb_left_mono b s _ _ _ h5
    exact ⟨h1, h2,
      ⟨_, mono_le (f := fun k => climb_right b s k _) hm4 hf,
        mono_le (f := fun k => climb_right b s k _) hm4 hfuel⟩,
      ⟨_, mono_le (f := fun k => climb_left b s k _) hm5 hf,
        mono_le (f := fun k => climb_left b s k _) hm5 hfuel⟩,
      ⟨_, hv.to_nav.operator_inc ht (le_of_eq hv.size.symm)⟩,
      ⟨_, hv.to_nav.operator_dec ht (le_of_eq hv.size.symm)⟩⟩

/-- Claim C39. On each side of a reachable container the height of the tree is at most the
number of entries, and with every number of iterations that reaches the height, the descent
of `find_insert_position` from the root, the child descents and the parent climbs of `++`
and `--` from every node of the tree, and the predecessor search of `unlink`, in the state
in which an erasure runs it first on this side or after the other side, return, with the
result they have with the iterations the container grants; `++` and `--` return. -/
theorem loops_terminate (b : Bimap L R) (h : Reachable b) (s : Side) :
    b.height s ≤ b.size ∧
    ∀ fuel, b.height s ≤ fuel →
      (b.empty = false → ∀ v, ∃ p, find_insert_loop b s v fuel (b.get_root s) = .ok p ∧
        find_insert_position b s v = .ok p) ∧
      ∀ a, InTree b s a →
        ((∃ p, descend_left b s fuel (some (.element a)) = .ok p ∧
            descend_left b s b.fuel (some (.element a)) = .ok p) ∧
          (∃ p, descend_right b s fuel (some (.element a)) = .ok p ∧
            descend_right b s b.fuel (some (.element a)) = .ok p) ∧
          (∃ p, climb_right b s fuel (some (.element a)) = .ok p ∧
            climb_right b s b.fuel (some (.element a)) = .ok p) ∧
          (∃ p, climb_left b s fuel (some (.element a)) = .ok p ∧
            climb_left b s b.fuel (some (.element a)) = .ok p) ∧
          (∃ p, operator_inc b s (some (.element a)) = .ok p) ∧
          (∃ p, operator_dec b s (some (.element a)) = .ok p)) ∧
        ∃ b1 b2 e, update_sentinel b .left (some (.element a)) = .ok b1 ∧
          update_sentinel b1 .right (some (.element a)) = .ok b2 ∧
          b2.base s (.element a) = .ok e ∧
          (e.left_ ≠ none → ∃ p, descend_right b2 s fuel e.left_ = .ok p ∧
            descend_right b2 s b2.fuel e.left_ = .ok p) ∧
          ∃ b3 e3, unlink b2 s.opposite (some (.element a)) = .ok b3 ∧
            b3.base s (.element a) = .ok e3 ∧
            (e3.left_ ≠ none → ∃ p, descend_right b3 s fuel e3.left_ = .ok p ∧
              descend_right b3 s b3.fuel e3.left_ = .ok p) := by
  obtain ⟨tl, tr, hinv⟩ := reachable_inv h
  have hv := hinv.view s
  have hh := toList_length_le_height_bound (sideTree s tl tr)
  have hheight : b.height s = (sideTree s tl tr).height :=
    hv.to_nav.toLinks.height_eq (le_of_eq hv.size.symm)
  have hfuel : (sideTree s tl tr).height ≤ b.fuel := by
    simp only [Bimap.fuel, hv.size]; omega
  refine ⟨by rw [hheight, Bimap.size, hv.size]; exact hh, fun fuel hf => ?_⟩
  rw [hheight] at hf
  obtain ⟨hfind, hloops⟩ := hv.loops fuel hf
  refine ⟨hfind, fun a hin => ⟨hloops a hin, ?_⟩⟩
  have ha : a ∈ (sideTree s tl tr).toList := (hv.to_nav.toLinks.inTree_iff a).1 hin
  have hal : a ∈ tl.toList := (hinv.mem_iff s a).1 ha
  obtain ⟨b1, b2, b3, b4, h1, h2, h3, -, -, -, hs2, hs3, hlk2, hi3, lo3, hlk3⟩ :=
    unlink_twice hinv hal s.opposite
  rw [Side.opposite_opposite] at hlk3
  obtain ⟨hi2, lo2, hl2⟩ := hlk2 s
  obtain ⟨e, he, hp⟩ := (hl2.links hv.nodup_list).predecessor_search ha fuel b2.fuel hf
    (by rw [hs2.fuel]; exact hfuel)
  obtain ⟨e3, he3, hp3⟩ := (hlk3.links hv.nodup_list).predecessor_search ha fuel b3.fuel hf
    (by rw [hs3.fuel]; exact hfuel)
  exact ⟨b1, b2, e, h1, h2, he, hp, b3, e3, h3, he3, hp3⟩

theorem loops_terminate_witness :
    Reachable demo_three ∧
    demo_three.height .left ≤ demo_three.size ∧
    ∀ fuel, demo_three.height .left ≤ fuel →
      (demo_three.empty = false →
        ∀ v, ∃ p, find_insert_loop demo_three .left v fuel (demo_three.get_root .left) = .ok p ∧
          find_insert_position demo_three .left v = .ok p) ∧
      ∀ a, InTree demo_three .left a →
        ((∃ p, descend_left demo_three .left fuel (some (.element a)) = .ok p ∧
            descend_left demo_three .left demo_three.fuel (some (.element a)) = .ok p) ∧
          (∃ p, descend_right demo_three .left fuel (some (.element a)) = .ok p ∧
            descend_right demo_three .left demo_three.fuel (some (.element a)) = .ok p) ∧
          (∃ p, climb_right demo_three .left fuel (some (.element a)) = .ok p ∧
            climb_right demo_three .left demo_three.fuel (some (.element a)) = .ok p) ∧
          (∃ p, climb_left demo_three .left fuel (some (.element a)) = .ok p ∧
            climb_left demo_three .left demo_three.fuel (some (.element a)) = .ok p) ∧
          (∃ p, operator_inc demo_three .left (some (.element a)) = .ok p) ∧
          (∃ p, operator_dec demo_three .left (some (.element a)) = .ok p)) ∧
        ∃ b1 b2 e, update_sentinel demo_three .left (some (.element a)) = .ok b1 ∧
          update_sentinel b1 .right (some (.element a)) = .ok b2 ∧
          b2.base .left (.element a) = .ok e ∧
          (e.left_ ≠ none → ∃ p, descend_right b2 .left fuel e.left_ = .ok p ∧
            descend_right b2 .left b2.fuel e.left_ = .ok p) ∧
          ∃ b3 e3, unlink b2 Side.left.opposite (some (.element a)) = .ok b3 ∧
            b3.base .left (.element a) = .ok e3 ∧
            (e3.left_ ≠ none → ∃ p, descend_right b3 .left fuel e3.left_ = .ok p ∧
              descend_right b3 .left b3.fuel e3.left_ = .ok p) :=
  ⟨demo_three_reachable, loops_terminate demo_three demo_three_reachable .left⟩

/-- A scenario: the tree of the container with the pairs (2, "b"), (1, "a"), (3, "c") has
height 2 on both sides, the tree built by inserting the keys in ascending order has height 3;
with 2 iterations the descent for the left key 4 returns the node of 3, with 1 iteration it
does not return. -/
theorem demo_three_height :
    demo_three.height .left = 2 ∧ demo_three.height .right = 2 ∧
    demo_empty.height .left = 0 ∧ demo_one.height .left = 1 ∧
    (after_insert (after_insert (after_insert demo_empty 1 "a") 2 "b") 3 "c").height .left = 3 ∧
    find_insert_loop demo_three .left (4 : Nat) 2 (demo_three.get_root .left) =
      .ok (some (.element 2)) ∧
    find_insert_loop demo_three .left (4 : Nat) 1 (demo_three.get_root .left) =
      .error .out_of_fuel ∧
    descend_left demo_three .left 2 (some (.element 0)) = .ok (some (.element 1)) ∧
    climb_right demo_three .left 2 (some (.element 2)) = .ok (some (.element 0)) :=
  ⟨rfl, rfl, rfl, rfl, rfl, rfl, rfl, rfl, rfl⟩


/-! ## How an insertion links the new node -/

/-- An insertion of a pair whose keys are not stored attaches the new node as a leaf on both
sides, whether or not it tolerates stored keys. -/
theorem insert_impl_attach {b : Bimap L R} {tl tr : Tree} (hinv : Inv b tl tr) (l : L) (r : R)
    (tolerant : Bool) (hl : ∀ a ∈ tl.toList, ¬ b.keyEquiv .left l a)
    (hr : ∀ a ∈ tr.toList, ¬ b.keyEquiv .right r a) :
    ∃ b1 tl1 tr1 posL crL posR crR,
      insert_impl b l r tolerant = .ok (b1, some (.element b.brk)) ∧ Grown b b1 l r ∧
      Linked b1 .left tl1 (lastD b.get_sentinel tl1.toList) (firstD b.get_sentinel tl1.toList) ∧
      Linked b1 .right tr1 (lastD b.get_sentinel tr1.toList)
        (firstD b.get_sentinel tr1.toList) ∧
      AttachAt b.get_sentinel b.brk tl posL crL tl1 ∧
      AttachAt b.get_sentinel b.brk tr posR crR tr1 := by
  have hnl := hinv.nav_left
  have hnr := hinv.nav_right
  by_cases h0 : tl = .nil
  · have h0r : tr = .nil := hinv.nil_iff.1 h0
    subst h0 h0r
    have hsz : b.size_ = 0 := by simpa using hinv.size
    obtain ⟨b1, h1, hg, hL, hR⟩ := insert_at_spec hinv l r (Or.inl ⟨rfl, rfl, rfl⟩)
      AttachAt.root AttachAt.root
    refine ⟨b1, _, _, _, _, _, _, ?_, hg, hL, hR, AttachAt.root, AttachAt.root⟩
    have he : b.empty = true := by simp [hinv.empty_eq]
    cases tolerant <;>
      simp [insert_impl, hnl.find_insert_position_empty hsz,
        hnr.find_insert_position_empty hsz, he, h1]
  · have h0r : tr ≠ .nil := fun h => h0 (hinv.nil_iff.2 h)
    have he : b.empty = false := by simp [hinv.empty_eq, h0]
    obtain ⟨cL, lL, aL, rL, hfL, hpL⟩ := hnl.find_insert_position hinv.size h0 l
    obtain ⟨cR, lR, aR, rR, hfR, hpR⟩ := hnr.find_insert_position hinv.size_right h0r r
    have haL : aL ∈ tl.toList := by rw [hpL.1]; exact mem_plug_self _ _ _ _
    have haR : aR ∈ tr.toList := by rw [hpR.1]; exact mem_plug_self _ _ _ _
    obtain ⟨kl, hkl⟩ := key_of_live (hnl.shape.live aL haL) .left
    obtain ⟨kr, hkr⟩ := key_of_live (hnr.shape.live aR haR) .right
    have heL := hl aL haL
    have heR := hr aR haR
    have hL1 : b.is_equal .left kl l = false := by
      rw [← Bool.not_eq_true, is_equal_iff_equiv hkl l]; exact heL
    have hR1 : b.is_equal .right kr r = false := by
      rw [← Bool.not_eq_true, is_equal_iff_equiv hkr r]; exact heR
    obtain ⟨tl1, hatL, hiL⟩ := position_attach (hinv.order .left) hpL hinv.left.sorted heL hkl
      b.get_sentinel b.brk
    obtain ⟨tr1, hatR, hiR⟩ := position_attach (hinv.order .right) hpR hinv.right.sorted heR
      hkr b.get_sentinel b.brk
    obtain ⟨b1, h1, hg, hL, hR⟩ := insert_at_spec hinv l r
      (Or.inr ⟨h0, kl, kr, operator_deref_eq hkl, operator_deref_eq hkr, rfl, rfl⟩) hatL hatR
    refine ⟨b1, tl1, tr1, _, _, _, _, ?_, hg, hL, hR, hatL, hatR⟩
    cases tolerant <;>
      simp [insert_impl, hfL, hfR, he, operator_deref_eq hkl, hL1, operator_deref_eq hkr, hR1,
        h1]

theorem shape_same_parent {b b1 : Bimap L R} {s : Side} :
    ∀ (t : Tree) (p : Ref), Shape b s t p → Shape b1 s t p →
      ∀ x ∈ t.toList, ∃ e e1, b.base s (.element x) = .ok e ∧
        b1.base s (.element x) = .ok e1 ∧ e1.parent_ = e.parent_ := by
  intro t
  induction t with
  | nil => intro p _ _ x hx; simp at hx
  | node l a r ihl ihr =>
    intro p h h1 x hx
    simp only [toList_node, List.mem_append, List.mem_cons] at hx
    rcases hx with hx | hx | hx
    · exact ihl _ h.2.1 h1.2.1 x hx
    · subst hx
      exact ⟨_, _, h.1, h1.1, rfl⟩
    · exact ihr _ h.2.2 h1.2.2 x hx

theorem shapeCtx_same_parent {b b1 : Bimap L R} {s : Side} {top : Ref} :
    ∀ (c : Ctx) (hole hole1 : Ptr), ShapeCtx b s top c hole → ShapeCtx b1 s top c hole1 →
      ∀ x ∈ ctxList c, ∃ e e1, b.base s (.element x) = .ok e ∧
        b1.base s (.element x) = .ok e1 ∧ e1.parent_ = e.parent_ := by
  intro c
  induction c with
  | nil => intro _ _ _ _ x hx; simp [ctxList, before, after] at hx
  | cons f c ih =>
    intro hole hole1 h h1 x hx
    cases f with
    | left a r =>
      obtain ⟨h2, h3, h4⟩ := h
      obtain ⟨h5, h6, h7⟩ := h1
      have hx1 : x ∈ ctxList c ∨ x = a ∨ x ∈ r.toList := by
        simp only [ctxList, before, after, List.mem_append, List.mem_cons] at hx ⊢
        tauto
      rcases hx1 with hx | hx | hx
      · exact ih _ _ h4 h7 x hx
      · subst hx
        exact ⟨_, _, h2, h5, rfl⟩
      · exact shape_same_parent r _ h3 h6 x hx
    | right l a =>
      obtain ⟨h2, h3, h4⟩ := h
      obtain ⟨h5, h6, h7⟩ := h1
      have hx1 : x ∈ ctxList c ∨ x = a ∨ x ∈ l.toList := by
        simp only [ctxList, before, after, List.mem_append, List.mem_cons, List.mem_singleton]
          at hx ⊢
        tauto
      rcases hx1 with hx | hx | hx
      · exact ih _ _ h4 h7 x hx
      · subst hx
        exact ⟨_, _, h2, h5, rfl⟩
      · exact shape_same_parent l _ h3 h6 x hx


/-! ## The new node is a leaf -/

theorem attach_leaf {b b1 : Bimap L R} {s : Side} {t t1 : Tree} {n : Nat} {pos : Ptr}
    {cr : Bool} (hsh : Shape b s t b.get_sentinel) (hsh1 : Shape b1 s t1 b.get_sentinel)
    (ha : AttachAt b.get_sentinel n t pos cr t1) (hn : n ∉ t.toList)
    (hdom : ∀ a e, b.base s (.element a) = .ok e → a ∈ t.toList) :
    (∃ p, b1.base s (.element n) = .ok { parent_ := some p, left_ := none, right_ := none } ∧
      ∀ a pe pe1, p = .element a → b.base s p = .ok pe → b1.base s p = .ok pe1 →
        (pe1.left_ = some (.element n) → pe.left_ = none) ∧
        (pe1.right_ = some (.element n) → pe.right_ = none)) ∧
    ∀ a e, b.base s (.element a) = .ok e →
      ∃ e1, b1.base s (.element a) = .ok e1 ∧ e1.parent_ = e.parent_ := by
  cases ha with
  | root =>
    refine ⟨⟨_, hsh1.1, ?_⟩, ?_⟩
    · intro a pe pe1 hp
      exact absurd hp (sentinel_ne_element b a)
    · intro a e he
      have := hdom a e he
      simp at this
  | right c l a =>
    rw [shape_plug] at hsh hsh1
    obtain ⟨hc, hba, hl, -⟩ := hsh
    obtain ⟨hc1, hba1, hl1, hbn, -⟩ := hsh1
    refine ⟨⟨_, hbn, ?_⟩, ?_⟩
    · intro a1 pe pe1 hp hpe hpe1
      cases hp
      rw [hba] at hpe
      rw [hba1] at hpe1
      cases hpe
      cases hpe1
      refine ⟨fun h => ?_, fun _ => rfl⟩
      exfalso
      apply hn
      rw [toList_plug]
      simp [root_mem h]
    · intro x e he
      have hx := hdom x e he
      rw [toList_plug] at hx
      have hx1 : x ∈ ctxList c ∨ x = a ∨ x ∈ l.toList := by
        simp only [ctxList, toList_node, toList_nil, List.mem_append, List.mem_cons] at hx ⊢
        tauto
      rcases hx1 with hx | hx | hx
      · obtain ⟨e0, e1, h1, h2, h3⟩ := shapeCtx_same_parent c _ _ hc hc1 x hx
        rw [h1] at he; cases he
        exact ⟨e1, h2, h3⟩
      · subst hx
        rw [hba] at he; cases he
        exact ⟨_, hba1, rfl⟩
      · obtain ⟨e0, e1, h1, h2, h3⟩ := shape_same_parent l _ hl hl1 x hx
        rw [h1] at he; cases he
        exact ⟨e1, h2, h3⟩
  | left c a r =>
    rw [shape_plug] at hsh hsh1
    obtain ⟨hc, hba, -, hr⟩ := hsh
    obtain ⟨hc1, hba1, ⟨hbn, -⟩, hr1⟩ := hsh1
    refine ⟨⟨_, hbn, ?_⟩, ?_⟩
    · intro a1 pe pe1 hp hpe hpe1
      cases hp
      rw [hba] at hpe
      rw [hba1] at hpe1
      cases hpe
      cases hpe1
      refine ⟨fun _ => rfl, fun h => ?_⟩
      exfalso
      apply hn
      rw [toList_plug]
      simp [root_mem h]
    · intro x e he
      have hx := hdom x e he
      rw [toList_plug] at hx
      have hx1 : x ∈ ctxList c ∨ x = a ∨ x ∈ r.toList := by
        simp only [ctxList, toList_node, toList_nil, List.mem_append, List.mem_cons] at hx ⊢
        tauto
      rcases hx1 with hx | hx | hx
      · obtain ⟨e0, e1, h1, h2, h3⟩ := shapeCtx_same_parent c _ _ hc hc1 x hx
        rw [h1] at he; cases he
        exact ⟨e1, h2, h3⟩
      · subst hx
        rw [hba] at he; cases he
        exact ⟨_, hba1, rfl⟩
      · obtain ⟨e0, e1, h1, h2, h3⟩ := shape_same_parent r _ hr hr1 x hx
        rw [h1] at he; cases he
        exact ⟨e1, h2, h3⟩

/-- An insertion of a pair whose keys are not stored links the new node as a leaf. -/
theorem insert_impl_leaf {b : Bimap L R} {tl tr : Tree} (hinv : Inv b tl tr) (l : L) (r : R)
    (tolerant : Bool) (hl : ∀ a ∈ tl.toList, ¬ b.keyEquiv .left l a)
    (hr : ∀ a ∈ tr.toList, ¬ b.keyEquiv .right r a) :
    ∃ b1, insert_impl b l r tolerant = .ok (b1, some (.element b.brk)) ∧
      LinkedAsLeaf b b1 b.brk := by
  obtain ⟨b1, tl1, tr1, posL, crL, posR, crR, h1, hg, hL, hR, haL, haR⟩ :=
    insert_impl_attach hinv l r tolerant hl hr
  have hgs : b1.get_sentinel = b.get_sentinel := by simp [Bimap.get_sentinel, hg.self]
  have hfresh : b.heap b.brk = none := hinv.fresh _ (le_refl _)
  have hnl : b.brk ∉ tl.toList := by
    intro h
    have := (hinv.dom _).2 h
    simp [hfresh] at this
  have hnr : b.brk ∉ tr.toList := fun h => hnl (hinv.perm.mem_iff.2 h)
  refine ⟨b1, h1, fun s => ?_⟩
  cases s with
  | left =>
    refine attach_leaf hinv.left.shape (hgs ▸ hL.shape) haL hnl ?_
    intro a e he
    exact (hinv.dom a).1 (live_of_base he)
  | right =>
    refine attach_leaf hinv.right.shape (hgs ▸ hR.shape) haR hnr ?_
    intro a e he
    exact hinv.perm.mem_iff.1 ((hinv.dom a).1 (live_of_base he))

/-- The insertion that `at_or_default` performs is the tolerant `insert_impl`. -/
theorem at_or_default_insertion (b : Bimap L R) (s : Side) (key : Key L R s)
    (dflt : Key L R s.opposite) :
    at_or_default b s key dflt = (do
      let position ← find_insert_position b s key
      let k ← operator_deref b s position
      if b.is_equal s k key then do
        let other ← flip b s position
        let v ← operator_deref b s.opposite other
        pure (b, v)
      else do
        let position_value ← find_insert_position b s.opposite dflt
        let kv ← operator_deref b s.opposite position_value
        let (b1, it) ← insert_impl b (side_pair s key dflt).1 (side_pair s key dflt).2 true
        if !b.is_equal s.opposite kv dflt then do
          let v ← deref_value s b1 it
          pure (b1, v)
        else do
          let (b2, _) ← erase_it_impl b1 s.opposite position_value
          let v ← deref_value s b2 it
          pure (b2, v)) := by
  unfold at_or_default
  cases h1 : find_insert_position b s key with
  | error e => rfl
  | ok position =>
    simp only [ok_bind]
    cases h2 : operator_deref b s position with
    | error e => rfl
    | ok k =>
      simp only [ok_bind]
      cases h3 : b.is_equal s k key with
      | true => rfl
      | false =>
        simp only [Bool.false_eq_true, if_false]
        cases h4 : find_insert_position b s.opposite dflt with
        | error e => rfl
        | ok position_value =>
          simp only [ok_bind]
          cases h5 : operator_deref b s.opposite position_value with
          | error e => rfl
          | ok kv =>
            simp only [ok_bind]
            obtain ⟨h6, h7⟩ := find_pos_sides h1 h4
            have h8 : insert_impl b (side_pair s key dflt).1 (side_pair s key dflt).2 true =
                insert_at b (side_pair s key dflt).1 (side_pair s key dflt).2
                  (side_pos s position position_value).1
                  (side_pos s position position_value).2 := by
              simp [insert_impl, h6, h7]
            rw [h8]
            cases h9 : b.is_equal s.opposite kv dflt with
            | true => rfl
            | false => rfl


/-! ## The claim about subtree inheritance -/

theorem at_or_default_fresh_state {b : Bimap L R} {tl tr : Tree} (hinv : Inv b tl tr)
    (hne : b.empty = false) (s : Side) (key : Key L R s) (dflt : Key L R s.opposite)
    (h1 : ∀ a ∈ (sideTree s tl tr).toList, ¬ b.keyEquiv s key a)
    (h2 : ∀ a ∈ (sideTree s.opposite tl tr).toList, ¬ b.keyEquiv s.opposite dflt a) :
    ∃ b1, insert_impl b (side_pair s key dflt).1 (side_pair s key dflt).2 true =
        .ok (b1, some (.element b.brk)) ∧
      LinkedAsLeaf b b1 b.brk ∧ at_or_default b s key dflt = .ok (b1, dflt) := by
  have hl : ∀ a ∈ tl.toList, ¬ b.keyEquiv .left (side_pair s key dflt).1 a := by
    cases s
    · exact h1
    · exact h2
  have hr : ∀ a ∈ tr.toList, ¬ b.keyEquiv .right (side_pair s key dflt).2 a := by
    cases s
    · exact h2
    · exact h1
  obtain ⟨b1, h3, h4⟩ := insert_impl_leaf hinv _ _ true hl hr
  refine ⟨b1, h3, h4, ?_⟩
  have hv := hinv.view s
  have hvo := hinv.view s.opposite
  have h0 : tl ≠ .nil := by
    intro h
    have := (hinv.view .left).ne_nil hne
    exact this (by simp [sideTree, h])
  have hnil : sideTree s tl tr ≠ .nil := by
    intro h
    exact hv.ne_nil hne (by rw [h]; rfl)
  have hnilo : sideTree s.opposite tl tr ≠ .nil := by
    intro h
    exact hvo.ne_nil hne (by rw [h]; rfl)
  obtain ⟨c, l, a, r, hf, hp⟩ := hv.to_nav.find_insert_position hv.size hnil key
  obtain ⟨c2, l2, e, r2, hf2, hp2⟩ := hvo.to_nav.find_insert_position hvo.size hnilo dflt
  have ha : a ∈ (sideTree s tl tr).toList := by rw [hp.1]; exact mem_plug_self _ _ _ _
  have hea : e ∈ (sideTree s.opposite tl tr).toList := by
    rw [hp2.1]; exact mem_plug_self _ _ _ _
  obtain ⟨b2, tl1, tr1, h5, -⟩ := at_or_default_fresh hinv h0 s key dflt hf hp (h1 a ha) hf2 hp2
    (h2 e hea)
  obtain ⟨k, hk⟩ := hv.key_of_mem ha s
  obtain ⟨kv, hkv⟩ := hvo.key_of_mem hea s.opposite
  have hE : b.is_equal s k key = false := by
    rw [← Bool.not_eq_true, is_equal_iff_equiv hk key]; exact h1 a ha
  have hE2 : b.is_equal s.opposite kv dflt = false := by
    rw [← Bool.not_eq_true, is_equal_iff_equiv hkv dflt]; exact h2 e hea
  have h6 := h5
  rw [at_or_default_insertion] at h6
  simp only [hf, ok_bind, operator_deref_eq hk, hE, Bool.false_eq_true, if_false, hf2,
    operator_deref_eq hkv, h3, hE2, Bool.not_false, if_true] at h6
  cases h7 : deref_value s b1 (some (.element b.brk)) with
  | error er => rw [h7] at h6; simp at h6
  | ok v =>
    rw [h7] at h6
    simp only [ok_bind, pure_eq_ok, Except.ok.injEq, Prod.mk.injEq] at h6
    rw [h5, h6.1]

/-- The tolerant insertion that `at_left_or_default(5)` performs with the default value "b"
on the container with the pairs (2, "b"), (1, "a"), (3, "c"): the key 5 is not stored, the
new node is linked on the right side into the left child slot of the node of "b", which
holds the node of "a"; the new node takes that node over as its left child, and the parent
link of the node of "a" is redirected to the new node. -/
theorem insertion_inherits_subtree :
    Reachable demo_three ∧
    demo_three.find_left 5 = .ok demo_three.end_left ∧
    (demo_three.base .right (.element 0)).map (fun e => e.left_) = .ok (some (.element 1)) ∧
    (demo_three.base .right (.element 1)).map (fun e => e.parent_) =
      .ok (some (.element 0)) ∧
    (insert_impl demo_three 5 "b" true).map (fun p =>
      (p.2, p.1.base .right (.element 3),
        (p.1.base .right (.element 1)).map (fun e => e.parent_))) =
      .ok (some (.element 3),
        .ok { parent_ := some (.element 0), left_ := some (.element 1), right_ := none },
        .ok (some (.element 3))) ∧
    ¬ (∀ b1 n, insert_impl demo_three 5 "b" true = .ok (b1, some (.element n)) →
      LinkedAsLeaf demo_three b1 n) := by
  refine ⟨demo_three_reachable, rfl, rfl, rfl, rfl, ?_⟩
  intro hall
  have heval : (insert_impl demo_three 5 "b" true).map (fun p =>
      (p.2, p.1.base .right (.element 3))) =
      .ok (some (.element 3),
        .ok { parent_ := some (.element 0), left_ := some (.element 1), right_ := none }) :=
    rfl
  cases hres : insert_impl demo_three 5 "b" true with
  | error e =>
    rw [hres] at heval
    cases heval
  | ok p =>
    obtain ⟨b1, it⟩ := p
    rw [hres] at heval
    simp only [Except.map, Except.ok.injEq, Prod.mk.injEq] at heval
    obtain ⟨hit, hbase⟩ := heval
    subst hit
    obtain ⟨⟨p, hp, -⟩, -⟩ := hall b1 3 hres .right
    rw [hbase] at hp
    simp at hp

/-- Claim C38, amended. In every reachable container, the public `insert` that stores a pair
links the new node as a leaf in both trees: the new node has no children, the slot of its
parent that references it was empty, and every element keeps its parent link. So does the
tolerant insertion that `at_left_or_default` and `at_right_or_default` perform for a key that
is not stored, provided the default value is not stored either; the container they return is
then the one this insertion produced. -/
theorem insertion_links_leaf (b : Bimap L R) (h : Reachable b) :
    (∀ l r b1 n, b.insert l r = .ok (b1, some (.element n)) → LinkedAsLeaf b b1 n) ∧
    (∀ s (key : Key L R s) (dflt : Key L R s.opposite), b.empty = false →
      (∀ a k, b.key s a = some k → ¬ Equiv (b.get_compare s) k key) →
      (∀ a k, b.key s.opposite a = some k → ¬ Equiv (b.get_compare s.opposite) k dflt) →
      ∃ b1 n, insert_impl b (side_pair s key dflt).1 (side_pair s key dflt).2 true =
          .ok (b1, some (.element n)) ∧
        LinkedAsLeaf b b1 n ∧ at_or_default b s key dflt = .ok (b1, dflt)) := by
  obtain ⟨tl, tr, hinv⟩ := reachable_inv h
  constructor
  · intro l r b1 n hins
    rcases insert_spec hinv l r with ⟨-, h1⟩ | ⟨h1, h2, -⟩
    · rw [h1] at hins
      simp [Bimap.end_left, Bimap.get_sentinel] at hins
    · obtain ⟨b2, h3, h4⟩ := insert_impl_leaf hinv l r false h1 h2
      have h5 : b.insert l r = .ok (b2, some (.element b.brk)) := h3
      rw [h5] at hins
      simp only [Except.ok.injEq, Prod.mk.injEq, Option.some.injEq, Ref.element.injEq] at hins
      rw [← hins.1, ← hins.2]
      exact h4
  · intro s key dflt hne h1 h2
    have hv := hinv.view s
    have hvo := hinv.view s.opposite
    obtain ⟨b1, h3, h4, h5⟩ := at_or_default_fresh_state hinv hne s key dflt
      (fun a ha he => by
        obtain ⟨k, hk⟩ := hv.key_of_mem ha s
        exact h1 a k hk ((keyEquiv_iff hk key).1 he))
      (fun a ha he => by
        obtain ⟨k, hk⟩ := hvo.key_of_mem ha s.opposite
        exact h2 a k hk ((keyEquiv_iff hk dflt).1 he))
    exact ⟨b1, _, h3, h4, h5⟩

theorem insertion_links_leaf_witness :
    Reachable demo_three ∧
    (∀ l r b1 n, demo_three.insert l r = .ok (b1, some (.element n)) →
      LinkedAsLeaf demo_three b1 n) ∧
    (∀ s (key : Key Nat String s) (dflt : Key Nat String s.opposite),
      demo_three.empty = false →
      (∀ a k, demo_three.key s a = some k → ¬ Equiv (demo_three.get_compare s) k key) →
      (∀ a k, demo_three.key s.opposite a = some k →
        ¬ Equiv (demo_three.get_compare s.opposite) k dflt) →
      ∃ b1 n, insert_impl demo_three (side_pair s key dflt).1 (side_pair s key dflt).2 true =
          .ok (b1, some (.element n)) ∧
        LinkedAsLeaf demo_three b1 n ∧ at_or_default demo_three s key dflt = .ok (b1, dflt)) :=
  ⟨demo_three_reachable, insertion_links_leaf demo_three demo_three_reachable⟩

/-- A scenario: `at_left_or_default(5)` with the default value "z", which is not stored, on
the container with the pairs (2, "b"), (1, "a"), (3, "c") links the new node as a right child
without children on both sides, below the node of 3 and below the node of "c". -/
theorem demo_three_fresh_leaf :
    (demo_three.at_left_or_default 5 "z").map (fun p =>
      (p.2, p.1.base .left (.element 3), p.1.base .right (.element 3),
        (p.1.base .left (.element 2)).map (fun e => e.right_),
        (p.1.base .right (.element 2)).map (fun e => e.right_))) =
      .ok ("z", .ok { parent_ := some (.element 2), left_ := none, right_ := none },
        .ok { parent_ := some (.element 2), left_ := none, right_ := none },
        .ok (some (.element 3)), .ok (some (.element 3))) :=
  rfl


/-! ## The abstract value of a container -/

theorem equivalent_iff {K : Type} (cmp : K → K → Bool) (a b : K) :
    equivalent cmp a b = true ↔ Equiv cmp a b := by
  simp [equivalent, Equiv]

theorem equivalent_false_iff {K : Type} (cmp : K → K → Bool) (a b : K) :
    equivalent cmp a b = false ↔ ¬ Equiv cmp a b := by
  rw [← equivalent_iff]; simp

theorem pair_of_keys {b : Bimap L R} {a : Nat} {l : L} {r : R}
    (hl : b.key .left a = some l) (hr : b.key .right a = some r) : b.pair a = some (l, r) := by
  simp only [Bimap.key, Bimap.pair] at hl hr ⊢
  cases h : b.heap a with
  | none => rw [h] at hl; simp at hl
  | some e =>
    rw [h] at hl hr
    simp only [Option.map_some', Option.some.injEq, Element.get_key] at hl hr ⊢
    rw [hl, hr]

theorem pair_key_of_pair {b : Bimap L R} {a : Nat} {p : L × R} (h : b.pair a = some p)
    (s : Side) : b.key s a = some (pair_key s p) := by
  simp only [Bimap.key, Bimap.pair] at h ⊢
  cases h1 : b.heap a with
  | none => rw [h1] at h; simp at h
  | some e =>
    rw [h1] at h
    simp only [Option.map_some', Option.some.injEq] at h ⊢
    subst h
    cases s <;> rfl

theorem pair_of_live {b : Bimap L R} {a : Nat} (h : (b.heap a).isSome = true) :
    ∃ p, b.pair a = some p := by
  simp only [Bimap.pair]
  cases h1 : b.heap a with
  | none => rw [h1] at h; simp at h
  | some e => exact ⟨_, rfl⟩

theorem pairs_congr {b b1 : Bimap L R} {xs : List Nat}
    (h : ∀ a ∈ xs, ∀ s, b1.key s a = b.key s a) : b1.pairs xs = b.pairs xs := by
  induction xs with
  | nil => rfl
  | cons a xs ih =>
    simp only [Bimap.pairs, List.filterMap_cons] at ih ⊢
    rw [pair_congr (h a (by simp)), ih (fun x hx => h x (by simp [hx]))]

theorem pairs_append (b : Bimap L R) (xs ys : List Nat) :
    b.pairs (xs ++ ys) = b.pairs xs ++ b.pairs ys := by
  simp [Bimap.pairs]

theorem pairs_cons {b : Bimap L R} {a : Nat} {p : L × R} (h : b.pair a = some p)
    (xs : List Nat) : b.pairs (a :: xs) = p :: b.pairs xs := by
  simp [Bimap.pairs, List.filterMap_cons, h]

theorem pairs_nil (b : Bimap L R) : b.pairs [] = [] := rfl

theorem mem_pairs {b : Bimap L R} {xs : List Nat} {p : L × R} :
    p ∈ b.pairs xs ↔ ∃ a ∈ xs, b.pair a = some p := by
  simp [Bimap.pairs]

theorem read_pairs_eq {b : Bimap L R} {t : Tree} (hv : SideView b .left t) :
    ∀ xs : List Nat, (∀ a ∈ xs, a ∈ t.toList) →
      read_pairs b (xs.map (fun a => some (Ref.element a))) = .ok (b.pairs xs) := by
  intro xs
  induction xs with
  | nil => intro _; rfl
  | cons a xs ih =>
    intro h
    have ha := h a (by simp)
    obtain ⟨l, hl⟩ := hv.key_of_mem ha .left
    obtain ⟨r, hr⟩ := hv.key_of_mem ha .right
    simp only [List.map_cons, read_pairs, operator_deref_eq hl, ok_bind, hv.flip_element ha,
      operator_deref_eq hr, ih (fun x hx => h x (by simp [hx])), pure_eq_ok,
      pairs_cons (pair_of_keys hl hr)]

theorem Inv.entries_eq {b : Bimap L R} {tl tr : Tree} (hinv : Inv b tl tr) :
    b.entries = .ok (b.pairs tl.toList) := by
  have hv := hinv.view_left
  have h1 := hv.traverse_all
  simp only [Bimap.entries, Bimap.end_left, Bimap.begin_left, h1, ok_bind]
  exact read_pairs_eq hv tl.toList (fun a ha => ha)

theorem Inv.entries_sorted {b : Bimap L R} {tl tr : Tree} (hinv : Inv b tl tr) :
    (b.pairs tl.toList).Pairwise (fun p q => b.compare_left_ p.1 q.1 = true) := by
  refine List.Pairwise.filterMap _ ?_ hinv.left.sorted
  intro a a1 hlt p hp q hq
  obtain ⟨k, k1, h1, h2, h3⟩ := hlt
  have h4 := pair_key_of_pair (Option.mem_def.1 hp) .left
  have h5 := pair_key_of_pair (Option.mem_def.1 hq) .left
  rw [h4] at h1
  rw [h5] at h2
  cases h1
  cases h2
  exact h3

theorem takeWhile_split {α : Type} (p : α → Bool) (A B : List α) (hA : ∀ x ∈ A, p x = true)
    (hB : ∀ x ∈ B, p x = false) :
    (A ++ B).takeWhile p = A ∧ (A ++ B).dropWhile p = B := by
  induction A with
  | nil =>
    cases B with
    | nil => simp
    | cons x B => simp [List.takeWhile, List.dropWhile, hB x (by simp)]
  | cons a A ih =>
    have h := ih (fun x hx => hA x (by simp [hx]))
    simp [List.takeWhile, List.dropWhile, hA a (by simp), h.1, h.2]

/-- The entries after `insert`. -/
theorem entries_insert {b : Bimap L R} {tl tr : Tree} (hinv : Inv b tl tr) (l : L) (r : R) :
    ∃ b1 it tl1 tr1, b.insert l r = .ok (b1, it) ∧ Inv b1 tl1 tr1 ∧
      (b1.compare_left_ = b.compare_left_ ∧ b1.compare_right_ = b.compare_right_) ∧
      b1.pairs tl1.toList =
        assoc_insert b.compare_left_ b.compare_right_ (b.pairs tl.toList) l r ∧
      (it = b.end_left → b1 = b ∧
        assoc_insert b.compare_left_ b.compare_right_ (b.pairs tl.toList) l r =
          b.pairs tl.toList) ∧
      (it ≠ b.end_left → ∃ A B, b.pairs tl.toList = A ++ B ∧
        assoc_insert b.compare_left_ b.compare_right_ (b.pairs tl.toList) l r =
          A ++ (l, r) :: B ∧
        (∀ p ∈ A, b.compare_left_ p.1 l = true) ∧ (∀ p ∈ B, b.compare_left_ l p.1 = true)) := by
  have hvl := hinv.view_left
  have hvr := hinv.view_right
  rcases insert_spec hinv l r with ⟨hdup, h1⟩ | ⟨hnl, hnr, b1, tl1, tr1, h1, hg, hinv1, hiL, -⟩
  · have hre : assoc_insert b.compare_left_ b.compare_right_ (b.pairs tl.toList) l r =
        b.pairs tl.toList := by
      unfold assoc_insert
      rw [if_pos]
      rw [List.any_eq_true]
      rcases hdup with ⟨a, ha, k, hk, he⟩ | ⟨a, ha, k, hk, he⟩
      · obtain ⟨p, hp⟩ := pair_of_live ((hinv.dom a).2 ha)
        have h2 := pair_key_of_pair hp .left
        rw [hk] at h2
        cases h2
        refine ⟨p, mem_pairs.2 ⟨a, ha, hp⟩, ?_⟩
        have : equivalent b.compare_left_ p.1 l = true := (equivalent_iff _ _ _).2 he
        simp [this]
      · have ha1 : a ∈ tl.toList := hinv.perm.mem_iff.2 ha
        obtain ⟨p, hp⟩ := pair_of_live ((hinv.dom a).2 ha1)
        have h2 := pair_key_of_pair hp .right
        rw [hk] at h2
        cases h2
        refine ⟨p, mem_pairs.2 ⟨a, ha1, hp⟩, ?_⟩
        have : equivalent b.compare_right_ p.2 r = true := (equivalent_iff _ _ _).2 he
        simp [this]
    refine ⟨b, _, tl, tr, h1, hinv, ⟨rfl, rfl⟩, hre.symm, fun _ => ⟨rfl, hre⟩,
      fun h => absurd rfl h⟩
  · obtain ⟨P, Q, h2, h3, h4, h5⟩ := hiL
    have hfresh : b.heap b.brk = none := hinv.fresh _ (le_refl _)
    have hnb : b.brk ∉ tl.toList := by
      intro h
      have := (hinv.dom _).2 h
      simp [hfresh] at this
    have hold : ∀ a ∈ P ++ Q, ∀ s, b1.key s a = b.key s a := by
      intro a ha s
      exact hg.key_old s a (fun h => hnb (by rw [h2, ← h]; exact ha))
    have hP : ∀ p ∈ b.pairs P, b.compare_left_ p.1 l = true := by
      intro p hp
      obtain ⟨a, ha, hpa⟩ := mem_pairs.1 hp
      obtain ⟨k, hk, hlt⟩ := h4 a ha
      have := pair_key_of_pair hpa .left
      rw [hk] at this
      cases this
      exact hlt
    have hQ : ∀ p ∈ b.pairs Q, b.compare_left_ l p.1 = true := by
      intro p hp
      obtain ⟨a, ha, hpa⟩ := mem_pairs.1 hp
      obtain ⟨k, hk, hlt⟩ := h5 a ha
      have := pair_key_of_pair hpa .left
      rw [hk] at this
      cases this
      exact hlt
    have hsplit := takeWhile_split (fun p : L × R => b.compare_left_ p.1 l) (b.pairs P)
      (b.pairs Q) hP (fun p hp => hinv.order_left.asymm (hQ p hp))
    have hins : assoc_insert b.compare_left_ b.compare_right_ (b.pairs tl.toList) l r =
        b.pairs P ++ (l, r) :: b.pairs Q := by
      unfold assoc_insert
      rw [if_neg, h2, pairs_append, hsplit.1, hsplit.2]
      rw [Bool.not_eq_true, List.any_eq_false]
      intro p hp
      obtain ⟨a, ha, hpa⟩ := mem_pairs.1 hp
      have hkl := pair_key_of_pair hpa .left
      have hkr := pair_key_of_pair hpa .right
      have e1 : equivalent b.compare_left_ p.1 l = false := by
        rw [equivalent_false_iff]
        intro he
        exact hnl a ha ⟨_, hkl, he⟩
      have e2 : equivalent b.compare_right_ p.2 r = false := by
        rw [equivalent_false_iff]
        intro he
        exact hnr a (hinv.perm.mem_iff.1 ha) ⟨_, hkr, he⟩
      simp [e1, e2]
    refine ⟨b1, _, tl1, tr1, h1, hinv1, ⟨hg.compare_left_, hg.compare_right_⟩, ?_, ?_,
      fun _ => ⟨_, _, ?_, hins, hP, hQ⟩⟩
    · rw [hins, h3, pairs_append,
        pairs_cons (pair_of_keys hg.key_left_new hg.key_right_new),
        pairs_congr (fun a ha s => hold a (by simp [ha]) s),
        pairs_congr (fun a ha s => hold a (by simp [ha]) s)]
    · intro h
      simp [Bimap.end_left, Bimap.get_sentinel] at h
    · rw [h2, pairs_append]


/-! ## The entries after an erasure -/

theorem entries_erase {b b1 : Bimap L R} {tl tr tl1 : Tree} {n : Nat} (hinv : Inv b tl tr)
    (her : Erased b b1 [n])
    (hl : tl1.toList = tl.toList.filter (fun a => decide (a ∉ [n])))
    (hn : n ∈ tl.toList) {p : L × R} (hp : b.pair n = some p) :
    ∃ A B, b.pairs tl.toList = A ++ p :: B ∧ b1.pairs tl1.toList = A ++ B ∧
      ∀ q ∈ A ++ B, ∃ a ∈ tl.toList, a ≠ n ∧ b.pair a = some q := by
  obtain ⟨A, B, hs⟩ := exists_split_of_mem hn
  have hnd := hinv.nodup_left
  rw [hs] at hnd
  have hnot := not_mem_of_nodup_mid hnd
  have hl1 : tl1.toList = A ++ B := by
    rw [hl, filter_not_mem_singleton, hs, filter_drop_mid hnd]
  have hold : ∀ a ∈ A ++ B, ∀ s, b1.key s a = b.key s a := by
    intro a ha s
    exact her.key_old s a (by
      simp only [List.mem_singleton]
      intro h
      exact hnot (h ▸ ha))
  refine ⟨b.pairs A, b.pairs B, ?_, ?_, ?_⟩
  · rw [hs, pairs_append, pairs_cons hp]
  · rw [hl1, pairs_congr hold, pairs_append]
  · intro q hq
    rw [← pairs_append] at hq
    obtain ⟨a, ha, hqa⟩ := mem_pairs.1 hq
    refine ⟨a, ?_, fun h => hnot (h ▸ ha), hqa⟩
    rw [hs]
    simp only [List.mem_append, List.mem_cons] at ha ⊢
    tauto

theorem entries_erase_it {b : Bimap L R} {tl tr : Tree} (hinv : Inv b tl tr) (s : Side)
    {n : Nat} {p : L × R} (hp : b.pair n = some p) :
    ∃ b1 it tl1 tr1, erase_it_impl b s (some (.element n)) = .ok (b1, it) ∧ Inv b1 tl1 tr1 ∧
      ∃ A B, b.pairs tl.toList = A ++ p :: B ∧ b1.pairs tl1.toList = A ++ B := by
  have hk := pair_key_of_pair hp .left
  have hn : n ∈ tl.toList := (hinv.dom n).1 (live_of_key hk)
  obtain ⟨A, B, hl⟩ := exists_split_of_mem ((hinv.mem_iff s n).2 hn)
  obtain ⟨b1, tl1, tr1, h1, hinv1, her, hlists⟩ := erase_it_total hinv s hl
  obtain ⟨A1, B1, h2, h3, -⟩ := entries_erase hinv her (hlists .left) hn hp
  exact ⟨b1, _, tl1, tr1, h1, hinv1, A1, B1, h2, h3⟩

theorem entries_erase_key {b : Bimap L R} {tl tr : Tree} (hinv : Inv b tl tr) (s : Side)
    (hne : b.empty = false) (k : Key L R s) :
    ∃ b1 found tl1 tr1, erase_val_impl b s k = .ok (b1, found) ∧ Inv b1 tl1 tr1 ∧
      b1.pairs tl1.toList = (b.pairs tl.toList).filter
        (fun q => !equivalent (b.get_compare s) (pair_key s q) k) ∧
      (found = true → ∃ A p B, b.pairs tl.toList = A ++ p :: B ∧
        Equiv (b.get_compare s) (pair_key s p) k ∧ b1.pairs tl1.toList = A ++ B) ∧
      (found = false → b1 = b) := by
  have hv := hinv.view s
  rcases erase_val_total hinv s hne k with
    ⟨A, B, n, hl, heq, b1, tl1, tr1, h1, hinv1, her, hlists⟩ | ⟨hno, h1⟩
  · have hns : n ∈ (sideTree s tl tr).toList := by rw [hl]; simp
    have hn : n ∈ tl.toList := (hinv.mem_iff s n).1 hns
    obtain ⟨p, hp⟩ := pair_of_live ((hinv.dom n).2 hn)
    have hlL : tl1.toList = tl.toList.filter (fun a => decide (a ∉ [n])) := hlists .left
    obtain ⟨A1, B1, h2, h3, h4⟩ := entries_erase hinv her hlL hn hp
    have hpe : Equiv (b.get_compare s) (pair_key s p) k :=
      (keyEquiv_iff (pair_key_of_pair hp s) k).1 heq
    have hkeep : ∀ q ∈ A1 ++ B1,
        (!equivalent (b.get_compare s) (pair_key s q) k) = true := by
      intro q hq
      obtain ⟨a, ha, han, hqa⟩ := h4 q hq
      rw [Bool.not_eq_true', equivalent_false_iff]
      intro he
      apply han
      exact hv.equiv_unique ((hinv.mem_iff s a).2 ha) hns
        ((keyEquiv_iff (pair_key_of_pair hqa s) k).2 he) heq
    refine ⟨b1, true, tl1, tr1, h1, hinv1, ?_, fun _ => ⟨A1, p, B1, h2, hpe, h3⟩,
      fun h => Bool.noConfusion h⟩
    rw [h3, h2, List.filter_append, List.filter_cons]
    have hdrop : (!equivalent (b.get_compare s) (pair_key s p) k) = false := by
      rw [Bool.not_eq_false', equivalent_iff]; exact hpe
    rw [hdrop]
    simp only [Bool.false_eq_true, if_false]
    rw [List.filter_eq_self.2 (fun q hq => hkeep q (by simp [hq])),
      List.filter_eq_self.2 (fun q hq => hkeep q (by simp [hq]))]
  · refine ⟨b, false, tl, tr, h1, hinv, ?_, fun h => Bool.noConfusion h, fun _ => rfl⟩
    symm
    rw [List.filter_eq_self]
    intro q hq
    obtain ⟨a, ha, hqa⟩ := mem_pairs.1 hq
    rw [Bool.not_eq_true', equivalent_false_iff]
    intro he
    exact hno a ((hinv.mem_iff s a).2 ha) ((keyEquiv_iff (pair_key_of_pair hqa s) k).2 he)


/-! ## Containers with the same entries are equal -/

theorem forall₂_of_pairs_eq {b b2 : Bimap L R} :
    ∀ xs ys : List Nat, (∀ a ∈ xs, ∃ p, b.pair a = some p) →
      (∀ a ∈ ys, ∃ p, b2.pair a = some p) → b.pairs xs = b2.pairs ys →
      List.Forall₂ (fun x y => b.pair x = b2.pair y) xs ys := by
  intro xs
  induction xs with
  | nil =>
    intro ys _ hy h
    cases ys with
    | nil => exact List.Forall₂.nil
    | cons y ys =>
      obtain ⟨q, hq⟩ := hy y (by simp)
      rw [pairs_nil, pairs_cons hq] at h
      cases h
  | cons x xs ih =>
    intro ys hx hy h
    obtain ⟨p, hp⟩ := hx x (by simp)
    cases ys with
    | nil =>
      rw [pairs_nil, pairs_cons hp] at h
      cases h
    | cons y ys =>
      obtain ⟨q, hq⟩ := hy y (by simp)
      rw [pairs_cons hp, pairs_cons hq] at h
      simp only [List.cons.injEq] at h
      refine List.Forall₂.cons ?_ (ih ys (fun a ha => hx a (by simp [ha]))
        (fun a ha => hy a (by simp [ha])) h.2)
      rw [hp, hq, h.1]

theorem sorted_perm_eq {α : Type} {r : α → α → Prop} (hasymm : ∀ a b, r a b → ¬ r b a)
    {xs ys : List α} (hp : xs.Perm ys) (hx : xs.Pairwise r) (hy : ys.Pairwise r) : xs = ys := by
  haveI : IsAntisymm α r := ⟨fun a b h1 h2 => absurd h2 (hasymm a b h1)⟩
  exact List.eq_of_perm_of_sorted hp hx hy

/-- Two containers with the same comparator on the left whose entries are the same up to
their order compare equal. -/
theorem entries_perm_eq {b b2 : Bimap L R} {tl tr tl2 tr2 : Tree} (hinv : Inv b tl tr)
    (hinv2 : Inv b2 tl2 tr2) (hc : b2.compare_left_ = b.compare_left_)
    (hperm : (b2.pairs tl2.toList).Perm (b.pairs tl.toList)) :
    operator_eq b b2 = .ok true := by
  have hs1 := hinv.entries_sorted
  have hs2 := hinv2.entries_sorted
  rw [hc] at hs2
  have heq : b2.pairs tl2.toList = b.pairs tl.toList :=
    sorted_perm_eq (fun p q h1 h2 => by
      rw [hinv.order_left.asymm h1] at h2
      cases h2) hperm hs2 hs1
  have hf := forall₂_of_pairs_eq tl.toList tl2.toList
    (fun a ha => pair_of_live ((hinv.dom a).2 ha))
    (fun a ha => pair_of_live ((hinv2.dom a).2 ha)) heq.symm
  have hsame := samePair_of_pair_eq hinv (fun x hx => hx) hf
  obtain ⟨v, h1, h2⟩ := operator_eq_spec hinv hinv2
  have hv : v = true := by
    rw [h2]
    refine ⟨?_, hsame⟩
    simp only [Bimap.size, hinv.size, hinv2.size]
    exact hf.length_eq
  rw [h1, hv]

theorem assoc_insert_perm {cl : L → L → Bool} {cr : R → R → Bool} {xs : List (L × R)}
    {l : L} {r : R} (h : ∀ p ∈ xs, ¬ Equiv cl p.1 l ∧ ¬ Equiv cr p.2 r) :
    (assoc_insert cl cr xs l r).Perm ((l, r) :: xs) := by
  unfold assoc_insert
  rw [if_neg]
  · have := List.takeWhile_append_dropWhile (fun p : L × R => cl p.1 l) xs
    exact List.perm_middle.trans (by rw [this])
  · rw [Bool.not_eq_true, List.any_eq_false]
    intro p hp
    obtain ⟨h1, h2⟩ := h p hp
    have e1 := (equivalent_false_iff cl p.1 l).2 h1
    have e2 := (equivalent_false_iff cr p.2 r).2 h2
    simp [e1, e2]

/-- The insertion of pairs with pairwise inequivalent keys, none of them stored, stores all
of them. -/
theorem insert_all_entries (cl : L → L → Bool) (cr : R → R → Bool) :
    ∀ (ps : List (L × R)) (b : Bimap L R) (tl tr : Tree), Inv b tl tr → Reachable b →
      b.compare_left_ = cl → b.compare_right_ = cr →
      ps.Pairwise (fun p q => ¬ Equiv cl p.1 q.1 ∧ ¬ Equiv cr p.2 q.2) →
      (∀ p ∈ b.pairs tl.toList, ∀ q ∈ ps, ¬ Equiv cl p.1 q.1 ∧ ¬ Equiv cr p.2 q.2) →
      ∃ b1 tl1 tr1, insert_all b ps = .ok b1 ∧ Reachable b1 ∧ Inv b1 tl1 tr1 ∧
        b1.compare_left_ = cl ∧ (b1.pairs tl1.toList).Perm (b.pairs tl.toList ++ ps) := by
  intro ps
  induction ps with
  | nil =>
    intro b tl tr hinv hr hcl hcr _ _
    exact ⟨b, tl, tr, rfl, hr, hinv, hcl, by simp⟩
  | cons q ps ih =>
    intro b tl tr hinv hr hcl hcr hpw hno
    obtain ⟨b1, it, tl1, tr1, h1, hinv1, ⟨hc1, hc2⟩, h2, -⟩ := entries_insert hinv q.1 q.2
    rw [hcl, hcr] at h2
    have hp1 : (b1.pairs tl1.toList).Perm (q :: b.pairs tl.toList) := by
      rw [h2]
      exact assoc_insert_perm (fun p hp => hno p hp q (by simp))
    rw [List.pairwise_cons] at hpw
    obtain ⟨b2, tl2, tr2, h3, hr2, hinv2, hc3, hp2⟩ := ih b1 tl1 tr1 hinv1
      (Reachable.insert q.1 q.2 it hr h1) (hc1.trans hcl) (hc2.trans hcr) hpw.2 (by
        intro p hp q1 hq1
        have := hp1.mem_iff.1 hp
        simp only [List.mem_cons] at this
        rcases this with h | h
        · subst h
          exact hpw.1 q1 hq1
        · exact hno p h q1 (by simp [hq1]))
    refine ⟨b2, tl2, tr2, ?_, hr2, hinv2, hc3, ?_⟩
    · simp only [insert_all, h1, ok_bind, h3]
    · refine hp2.trans ?_
      refine (List.Perm.append_right ps hp1).trans ?_
      simp only [List.cons_append]
      exact List.perm_middle.symm

/-- Containers built from the same pairs, with pairwise inequivalent keys, in different
orders compare equal. -/
theorem insert_all_orders {cl : L → L → Bool} {cr : R → R → Bool} (hcl : StrictWeakOrder cl)
    (hcr : StrictWeakOrder cr) (s1 s2 : Nat) {ps qs : List (L × R)} (hperm : ps.Perm qs)
    (hset : ps.Pairwise (fun p q => ¬ Equiv cl p.1 q.1 ∧ ¬ Equiv cr p.2 q.2)) :
    ∃ b1 b2, insert_all (Bimap.mk_empty s1 cl cr) ps = .ok b1 ∧
      insert_all (Bimap.mk_empty s2 cl cr) qs = .ok b2 ∧ Reachable b1 ∧ Reachable b2 ∧
      operator_eq b1 b2 = .ok true := by
  have hsymm : ∀ p q : L × R, (¬ Equiv cl p.1 q.1 ∧ ¬ Equiv cr p.2 q.2) →
      (¬ Equiv cl q.1 p.1 ∧ ¬ Equiv cr q.2 p.2) :=
    fun p q h => ⟨fun h1 => h.1 h1.symm, fun h1 => h.2 h1.symm⟩
  have hset2 : qs.Pairwise (fun p q => ¬ Equiv cl p.1 q.1 ∧ ¬ Equiv cr p.2 q.2) :=
    (hperm.pairwise_iff (fun {p q} h => hsymm p q h)).1 hset
  obtain ⟨b1, tl1, tr1, h1, hr1, hinv1, hc1, hp1⟩ := insert_all_entries cl cr ps _ _ _
    (mk_empty_inv s1 hcl hcr) (Reachable.mk_empty s1 cl cr hcl hcr) rfl rfl hset
    (by intro p hp; simp [pairs_nil] at hp)
  obtain ⟨b2, tl2, tr2, h2, hr2, hinv2, hc2, hp2⟩ := insert_all_entries cl cr qs _ _ _
    (mk_empty_inv s2 hcl hcr) (Reachable.mk_empty s2 cl cr hcl hcr) rfl rfl hset2
    (by intro p hp; simp [pairs_nil] at hp)
  refine ⟨b1, b2, h1, h2, hr1, hr2, entries_perm_eq hinv1 hinv2 (hc2.trans hc1.symm) ?_⟩
  simp only [toList_nil, pairs_nil, List.nil_append] at hp1 hp2
  exact hp2.trans (hperm.symm.trans hp1.symm)


/-! ## The refinement claim -/

/-- Claim C31, amended. Every reachable container has an abstract value: the list `xs` of its pairs
in the order of the left side, which is strictly sorted by left key. `insert(l, r)` returns
and yields the value `assoc_insert xs l r`: `xs` itself when the insert is rejected, and `xs`
with `(l, r)` placed after the pairs with smaller left key and before those with greater
left key when it succeeds. Erasing the entry with the pair `p` by its left or by its right
iterator yields `xs` with that one occurrence of `p` removed. On a container that is not
empty, erasing by a left or by a right key yields `xs` without the pairs with an equivalent
key: one pair is removed when the call reports an erasure, none otherwise. Consequently a
reachable container with the same left comparator whose value is a permutation of `xs`
compares equal, and two containers built from the same pairs, with pairwise inequivalent
keys, in different insertion orders compare equal. -/
theorem refines_sorted_assoc_list (b : Bimap L R) (h : Reachable b) :
    (∃ xs, b.entries = .ok xs ∧
      xs.Pairwise (fun p q => b.compare_left_ p.1 q.1 = true) ∧
      (∀ l r, ∃ b1 it, b.insert l r = .ok (b1, it) ∧
        b1.entries = .ok (assoc_insert b.compare_left_ b.compare_right_ xs l r) ∧
        (it = b.end_left → assoc_insert b.compare_left_ b.compare_right_ xs l r = xs) ∧
        (it ≠ b.end_left → ∃ A B, xs = A ++ B ∧
          assoc_insert b.compare_left_ b.compare_right_ xs l r = A ++ (l, r) :: B ∧
          (∀ p ∈ A, b.compare_left_ p.1 l = true) ∧
          (∀ p ∈ B, b.compare_left_ l p.1 = true))) ∧
      (∀ n p, b.pair n = some p →
        (∃ b1 it A B, b.erase_left (some (.element n)) = .ok (b1, it) ∧ xs = A ++ p :: B ∧
          b1.entries = .ok (A ++ B)) ∧
        (∃ b1 it A B, b.erase_right (some (.element n)) = .ok (b1, it) ∧ xs = A ++ p :: B ∧
          b1.entries = .ok (A ++ B))) ∧
      (b.empty = false →
        (∀ k, ∃ b1 found, b.erase_left_key k = .ok (b1, found) ∧
          b1.entries = .ok (assoc_erase_left b.compare_left_ xs k) ∧
          (found = true → ∃ A p B, xs = A ++ p :: B ∧ Equiv b.compare_left_ p.1 k ∧
            assoc_erase_left b.compare_left_ xs k = A ++ B) ∧
          (found = false → assoc_erase_left b.compare_left_ xs k = xs)) ∧
        (∀ k, ∃ b1 found, b.erase_right_key k = .ok (b1, found) ∧
          b1.entries = .ok (assoc_erase_right b.compare_right_ xs k) ∧
          (found = true → ∃ A p B, xs = A ++ p :: B ∧ Equiv b.compare_right_ p.2 k ∧
            assoc_erase_right b.compare_right_ xs k = A ++ B) ∧
          (found = false → assoc_erase_right b.compare_right_ xs k = xs))) ∧
      (∀ b2 ys, Reachable b2 → b2.compare_left_ = b.compare_left_ → b2.entries = .ok ys →
        ys.Perm xs → operator_eq b b2 = .ok true)) ∧
    (∀ (cl : L → L → Bool) (cr : R → R → Bool), StrictWeakOrder cl → StrictWeakOrder cr →
      ∀ (s1 s2 : Nat) (ps qs : List (L × R)), ps.Perm qs →
        ps.Pairwise (fun p q => ¬ Equiv cl p.1 q.1 ∧ ¬ Equiv cr p.2 q.2) →
        ∃ b1 b2, insert_all (Bimap.mk_empty s1 cl cr) ps = .ok b1 ∧
          insert_all (Bimap.mk_empty s2 cl cr) qs = .ok b2 ∧ Reachable b1 ∧ Reachable b2 ∧
          operator_eq b1 b2 = .ok true) := by
  obtain ⟨tl, tr, hinv⟩ := reachable_inv h
  refine ⟨⟨b.pairs tl.toList, hinv.entries_eq, hinv.entries_sorted, ?_, ?_, ?_, ?_⟩, ?_⟩
  · intro l r
    obtain ⟨b1, it, tl1, tr1, h1, hinv1, -, h2, h3, h4⟩ := entries_insert hinv l r
    exact ⟨b1, it, h1, by rw [hinv1.entries_eq, h2], fun hit => (h3 hit).2, h4⟩
  · intro n p hp
    constructor
    · obtain ⟨b1, it, tl1, tr1, h1, hinv1, A, B, h2, h3⟩ := entries_erase_it hinv .left hp
      exact ⟨b1, it, A, B, h1, h2, by rw [hinv1.entries_eq, h3]⟩
    · obtain ⟨b1, it, tl1, tr1, h1, hinv1, A, B, h2, h3⟩ := entries_erase_it hinv .right hp
      exact ⟨b1, it, A, B, h1, h2, by rw [hinv1.entries_eq, h3]⟩
  · intro hne
    constructor
    · intro k
      obtain ⟨b1, found, tl1, tr1, h1, hinv1, h2, h3, h4⟩ := entries_erase_key hinv .left hne k
      have h5 : b1.entries = .ok (assoc_erase_left b.compare_left_ (b.pairs tl.toList) k) := by
        rw [hinv1.entries_eq, h2]; rfl
      refine ⟨b1, found, h1, h5, ?_, ?_⟩
      · intro hf
        obtain ⟨A, p, B, h6, h7, h8⟩ := h3 hf
        refine ⟨A, p, B, h6, h7, ?_⟩
        rw [← h8, h2]; rfl
      · intro hf
        have h6 := h4 hf
        subst h6
        rw [hinv.entries_eq] at h5
        simp only [Except.ok.injEq] at h5
        exact h5.symm
    · intro k
      obtain ⟨b1, found, tl1, tr1, h1, hinv1, h2, h3, h4⟩ := entries_erase_key hinv .right hne k
      have h5 : b1.entries =
          .ok (assoc_erase_right b.compare_right_ (b.pairs tl.toList) k) := by
        rw [hinv1.entries_eq, h2]; rfl
      refine ⟨b1, found, h1, h5, ?_, ?_⟩
      · intro hf
        obtain ⟨A, p, B, h6, h7, h8⟩ := h3 hf
        refine ⟨A, p, B, h6, h7, ?_⟩
        rw [← h8, h2]; rfl
      · intro hf
        have h6 := h4 hf
        subst h6
        rw [hinv.entries_eq] at h5
        simp only [Except.ok.injEq] at h5
        exact h5.symm
  · intro b2 ys hr2 hc hys hperm
    obtain ⟨tl2, tr2, hinv2⟩ := reachable_inv hr2
    rw [hinv2.entries_eq] at hys
    simp only [Except.ok.injEq] at hys
    subst hys
    exact entries_perm_eq hinv hinv2 hc hperm
  · intro cl cr hcl hcr s1 s2 ps qs hperm hset
    exact insert_all_orders hcl hcr s1 s2 hperm hset

theorem refines_sorted_assoc_list_witness :
    Reachable demo_three ∧
    ((∃ xs, demo_three.entries = .ok xs ∧
      xs.Pairwise (fun p q => demo_three.compare_left_ p.1 q.1 = true) ∧
      (∀ l r, ∃ b1 it, demo_three.insert l r = .ok (b1, it) ∧
        b1.entries =
          .ok (assoc_insert demo_three.compare_left_ demo_three.compare_right_ xs l r) ∧
        (it = demo_three.end_left →
          assoc_insert demo_three.compare_left_ demo_three.compare_right_ xs l r = xs) ∧
        (it ≠ demo_three.end_left → ∃ A B, xs = A ++ B ∧
          assoc_insert demo_three.compare_left_ demo_three.compare_right_ xs l r =
            A ++ (l, r) :: B ∧
          (∀ p ∈ A, demo_three.compare_left_ p.1 l = true) ∧
          (∀ p ∈ B, demo_three.compare_left_ l p.1 = true))) ∧
      (∀ n p, demo_three.pair n = some p →
        (∃ b1 it A B, demo_three.erase_left (some (.element n)) = .ok (b1, it) ∧
          xs = A ++ p :: B ∧ b1.entries = .ok (A ++ B)) ∧
        (∃ b1 it A B, demo_three.erase_right (some (.element n)) = .ok (b1, it) ∧
          xs = A ++ p :: B ∧ b1.entries = .ok (A ++ B))) ∧
      (demo_three.empty = false →
        (∀ k, ∃ b1 found, demo_three.erase_left_key k = .ok (b1, found) ∧
          b1.entries = .ok (assoc_erase_left demo_three.compare_left_ xs k) ∧
          (found = true → ∃ A p B, xs = A ++ p :: B ∧
            Equiv demo_three.compare_left_ p.1 k ∧
            assoc_erase_left demo_three.compare_left_ xs k = A ++ B) ∧
          (found = false → assoc_erase_left demo_three.compare_left_ xs k = xs)) ∧
        (∀ k, ∃ b1 found, demo_three.erase_right_key k = .ok (b1, found) ∧
          b1.entries = .ok (assoc_erase_right demo_three.compare_right_ xs k) ∧
          (found = true → ∃ A p B, xs = A ++ p :: B ∧
            Equiv demo_three.compare_right_ p.2 k ∧
            assoc_erase_right demo_three.compare_right_ xs k = A ++ B) ∧
          (found = false → assoc_erase_right demo_three.compare_right_ xs k = xs))) ∧
      (∀ b2 ys, Reachable b2 → b2.compare_left_ = demo_three.compare_left_ →
        b2.entries = .ok ys → ys.Perm xs → operator_eq demo_three b2 = .ok true)) ∧
    (∀ (cl : Nat → Nat → Bool) (cr : String → String → Bool), StrictWeakOrder cl →
      StrictWeakOrder cr →
      ∀ (s1 s2 : Nat) (ps qs : List (Nat × String)), ps.Perm qs →
        ps.Pairwise (fun p q => ¬ Equiv cl p.1 q.1 ∧ ¬ Equiv cr p.2 q.2) →
        ∃ b1 b2, insert_all (Bimap.mk_empty s1 cl cr) ps = .ok b1 ∧
          insert_all (Bimap.mk_empty s2 cl cr) qs = .ok b2 ∧ Reachable b1 ∧ Reachable b2 ∧
          operator_eq b1 b2 = .ok true)) :=
  ⟨demo_three_reachable, refines_sorted_assoc_list demo_three demo_three_reachable⟩

/-- A scenario: the value of the container built by `insert(2, "b")`, `insert(1, "a")`,
`insert(3, "c")` is the list (1, "a"), (2, "b"), (3, "c"); the rejected `insert(2, "z")`
leaves it, `insert(0, "z")` puts the pair in front, `erase_left(2)` and `erase_right("b")`
remove the pair (2, "b"); and the containers built from these pairs in two orders compare
equal. -/
theorem demo_three_entries :
    demo_three.entries = .ok [(1, "a"), (2, "b"), (3, "c")] ∧
    (demo_three.insert 2 "z").map (fun p => (p.2, p.1.entries)) =
      .ok (demo_three.end_left, .ok [(1, "a"), (2, "b"), (3, "c")]) ∧
    (demo_three.insert 0 "z").map (fun p => p.1.entries) =
      .ok (.ok [(0, "z"), (1, "a"), (2, "b"), (3, "c")]) ∧
    (demo_three.erase_left_key 2).map (fun p => (p.2, p.1.entries)) =
      .ok (true, .ok [(1, "a"), (3, "c")]) ∧
    (demo_three.erase_right_key "b").map (fun p => (p.2, p.1.entries)) =
      .ok (true, .ok [(1, "a"), (3, "c")]) ∧
    (demo_three.erase_left (some (.element 0))).map (fun p => p.1.entries) =
      .ok (.ok [(1, "a"), (3, "c")]) ∧
    (insert_all demo_empty [(2, "b"), (1, "a"), (3, "c")] >>= fun b1 =>
      insert_all demo_other_empty [(3, "c"), (2, "b"), (1, "a")] >>= fun b2 =>
      operator_eq b1 b2) = .ok true :=
  ⟨rfl, rfl, rfl, rfl, rfl, rfl, rfl⟩

/-- The containers built from the pairs (1, "a") and (1, "b"), which share the left key, in
the two insertion orders: each keeps the pair inserted first, the insert of the other pair
being rejected, and the two containers do not compare equal. -/
theorem insertion_order_matters :
    [((1 : Nat), "a"), (1, "b")].Perm [(1, "b"), (1, "a")] ∧
    (insert_all demo_empty [(1, "a"), (1, "b")]).map (fun b1 => b1.entries) =
      .ok (.ok [(1, "a")]) ∧
    (insert_all demo_other_empty [(1, "b"), (1, "a")]).map (fun b2 => b2.entries) =
      .ok (.ok [(1, "b")]) ∧
    ¬ (∀ b1 b2, insert_all demo_empty [(1, "a"), (1, "b")] = .ok b1 →
      insert_all demo_other_empty [(1, "b"), (1, "a")] = .ok b2 →
      operator_eq b1 b2 = .ok true) := by
  refine ⟨List.Perm.swap _ _ _, rfl, rfl, ?_⟩
  intro hall
  have heval : (insert_all demo_empty [(1, "a"), (1, "b")] >>= fun b1 =>
      insert_all demo_other_empty [(1, "b"), (1, "a")] >>= fun b2 =>
      operator_eq b1 b2) = .ok false := rfl
  cases h1 : insert_all demo_empty [(1, "a"), (1, "b")] with
  | error e =>
    rw [h1] at heval
    cases heval
  | ok b1 =>
    cases h2 : insert_all demo_other_empty [(1, "b"), (1, "a")] with
    | error e =>
      rw [h1] at heval
      simp only [ok_bind] at heval
      rw [h2] at heval
      cases heval
    | ok b2 =>
      rw [h1] at heval
      simp only [ok_bind] at heval
      rw [h2] at heval
      simp only [ok_bind] at heval
      rw [hall b1 b2 h1 h2] at heval
      cases heval

end ct
